import Mathlib

/-!
Divide-and-conquer sorting engines (`quick.cpp`, `merge.cpp`) and the primality test of
`oddcon.cpp`

A shallow embedding of the partition-based and merge-based sorts, and of `isPrime`.

* A `vector<int>` is a `List Int`; indices are C++ `int`s, modelled as `Int`
  (the scan counter of `partition` starts at `low - 1`, which may be `-1`).
* An element access `arr[k]` outside `0 .. size-1` has no defined behaviour in
  C++; here it is a fault: every operation returns `Option`, and `none`
  means that an access fell outside the vector.
* Counted `for` loops recurse on their trip count; the recursive sorts recurse
  on a fuel argument that the public entry point derives from the range.
* An OpenMP task owns one range of the vector, and the parallel drivers are
  embedded twice. `runTasks`, `quick_sort_parallel`, `stepM`, `runM` and
  `parallelMergeSort` are the task pool and the task tree in which all tasks
  work on the one vector of the caller, as the data model of the specification
  presents it: the body of a task is one step on that vector, and the order in
  which pending tasks run is an arbitrary function `sched : Nat → Nat`. They
  give the tasks that are created, their ranges and their nesting.
  `quick_sort_task_firstprivate`, `quick_sort_parallel_firstprivate` and
  `parallelMergeSort_firstprivate` give the vector of the caller under the
  data-sharing rules of OpenMP: the task constructs of both drivers are
  orphaned and `arr` is a parameter passed by reference, so `arr` is
  firstprivate in them and every task works on its own copy of the vector.
  Above the cutoff the two embeddings leave different vectors.
* The instrumented runs are the same code with a record added: the calls of
  `partition` (`quickSortTraceFuel`, `runTasksTrace`), the nesting of the calls
  (`QRun.depth`, `runTasksDepth`), the calls of `merge` (`serialMergeSortTraceFuel`,
  `stepMTrace`, `runMTrace`) and the indices accessed (`partitionLog`, `mergeLog`).
  Each is proved to compute what the function it instruments computes.
* Indices are unbounded integers; `midpoint32` evaluates the midpoint expression
  with 32-bit wrap-around and is proved equal to the exact value. In `isPrime`,
  where the product `i * i` can exceed the range of `int`, arithmetic wraps
  modulo `2^32`.
-/

namespace PDC

/-! ## Vector accesses -/

/-- Read `arr[k]`; a fault when `k` is outside the vector. -/
def rd (arr : List Int) (k : Int) : Option Int :=
  if 0 ≤ k then arr[k.toNat]? else none

/-- Write `arr[k] = v`; a fault when `k` is outside the vector. -/
def wr (arr : List Int) (k : Int) (v : Int) : Option (List Int) :=
  if 0 ≤ k ∧ k < arr.length then some (arr.set k.toNat v) else none

/-- The call `swap(arr[a], arr[b])` of the standard library. -/
def swap (arr : List Int) (a b : Int) : Option (List Int) := do
  let x ← rd arr a
  let y ← rd arr b
  let arr1 ← wr arr a y
  wr arr1 b x

/-! ## quick.cpp -/

/-- Pivot selection of `partition` (quick.cpp:15-21): `0` is the middle element,
`1` the first, anything else the last. The division is the truncating one of C++. -/
def pivotIndex (low high strategy : Int) : Int :=
  if strategy = 0 then low + (high - low).tdiv 2
  else if strategy = 1 then low
  else high

/-- The scan `for (int j = low; j < high; j++)` of `partition` (quick.cpp:29-35),
with `n` the number of iterations still to run. Returns the vector and `i`. -/
def partitionLoop (pivot_value : Int) : Nat → List Int → Int → Int → Option (List Int × Int)
  | 0, arr, i, _ => some (arr, i)
  | n + 1, arr, i, j => do
    let x ← rd arr j
    if x ≤ pivot_value then
      let arr1 ← swap arr (i + 1) j
      partitionLoop pivot_value n arr1 (i + 1) (j + 1)
    else
      partitionLoop pivot_value n arr i (j + 1)

/-- Lomuto partition, `partition` of quick.cpp:13-40. Returns the rearranged vector
and the partitioning index. -/
def partition (arr : List Int) (low high strategy : Int) : Option (List Int × Int) := do
  let pivot_index := pivotIndex low high strategy
  let arr1 ← swap arr pivot_index high
  let pivot_value ← rd arr1 high
  let (arr2, i) ← partitionLoop pivot_value (high - low).toNat arr1 (low - 1) low
  let arr3 ← swap arr2 (i + 1) high
  some (arr3, i + 1)

/-- Recursion of `quick_sort_serial` (quick.cpp:45-51) with an explicit bound on the
nesting depth; `none` also when the bound is used up. -/
def quickSortSerialFuel : Nat → List Int → Int → Int → Int → Option (List Int)
  | 0, _, _, _, _ => none
  | fuel + 1, arr, low, high, strategy =>
    if low < high then do
      let (arr1, pi) ← partition arr low high strategy
      let arr2 ← quickSortSerialFuel fuel arr1 low (pi - 1) strategy
      quickSortSerialFuel fuel arr2 (pi + 1) high strategy
    else some arr

/-- The sequential quicksort `quick_sort_serial` (quick.cpp:45-51). Every nested call is
on a strictly shorter range, so a depth of `high - low + 1` is never exceeded. -/
def quick_sort_serial (arr : List Int) (low high strategy : Int) : Option (List Int) :=
  quickSortSerialFuel ((high - low).toNat + 1) arr low high strategy

/-- Cutoff of the parallel quicksort, `const int CUTOFF = 1000` (quick.cpp:58). -/
def CUTOFF : Int := 1000

/-- One execution of the body of `quick_sort_task` (quick.cpp:60-82) by the task that
owns the range, with the cutoff as a parameter. Returns the vector and the ranges of
the tasks it created with `#pragma omp task`. -/
def quick_sort_task (cutoff : Int) (arr : List Int) (low high strategy : Int) :
    Option (List Int × List (Int × Int)) :=
  if low < high then
    if high - low < cutoff then do
      let arr1 ← quick_sort_serial arr low high strategy
      some (arr1, [])
    else do
      let (arr1, pi) ← partition arr low high strategy
      some (arr1, [(low, pi - 1), (pi + 1, high)])
  else some (arr, [])

/-- The task pool of the parallel region of `quick_sort_parallel`, with one vector for
all tasks. While a task is pending, the scheduler picks one (the choice at step `step`
is `sched step`, an arbitrary number), runs its body and adds the tasks it created to
the pool. The barrier ending the region is passed when the pool is empty. `fuel` bounds
the number of task executions. Every task body works on the vector `arr` of the pool:
this is the region as the specification presents it, with `arr` shared by the tasks. In
the source `arr` is firstprivate in the task constructs; the vector that the caller then
receives is `quick_sort_parallel_firstprivate`. -/
def runTasks (cutoff strategy : Int) (sched : Nat → Nat) :
    Nat → Nat → List Int → List (Int × Int) → Option (List Int)
  | _, _, arr, [] => some arr
  | 0, _, _, _ :: _ => none
  | fuel + 1, step, arr, t :: ts =>
    let k := sched step % (t :: ts).length
    let task := (t :: ts).getD k t
    match quick_sort_task cutoff arr task.1 task.2 strategy with
    | none => none
    | some (arr1, spawned) =>
      runTasks cutoff strategy sched fuel (step + 1) arr1 ((t :: ts).eraseIdx k ++ spawned)

/-- The wrapper `quick_sort_parallel` (quick.cpp:86-97) over the pool `runTasks`, in
which the tasks share the vector: the parallel region starts with the single root call
`quick_sort_task(arr, 0, n - 1, strategy)` and returns after the barrier. A range of `n`
elements needs at most `2 n + 1` task executions. -/
def quick_sort_parallel (cutoff : Int) (sched : Nat → Nat) (arr : List Int)
    (n strategy : Int) : Option (List Int) :=
  runTasks cutoff strategy sched (2 * n.toNat + 1) 0 arr [(0, n - 1)]

/-! ## merge.cpp -/

/-- The copy loops `for (int i = 0; i < n; i++) buf[i] = arr[base + i]`
(merge.cpp:40-43), with `n` the number of iterations still to run. -/
def copyLoop (arr : List Int) (base : Int) : Nat → Int → List Int → Option (List Int)
  | 0, _, buf => some buf
  | n + 1, i, buf => do
    let x ← rd arr (base + i)
    let buf1 ← wr buf i x
    copyLoop arr base n (i + 1) buf1

/-- The loop `while (i < n1 && j < n2)` of `merge` (merge.cpp:49-58). Every iteration
advances `i` or `j`, so `fuel = (n1 - i) + (n2 - j)` iterations are never exceeded.
Returns the vector and `i`, `j`, `k`. -/
def mergeLoop (L R : List Int) (n1 n2 : Int) :
    Nat → List Int → Int → Int → Int → Option (List Int × Int × Int × Int)
  | 0, arr, i, j, k => if i < n1 ∧ j < n2 then none else some (arr, i, j, k)
  | fuel + 1, arr, i, j, k =>
    if i < n1 ∧ j < n2 then do
      let x ← rd L i
      let y ← rd R j
      if x ≤ y then
        let arr1 ← wr arr k x
        mergeLoop L R n1 n2 fuel arr1 (i + 1) j (k + 1)
      else
        let arr1 ← wr arr k y
        mergeLoop L R n1 n2 fuel arr1 i (j + 1) (k + 1)
    else some (arr, i, j, k)

/-- The loops `while (i < n1) { arr[k] = L[i]; i++; k++; }` copying the rest of a
buffer (merge.cpp:61-71), with `n` the number of iterations still to run.
Returns the vector and `k`. -/
def drainLoop (buf : List Int) : Nat → List Int → Int → Int → Option (List Int × Int)
  | 0, arr, _, k => some (arr, k)
  | n + 1, arr, i, k => do
    let x ← rd buf i
    let arr1 ← wr arr k x
    drainLoop buf n arr1 (i + 1) (k + 1)

/-- The function `merge` of merge.cpp:32-72. The buffers `L(n1)`, `R(n2)` are created
zero-filled; a negative size is a fault. -/
def merge (arr : List Int) (l m r : Int) : Option (List Int) :=
  let n1 := m - l + 1
  let n2 := r - m
  if n1 < 0 ∨ n2 < 0 then none else do
    let L ← copyLoop arr l n1.toNat 0 (List.replicate n1.toNat 0)
    let R ← copyLoop arr (m + 1) n2.toNat 0 (List.replicate n2.toNat 0)
    let (arr1, i, j, k) ← mergeLoop L R n1 n2 (n1.toNat + n2.toNat) arr 0 0 l
    let (arr2, k2) ← drainLoop L (n1 - i).toNat arr1 i k
    let (arr3, _) ← drainLoop R (n2 - j).toNat arr2 j k2
    some arr3

/-- Recursion of `serialMergeSort` (merge.cpp:75-83) with an explicit bound on the
nesting depth; `none` also when the bound is used up. -/
def serialMergeSortFuel : Nat → List Int → Int → Int → Option (List Int)
  | 0, _, _, _ => none
  | fuel + 1, arr, l, r =>
    if l ≥ r then some arr
    else do
      let m := l + (r - l).tdiv 2
      let arr1 ← serialMergeSortFuel fuel arr l m
      let arr2 ← serialMergeSortFuel fuel arr1 (m + 1) r
      merge arr2 l m r

/-- The sequential merge sort `serialMergeSort` (merge.cpp:75-83). Every nested call is
on a strictly shorter range, so a depth of `r - l + 1` is never exceeded. -/
def serialMergeSort (arr : List Int) (l r : Int) : Option (List Int) :=
  serialMergeSortFuel ((r - l).toNat + 1) arr l r

/-- A task of `parallelMergeSort` (merge.cpp:88-113): created and not yet started
(`todo`), suspended at `#pragma omp taskwait` with its two child tasks (`wait`), or
finished (`done`). -/
inductive MTask where
  | todo (l r : Int)
  | wait (l m r : Int) (a b : MTask)
  | done
  deriving DecidableEq, Repr

/-- Whether a task has finished. -/
def MTask.isDone : MTask → Bool
  | .done => true
  | _ => false

/-- One scheduling step of the task tree of `parallelMergeSort`, with the cutoff as a
parameter and one vector for all tasks. A task that has not started runs up to its
`taskwait` (or to its end on the base case and below the cutoff); a task at `taskwait`
runs `merge` once both children are finished; otherwise one of the unfinished children
makes a step, the bits of `c` choosing which. The children work on the vector `arr` of
the tree, so that `merge` finds their results: this is the tree as the specification
presents it, with `arr` shared by the tasks. In the source `arr` is firstprivate in the
task constructs; the vector that the caller then receives is
`parallelMergeSort_firstprivate`. -/
def stepM (cutoff : Int) : MTask → Nat → List Int → Option (List Int × MTask)
  | .done, _, arr => some (arr, .done)
  | .todo l r, _, arr =>
    if l ≥ r then some (arr, .done)
    else if r - l < cutoff then do
      let arr1 ← serialMergeSort arr l r
      some (arr1, .done)
    else
      let m := l + (r - l).tdiv 2
      some (arr, .wait l m r (.todo l m) (.todo (m + 1) r))
  | .wait l m r a b, c, arr =>
    if a.isDone && b.isDone then do
      let arr1 ← merge arr l m r
      some (arr1, .done)
    else if b.isDone || (!a.isDone && c % 2 == 0) then do
      let (arr1, a1) ← stepM cutoff a (c / 2) arr
      some (arr1, .wait l m r a1 b)
    else do
      let (arr1, b1) ← stepM cutoff b (c / 2) arr
      some (arr1, .wait l m r a b1)

/-- Run the task tree of `stepM`, in which the tasks share the vector, until the root task
has finished; the choice at step `step` is `sched step`. `fuel` bounds the number of
steps. -/
def runM (cutoff : Int) (sched : Nat → Nat) : Nat → Nat → List Int → MTask → Option (List Int)
  | _, _, arr, .done => some arr
  | 0, _, _, _ => none
  | fuel + 1, step, arr, t =>
    match stepM cutoff t (sched step) arr with
    | none => none
    | some (arr1, t1) => runM cutoff sched fuel (step + 1) arr1 t1

/-- The parallel merge sort `parallelMergeSort` (merge.cpp:88-113) over the tree `runM`, in
which the tasks share the vector, called on the range `[l, r]` inside the parallel
region, as in `main`. A range of `n` elements needs at most `3 n + 1` steps. -/
def parallelMergeSort (cutoff : Int) (sched : Nat → Nat) (arr : List Int) (l r : Int) :
    Option (List Int) :=
  runM cutoff sched (3 * (r + 1 - l).toNat + 1) 0 arr (.todo l r)

/-! ## The parallel drivers with the data-sharing of their task constructs -/

/-- The driver `quick_sort_task` (quick.cpp:60-82) run with its task tree, with the
data-sharing that OpenMP gives to `arr` in the two constructs `#pragma omp task`
(quick.cpp:70-79). The constructs are orphaned (the parallel region is the one of
`quick_sort_parallel`), `arr` is a parameter passed by reference and no data-sharing
clause is written, so `arr` is firstprivate there: a created task receives its own copy
of the vector, made when the task is created, that is after `partition` has run. The two
child tasks work on their copies; the vector of the caller receives what the call itself
does and nothing else: `quick_sort_serial` below the cutoff, the one `partition`
otherwise. The tasks share no data, so the order in which they run has no effect on any
of them; a fault in a task is a fault of the run. `fuel` bounds the nesting depth of the
tasks; `none` also when the bound is used up. -/
def quickSortTaskFirstprivateFuel (cutoff : Int) :
    Nat → List Int → Int → Int → Int → Option (List Int)
  | 0, _, _, _, _ => none
  | fuel + 1, arr, low, high, strategy =>
    if low < high then
      if high - low < cutoff then quick_sort_serial arr low high strategy
      else do
        let (arr1, pi) ← partition arr low high strategy
        let _ ← quickSortTaskFirstprivateFuel cutoff fuel arr1 low (pi - 1) strategy
        let _ ← quickSortTaskFirstprivateFuel cutoff fuel arr1 (pi + 1) high strategy
        some arr1
    else some arr

/-- The call `quick_sort_task(arr, low, high, strategy)` with firstprivate copies in its
tasks, and the vector `arr` of the caller once every task has finished. Every nested task
is on a strictly shorter range, so a depth of `high - low + 1` is never exceeded. -/
def quick_sort_task_firstprivate (cutoff : Int) (arr : List Int) (low high strategy : Int) :
    Option (List Int) :=
  quickSortTaskFirstprivateFuel cutoff ((high - low).toNat + 1) arr low high strategy

/-- The wrapper `quick_sort_parallel` (quick.cpp:86-97) with firstprivate copies in the
tasks. In the parallel region `arr` is shared, and the root call
`quick_sort_task(arr, 0, n - 1, strategy)` of the `single` construct is an ordinary call:
it works on the vector of the caller. The wrapper returns after the barrier, when every
task has finished. -/
def quick_sort_parallel_firstprivate (cutoff : Int) (arr : List Int) (n strategy : Int) :
    Option (List Int) :=
  quick_sort_task_firstprivate cutoff arr 0 (n - 1) strategy

/-- The driver `parallelMergeSort` (merge.cpp:88-113) run with its task tree, with the
data-sharing that OpenMP gives to `arr` in the two constructs `#pragma omp task`
(merge.cpp:103-107): they are orphaned and `arr` is a parameter passed by reference, so
each child task sorts its own copy of the vector, made when the task is created. After
`#pragma omp taskwait` the call runs `merge(arr, l, m, r)` on its own vector, whose two
halves no task has changed. The tasks share no data, so the order in which they run has
no effect; a fault in a task is a fault of the run. `fuel` bounds the nesting depth of
the tasks; `none` also when the bound is used up. -/
def parallelMergeSortFirstprivateFuel (cutoff : Int) :
    Nat → List Int → Int → Int → Option (List Int)
  | 0, _, _, _ => none
  | fuel + 1, arr, l, r =>
    if l ≥ r then some arr
    else if r - l < cutoff then serialMergeSort arr l r
    else do
      let m := l + (r - l).tdiv 2
      let _ ← parallelMergeSortFirstprivateFuel cutoff fuel arr l m
      let _ ← parallelMergeSortFirstprivateFuel cutoff fuel arr (m + 1) r
      merge arr l m r

/-- The call `parallelMergeSort(arr, l, r)` of `main` (merge.cpp:143-147) with firstprivate
copies in its tasks: the call of the `single` construct works on the vector of the caller,
which is shared in the parallel region. Every nested task is on a strictly shorter range,
so a depth of `r - l + 1` is never exceeded. -/
def parallelMergeSort_firstprivate (cutoff : Int) (arr : List Int) (l r : Int) :
    Option (List Int) :=
  parallelMergeSortFirstprivateFuel cutoff ((r - l).toNat + 1) arr l r

/-! ## Instrumented runs of the quicksort -/

/-- Record of one call of `partition`: its range, the vector before and after it, and the index it
returned. -/
structure PCall where
  low : Int
  high : Int
  p : Int
  before : List Int
  after : List Int
  deriving DecidableEq, Repr

/-- What an instrumented run of `quick_sort_serial` reports: the vector it returns, the
calls of `partition` in the order they were made, and the largest number of nested calls
of the sort routine. -/
structure QRun where
  arr : List Int
  calls : List PCall
  depth : Nat
  deriving DecidableEq, Repr

/-- The recursion of `quick_sort_serial` (quick.cpp:45-51), recording every call of
`partition` and the nesting depth; the vector is computed exactly as in
`quickSortSerialFuel`. -/
def quickSortTraceFuel : Nat → List Int → Int → Int → Int → Option QRun
  | 0, _, _, _, _ => none
  | fuel + 1, arr, low, high, strategy =>
    if low < high then do
      let (arr1, pi) ← partition arr low high strategy
      let r1 ← quickSortTraceFuel fuel arr1 low (pi - 1) strategy
      let r2 ← quickSortTraceFuel fuel r1.arr (pi + 1) high strategy
      some ⟨r2.arr, ⟨low, high, pi, arr, arr1⟩ :: (r1.calls ++ r2.calls),
        1 + max r1.depth r2.depth⟩
    else some ⟨arr, [], 1⟩

/-- Instrumented `quick_sort_serial`. -/
def quick_sort_serial_trace (arr : List Int) (low high strategy : Int) : Option QRun :=
  quickSortTraceFuel ((high - low).toNat + 1) arr low high strategy

/-- The body of `quick_sort_task` (quick.cpp:60-82), recording the calls of `partition` it
makes, directly or through `quick_sort_serial`. -/
def quick_sort_task_trace (cutoff : Int) (arr : List Int) (low high strategy : Int) :
    Option (List Int × List (Int × Int) × List PCall) :=
  if low < high then
    if high - low < cutoff then do
      let r ← quick_sort_serial_trace arr low high strategy
      some (r.arr, [], r.calls)
    else do
      let (arr1, pi) ← partition arr low high strategy
      some (arr1, [(low, pi - 1), (pi + 1, high)], [⟨low, high, pi, arr, arr1⟩])
  else some (arr, [], [])

/-- The task pool of `runTasks`, with its one vector for all tasks, recording the calls of
`partition` in the order in which the scheduler makes the tasks run. -/
def runTasksTrace (cutoff strategy : Int) (sched : Nat → Nat) :
    Nat → Nat → List Int → List (Int × Int) → Option (List Int × List PCall)
  | _, _, arr, [] => some (arr, [])
  | 0, _, _, _ :: _ => none
  | fuel + 1, step, arr, t :: ts =>
    let k := sched step % (t :: ts).length
    let task := (t :: ts).getD k t
    match quick_sort_task_trace cutoff arr task.1 task.2 strategy with
    | none => none
    | some (arr1, spawned, calls) =>
      match runTasksTrace cutoff strategy sched fuel (step + 1) arr1
          ((t :: ts).eraseIdx k ++ spawned) with
      | none => none
      | some (arr2, rest) => some (arr2, calls ++ rest)

/-- The task pool of `runTasks`, with its one vector for all tasks, and with the nesting of
the calls: every pending task carries the number of calls of `quick_sort_task` that lead
to it (`0` for the root call), and the run returns the largest number of nested calls of
the sort routines it has seen. A task on the direct path adds the nested calls of
`quick_sort_serial` to its own call. -/
def runTasksDepth (cutoff strategy : Int) (sched : Nat → Nat) :
    Nat → Nat → List Int → List ((Int × Int) × Nat) → Nat → Option (List Int × Nat)
  | _, _, arr, [], best => some (arr, best)
  | 0, _, _, _ :: _, _ => none
  | fuel + 1, step, arr, t :: ts, best =>
    let k := sched step % (t :: ts).length
    let task := (t :: ts).getD k t
    let rest := (t :: ts).eraseIdx k
    if task.1.1 < task.1.2 then
      if task.1.2 - task.1.1 < cutoff then
        match quick_sort_serial_trace arr task.1.1 task.1.2 strategy with
        | none => none
        | some r =>
          runTasksDepth cutoff strategy sched fuel (step + 1) r.arr rest
            (max best (task.2 + 1 + r.depth))
      else
        match partition arr task.1.1 task.1.2 strategy with
        | none => none
        | some (arr1, pi) =>
          runTasksDepth cutoff strategy sched fuel (step + 1) arr1
            (rest ++ [((task.1.1, pi - 1), task.2 + 1), ((pi + 1, task.1.2), task.2 + 1)])
            (max best (task.2 + 1))
    else
      runTasksDepth cutoff strategy sched fuel (step + 1) arr rest (max best (task.2 + 1))

/-! ## Instrumented `partition`: the element accesses -/

/-- The scan of `partition` with the indices at which it accesses the vector, in the order
of the accesses: `j` for the test `arr[j] <= pivot_value`, then the new `i` and `j` for
`swap(arr[i], arr[j])`. -/
def partitionLoopLog (pivot_value : Int) :
    Nat → List Int → Int → Int → Option (List Int × Int × List Int)
  | 0, arr, i, _ => some (arr, i, [])
  | n + 1, arr, i, j => do
    let x ← rd arr j
    if x ≤ pivot_value then
      let arr1 ← swap arr (i + 1) j
      let (arr2, i2, log) ← partitionLoopLog pivot_value n arr1 (i + 1) (j + 1)
      some (arr2, i2, j :: (i + 1) :: j :: log)
    else
      let (arr2, i2, log) ← partitionLoopLog pivot_value n arr i (j + 1)
      some (arr2, i2, j :: log)

/-- The function `partition` with the indices at which it accesses the vector: the two
indices of the first swap, `high` for `pivot_value = arr[high]`, the accesses of the scan,
and the two indices of the last swap. -/
def partitionLog (arr : List Int) (low high strategy : Int) :
    Option (List Int × Int × List Int) := do
  let pivot_index := pivotIndex low high strategy
  let arr1 ← swap arr pivot_index high
  let pivot_value ← rd arr1 high
  let (arr2, i, log) ← partitionLoopLog pivot_value (high - low).toNat arr1 (low - 1) low
  let arr3 ← swap arr2 (i + 1) high
  some (arr3, i + 1, pivot_index :: high :: high :: (log ++ [i + 1, high]))

/-! ## Instrumented merge sort: the calls of `merge` and its element accesses -/

/-- The accesses of the merging loops of `merge`: the indices at which the buffers `L` and
`R` are read and the indices of the vector that are written, each in the order of the
accesses. -/
structure MergeLog where
  readsL : List Int
  readsR : List Int
  writes : List Int
  deriving DecidableEq, Repr

/-- The loop `while (i < n1 && j < n2)` of `merge` with its accesses: every iteration reads
`L[i]` and `R[j]` and writes `arr[k]`. -/
def mergeLoopLog (L R : List Int) (n1 n2 : Int) :
    Nat → List Int → Int → Int → Int → Option (List Int × Int × Int × Int × MergeLog)
  | 0, arr, i, j, k => if i < n1 ∧ j < n2 then none else some (arr, i, j, k, ⟨[], [], []⟩)
  | fuel + 1, arr, i, j, k =>
    if i < n1 ∧ j < n2 then do
      let x ← rd L i
      let y ← rd R j
      if x ≤ y then
        let arr1 ← wr arr k x
        let (arr2, i2, j2, k2, lg) ← mergeLoopLog L R n1 n2 fuel arr1 (i + 1) j (k + 1)
        some (arr2, i2, j2, k2, ⟨i :: lg.readsL, j :: lg.readsR, k :: lg.writes⟩)
      else
        let arr1 ← wr arr k y
        let (arr2, i2, j2, k2, lg) ← mergeLoopLog L R n1 n2 fuel arr1 i (j + 1) (k + 1)
        some (arr2, i2, j2, k2, ⟨i :: lg.readsL, j :: lg.readsR, k :: lg.writes⟩)
    else some (arr, i, j, k, ⟨[], [], []⟩)

/-- The loops copying the rest of a buffer with their accesses: every iteration reads
`buf[i]` and writes `arr[k]`. Returns the vector, `k`, the indices read and the indices
written. -/
def drainLoopLog (buf : List Int) :
    Nat → List Int → Int → Int → Option (List Int × Int × List Int × List Int)
  | 0, arr, _, k => some (arr, k, [], [])
  | n + 1, arr, i, k => do
    let x ← rd buf i
    let arr1 ← wr arr k x
    let (arr2, k2, rs, ws) ← drainLoopLog buf n arr1 (i + 1) (k + 1)
    some (arr2, k2, i :: rs, k :: ws)

/-- The function `merge` with the accesses of its three merging loops and the final value
of the write index `k`. -/
def mergeLog (arr : List Int) (l m r : Int) : Option (List Int × Int × MergeLog) :=
  let n1 := m - l + 1
  let n2 := r - m
  if n1 < 0 ∨ n2 < 0 then none else do
    let L ← copyLoop arr l n1.toNat 0 (List.replicate n1.toNat 0)
    let R ← copyLoop arr (m + 1) n2.toNat 0 (List.replicate n2.toNat 0)
    let (arr1, i, j, k, lg) ← mergeLoopLog L R n1 n2 (n1.toNat + n2.toNat) arr 0 0 l
    let (arr2, k2, rl, w2) ← drainLoopLog L (n1 - i).toNat arr1 i k
    let (arr3, k3, rr, w3) ← drainLoopLog R (n2 - j).toNat arr2 j k2
    some (arr3, k3, ⟨lg.readsL ++ rl, lg.readsR ++ rr, lg.writes ++ (w2 ++ w3)⟩)

/-- Record of one call of `merge`: its arguments and the vector before and after it. -/
structure MCall where
  l : Int
  m : Int
  r : Int
  before : List Int
  after : List Int
  deriving DecidableEq, Repr

/-- The recursion of `serialMergeSort` (merge.cpp:75-83), recording every call of `merge`
in the order of the calls. -/
def serialMergeSortTraceFuel : Nat → List Int → Int → Int → Option (List Int × List MCall)
  | 0, _, _, _ => none
  | fuel + 1, arr, l, r =>
    if l ≥ r then some (arr, [])
    else do
      let m := l + (r - l).tdiv 2
      let (arr1, c1) ← serialMergeSortTraceFuel fuel arr l m
      let (arr2, c2) ← serialMergeSortTraceFuel fuel arr1 (m + 1) r
      let arr3 ← merge arr2 l m r
      some (arr3, c1 ++ (c2 ++ [⟨l, m, r, arr2, arr3⟩]))

/-- Instrumented `serialMergeSort`. -/
def serialMergeSortTrace (arr : List Int) (l r : Int) : Option (List Int × List MCall) :=
  serialMergeSortTraceFuel ((r - l).toNat + 1) arr l r

/-- One scheduling step of the task tree of `parallelMergeSort`, as `stepM` with its one
vector for all tasks, recording the calls of `merge` made during the step. -/
def stepMTrace (cutoff : Int) :
    MTask → Nat → List Int → Option (List Int × MTask × List MCall)
  | .done, _, arr => some (arr, .done, [])
  | .todo l r, _, arr =>
    if l ≥ r then some (arr, .done, [])
    else if r - l < cutoff then do
      let (arr1, calls) ← serialMergeSortTrace arr l r
      some (arr1, .done, calls)
    else
      let m := l + (r - l).tdiv 2
      some (arr, .wait l m r (.todo l m) (.todo (m + 1) r), [])
  | .wait l m r a b, c, arr =>
    if a.isDone && b.isDone then do
      let arr1 ← merge arr l m r
      some (arr1, .done, [⟨l, m, r, arr, arr1⟩])
    else if b.isDone || (!a.isDone && c % 2 == 0) then do
      let (arr1, a1, calls) ← stepMTrace cutoff a (c / 2) arr
      some (arr1, .wait l m r a1 b, calls)
    else do
      let (arr1, b1, calls) ← stepMTrace cutoff b (c / 2) arr
      some (arr1, .wait l m r a b1, calls)

/-- The run of the task tree, as `runM` with its one vector for all tasks, recording the
calls of `merge` in the order in which the scheduler makes them happen. -/
def runMTrace (cutoff : Int) (sched : Nat → Nat) :
    Nat → Nat → List Int → MTask → Option (List Int × List MCall)
  | _, _, arr, .done => some (arr, [])
  | 0, _, _, _ => none
  | fuel + 1, step, arr, t =>
    match stepMTrace cutoff t (sched step) arr with
    | none => none
    | some (arr1, t1, calls) =>
      match runMTrace cutoff sched fuel (step + 1) arr1 t1 with
      | none => none
      | some (arr2, rest) => some (arr2, calls ++ rest)

/-- Instrumented `parallelMergeSort`, over the tree `runMTrace` in which the tasks share the
vector. -/
def parallelMergeSortTrace (cutoff : Int) (sched : Nat → Nat) (arr : List Int) (l r : Int) :
    Option (List Int × List MCall) :=
  runMTrace cutoff sched (3 * (r + 1 - l).toNat + 1) 0 arr (.todo l r)

/-! ## 32-bit arithmetic -/

/-- The value an `int` computation leaves in a 32-bit register: two's-complement
wrap-around into `-2^31 .. 2^31 - 1`. -/
def wrap32 (x : Int) : Int := (x + 2147483648) % 4294967296 - 2147483648

/-- A value that an `int` can hold. -/
def fits32 (x : Int) : Prop := -2147483648 ≤ x ∧ x ≤ 2147483647

/-- The expression `low + (high - low) / 2` of quick.cpp:16 and merge.cpp:79,100 evaluated
in 32-bit `int` arithmetic, every operation wrapping around. -/
def midpoint32 (low high : Int) : Int :=
  wrap32 (low + (wrap32 (high - low)).tdiv 2)

/-! ## oddcon.cpp -/

/-- The loop `for (int i = 3; i * i <= n; i += 2)` of `isPrime` (oddcon.cpp:27-31), with
the product and the increment computed in 32-bit `int`. `fuel` bounds the number of
iterations. -/
def isPrimeLoop (n : Int) : Nat → Int → Option Bool
  | 0, _ => none
  | fuel + 1, i =>
    if wrap32 (i * i) ≤ n then
      if n.tmod i = 0 then some false
      else isPrimeLoop n fuel (wrap32 (i + 2))
    else some true

/-- The function `isPrime` of oddcon.cpp:15-35. The loop is entered for odd `n ≥ 3` only
and ends at `i = n` at the latest, where `n % i == 0`; `2^31` iterations are never
exceeded. -/
def isPrime (n : Int) : Option Bool :=
  if n ≤ 1 then some false
  else if n = 2 then some true
  else if n.tmod 2 = 0 then some false
  else isPrimeLoop n 2147483648 3

/-! ## Vocabulary of the specification -/

/-- The elements at the indices `low .. high` of a vector. -/
def slice (arr : List Int) (low high : Int) : List Int :=
  (arr.drop low.toNat).take (high + 1 - low).toNat

/-- The reference sort `sorted(S)`. -/
def sorted (S : List Int) : List Int := S.insertionSort (· ≤ ·)

/-- Pairwise non-decreasing order. -/
def NonDecreasing (S : List Int) : Prop := S.Pairwise (· ≤ ·)

/-- The ascending sequence `1, 2, ..., N`. -/
def ascending (N : Nat) : List Int :=
  (List.range N).map (fun (k : Nat) => (k : Int) + 1)

/-- Strictly increasing: sorted, with no repeated element. -/
def StrictAsc (S : List Int) : Prop := S.Pairwise (· < ·)

/-- Strictly decreasing: reverse-sorted, with no repeated element. -/
def StrictDesc (S : List Int) : Prop := S.Pairwise (· > ·)

/-- What the last swap of `partition` does to the elements found greater than the pivot:
the first of them goes to the end. -/
def rotl : List Int → List Int
  | [] => []
  | g :: G => G ++ [g]

/-- The indices `k, k + 1, ..., k + n - 1`. -/
def consecutive (k : Int) (n : Nat) : List Int := (List.range n).map (fun (d : Nat) => k + d)

/-- The calls of `partition` that `quick_sort_serial` makes on the range `t` of `arr`. -/
def serialCalls (arr : List Int) (s : Int) (t : Int × Int) : List PCall :=
  match quick_sort_serial_trace arr t.1 t.2 s with
  | some r => r.calls
  | none => []

/-- The nesting depth of the calls of `quick_sort_serial` on the range `t` of `arr`. -/
def serialDepth (arr : List Int) (s : Int) (t : Int × Int) : Nat :=
  match quick_sort_serial_trace arr t.1 t.2 s with
  | some r => r.depth
  | none => 0

/-- The calls of `partition` that `quick_sort_serial` makes on the ranges of a pool. -/
def poolCalls (arr : List Int) (s : Int) : List (Int × Int) → List PCall
  | [] => []
  | t :: ts => serialCalls arr s t ++ poolCalls arr s ts

/-- The largest nesting depth that the tasks of a pool lead to when each runs as
`quick_sort_serial` would: a task reached through `t.2` calls adds them to the depth of
its own recursion. -/
def poolDepth (arr : List Int) (s : Int) : List ((Int × Int) × Nat) → Nat
  | [] => 0
  | t :: ts => max (t.2 + serialDepth arr s t.1) (poolDepth arr s ts)

/-- Every task of the tree that is suspended at `taskwait` owns a range split at a point
`m` with `l ≤ m < r`, the first half being the range of its first child. -/
def SplitOK : MTask → Prop
  | .todo _ _ => True
  | .done => True
  | .wait l m r a b => l ≤ m ∧ m < r ∧ SplitOK a ∧ SplitOK b

/-! ## Notions used to reason about the task pool -/

/-- The vector with the range `[t.1, t.2]` replaced by its sorted rearrangement; the
vector itself when the range has at most one element or is not inside the vector. -/
def sortRange (arr : List Int) (t : Int × Int) : List Int :=
  if 0 ≤ t.1 ∧ t.1 < t.2 ∧ t.2 < arr.length then
    arr.take t.1.toNat ++ (sorted (slice arr t.1 t.2) ++ arr.drop (t.2 + 1).toNat)
  else arr

/-- What remains to be done for a pool of pending ranges: each of them sorted in turn. -/
def finish (arr : List Int) (pool : List (Int × Int)) : List Int :=
  pool.foldl sortRange arr

/-- Two ranges that share no index. -/
def Sep (t u : Int × Int) : Prop := t.2 < u.1 ∨ u.2 < t.1

/-- A range with at least two elements lies inside a vector of length `n`. -/
def InRange (n : Nat) (t : Int × Int) : Prop := t.1 < t.2 → 0 ≤ t.1 ∧ t.2 < n

/-- A bound on the number of task executions a pool of ranges still needs:
`2 * size + 1` for each range. -/
def poolWeight : List (Int × Int) → Nat
  | [] => 0
  | t :: ts => (2 * (t.2 + 1 - t.1).toNat + 1) + poolWeight ts

/-! ## Notions used to reason about the task tree of the merge sort -/

/-- A task tree is consistent with the content `M` of the range starting at `l` that it
owns: a task not yet started owns exactly that range, a finished task has left it in
non-decreasing order, and a task at `taskwait` has split it at the midpoint between its
two children. -/
def GoodSeg : MTask → Int → List Int → Prop
  | .todo l1 r1, l, M => l1 = l ∧ r1 = l + M.length - 1
  | .done, _, M => NonDecreasing M
  | .wait l1 m r1 a b, l, M =>
    l1 = l ∧ r1 = l + M.length - 1 ∧ 2 ≤ M.length ∧ m = l + ((M.length : Int) - 1) / 2 ∧
    GoodSeg a l (M.take ((M.length - 1) / 2 + 1)) ∧
    GoodSeg b (m + 1) (M.drop ((M.length - 1) / 2 + 1))

/-- A bound on the number of scheduling steps a task tree still needs. -/
def mweight : MTask → Nat
  | .todo l r => if (r + 1 - l).toNat = 0 then 1 else 3 * (r + 1 - l).toNat - 2
  | .done => 0
  | .wait _ _ _ a b => 1 + mweight a + mweight b


/-! ## Accesses at a known position -/

theorem rd_at (A C : List Int) (x : Int) (k : Int) (hk : k = A.length) :
    rd (A ++ x :: C) k = some x := by
  subst hk
  have h : (A ++ x :: C)[A.length]? = some x := by
    rw [List.getElem?_append_right (le_refl _)]; simp
  simp only [rd, Int.toNat_ofNat, h]; simp

theorem wr_at (A C : List Int) (x v : Int) (k : Int) (hk : k = A.length) :
    wr (A ++ x :: C) k v = some (A ++ v :: C) := by
  subst hk
  have h : (A.length : Int) < (A.length : Int) + ((C.length : Int) + 1) := by omega
  simp [wr, h]

theorem swap_same (A C : List Int) (x : Int) (k : Int) (hk : k = A.length) :
    swap (A ++ x :: C) k k = some (A ++ x :: C) := by
  simp [swap, rd_at A C x k hk, wr_at A C x x k hk]

theorem swap_far (A B C : List Int) (x y : Int) (i j : Int) (hi : i = A.length)
    (hj : j = A.length + 1 + B.length) :
    swap (A ++ x :: (B ++ y :: C)) i j = some (A ++ y :: (B ++ x :: C)) := by
  have r1 : rd (A ++ x :: (B ++ y :: C)) i = some x := rd_at A _ x i hi
  have r2 : rd (A ++ x :: (B ++ y :: C)) j = some y := by
    have := rd_at (A ++ x :: B) C y j (by simp [hj]; omega)
    simpa using this
  have w1 : wr (A ++ x :: (B ++ y :: C)) i y = some (A ++ y :: (B ++ y :: C)) := wr_at A _ x y i hi
  have w2 : wr (A ++ y :: (B ++ y :: C)) j x = some (A ++ y :: (B ++ x :: C)) := by
    have := wr_at (A ++ y :: B) C y x j (by simp [hj]; omega)
    simpa using this
  simp [swap, r1, r2, w1, w2]

/-! ## The scan of `partition` -/

/-- The scan invariant in segment form: the vector is `A ++ Ls ++ Gs ++ Rest ++ C` with
`Ls` the elements found `≤ pivot_value`, `Gs` those found greater, `Rest` still to scan. -/
theorem partitionLoop_segments (pv : Int) (Rest : List Int) :
    ∀ (A Ls Gs C : List Int) (i j : Int),
      (∀ x ∈ Ls, x ≤ pv) → (∀ x ∈ Gs, pv < x) →
      i = (A.length : Int) + Ls.length - 1 → j = (A.length : Int) + Ls.length + Gs.length →
      ∃ Ls1 Gs1 : List Int,
        partitionLoop pv Rest.length (A ++ (Ls ++ (Gs ++ (Rest ++ C)))) i j
          = some (A ++ (Ls1 ++ (Gs1 ++ C)), (A.length : Int) + Ls1.length - 1) ∧
        (Ls1 ++ Gs1).Perm (Ls ++ (Gs ++ Rest)) ∧
        (∀ x ∈ Ls1, x ≤ pv) ∧ (∀ x ∈ Gs1, pv < x) := by
  induction Rest with
  | nil =>
    intro A Ls Gs C i j hL hG hi hj
    exact ⟨Ls, Gs, by simp [partitionLoop, hi], by simp, hL, hG⟩
  | cons x Rest ih =>
    intro A Ls Gs C i j hL hG hi hj
    have hrd : rd (A ++ (Ls ++ (Gs ++ (x :: Rest ++ C)))) j = some x := by
      have := rd_at (A ++ (Ls ++ Gs)) (Rest ++ C) x j (by simp [hj]; omega)
      simpa using this
    by_cases hx : x ≤ pv
    · cases Gs with
      | nil =>
        have hsw : swap (A ++ (Ls ++ ([] ++ (x :: Rest ++ C)))) (i + 1) j
            = some (A ++ (Ls ++ ([] ++ (x :: Rest ++ C)))) := by
          have hij : i + 1 = j := by simp [hi, hj]
          rw [hij]
          have := swap_same (A ++ Ls) (Rest ++ C) x j (by simp [hj])
          simpa using this
        obtain ⟨Ls1, Gs1, hrun, hperm, hL1, hG1⟩ := ih A (Ls ++ [x]) [] C (i + 1) (j + 1)
          (by intro y hy; simp at hy; rcases hy with hy | hy; exact hL y hy; exact hy ▸ hx)
          (by simp) (by simp [hi]; omega) (by simp [hj]; omega)
        refine ⟨Ls1, Gs1, ?_, ?_, hL1, hG1⟩
        · simp only [List.length_cons, partitionLoop, hrd, hx, hsw, if_true, Option.bind_eq_bind,
            Option.some_bind]
          simpa using hrun
        · simpa using hperm
      | cons g Gs =>
        have hsw : swap (A ++ (Ls ++ (g :: Gs ++ (x :: Rest ++ C)))) (i + 1) j
            = some (A ++ ((Ls ++ [x]) ++ ((Gs ++ [g]) ++ (Rest ++ C)))) := by
          have := swap_far (A ++ Ls) Gs (Rest ++ C) g x (i + 1) j (by simp [hi])
            (by simp [hj]; omega)
          simpa using this
        obtain ⟨Ls1, Gs1, hrun, hperm, hL1, hG1⟩ := ih A (Ls ++ [x]) (Gs ++ [g]) C (i + 1) (j + 1)
          (by intro y hy; simp at hy; rcases hy with hy | hy; exact hL y hy; exact hy ▸ hx)
          (by intro y hy; simp at hy; rcases hy with hy | hy
              · exact hG y (by simp [hy])
              · exact hG y (by simp [hy]))
          (by simp [hi]; omega) (by simp [hj]; omega)
        refine ⟨Ls1, Gs1, ?_, ?_, hL1, hG1⟩
        · simp only [List.length_cons, partitionLoop, hrd, hx, hsw, if_true, Option.bind_eq_bind,
            Option.some_bind]
          exact hrun
        · refine hperm.trans ?_
          simp only [List.append_assoc, List.singleton_append, List.cons_append]
          refine List.Perm.append_left Ls ?_
          have h1 : (x :: (Gs ++ g :: Rest)).Perm (x :: g :: (Gs ++ Rest)) :=
            List.Perm.cons x (List.perm_middle)
          have h2 : (g :: (Gs ++ x :: Rest)).Perm (g :: x :: (Gs ++ Rest)) :=
            List.Perm.cons g (List.perm_middle)
          exact h1.trans ((List.Perm.swap g x _).trans h2.symm)
    · obtain ⟨Ls1, Gs1, hrun, hperm, hL1, hG1⟩ := ih A Ls (Gs ++ [x]) C i (j + 1) hL
        (by intro y hy; simp at hy; rcases hy with hy | hy; exact hG y hy; exact hy ▸ (by omega))
        hi (by simp [hj]; omega)
      refine ⟨Ls1, Gs1, ?_, ?_, hL1, hG1⟩
      · simp only [List.length_cons, partitionLoop, hrd, hx, if_false, Option.bind_eq_bind,
          Option.some_bind]
        simpa using hrun
      · simpa using hperm


/-! ## `partition` -/

theorem pivotIndex_bounds (low high s : Int) (h : low ≤ high) :
    low ≤ pivotIndex low high s ∧ pivotIndex low high s ≤ high := by
  unfold pivotIndex
  have hd : (high - low).tdiv 2 = (high - low) / 2 :=
    Int.tdiv_eq_ediv (by omega) (by omega)
  split_ifs <;> omega

/-- Exchanging the two ends of a list is a rearrangement. -/
theorem perm_swap_ends (x y : Int) (G : List Int) :
    (x :: (G ++ [y])).Perm (y :: (G ++ [x])) := by
  have h1 : (x :: (G ++ [y])).Perm (x :: y :: G) := List.Perm.cons x (by simp)
  have h2 : (y :: (G ++ [x])).Perm (y :: x :: G) := List.Perm.cons y (by simp)
  exact h1.trans ((List.Perm.swap y x _).trans h2.symm)

/-- Splitting a list at a position inside it. -/
theorem split_at_index (M : List Int) (k : Nat) (hk : k < M.length) :
    ∃ M1 p M2, M = M1 ++ p :: M2 ∧ M1.length = k := by
  refine ⟨M.take k, M[k], M.drop (k + 1), ?_, ?_⟩
  · rw [← List.drop_eq_getElem_cons hk, List.take_append_drop]
  · simp; omega

/-- Result of `partition` in segment form: on the vector `A ++ M ++ C` and the range
holding `M`, it returns `A ++ (Ls ++ pv :: Gs) ++ C` and the index of `pv`, where `pv`
is the chosen pivot, `Ls` has the elements `≤ pv` and `Gs` those `> pv`. -/
theorem partition_segments (A M C : List Int) (low high s : Int) (hM : M ≠ [])
    (hlow : low = A.length) (hhigh : high = (A.length : Int) + M.length - 1) :
    ∃ (Ls Gs : List Int) (pv : Int),
      partition (A ++ (M ++ C)) low high s
        = some (A ++ (Ls ++ pv :: (Gs ++ C)), (A.length : Int) + Ls.length) ∧
      (Ls ++ pv :: Gs).Perm M ∧ (∀ x ∈ Ls, x ≤ pv) ∧ (∀ x ∈ Gs, pv < x) ∧
      rd (A ++ (M ++ C)) (pivotIndex low high s) = some pv := by
  have hMlen : 0 < M.length := List.length_pos.mpr hM
  have hlh : low ≤ high := by omega
  obtain ⟨hp1, hp2⟩ := pivotIndex_bounds low high s hlh
  -- the vector after the first swap: `A ++ N ++ pv :: C`
  have step1 : ∃ (N : List Int) (pv : Int),
      swap (A ++ (M ++ C)) (pivotIndex low high s) high = some (A ++ (N ++ pv :: C)) ∧
      (N ++ [pv]).Perm M ∧ rd (A ++ (M ++ C)) (pivotIndex low high s) = some pv ∧
      (N.length : Int) = high - low := by
    obtain ⟨M0, last, hM0⟩ : ∃ M0 last, M = M0 ++ [last] :=
      ⟨M.dropLast, M.getLast hM, (List.dropLast_append_getLast hM).symm⟩
    subst hM0
    simp only [List.length_append, List.length_singleton, Nat.cast_add, Nat.cast_one] at hhigh
    by_cases hph : pivotIndex low high s = high
    · refine ⟨M0, last, ?_, List.Perm.refl _, ?_, by omega⟩
      · rw [hph]
        have := swap_same (A ++ M0) C last high (by simp; omega)
        simpa using this
      · rw [hph]
        have := rd_at (A ++ M0) C last high (by simp; omega)
        simpa using this
    · have hk : (pivotIndex low high s - low).toNat < M0.length := by omega
      obtain ⟨M1, p, M2, hsplit, hlen⟩ := split_at_index M0 _ hk
      subst hsplit
      simp only [List.length_append, List.length_cons, Nat.cast_add, Nat.cast_one] at hhigh
      refine ⟨M1 ++ last :: M2, p, ?_, ?_, ?_, by simp; omega⟩
      · have := swap_far (A ++ M1) M2 C p last (pivotIndex low high s) high
          (by simp; omega) (by simp; omega)
        simpa using this
      · simp only [List.append_assoc, List.cons_append]
        refine List.Perm.append_left M1 ?_
        exact perm_swap_ends last p M2
      · have := rd_at (A ++ M1) (M2 ++ last :: C) p (pivotIndex low high s) (by simp; omega)
        simpa using this
  obtain ⟨N, pv, hsw1, hpermN, hrdp, hNlen⟩ := step1
  have hrd2 : rd (A ++ (N ++ pv :: C)) high = some pv := by
    have := rd_at (A ++ N) C pv high (by simp; omega)
    simpa using this
  obtain ⟨Ls1, Gs1, hrun, hperm1, hL1, hG1⟩ :=
    partitionLoop_segments pv N A [] [] (pv :: C) (low - 1) low (by simp) (by simp)
      (by simp; omega) (by simp; omega)
  have hn : (high - low).toNat = N.length := by omega
  have hlenLG : (Ls1.length : Int) + Gs1.length = high - low := by
    have := hperm1.length_eq
    simp only [List.length_append, List.nil_append] at this
    omega
  simp only [List.nil_append] at hrun hperm1
  cases Gs1 with
  | nil =>
    refine ⟨Ls1, [], pv, ?_, ?_, hL1, by simp, hrdp⟩
    · have hsw3 : swap (A ++ (Ls1 ++ ([] ++ pv :: C))) ((A.length : Int) + Ls1.length - 1 + 1) high
          = some (A ++ (Ls1 ++ ([] ++ pv :: C))) := by
        have hih : (A.length : Int) + Ls1.length - 1 + 1 = high := by
          simp at hlenLG; omega
        rw [hih]
        have := swap_same (A ++ Ls1) C pv high (by simp at hlenLG ⊢; omega)
        simpa using this
      simp only [partition, hsw1, hrd2, hn, hrun, hsw3, Option.bind_eq_bind, Option.some_bind]
      simp
    · have : (Ls1 ++ [pv]).Perm (N ++ [pv]) := by
        simpa using List.Perm.append_right [pv] hperm1
      exact this.trans hpermN
  | cons g G =>
    refine ⟨Ls1, G ++ [g], pv, ?_, ?_, hL1, ?_, hrdp⟩
    · have hsw3 : swap (A ++ (Ls1 ++ (g :: G ++ pv :: C))) ((A.length : Int) + Ls1.length - 1 + 1) high
          = some (A ++ (Ls1 ++ pv :: (G ++ [g] ++ C))) := by
        have := swap_far (A ++ Ls1) G C g pv ((A.length : Int) + Ls1.length - 1 + 1) high
          (by simp) (by simp at hlenLG ⊢; omega)
        simpa using this
      simp only [partition, hsw1, hrd2, hn, hrun, hsw3, Option.bind_eq_bind, Option.some_bind]
      simp
    · have h1 : (Ls1 ++ pv :: (G ++ [g])).Perm ((Ls1 ++ g :: G) ++ [pv]) := by
        simp only [List.append_assoc, List.cons_append]
        refine List.Perm.append_left Ls1 ?_
        exact perm_swap_ends pv g G
      exact h1.trans ((List.Perm.append_right [pv] hperm1).trans hpermN)
    · intro y hy
      simp at hy
      rcases hy with hy | hy
      · exact hG1 y (by simp [hy])
      · exact hG1 y (by simp [hy])


/-! ## Ranges of a vector as segments -/

/-- A vector splits around a range inside it. -/
theorem range_split (S : List Int) (low high : Int) (h0 : 0 ≤ low) (h1 : low ≤ high + 1)
    (h2 : high < S.length) :
    ∃ A M C, S = A ++ (M ++ C) ∧ (A.length : Int) = low ∧
      (M.length : Int) = high + 1 - low ∧ M = slice S low high := by
  refine ⟨S.take low.toNat, slice S low high, S.drop (high + 1).toNat, ?_, ?_, ?_, rfl⟩
  · have hd : S.drop (high + 1).toNat
        = (S.drop low.toNat).drop (high + 1 - low).toNat := by
      rw [List.drop_drop]; congr 1; omega
    rw [slice, hd, List.take_append_drop, List.take_append_drop]
  · simp; omega
  · simp [slice]; omega

theorem slice_segments (A M C : List Int) (low high : Int) (hlow : low = A.length)
    (hhigh : high = (A.length : Int) + M.length - 1) :
    slice (A ++ (M ++ C)) low high = M := by
  subst hlow hhigh
  have h : ((A.length : Int) + M.length - 1 + 1 - A.length).toNat = M.length := by omega
  simp [slice, h]

/-- Reading inside a segment gives one of its elements. -/
theorem rd_mid (A M C : List Int) (i : Int) (h1 : (A.length : Int) ≤ i)
    (h2 : i < (A.length : Int) + M.length) :
    ∃ x, x ∈ M ∧ rd (A ++ (M ++ C)) i = some x := by
  obtain ⟨M1, x, M2, hsplit, hlen⟩ := split_at_index M (i - A.length).toNat (by omega)
  subst hsplit
  refine ⟨x, by simp, ?_⟩
  have := rd_at (A ++ M1) (M2 ++ C) x i (by simp; omega)
  simpa using this

theorem sorted_perm (M : List Int) : (sorted M).Perm M :=
  List.perm_insertionSort _ M

theorem sorted_nonDecreasing (M : List Int) : NonDecreasing (sorted M) :=
  List.sorted_insertionSort _ M

theorem sorted_length (M : List Int) : (sorted M).length = M.length :=
  List.length_insertionSort _ M

/-- A non-decreasing rearrangement of `M` is `sorted M`. -/
theorem eq_sorted_of_perm (M N : List Int) (hp : N.Perm M) (hs : NonDecreasing N) :
    N = sorted M :=
  List.eq_of_perm_of_sorted (hp.trans (sorted_perm M).symm) hs (sorted_nonDecreasing M)

theorem sorted_short (M : List Int) (h : M.length ≤ 1) : sorted M = M := by
  match M, h with
  | [], _ => rfl
  | [_], _ => rfl

/-! ## `quick_sort_serial` -/

/-- A pivot between the sorted smaller and the sorted greater elements is the sorted whole. -/
theorem sorted_around_pivot (M Ls Gs : List Int) (pv : Int) (hperm : (Ls ++ pv :: Gs).Perm M)
    (hL : ∀ x ∈ Ls, x ≤ pv) (hG : ∀ x ∈ Gs, pv < x) :
    sorted Ls ++ pv :: sorted Gs = sorted M := by
  apply eq_sorted_of_perm
  · exact ((sorted_perm Ls).append ((sorted_perm Gs).cons pv)).trans hperm
  · unfold NonDecreasing
    rw [List.pairwise_append]
    refine ⟨sorted_nonDecreasing Ls, ?_, ?_⟩
    · rw [List.pairwise_cons]
      refine ⟨?_, sorted_nonDecreasing Gs⟩
      intro y hy
      exact le_of_lt (hG y ((sorted_perm Gs).mem_iff.mp hy))
    · intro x hx y hy
      have hxle : x ≤ pv := hL x ((sorted_perm Ls).mem_iff.mp hx)
      rcases List.mem_cons.mp hy with hy | hy
      · omega
      · have := hG y ((sorted_perm Gs).mem_iff.mp hy); omega

/-- Result of the quicksort in segment form: on `A ++ M ++ C` and the range holding `M`
it returns `A ++ sorted M ++ C`, with any bound of at least `|M|` (and `1`) on the depth. -/
theorem quickSortSerialFuel_segments (s : Int) :
    ∀ (fuel : Nat) (M A C : List Int) (low high : Int),
      M.length ≤ fuel → 1 ≤ fuel → low = A.length →
      high = (A.length : Int) + M.length - 1 →
      quickSortSerialFuel fuel (A ++ (M ++ C)) low high s = some (A ++ (sorted M ++ C)) := by
  intro fuel
  induction fuel with
  | zero => intro M A C low high _ h1; omega
  | succ fuel ih =>
    intro M A C low high hlen _ hlow hhigh
    by_cases hlt : low < high
    · have hM : M ≠ [] := by
        intro h; subst h; simp at hhigh; omega
      obtain ⟨Ls, Gs, pv, hpart, hperm, hL, hG, -⟩ :=
        partition_segments A M C low high s hM hlow hhigh
      have hlenM : Ls.length + 1 + Gs.length = M.length := by
        have := hperm.length_eq
        simp only [List.length_append, List.length_cons] at this
        omega
      have h1 : quickSortSerialFuel fuel (A ++ (Ls ++ pv :: (Gs ++ C))) low
          ((A.length : Int) + Ls.length - 1) s = some (A ++ (sorted Ls ++ pv :: (Gs ++ C))) :=
        ih Ls A (pv :: (Gs ++ C)) low _ (by omega) (by omega) hlow rfl
      have h2 : quickSortSerialFuel fuel (A ++ (sorted Ls ++ pv :: (Gs ++ C)))
          ((A.length : Int) + Ls.length + 1) high s
          = some (A ++ (sorted Ls ++ pv :: (sorted Gs ++ C))) := by
        have := ih Gs (A ++ (sorted Ls ++ [pv])) C ((A.length : Int) + Ls.length + 1) high
          (by omega) (by omega) (by simp [sorted_length]; omega)
          (by simp [sorted_length]; omega)
        simpa using this
      have hfinal : sorted Ls ++ pv :: sorted Gs = sorted M :=
        sorted_around_pivot M Ls Gs pv hperm hL hG
      simp only [quickSortSerialFuel, hlt, if_true, hpart, Option.bind_eq_bind, Option.some_bind,
        Int.add_sub_cancel, h1, h2]
      rw [← hfinal]; simp
    · have hshort : M.length ≤ 1 := by omega
      simp [quickSortSerialFuel, hlt, sorted_short M hshort]

theorem quick_sort_serial_segments (A M C : List Int) (low high s : Int)
    (hlow : low = A.length) (hhigh : high = (A.length : Int) + M.length - 1) :
    quick_sort_serial (A ++ (M ++ C)) low high s = some (A ++ (sorted M ++ C)) :=
  quickSortSerialFuel_segments s _ M A C low high (by omega) (by omega) hlow hhigh


/-! ## Claims on `partition` -/

/-- C7. Partition postcondition: on a valid range `0 ≤ low ≤ high < |S|` and for every
strategy, `partition` returns a vector `S1` and an index `p` such that `S1[i] ≤ S1[p]` for
every `i` in `[low, p-1]` and `S1[i] > S1[p]` for every `i` in `[p+1, high]`. -/
theorem partition_postcondition (S : List Int) (low high strategy : Int)
    (h0 : 0 ≤ low) (hlh : low ≤ high) (hh : high < S.length) :
    ∃ (S1 : List Int) (p v : Int),
      partition S low high strategy = some (S1, p) ∧ rd S1 p = some v ∧
      (∀ i : Int, low ≤ i → i ≤ p - 1 → ∃ x, rd S1 i = some x ∧ x ≤ v) ∧
      (∀ i : Int, p + 1 ≤ i → i ≤ high → ∃ x, rd S1 i = some x ∧ x > v) := by
  obtain ⟨A, M, C, hS, hA, hM, -⟩ := range_split S low high h0 (by omega) hh
  have hne : M ≠ [] := by intro h; subst h; simp at hM; omega
  obtain ⟨Ls, Gs, pv, hpart, hperm, hL, hG, -⟩ :=
    partition_segments A M C low high strategy hne hA.symm (by omega)
  have hlen := hperm.length_eq
  simp only [List.length_append, List.length_cons] at hlen
  refine ⟨_, _, pv, by rw [hS]; exact hpart, ?_, ?_, ?_⟩
  · have := rd_at (A ++ Ls) (Gs ++ C) pv ((A.length : Int) + Ls.length) (by simp)
    simpa using this
  · intro i hi1 hi2
    obtain ⟨x, hx, hrd⟩ := rd_mid A Ls (pv :: (Gs ++ C)) i (by omega) (by omega)
    exact ⟨x, hrd, hL x hx⟩
  · intro i hi1 hi2
    obtain ⟨x, hx, hrd⟩ := rd_mid (A ++ (Ls ++ [pv])) Gs C i (by simp; omega) (by simp; omega)
    exact ⟨x, by simpa using hrd, hG x hx⟩

theorem partition_postcondition_witness :
    ((0 : Int) ≤ 1 ∧ (1 : Int) ≤ 3 ∧ (3 : Int) < ([5, 3, 9, 1, 7] : List Int).length) ∧
    ∃ (S1 : List Int) (p v : Int),
      partition [5, 3, 9, 1, 7] 1 3 0 = some (S1, p) ∧ rd S1 p = some v ∧
      (∀ i : Int, 1 ≤ i → i ≤ p - 1 → ∃ x, rd S1 i = some x ∧ x ≤ v) ∧
      (∀ i : Int, p + 1 ≤ i → i ≤ 3 → ∃ x, rd S1 i = some x ∧ x > v) :=
  ⟨by decide, partition_postcondition [5, 3, 9, 1, 7] 1 3 0 (by decide) (by decide) (by decide)⟩

/-- C8. On a valid range `low ≤ high`, the index `p` returned by `partition` satisfies
`low ≤ p ≤ high`; the ranges `[low, p-1]` and `[p+1, high]` are strictly shorter than
`[low, high]` and stay inside it (the vector keeps its length). -/
theorem partition_index_bounds (S : List Int) (low high strategy : Int)
    (h0 : 0 ≤ low) (hlh : low ≤ high) (hh : high < S.length) :
    ∃ (S1 : List Int) (p : Int),
      partition S low high strategy = some (S1, p) ∧ S1.length = S.length ∧
      low ≤ p ∧ p ≤ high ∧
      (p - 1) - low < high - low ∧ high - (p + 1) < high - low ∧
      low ≤ (p - 1) + 1 ∧ p - 1 ≤ high ∧ low ≤ p + 1 ∧ (p + 1) ≤ high + 1 := by
  obtain ⟨A, M, C, hS, hA, hM, -⟩ := range_split S low high h0 (by omega) hh
  have hne : M ≠ [] := by intro h; subst h; simp at hM; omega
  obtain ⟨Ls, Gs, pv, hpart, hperm, -, -, -⟩ :=
    partition_segments A M C low high strategy hne hA.symm (by omega)
  have hlen := hperm.length_eq
  simp only [List.length_append, List.length_cons] at hlen
  refine ⟨_, _, by rw [hS]; exact hpart, ?_, ?_⟩
  · rw [hS]; simp only [List.length_append, List.length_cons]; omega
  · omega

theorem partition_index_bounds_witness :
    ((0 : Int) ≤ 1 ∧ (1 : Int) ≤ 3 ∧ (3 : Int) < ([5, 3, 9, 1, 7] : List Int).length) ∧
    ∃ (S1 : List Int) (p : Int),
      partition [5, 3, 9, 1, 7] 1 3 1 = some (S1, p) ∧
      S1.length = ([5, 3, 9, 1, 7] : List Int).length ∧
      1 ≤ p ∧ p ≤ 3 ∧
      (p - 1) - 1 < 3 - 1 ∧ 3 - (p + 1) < 3 - 1 ∧
      1 ≤ (p - 1) + 1 ∧ p - 1 ≤ 3 ∧ 1 ≤ p + 1 ∧ (p + 1) ≤ 3 + 1 :=
  ⟨by decide, partition_index_bounds [5, 3, 9, 1, 7] 1 3 1 (by decide) (by decide) (by decide)⟩

/-- C9. `partition` returns the final index of the chosen pivot: the pivot is the element
that was at `low + (high-low)/2` (strategy `0`, middle), at `low` (strategy `1`, first) or
at `high` (any other strategy, last) before the call, and after the call the returned
index `p` holds exactly that value. -/
theorem partition_returns_pivot_index (S : List Int) (low high strategy : Int)
    (h0 : 0 ≤ low) (hlh : low ≤ high) (hh : high < S.length) :
    ∃ (S1 : List Int) (p v : Int),
      partition S low high strategy = some (S1, p) ∧
      rd S (if strategy = 0 then low + (high - low) / 2
            else if strategy = 1 then low else high) = some v ∧
      rd S1 p = some v := by
  obtain ⟨A, M, C, hS, hA, hM, -⟩ := range_split S low high h0 (by omega) hh
  have hne : M ≠ [] := by intro h; subst h; simp at hM; omega
  obtain ⟨Ls, Gs, pv, hpart, -, -, -, hpiv⟩ :=
    partition_segments A M C low high strategy hne hA.symm (by omega)
  refine ⟨_, _, pv, by rw [hS]; exact hpart, ?_, ?_⟩
  · have hd : (high - low).tdiv 2 = (high - low) / 2 :=
      Int.tdiv_eq_ediv (by omega) (by omega)
    rw [hS, ← hd]
    exact hpiv
  · have := rd_at (A ++ Ls) (Gs ++ C) pv ((A.length : Int) + Ls.length) (by simp)
    simpa using this

theorem partition_returns_pivot_index_witness :
    ((0 : Int) ≤ 0 ∧ (0 : Int) ≤ 4 ∧ (4 : Int) < ([5, 3, 9, 1, 7] : List Int).length) ∧
    ∃ (S1 : List Int) (p v : Int),
      partition [5, 3, 9, 1, 7] 0 4 0 = some (S1, p) ∧
      rd [5, 3, 9, 1, 7] (if (0 : Int) = 0 then 0 + (4 - 0) / 2
            else if (0 : Int) = 1 then 0 else 4) = some v ∧
      rd S1 p = some v :=
  ⟨by decide, partition_returns_pivot_index [5, 3, 9, 1, 7] 0 4 0 (by decide) (by decide) (by decide)⟩

/-- C10. `partition` only rearranges: on a valid range the elements at the indices
`low .. high` after the call are a permutation (same multiset) of those before. -/
theorem partition_rearranges (S : List Int) (low high strategy : Int)
    (h0 : 0 ≤ low) (hlh : low ≤ high) (hh : high < S.length) :
    ∃ (S1 : List Int) (p : Int),
      partition S low high strategy = some (S1, p) ∧
      (slice S1 low high).Perm (slice S low high) ∧
      ((slice S1 low high : List Int) : Multiset Int) = (slice S low high : List Int) := by
  obtain ⟨A, M, C, hS, hA, hM, hsl⟩ := range_split S low high h0 (by omega) hh
  have hne : M ≠ [] := by intro h; subst h; simp at hM; omega
  obtain ⟨Ls, Gs, pv, hpart, hperm, -, -, -⟩ :=
    partition_segments A M C low high strategy hne hA.symm (by omega)
  have hlen := hperm.length_eq
  simp only [List.length_append, List.length_cons] at hlen
  have h1 : slice (A ++ (Ls ++ pv :: (Gs ++ C))) low high = Ls ++ pv :: Gs := by
    have := slice_segments A (Ls ++ pv :: Gs) C low high hA.symm
      (by simp only [List.length_append, List.length_cons]; omega)
    simpa using this
  have hp : (slice (A ++ (Ls ++ pv :: (Gs ++ C))) low high).Perm (slice S low high) := by
    rw [h1, ← hsl]; exact hperm
  exact ⟨_, _, by rw [hS]; exact hpart, hp, Quotient.sound hp⟩

theorem partition_rearranges_witness :
    ((0 : Int) ≤ 1 ∧ (1 : Int) ≤ 3 ∧ (3 : Int) < ([5, 3, 9, 1, 7] : List Int).length) ∧
    ∃ (S1 : List Int) (p : Int),
      partition [5, 3, 9, 1, 7] 1 3 2 = some (S1, p) ∧
      (slice S1 1 3).Perm (slice [5, 3, 9, 1, 7] 1 3) ∧
      ((slice S1 1 3 : List Int) : Multiset Int) = (slice [5, 3, 9, 1, 7] 1 3 : List Int) :=
  ⟨by decide, partition_rearranges [5, 3, 9, 1, 7] 1 3 2 (by decide) (by decide) (by decide)⟩

/-! ## Claims on the sequential quicksort -/

/-- C1. On a valid range `0 ≤ low ≤ high < |S|` and for every pivot strategy,
`quick_sort_serial` returns a vector whose elements at `low .. high` are in pairwise
non-decreasing order and are a permutation of the elements that were there before;
on the full range the result is the reference sort `sorted S`. -/
theorem quick_sort_serial_sorts (S : List Int) (low high strategy : Int)
    (h0 : 0 ≤ low) (hlh : low ≤ high) (hh : high < S.length) :
    ∃ S1 : List Int,
      quick_sort_serial S low high strategy = some S1 ∧
      NonDecreasing (slice S1 low high) ∧
      (slice S1 low high).Perm (slice S low high) ∧
      (low = 0 → high = (S.length : Int) - 1 → S1 = sorted S) := by
  obtain ⟨A, M, C, hS, hA, hM, hsl⟩ := range_split S low high h0 (by omega) hh
  have hrun := quick_sort_serial_segments A M C low high strategy hA.symm (by omega)
  have h1 : slice (A ++ (sorted M ++ C)) low high = sorted M :=
    slice_segments A (sorted M) C low high hA.symm (by rw [sorted_length]; omega)
  refine ⟨_, by rw [hS]; exact hrun, ?_, ?_, ?_⟩
  · rw [h1]; exact sorted_nonDecreasing M
  · rw [h1, ← hsl]; exact sorted_perm M
  · intro hl hhi
    have hAnil : A = [] := List.length_eq_zero.mp (by omega)
    have hCnil : C = [] := by
      have := congrArg List.length hS
      simp only [List.length_append] at this
      exact List.length_eq_zero.mp (by omega)
    subst hAnil hCnil
    simp at hS
    simp [hS]

theorem quick_sort_serial_sorts_witness :
    ((0 : Int) ≤ 0 ∧ (0 : Int) ≤ 4 ∧ (4 : Int) < ([5, 3, 9, 1, 7] : List Int).length) ∧
    ∃ S1 : List Int,
      quick_sort_serial [5, 3, 9, 1, 7] 0 4 1 = some S1 ∧
      NonDecreasing (slice S1 0 4) ∧
      (slice S1 0 4).Perm (slice [5, 3, 9, 1, 7] 0 4) ∧
      ((0 : Int) = 0 → (4 : Int) = (([5, 3, 9, 1, 7] : List Int).length : Int) - 1 →
        S1 = sorted [5, 3, 9, 1, 7]) :=
  ⟨by decide, quick_sort_serial_sorts [5, 3, 9, 1, 7] 0 4 1 (by decide) (by decide) (by decide)⟩


/-! ## `merge` -/

/-- The copy loop fills the buffer with the source segment. -/
theorem copyLoop_segments (Src : List Int) :
    ∀ (X Y Done Z : List Int) (base i : Int),
      Z.length = Src.length → base + i = X.length → i = Done.length →
      copyLoop (X ++ (Src ++ Y)) base Src.length i (Done ++ Z) = some (Done ++ Src) := by
  induction Src with
  | nil =>
    intro X Y Done Z base i hZ _ _
    have : Z = [] := List.length_eq_zero.mp (by simpa using hZ)
    subst this
    simp [copyLoop]
  | cons x Src ih =>
    intro X Y Done Z base i hZ hb hi
    cases Z with
    | nil => simp at hZ
    | cons z Zs =>
      have hrd : rd (X ++ (x :: Src ++ Y)) (base + i) = some x := by
        have := rd_at X (Src ++ Y) x (base + i) hb
        simpa using this
      have hwr : wr (Done ++ z :: Zs) i x = some (Done ++ x :: Zs) := wr_at Done Zs z x i hi
      have hrec := ih (X ++ [x]) Y (Done ++ [x]) Zs base (i + 1) (by simpa using hZ)
        (by simp; omega) (by simp; omega)
      simp only [List.length_cons, copyLoop, hrd, hwr, Option.bind_eq_bind, Option.some_bind]
      simpa using hrec

/-- The loops copying the rest of a buffer write it over the next positions. -/
theorem drainLoop_segments (Br : List Int) :
    ∀ (Bi P J C : List Int) (i k : Int),
      J.length = Br.length → i = Bi.length → k = P.length →
      drainLoop (Bi ++ Br) Br.length (P ++ (J ++ C)) i k
        = some (P ++ (Br ++ C), k + Br.length) := by
  induction Br with
  | nil =>
    intro Bi P J C i k hJ _ _
    have : J = [] := List.length_eq_zero.mp (by simpa using hJ)
    subst this
    simp [drainLoop]
  | cons x Br ih =>
    intro Bi P J C i k hJ hi hk
    cases J with
    | nil => simp at hJ
    | cons z Js =>
      have hrd : rd (Bi ++ x :: Br) i = some x := rd_at Bi Br x i hi
      have hwr : wr (P ++ (z :: Js ++ C)) k x = some (P ++ x :: (Js ++ C)) := by
        have := wr_at P (Js ++ C) z x k hk
        simpa using this
      have hrec := ih (Bi ++ [x]) (P ++ [x]) Js C (i + 1) (k + 1) (by simpa using hJ)
        (by simp; omega) (by simp; omega)
      simp only [List.length_cons, drainLoop, hrd, hwr, Option.bind_eq_bind, Option.some_bind]
      simp only [List.append_assoc, List.singleton_append] at hrec
      rw [hrec]
      simp; omega

/-- The main loop of `merge` in segment form: with `Lr`, `Rr` the unread parts of the two
buffers, it writes a prefix `Out` of `List.merge Lr Rr` and stops when one buffer is
exhausted. -/
theorem mergeLoop_segments (fuel : Nat) :
    ∀ (Li Lr Rj Rr P J C : List Int) (n1 n2 i j k : Int),
      Lr.length + Rr.length ≤ fuel → J.length = Lr.length + Rr.length →
      i = Li.length → j = Rj.length → k = P.length →
      n1 = (Li.length : Int) + Lr.length → n2 = (Rj.length : Int) + Rr.length →
      ∃ (Out Li1 Lr1 Rj1 Rr1 J1 : List Int),
        mergeLoop (Li ++ Lr) (Rj ++ Rr) n1 n2 fuel (P ++ (J ++ C)) i j k
          = some (P ++ (Out ++ (J1 ++ C)), (Li1.length : Int), (Rj1.length : Int),
              k + Out.length) ∧
        Li ++ Lr = Li1 ++ Lr1 ∧ Rj ++ Rr = Rj1 ++ Rr1 ∧
        J1.length = Lr1.length + Rr1.length ∧ (Lr1 = [] ∨ Rr1 = []) ∧
        List.merge Lr Rr (fun a b => decide (a ≤ b)) = Out ++ (Lr1 ++ Rr1) := by
  induction fuel with
  | zero =>
    intro Li Lr Rj Rr P J C n1 n2 i j k hf hJ hi hj hk hn1 hn2
    have hL : Lr = [] := List.length_eq_zero.mp (by omega)
    have hR : Rr = [] := List.length_eq_zero.mp (by omega)
    subst hL hR
    refine ⟨[], Li, [], Rj, [], J, ?_, rfl, rfl, by simpa using hJ, Or.inl rfl, by simp⟩
    have hc : ¬ (i < n1 ∧ j < n2) := by simp at hn1; omega
    simp only [mergeLoop, hc, if_false]
    simp [hi, hj]
  | succ fuel ih =>
    intro Li Lr Rj Rr P J C n1 n2 i j k hf hJ hi hj hk hn1 hn2
    cases Lr with
    | nil =>
      refine ⟨[], Li, [], Rj, Rr, J, ?_, rfl, rfl, by simpa using hJ, Or.inl rfl, by simp⟩
      have hc : ¬ (i < n1 ∧ j < n2) := by simp at hn1; omega
      simp only [mergeLoop, hc, if_false]
      simp [hi, hj]
    | cons x Lr =>
      cases Rr with
      | nil =>
        refine ⟨[], Li, x :: Lr, Rj, [], J, ?_, rfl, rfl, by simpa using hJ, Or.inr rfl,
          by simp⟩
        have hc : ¬ (i < n1 ∧ j < n2) := by simp at hn2; omega
        simp only [mergeLoop, hc, if_false]
        simp [hi, hj]
      | cons y Rr =>
        simp only [List.length_cons, Nat.cast_add, Nat.cast_one] at hn1 hn2 hf hJ
        have hc : i < n1 ∧ j < n2 := by omega
        have hrx : rd (Li ++ x :: Lr) i = some x := rd_at Li Lr x i hi
        have hry : rd (Rj ++ y :: Rr) j = some y := rd_at Rj Rr y j hj
        cases J with
        | nil => simp at hJ; omega
        | cons z Js =>
          simp only [List.length_cons] at hJ
          by_cases hxy : x ≤ y
          · have hwr : wr (P ++ (z :: Js ++ C)) k x = some (P ++ x :: (Js ++ C)) := by
              have := wr_at P (Js ++ C) z x k hk
              simpa using this
            obtain ⟨Out, Li1, Lr1, Rj1, Rr1, J1, hrun, hL, hR, hJ1, hor, hm⟩ :=
              ih (Li ++ [x]) Lr Rj (y :: Rr) (P ++ [x]) Js C n1 n2 (i + 1) j (k + 1)
                (by simp; omega) (by simp; omega) (by simp; omega) hj (by simp; omega)
                (by simp; omega) (by simp; omega)
            refine ⟨x :: Out, Li1, Lr1, Rj1, Rr1, J1, ?_, by simpa using hL, hR, hJ1, hor, ?_⟩
            · simp only [mergeLoop, hc, and_self, if_true, hrx, hry, hxy, hwr,
                Option.bind_eq_bind, Option.some_bind]
              simp only [List.append_assoc, List.singleton_append] at hrun
              rw [hrun]
              simp; omega
            · rw [List.cons_merge_cons_pos _ _ _ (by simpa using hxy), hm]
              simp
          · have hwr : wr (P ++ (z :: Js ++ C)) k y = some (P ++ y :: (Js ++ C)) := by
              have := wr_at P (Js ++ C) z y k hk
              simpa using this
            obtain ⟨Out, Li1, Lr1, Rj1, Rr1, J1, hrun, hL, hR, hJ1, hor, hm⟩ :=
              ih Li (x :: Lr) (Rj ++ [y]) Rr (P ++ [y]) Js C n1 n2 i (j + 1) (k + 1)
                (by simp; omega) (by simp; omega) hi (by simp; omega) (by simp; omega)
                (by simp; omega) (by simp; omega)
            refine ⟨y :: Out, Li1, Lr1, Rj1, Rr1, J1, ?_, hL, by simpa using hR, hJ1, hor, ?_⟩
            · simp only [mergeLoop, hc, and_self, if_true, hrx, hry, hxy, hwr, if_false,
                Option.bind_eq_bind, Option.some_bind]
              simp only [List.append_assoc, List.singleton_append] at hrun
              rw [hrun]
              simp; omega
            · rw [List.cons_merge_cons_neg _ _ _ (by simpa using hxy), hm]
              simp


/-- Result of `merge` in segment form: on `A ++ Lm ++ Rm ++ C` with `[l, m]` holding `Lm`
and `[m+1, r]` holding `Rm` (either may be empty, neither need be sorted), it returns
`A ++ List.merge Lm Rm ++ C`. -/
theorem merge_segments (A Lm Rm C : List Int) (l m r : Int) (hl : l = A.length)
    (hm : m = (A.length : Int) + Lm.length - 1)
    (hr : r = (A.length : Int) + Lm.length + Rm.length - 1) :
    merge (A ++ (Lm ++ (Rm ++ C))) l m r
      = some (A ++ (List.merge Lm Rm (fun a b => decide (a ≤ b)) ++ C)) := by
  have hn1 : (m - l + 1).toNat = Lm.length := by omega
  have hn2 : (r - m).toNat = Rm.length := by omega
  have hneg : ¬ (m - l + 1 < 0 ∨ r - m < 0) := by omega
  have hcL : copyLoop (A ++ (Lm ++ (Rm ++ C))) l Lm.length 0 (List.replicate Lm.length 0)
      = some Lm := by
    have := copyLoop_segments Lm A (Rm ++ C) [] (List.replicate Lm.length 0) l 0
      (by simp) (by simp [hl]) (by simp)
    simpa using this
  have hcR : copyLoop (A ++ (Lm ++ (Rm ++ C))) (m + 1) Rm.length 0 (List.replicate Rm.length 0)
      = some Rm := by
    have := copyLoop_segments Rm (A ++ Lm) C [] (List.replicate Rm.length 0) (m + 1) 0
      (by simp) (by simp [hm]) (by simp)
    simpa using this
  obtain ⟨Out, Li1, Lr1, Rj1, Rr1, J1, hrun, hL, hR, hJ1, -, hmerge⟩ :=
    mergeLoop_segments (Lm.length + Rm.length) [] Lm [] Rm A (Lm ++ Rm) C
      (m - l + 1) (r - m) 0 0 l (le_refl _) (by simp) (by simp) (by simp) hl
      (by simp; omega) (by simp; omega)
  simp only [List.nil_append, List.append_assoc] at hrun hL hR
  have hLlen : Lm.length = Li1.length + Lr1.length := by rw [hL]; simp
  have hRlen : Rm.length = Rj1.length + Rr1.length := by rw [hR]; simp
  have hd1 : (m - l + 1 - (Li1.length : Int)).toNat = Lr1.length := by omega
  have hd2 : (r - m - (Rj1.length : Int)).toNat = Rr1.length := by omega
  have hJsplit : J1 = J1.take Lr1.length ++ J1.drop Lr1.length :=
    (List.take_append_drop _ _).symm
  have hdrL : drainLoop Lm Lr1.length (A ++ (Out ++ (J1 ++ C))) (Li1.length : Int)
      (l + Out.length)
      = some (A ++ (Out ++ (Lr1 ++ (J1.drop Lr1.length ++ C))), l + Out.length + Lr1.length) := by
    have := drainLoop_segments Lr1 Li1 (A ++ Out) (J1.take Lr1.length)
      (J1.drop Lr1.length ++ C) (Li1.length : Int) (l + Out.length)
      (by simp; omega) rfl (by simp [hl])
    rw [← hL] at this
    rw [← List.append_assoc (J1.take _), ← hJsplit] at this
    simpa using this
  have hdrR : drainLoop Rm Rr1.length (A ++ (Out ++ (Lr1 ++ (J1.drop Lr1.length ++ C))))
      (Rj1.length : Int) (l + Out.length + Lr1.length)
      = some (A ++ (Out ++ (Lr1 ++ (Rr1 ++ C))), l + Out.length + Lr1.length + Rr1.length) := by
    have := drainLoop_segments Rr1 Rj1 (A ++ (Out ++ Lr1)) (J1.drop Lr1.length) C
      (Rj1.length : Int) (l + Out.length + Lr1.length)
      (by simp; omega) rfl (by simp [hl]; omega)
    rw [← hR] at this
    simpa using this
  simp only [merge, hneg, if_false, hn1, hn2, hcL, hcR, Option.bind_eq_bind, Option.some_bind]
  rw [hrun]
  simp only [Option.some_bind, hd1, hd2, hdrL, hdrR, hmerge, List.append_assoc]

/-! ## `serialMergeSort` -/

/-- Merging the two sorted halves gives the sorted whole. -/
theorem merge_sorted_halves (M1 M2 : List Int) :
    List.merge (sorted M1) (sorted M2) (fun a b => decide (a ≤ b)) = sorted (M1 ++ M2) := by
  apply eq_sorted_of_perm
  · exact (List.merge_perm_append _).trans ((sorted_perm M1).append (sorted_perm M2))
  · exact List.Sorted.merge (r := (· ≤ ·)) (sorted_nonDecreasing M1) (sorted_nonDecreasing M2)

/-- Result of the merge sort in segment form: on `A ++ M ++ C` and the range holding `M`
it returns `A ++ sorted M ++ C`, with any bound of at least `|M|` (and `1`) on the depth. -/
theorem serialMergeSortFuel_segments :
    ∀ (fuel : Nat) (M A C : List Int) (l r : Int),
      M.length ≤ fuel → 1 ≤ fuel → l = A.length →
      r = (A.length : Int) + M.length - 1 →
      serialMergeSortFuel fuel (A ++ (M ++ C)) l r = some (A ++ (sorted M ++ C)) := by
  intro fuel
  induction fuel with
  | zero => intro M A C l r _ h1; omega
  | succ fuel ih =>
    intro M A C l r hlen _ hl hr
    by_cases hge : l ≥ r
    · have hshort : M.length ≤ 1 := by omega
      simp [serialMergeSortFuel, hge, sorted_short M hshort]
    · have hd : (r - l).tdiv 2 = (r - l) / 2 := Int.tdiv_eq_ediv (by omega) (by omega)
      have hM2 : 2 ≤ M.length := by omega
      obtain ⟨M1, M2, hsplit, hM1⟩ : ∃ M1 M2, M = M1 ++ M2 ∧
          M1.length = (M.length - 1) / 2 + 1 :=
        ⟨M.take ((M.length - 1) / 2 + 1), M.drop ((M.length - 1) / 2 + 1),
          (List.take_append_drop _ _).symm, by simp; omega⟩
      have hlenM : M.length = M1.length + M2.length := by rw [hsplit]; simp
      have hmid : l + (r - l) / 2 = (A.length : Int) + M1.length - 1 := by omega
      subst hsplit
      have h1 : serialMergeSortFuel fuel (A ++ (M1 ++ (M2 ++ C))) l
          ((A.length : Int) + M1.length - 1) = some (A ++ (sorted M1 ++ (M2 ++ C))) :=
        ih M1 A (M2 ++ C) l _ (by omega) (by omega) hl rfl
      have h2 : serialMergeSortFuel fuel (A ++ (sorted M1 ++ (M2 ++ C)))
          ((A.length : Int) + M1.length - 1 + 1) r
          = some (A ++ (sorted M1 ++ (sorted M2 ++ C))) := by
        have := ih M2 (A ++ sorted M1) C ((A.length : Int) + M1.length - 1 + 1) r
          (by omega) (by omega) (by simp [sorted_length])
          (by simp [sorted_length]; omega)
        simpa using this
      have h3 : merge (A ++ (sorted M1 ++ (sorted M2 ++ C))) l
          ((A.length : Int) + M1.length - 1) r
          = some (A ++ (sorted (M1 ++ M2) ++ C)) := by
        rw [← merge_sorted_halves]
        exact merge_segments A (sorted M1) (sorted M2) C l _ r hl
          (by simp [sorted_length]) (by simp [sorted_length]; omega)
      simp only [serialMergeSortFuel, hge, if_false, hd, hmid, List.append_assoc, h1, h2, h3,
        Option.bind_eq_bind, Option.some_bind]

theorem serialMergeSort_segments (A M C : List Int) (l r : Int)
    (hl : l = A.length) (hr : r = (A.length : Int) + M.length - 1) :
    serialMergeSort (A ++ (M ++ C)) l r = some (A ++ (sorted M ++ C)) :=
  serialMergeSortFuel_segments _ M A C l r (by omega) (by omega) hl hr


/-! ## Claims on the sequential merge sort -/

/-- C2. On a valid range `0 ≤ l ≤ r < |S|`, `serialMergeSort` returns a vector whose
elements at `l .. r` are in pairwise non-decreasing order and are a permutation of the
elements that were there before; on the full range the result is the reference sort
`sorted S`. -/
theorem serialMergeSort_sorts (S : List Int) (l r : Int)
    (h0 : 0 ≤ l) (hlr : l ≤ r) (hr : r < S.length) :
    ∃ S1 : List Int,
      serialMergeSort S l r = some S1 ∧
      NonDecreasing (slice S1 l r) ∧
      (slice S1 l r).Perm (slice S l r) ∧
      (l = 0 → r = (S.length : Int) - 1 → S1 = sorted S) := by
  obtain ⟨A, M, C, hS, hA, hM, hsl⟩ := range_split S l r h0 (by omega) hr
  have hrun := serialMergeSort_segments A M C l r hA.symm (by omega)
  have h1 : slice (A ++ (sorted M ++ C)) l r = sorted M :=
    slice_segments A (sorted M) C l r hA.symm (by rw [sorted_length]; omega)
  refine ⟨_, by rw [hS]; exact hrun, ?_, ?_, ?_⟩
  · rw [h1]; exact sorted_nonDecreasing M
  · rw [h1, ← hsl]; exact sorted_perm M
  · intro hl hhi
    have hAnil : A = [] := List.length_eq_zero.mp (by omega)
    have hCnil : C = [] := by
      have := congrArg List.length hS
      simp only [List.length_append] at this
      exact List.length_eq_zero.mp (by omega)
    subst hAnil hCnil
    simp at hS
    simp [hS]

theorem serialMergeSort_sorts_witness :
    ((0 : Int) ≤ 1 ∧ (1 : Int) ≤ 4 ∧ (4 : Int) < ([5, 3, 9, 1, 7, 2] : List Int).length) ∧
    ∃ S1 : List Int,
      serialMergeSort [5, 3, 9, 1, 7, 2] 1 4 = some S1 ∧
      NonDecreasing (slice S1 1 4) ∧
      (slice S1 1 4).Perm (slice [5, 3, 9, 1, 7, 2] 1 4) ∧
      ((1 : Int) = 0 → (4 : Int) = (([5, 3, 9, 1, 7, 2] : List Int).length : Int) - 1 →
        S1 = sorted [5, 3, 9, 1, 7, 2]) :=
  ⟨by decide, serialMergeSort_sorts [5, 3, 9, 1, 7, 2] 1 4 (by decide) (by decide) (by decide)⟩

/-- C6. For every vector `S` (the empty one included) and all pivot strategies, the quicksort
and the merge sort on the full range return the same vector, namely `sorted S`; so the
result of the quicksort does not depend on the pivot strategy. -/
theorem quick_sort_eq_merge_sort (S : List Int) (strategy strategy2 : Int) :
    quick_sort_serial S 0 ((S.length : Int) - 1) strategy
      = serialMergeSort S 0 ((S.length : Int) - 1) ∧
    quick_sort_serial S 0 ((S.length : Int) - 1) strategy = some (sorted S) ∧
    quick_sort_serial S 0 ((S.length : Int) - 1) strategy
      = quick_sort_serial S 0 ((S.length : Int) - 1) strategy2 := by
  have hq : ∀ s : Int, quick_sort_serial S 0 ((S.length : Int) - 1) s = some (sorted S) := by
    intro s
    have := quick_sort_serial_segments [] S [] 0 ((S.length : Int) - 1) s (by simp) (by simp)
    simpa using this
  have hm : serialMergeSort S 0 ((S.length : Int) - 1) = some (sorted S) := by
    have := serialMergeSort_segments [] S [] 0 ((S.length : Int) - 1) (by simp) (by simp)
    simpa using this
  exact ⟨by rw [hq, hm], hq strategy, by rw [hq, hq]⟩


/-! ## The task pool of the parallel quicksort -/

theorem sortRange_length (arr : List Int) (t : Int × Int) :
    (sortRange arr t).length = arr.length := by
  unfold sortRange
  split_ifs with h
  · obtain ⟨h0, h1, h2⟩ := h
    simp only [List.length_append, List.length_take, List.length_drop, sorted_length, slice]
    omega
  · rfl

theorem sortRange_segments (A M C : List Int) (low high : Int) (hlow : low = A.length)
    (hhigh : high = (A.length : Int) + M.length - 1) :
    sortRange (A ++ (M ++ C)) (low, high) = A ++ (sorted M ++ C) := by
  unfold sortRange
  split_ifs with h
  · obtain ⟨h0, h1, h2⟩ := h
    simp only at h0 h1 h2 ⊢
    rw [slice_segments A M C low high hlow hhigh]
    have ht : low.toNat = A.length := by omega
    have hd : (high + 1).toNat = A.length + M.length := by omega
    rw [ht, hd, List.take_left, ← List.append_assoc A M C, ← List.length_append,
      List.drop_left]
  · have hshort : M.length ≤ 1 := by
      by_contra hc
      apply h
      simp only [List.length_append]
      omega
    rw [sorted_short M hshort]

theorem quick_sort_serial_eq_sortRange (arr : List Int) (low high s : Int)
    (h : InRange arr.length (low, high)) :
    quick_sort_serial arr low high s = some (sortRange arr (low, high)) := by
  by_cases hlt : low < high
  · obtain ⟨h0, h1⟩ := h hlt
    obtain ⟨A, M, C, hS, hA, hM, -⟩ := range_split arr low high h0 (by omega) h1
    rw [hS, quick_sort_serial_segments A M C low high s hA.symm (by omega),
      sortRange_segments A M C low high hA.symm (by omega)]
  · have h1 : sortRange arr (low, high) = arr := by
      unfold sortRange
      rw [if_neg]
      simp only; omega
    rw [h1]
    simp [quick_sort_serial, quickSortSerialFuel, hlt]

/-- One partition step followed by the sorts of both sides is the sort of the range. -/
theorem partition_then_sortRange (arr : List Int) (low high s : Int) (hlt : low < high)
    (h0 : 0 ≤ low) (h1 : high < arr.length) :
    ∃ (arr1 : List Int) (p : Int),
      partition arr low high s = some (arr1, p) ∧ arr1.length = arr.length ∧
      low ≤ p ∧ p ≤ high ∧
      sortRange (sortRange arr1 (low, p - 1)) (p + 1, high) = sortRange arr (low, high) := by
  obtain ⟨A, M, C, hS, hA, hM, -⟩ := range_split arr low high h0 (by omega) h1
  have hne : M ≠ [] := by intro h; subst h; simp at hM; omega
  obtain ⟨Ls, Gs, pv, hpart, hperm, hL, hG, -⟩ :=
    partition_segments A M C low high s hne hA.symm (by omega)
  have hlen := hperm.length_eq
  simp only [List.length_append, List.length_cons] at hlen
  refine ⟨_, _, by rw [hS]; exact hpart, ?_, by omega, by omega, ?_⟩
  · rw [hS]; simp only [List.length_append, List.length_cons]; omega
  · have e1 : sortRange (A ++ (Ls ++ pv :: (Gs ++ C))) (low, (A.length : Int) + Ls.length - 1)
        = A ++ (sorted Ls ++ pv :: (Gs ++ C)) :=
      sortRange_segments A Ls (pv :: (Gs ++ C)) low _ hA.symm rfl
    have e2 : sortRange (A ++ (sorted Ls ++ pv :: (Gs ++ C)))
        ((A.length : Int) + Ls.length + 1, high)
        = A ++ (sorted Ls ++ pv :: (sorted Gs ++ C)) := by
      have := sortRange_segments (A ++ (sorted Ls ++ [pv])) Gs C
        ((A.length : Int) + Ls.length + 1) high (by simp [sorted_length]; omega)
        (by simp [sorted_length]; omega)
      simpa using this
    rw [e1, e2, hS, sortRange_segments A M C low high hA.symm (by omega),
      ← sorted_around_pivot M Ls Gs pv hperm hL hG]
    simp

/-- Sorting two ranges that share no index can be done in either order. -/
theorem sortRange_comm_of_lt (arr : List Int) (t u : Int × Int) (h : t.2 < u.1) :
    sortRange (sortRange arr t) u = sortRange (sortRange arr u) t := by
  by_cases ht : 0 ≤ t.1 ∧ t.1 < t.2 ∧ t.2 < arr.length
  · by_cases hu : 0 ≤ u.1 ∧ u.1 < u.2 ∧ u.2 < arr.length
    · obtain ⟨X, M2, C, hS, hX, hM2, -⟩ :=
        range_split arr u.1 u.2 hu.1 (by omega) hu.2.2
      obtain ⟨A, M1, B, hSX, hA, hM1, -⟩ :=
        range_split X t.1 t.2 ht.1 (by omega) (by omega)
      have hXlen := congrArg List.length hSX
      simp only [List.length_append] at hXlen
      subst hSX
      subst hS
      have a1 : sortRange (A ++ (M1 ++ B) ++ (M2 ++ C)) t
          = A ++ (sorted M1 ++ (B ++ (M2 ++ C))) := by
        have := sortRange_segments A M1 (B ++ (M2 ++ C)) t.1 t.2 hA.symm (by omega)
        simpa using this
      have a2 : sortRange (A ++ (sorted M1 ++ (B ++ (M2 ++ C)))) u
          = A ++ (sorted M1 ++ (B ++ (sorted M2 ++ C))) := by
        have := sortRange_segments (A ++ (sorted M1 ++ B)) M2 C u.1 u.2
          (by simp [sorted_length]; omega) (by simp [sorted_length]; omega)
        simpa using this
      have b1 : sortRange (A ++ (M1 ++ B) ++ (M2 ++ C)) u
          = A ++ (M1 ++ (B ++ (sorted M2 ++ C))) := by
        have := sortRange_segments (A ++ (M1 ++ B)) M2 C u.1 u.2
          (by simp; omega) (by simp; omega)
        simpa using this
      have b2 : sortRange (A ++ (M1 ++ (B ++ (sorted M2 ++ C)))) t
          = A ++ (sorted M1 ++ (B ++ (sorted M2 ++ C))) :=
        sortRange_segments A M1 (B ++ (sorted M2 ++ C)) t.1 t.2 hA.symm (by omega)
      rw [a1, a2, b1, b2]
    · have e : ∀ a : List Int, a.length = arr.length → sortRange a u = a := by
        intro a ha
        unfold sortRange
        rw [if_neg]
        rw [ha]; exact hu
      rw [e arr rfl, e _ (sortRange_length arr t)]
  · have e : ∀ a : List Int, a.length = arr.length → sortRange a t = a := by
      intro a ha
      unfold sortRange
      rw [if_neg]
      rw [ha]; exact ht
    rw [e arr rfl, e _ (sortRange_length arr u)]

theorem sortRange_comm (arr : List Int) (t u : Int × Int) (h : Sep t u) :
    sortRange (sortRange arr t) u = sortRange (sortRange arr u) t := by
  rcases h with h | h
  · exact sortRange_comm_of_lt arr t u h
  · exact (sortRange_comm_of_lt arr u t h).symm

/-- A range can be sorted before or after a pool of ranges that share no index with it. -/
theorem finish_comm (t : Int × Int) (P : List (Int × Int)) :
    ∀ arr : List Int, (∀ u ∈ P, Sep t u) →
      sortRange (finish arr P) t = finish (sortRange arr t) P := by
  induction P with
  | nil => intro arr _; rfl
  | cons u P ih =>
    intro arr hsep
    have hu : Sep t u := hsep u (by simp)
    have := ih (sortRange arr u) (fun v hv => hsep v (by simp [hv]))
    simp only [finish, List.foldl_cons] at this ⊢
    rw [this, sortRange_comm arr t u hu]

theorem finish_append (arr : List Int) (P Q : List (Int × Int)) :
    finish arr (P ++ Q) = finish (finish arr P) Q := by
  simp [finish, List.foldl_append]

theorem finish_length (P : List (Int × Int)) :
    ∀ arr : List Int, (finish arr P).length = arr.length := by
  induction P with
  | nil => intro arr; rfl
  | cons u P ih =>
    intro arr
    simp only [finish, List.foldl_cons] at ih ⊢
    rw [ih, sortRange_length]

theorem poolWeight_append (P Q : List (Int × Int)) :
    poolWeight (P ++ Q) = poolWeight P + poolWeight Q := by
  induction P with
  | nil => simp [poolWeight]
  | cons t P ih => simp [poolWeight, ih]; omega

/-- Picking the task at position `k` of a pool. -/
theorem pool_pick (pool : List (Int × Int)) (k : Nat) (d : Int × Int) (hk : k < pool.length) :
    ∃ P1 P2, pool = P1 ++ pool.getD k d :: P2 ∧ pool.eraseIdx k = P1 ++ P2 := by
  refine ⟨pool.take k, pool.drop (k + 1), ?_, List.eraseIdx_eq_take_drop_succ _ _⟩
  rw [List.getD_eq_getElem _ _ hk, ← List.drop_eq_getElem_cons hk, List.take_append_drop]


theorem finish_pick (arr : List Int) (task : Int × Int) (P1 P2 : List (Int × Int))
    (hsep : ∀ u ∈ P1, Sep task u) :
    finish arr (P1 ++ task :: P2) = finish (sortRange arr task) (P1 ++ P2) := by
  rw [finish_append, finish_append, ← finish_comm task P1 arr hsep]
  rfl

/-- The two outcomes of one execution of the body of `quick_sort_task`: the range is
sorted and no task is created, or the range is partitioned and two tasks are created
for the two sides of the pivot. -/
theorem quick_sort_task_cases (cutoff : Int) (arr : List Int) (low high s : Int)
    (h : InRange arr.length (low, high)) :
    quick_sort_task cutoff arr low high s = some (sortRange arr (low, high), []) ∨
    (low < high ∧ ∃ (arr1 : List Int) (p : Int),
      quick_sort_task cutoff arr low high s = some (arr1, [(low, p - 1), (p + 1, high)]) ∧
      arr1.length = arr.length ∧ low ≤ p ∧ p ≤ high ∧
      sortRange (sortRange arr1 (low, p - 1)) (p + 1, high) = sortRange arr (low, high)) := by
  by_cases hlt : low < high
  · by_cases hc : high - low < cutoff
    · left
      simp [quick_sort_task, hlt, hc, quick_sort_serial_eq_sortRange arr low high s h]
    · right
      obtain ⟨h0, h1⟩ := h hlt
      obtain ⟨arr1, p, hpart, hlen, hp1, hp2, hsort⟩ :=
        partition_then_sortRange arr low high s hlt h0 h1
      exact ⟨hlt, arr1, p, by simp [quick_sort_task, hlt, hc, hpart], hlen, hp1, hp2, hsort⟩
  · left
    have h1 : sortRange arr (low, high) = arr := by
      unfold sortRange
      rw [if_neg]
      simp only; omega
    simp [quick_sort_task, hlt, h1]

/-- Whatever the scheduler chooses, the pool is drained within `poolWeight` task executions
and the vector is then the one with every pending range sorted. -/
theorem runTasks_finish (cutoff s : Int) (sched : Nat → Nat) :
    ∀ (fuel step : Nat) (arr : List Int) (pool : List (Int × Int)),
      (∀ t ∈ pool, InRange arr.length t) → pool.Pairwise Sep → poolWeight pool ≤ fuel →
      runTasks cutoff s sched fuel step arr pool = some (finish arr pool) := by
  intro fuel
  induction fuel with
  | zero =>
    intro step arr pool _ _ hw
    cases pool with
    | nil => rfl
    | cons t ts => simp [poolWeight] at hw
  | succ fuel ih =>
    intro step arr pool hin hsep hw
    cases pool with
    | nil => rfl
    | cons t ts =>
      have hk : sched step % (t :: ts).length < (t :: ts).length :=
        Nat.mod_lt _ (by simp)
      obtain ⟨P1, P2, hpool, herase⟩ := pool_pick (t :: ts) _ t hk
      rw [runTasks]
      simp only [herase]
      generalize (t :: ts).getD (sched step % (t :: ts).length) t = task at hpool
      rw [hpool] at hin hsep hw ⊢
      have htask : InRange arr.length task := hin task (by simp)
      rw [List.pairwise_append, List.pairwise_cons] at hsep
      obtain ⟨hsP1, ⟨hsT2, hsP2⟩, hs12⟩ := hsep
      have hsT1 : ∀ u ∈ P1, Sep task u := by
        intro u hu
        rcases hs12 u hu task (by simp) with h | h
        · exact Or.inr h
        · exact Or.inl h
      have hsQ : (P1 ++ P2).Pairwise Sep := by
        rw [List.pairwise_append]
        exact ⟨hsP1, hsP2, fun a ha b hb => hs12 a ha b (by simp [hb])⟩
      have hsTQ : ∀ u ∈ P1 ++ P2, Sep task u := by
        intro u hu
        rcases List.mem_append.mp hu with hu | hu
        · exact hsT1 u hu
        · exact hsT2 u hu
      have hinQ : ∀ n : Nat, n = arr.length → ∀ u ∈ P1 ++ P2, InRange n u := by
        intro n hn u hu
        rw [hn]
        apply hin
        rcases List.mem_append.mp hu with hu | hu
        · simp [hu]
        · simp [hu]
      simp only [poolWeight_append, poolWeight] at hw
      rcases quick_sort_task_cases cutoff arr task.1 task.2 s htask with hq | ⟨hlt, arr1, p, hq, hlen, hp1, hp2, hsort⟩
      · simp only [hq, List.append_nil]
        rw [ih (step + 1) (sortRange arr task) (P1 ++ P2)
          (hinQ _ (sortRange_length arr task)) hsQ (by rw [poolWeight_append]; omega)]
        rw [finish_pick arr task P1 P2 hsT1]
      · simp only [hq]
        have hc1 : ∀ u ∈ P1 ++ P2, Sep (task.1, p - 1) u := by
          intro u hu
          rcases hsTQ u hu with h | h
          · exact Or.inl (by simp only; omega)
          · exact Or.inr (by simp only; omega)
        have hc2 : ∀ u ∈ P1 ++ P2, Sep (p + 1, task.2) u := by
          intro u hu
          rcases hsTQ u hu with h | h
          · exact Or.inl (by simp only; omega)
          · exact Or.inr (by simp only; omega)
        have hin1 := htask hlt
        rw [ih (step + 1) arr1 (P1 ++ P2 ++ [(task.1, p - 1), (p + 1, task.2)])]
        · rw [finish_append, finish_pick arr task P1 P2 hsT1, ← hsort,
            ← finish_comm _ _ _ hc2, ← finish_comm _ _ _ hc1]
          rfl
        · intro u hu
          rcases List.mem_append.mp hu with hu | hu
          · exact hinQ _ hlen u hu
          · simp only [List.mem_cons, List.mem_singleton, List.not_mem_nil, or_false] at hu
            rcases hu with hu | hu
            · subst hu; intro _; simp only at *; rw [hlen]; omega
            · subst hu; intro _; simp only at *; rw [hlen]; omega
        · rw [List.pairwise_append]
          refine ⟨hsQ, ?_, ?_⟩
          · simp only [List.pairwise_cons, List.mem_singleton, List.not_mem_nil,
              forall_eq, List.Pairwise.nil, and_true, false_imp_iff, implies_true]
            exact Or.inl (by simp only; omega)
          · intro a ha b hb
            simp only [List.mem_cons, List.mem_singleton, List.not_mem_nil, or_false] at hb
            rcases hb with hb | hb
            · subst hb
              rcases hc1 a ha with h | h
              · exact Or.inr h
              · exact Or.inl h
            · subst hb
              rcases hc2 a ha with h | h
              · exact Or.inr h
              · exact Or.inl h
        · simp only [poolWeight_append, poolWeight]
          omega


/-! ## The task tree of the parallel merge sort -/

theorem nonDecreasing_short (M : List Int) (h : M.length ≤ 1) : NonDecreasing M := by
  match M, h with
  | [], _ => exact List.Pairwise.nil
  | [_], _ => exact List.pairwise_singleton _ _

theorem isDone_eq_false (t : MTask) (h : t ≠ .done) : t.isDone = false := by
  cases t <;> simp [MTask.isDone] at h ⊢

theorem isDone_eq_true (t : MTask) (h : t.isDone = true) : t = .done := by
  cases t <;> simp [MTask.isDone] at h ⊢

/-- One scheduling step of a consistent task tree that has not finished: it succeeds,
rearranges only the range owned by the tree, keeps the tree consistent and uses up one
unit of the step bound. -/
theorem stepM_segments (cutoff : Int) :
    ∀ (t : MTask) (c : Nat) (A M C : List Int) (l : Int),
      l = A.length → GoodSeg t l M → t ≠ .done →
      ∃ (M1 : List Int) (t1 : MTask),
        stepM cutoff t c (A ++ (M ++ C)) = some (A ++ (M1 ++ C), t1) ∧
        M1.Perm M ∧ GoodSeg t1 l M1 ∧ mweight t1 < mweight t := by
  intro t
  induction t with
  | done => intro c A M C l _ _ h; exact absurd rfl h
  | todo l1 r1 =>
    intro c A M C l hl hg _
    obtain ⟨h1, h2⟩ := hg
    subst h1 h2
    by_cases hge : l1 ≥ l1 + (M.length : Int) - 1
    · refine ⟨M, .done, by simp [stepM, hge], List.Perm.refl _,
        nonDecreasing_short M (by omega), ?_⟩
      simp only [mweight]; split_ifs <;> omega
    · by_cases hc : l1 + (M.length : Int) - 1 - l1 < cutoff
      · refine ⟨sorted M, .done, ?_, sorted_perm M, sorted_nonDecreasing M, ?_⟩
        · have hser := serialMergeSort_segments A M C l1 (l1 + (M.length : Int) - 1) hl
            (by omega)
          simp [stepM, hge, hc, hser]
        · simp only [mweight]; split_ifs <;> omega
      · have hd : (l1 + (M.length : Int) - 1 - l1).tdiv 2 = (l1 + (M.length : Int) - 1 - l1) / 2 :=
          Int.tdiv_eq_ediv (by omega) (by omega)
        have hmid : l1 + (l1 + (M.length : Int) - 1 - l1) / 2 = l1 + ((M.length : Int) - 1) / 2 := by
          congr 2; omega
        refine ⟨M, .wait l1 (l1 + ((M.length : Int) - 1) / 2) (l1 + (M.length : Int) - 1)
          (.todo l1 (l1 + ((M.length : Int) - 1) / 2))
          (.todo (l1 + ((M.length : Int) - 1) / 2 + 1) (l1 + (M.length : Int) - 1)),
          by simp only [stepM, hge, hc, if_false, hd, hmid], List.Perm.refl _, ?_, ?_⟩
        · refine ⟨rfl, rfl, by omega, rfl, ⟨rfl, ?_⟩, ⟨rfl, ?_⟩⟩
          · simp only [List.length_take]; omega
          · simp only [List.length_drop]; omega
        · simp only [mweight]
          split_ifs <;> omega
  | wait l1 m r1 a b iha ihb =>
    intro c A M C l hl hg _
    obtain ⟨h1, h2, hM2, hm, hga, hgb⟩ := hg
    subst h1
    have hMsplit : M = M.take ((M.length - 1) / 2 + 1) ++ M.drop ((M.length - 1) / 2 + 1) :=
      (List.take_append_drop _ _).symm
    generalize hM1 : M.take ((M.length - 1) / 2 + 1) = Ma at hga hMsplit
    generalize hM2' : M.drop ((M.length - 1) / 2 + 1) = Mb at hgb hMsplit
    have hMa : Ma.length = (M.length - 1) / 2 + 1 := by
      rw [← hM1, List.length_take]; omega
    have hMb : Ma.length + Mb.length = M.length := by
      rw [hMsplit, List.length_append]
    by_cases hdd : (a.isDone && b.isDone) = true
    · simp only [Bool.and_eq_true] at hdd
      have ha := isDone_eq_true a hdd.1
      have hb := isDone_eq_true b hdd.2
      subst ha hb
      have hmerge := merge_segments A Ma Mb C l1 m r1 hl (by omega) (by omega)
      refine ⟨List.merge Ma Mb (fun x y => decide (x ≤ y)), .done, ?_, ?_, ?_, ?_⟩
      · rw [hMsplit]
        simp only [stepM, MTask.isDone, Bool.and_self, if_true, List.append_assoc, hmerge,
          Option.bind_eq_bind, Option.some_bind]
      · rw [hMsplit]; exact List.merge_perm_append _
      · exact List.Sorted.merge (r := (· ≤ ·)) hga hgb
      · simp [mweight]
    · by_cases hleft : (b.isDone || (!a.isDone && c % 2 == 0)) = true
      · have hna : a ≠ .done := by
          intro h; subst h
          simp [MTask.isDone] at hdd hleft
          simp [hleft] at hdd
        obtain ⟨Ma1, a1, hstep, hperm, hg1, hw⟩ := iha (c / 2) A Ma (Mb ++ C) l1 hl hga hna
        have hlen := hperm.length_eq
        refine ⟨Ma1 ++ Mb, .wait l1 m r1 a1 b, ?_, ?_, ?_, ?_⟩
        · rw [hMsplit]
          simp only [stepM, hdd, hleft, if_true, List.append_assoc, hstep,
            Option.bind_eq_bind, Option.some_bind]
          simp
        · rw [hMsplit]; exact hperm.append_right Mb
        · have e1 : (Ma1 ++ Mb).length = M.length := by rw [List.length_append]; omega
          have e2 : ((Ma1 ++ Mb).length - 1) / 2 + 1 = Ma1.length := by rw [e1]; omega
          refine ⟨rfl, by rw [e1]; exact h2, by omega, by rw [e1]; exact hm, ?_, ?_⟩
          · rw [e2, List.take_left]; exact hg1
          · rw [e2, List.drop_left]; exact hgb
        · simp only [mweight]; omega
      · have hnb : b ≠ .done := by
          intro h; subst h
          simp [MTask.isDone] at hleft
        obtain ⟨Mb1, b1, hstep, hperm, hg1, hw⟩ :=
          ihb (c / 2) (A ++ Ma) Mb C (m + 1) (by simp; omega) hgb hnb
        have hlen := hperm.length_eq
        refine ⟨Ma ++ Mb1, .wait l1 m r1 a b1, ?_, ?_, ?_, ?_⟩
        · rw [hMsplit]
          simp only [List.append_assoc] at hstep
          simp only [stepM, hdd, hleft, if_false, List.append_assoc, hstep,
            Option.bind_eq_bind, Option.some_bind]
          simp
        · rw [hMsplit]; exact hperm.append_left Ma
        · have e1 : (Ma ++ Mb1).length = M.length := by rw [List.length_append]; omega
          have e2 : ((Ma ++ Mb1).length - 1) / 2 + 1 = Ma.length := by rw [e1]; omega
          refine ⟨rfl, by rw [e1]; exact h2, by omega, by rw [e1]; exact hm, ?_, ?_⟩
          · rw [e2, List.take_left]; exact hga
          · rw [e2, List.drop_left]; exact hg1
        · simp only [mweight]; omega


theorem runM_done (cutoff : Int) (sched : Nat → Nat) (fuel step : Nat) (arr : List Int) :
    runM cutoff sched fuel step arr .done = some arr := by
  cases fuel <;> rfl

theorem runM_step (cutoff : Int) (sched : Nat → Nat) (fuel step : Nat) (arr arr1 : List Int)
    (t t1 : MTask) (ht : t ≠ .done) (hs : stepM cutoff t (sched step) arr = some (arr1, t1)) :
    runM cutoff sched (fuel + 1) step arr t = runM cutoff sched fuel (step + 1) arr1 t1 := by
  cases t with
  | done => exact absurd rfl ht
  | todo l r => simp only [runM, hs]
  | wait l m r a b => simp only [runM, hs]

/-- Whatever the scheduler chooses, a consistent task tree finishes within `mweight` steps
and leaves the range it owns rearranged in non-decreasing order. -/
theorem runM_segments (cutoff : Int) (sched : Nat → Nat) :
    ∀ (fuel step : Nat) (t : MTask) (M A C : List Int) (l : Int),
      l = A.length → GoodSeg t l M → mweight t ≤ fuel →
      ∃ M1 : List Int,
        runM cutoff sched fuel step (A ++ (M ++ C)) t = some (A ++ (M1 ++ C)) ∧
        M1.Perm M ∧ NonDecreasing M1 := by
  intro fuel
  induction fuel with
  | zero =>
    intro step t M A C l hl hg hw
    by_cases ht : t = .done
    · subst ht
      exact ⟨M, runM_done _ _ _ _ _, List.Perm.refl _, hg⟩
    · obtain ⟨M1, t1, -, -, -, hlt⟩ := stepM_segments cutoff t 0 A M C l hl hg ht
      omega
  | succ fuel ih =>
    intro step t M A C l hl hg hw
    by_cases ht : t = .done
    · subst ht
      exact ⟨M, runM_done _ _ _ _ _, List.Perm.refl _, hg⟩
    · obtain ⟨M1, t1, hstep, hperm, hg1, hlt⟩ :=
        stepM_segments cutoff t (sched step) A M C l hl hg ht
      obtain ⟨M2, hrun, hperm2, hsorted⟩ := ih (step + 1) t1 M1 A C l hl hg1 (by omega)
      exact ⟨M2, by rw [runM_step cutoff sched fuel step _ _ t t1 ht hstep, hrun],
        hperm2.trans hperm, hsorted⟩

theorem serialMergeSort_eq_sortRange (arr : List Int) (l r : Int)
    (h : InRange arr.length (l, r)) :
    serialMergeSort arr l r = some (sortRange arr (l, r)) := by
  by_cases hlt : l < r
  · obtain ⟨h0, h1⟩ := h hlt
    obtain ⟨A, M, C, hS, hA, hM, -⟩ := range_split arr l r h0 (by omega) h1
    rw [hS, serialMergeSort_segments A M C l r hA.symm (by omega),
      sortRange_segments A M C l r hA.symm (by omega)]
  · have h1 : sortRange arr (l, r) = arr := by
      unfold sortRange
      rw [if_neg]
      simp only; omega
    have hge : l ≥ r := by omega
    rw [h1]
    simp [serialMergeSort, serialMergeSortFuel, hge]

/-- The parallel merge sort on a range inside the vector (or with at most one element),
for any scheduling of its tasks. -/
theorem parallelMergeSort_eq_sortRange (cutoff : Int) (sched : Nat → Nat) (S : List Int)
    (l r : Int) (hrange : InRange S.length (l, r)) :
    parallelMergeSort cutoff sched S l r = some (sortRange S (l, r)) := by
  by_cases hlt : l < r
  · obtain ⟨h0, h1⟩ := hrange hlt
    obtain ⟨A, M, C, hS, hA, hM, -⟩ := range_split S l r h0 (by omega) h1
    obtain ⟨M1, hrun, hperm, hsorted⟩ :=
      runM_segments cutoff sched (3 * (r + 1 - l).toNat + 1) 0 (.todo l r) M A C l hA.symm
        ⟨rfl, by omega⟩ (by simp only [mweight]; split_ifs <;> omega)
    have hM1 : M1 = sorted M := eq_sorted_of_perm M M1 hperm hsorted
    rw [parallelMergeSort, hS, hrun, hM1, sortRange_segments A M C l r hA.symm (by omega)]
  · have h1 : sortRange S (l, r) = S := by
      unfold sortRange
      rw [if_neg]
      simp only; omega
    have hge : l ≥ r := by omega
    have hstep : stepM cutoff (.todo l r) (sched 0) S = some (S, .done) := by
      simp [stepM, hge]
    rw [h1, parallelMergeSort, runM_step cutoff sched _ 0 S S (.todo l r) .done (by simp) hstep,
      runM_done]

/-! ## Claims on `merge` -/

/-- A vector splits around two adjacent ranges inside it. -/
theorem range_split2 (S : List Int) (l m r : Int) (h0 : 0 ≤ l) (h1 : l ≤ m + 1) (h2 : m ≤ r)
    (h3 : r < S.length) :
    ∃ A Lm Rm C, S = A ++ (Lm ++ (Rm ++ C)) ∧ (A.length : Int) = l ∧
      (Lm.length : Int) = m + 1 - l ∧ (Rm.length : Int) = r - m ∧
      Lm = slice S l m ∧ Rm = slice S (m + 1) r ∧ Lm ++ Rm = slice S l r := by
  obtain ⟨A, M, C, hS, hA, hM, hsl⟩ := range_split S l r h0 (by omega) h3
  have hML : (M.take (m + 1 - l).toNat).length = (m + 1 - l).toNat := by
    rw [List.length_take]; omega
  have hMR : (M.drop (m + 1 - l).toNat).length = (r - m).toNat := by
    rw [List.length_drop]; omega
  have hS2 : S = A ++ (M.take (m + 1 - l).toNat ++ (M.drop (m + 1 - l).toNat ++ C)) := by
    rw [← List.append_assoc (M.take _), List.take_append_drop]; exact hS
  refine ⟨A, M.take (m + 1 - l).toNat, M.drop (m + 1 - l).toNat, C, hS2, hA, by omega,
    by omega, ?_, ?_, ?_⟩
  · rw [hS2]
    exact (slice_segments A _ _ l m hA.symm (by omega)).symm
  · have := slice_segments (A ++ M.take (m + 1 - l).toNat) (M.drop (m + 1 - l).toNat) C
      (m + 1) r (by simp only [List.length_append, Nat.cast_add]; omega)
      (by simp only [List.length_append, Nat.cast_add]; omega)
    rw [hS2]
    simp only [List.append_assoc] at this
    exact this.symm
  · rw [List.take_append_drop]; exact hsl

/-- The value `merge` returns on two adjacent ranges inside the vector, sorted or not. -/
theorem merge_ranges (S : List Int) (l m r : Int) (h0 : 0 ≤ l) (h1 : l ≤ m + 1) (h2 : m ≤ r)
    (h3 : r < S.length) :
    ∃ S1 : List Int, merge S l m r = some S1 ∧ S1.length = S.length ∧
      slice S1 l r
        = List.merge (slice S l m) (slice S (m + 1) r) (fun a b => decide (a ≤ b)) := by
  obtain ⟨A, Lm, Rm, C, hS, hA, hL, hR, hsL, hsR, -⟩ := range_split2 S l m r h0 h1 h2 h3
  have hrun := merge_segments A Lm Rm C l m r hA.symm (by omega) (by omega)
  refine ⟨_, by rw [hS]; exact hrun, ?_, ?_⟩
  · rw [hS]; simp only [List.length_append, List.length_merge]; omega
  · rw [← hsL, ← hsR]
    exact slice_segments A _ C l r hA.symm (by rw [List.length_merge]; omega)

/-- C11. Merger contract: for indices `0 ≤ l ≤ m < r < |S|` with `S[l..m]` and `S[m+1..r]`
each in non-decreasing order, `merge` returns a vector in which `S[l..r]` is in
non-decreasing order (and holds the same elements); merging `[1,3,5]` and `[2,4,6]` gives
`[1,2,3,4,5,6]`. -/
theorem merge_sorted_ranges (S : List Int) (l m r : Int) (h0 : 0 ≤ l) (hlm : l ≤ m)
    (hmr : m < r) (hr : r < S.length) (hL : NonDecreasing (slice S l m))
    (hR : NonDecreasing (slice S (m + 1) r)) :
    (∃ S1 : List Int, merge S l m r = some S1 ∧ NonDecreasing (slice S1 l r) ∧
      (slice S1 l r).Perm (slice S l r)) ∧
    merge [1, 3, 5, 2, 4, 6] 0 2 5 = some [1, 2, 3, 4, 5, 6] := by
  refine ⟨?_, by decide⟩
  obtain ⟨S1, hrun, -, hsl⟩ := merge_ranges S l m r h0 (by omega) (by omega) hr
  obtain ⟨A, Lm, Rm, C, -, -, -, -, hsL, hsR, happ⟩ :=
    range_split2 S l m r h0 (by omega) (by omega) hr
  refine ⟨S1, hrun, ?_, ?_⟩
  · rw [hsl]
    exact List.Sorted.merge (r := (· ≤ ·)) hL hR
  · rw [hsl, ← happ, hsL, hsR]
    exact List.merge_perm_append _

theorem merge_sorted_ranges_witness :
    ((0 : Int) ≤ 1 ∧ (1 : Int) ≤ 2 ∧ (2 : Int) < 4 ∧
      (4 : Int) < ([9, 2, 6, 1, 8, 0] : List Int).length ∧
      NonDecreasing (slice [9, 2, 6, 1, 8, 0] 1 2) ∧
      NonDecreasing (slice [9, 2, 6, 1, 8, 0] (2 + 1) 4)) ∧
    ((∃ S1 : List Int, merge [9, 2, 6, 1, 8, 0] 1 2 4 = some S1 ∧
      NonDecreasing (slice S1 1 4) ∧
      (slice S1 1 4).Perm (slice [9, 2, 6, 1, 8, 0] 1 4)) ∧
    merge [1, 3, 5, 2, 4, 6] 0 2 5 = some [1, 2, 3, 4, 5, 6]) :=
  ⟨⟨by decide, by decide, by decide, by decide, by unfold NonDecreasing; decide,
      by unfold NonDecreasing; decide⟩,
    merge_sorted_ranges [9, 2, 6, 1, 8, 0] 1 2 4 (by decide) (by decide) (by decide)
      (by decide) (by unfold NonDecreasing; decide) (by unfold NonDecreasing; decide)⟩


/-- C12. For indices with `l - 1 ≤ m ≤ r` inside the vector (the two ranges need not be
sorted), `merge` copies `S[l..m]` and `S[m+1..r]` into its two buffers; its main loop stops
with one buffer exhausted (`i = n1` or `j = n2`); and the vector it returns holds in
`[l, r]` what the main loop wrote followed by the remaining elements of the buffers in
their original order. The range after the call is a permutation (same multiset) of the
range before. -/
theorem merge_writes_back (S : List Int) (l m r : Int) (h0 : 0 ≤ l) (h1 : l - 1 ≤ m)
    (h2 : m ≤ r) (h3 : r < S.length) :
    ∃ (arr1 S1 : List Int) (i j k : Int),
      copyLoop S l (m - l + 1).toNat 0 (List.replicate (m - l + 1).toNat 0)
        = some (slice S l m) ∧
      copyLoop S (m + 1) (r - m).toNat 0 (List.replicate (r - m).toNat 0)
        = some (slice S (m + 1) r) ∧
      mergeLoop (slice S l m) (slice S (m + 1) r) (m - l + 1) (r - m)
        ((m - l + 1).toNat + (r - m).toNat) S 0 0 l = some (arr1, i, j, k) ∧
      (i = m - l + 1 ∨ j = r - m) ∧
      merge S l m r = some S1 ∧
      slice S1 l r = slice arr1 l (k - 1)
        ++ ((slice S l m).drop i.toNat ++ (slice S (m + 1) r).drop j.toNat) ∧
      (slice S1 l r).Perm (slice S l r) ∧
      ((slice S1 l r : List Int) : Multiset Int) = (slice S l r : List Int) := by
  obtain ⟨S1, hrun, -, hsl⟩ := merge_ranges S l m r h0 (by omega) h2 h3
  obtain ⟨A, Lm, Rm, C, hS, hA, hL, hR, hsL, hsR, happ⟩ :=
    range_split2 S l m r h0 (by omega) h2 h3
  rw [← hsL, ← hsR] at hsl ⊢
  have hn1 : (m - l + 1).toNat = Lm.length := by omega
  have hn2 : (r - m).toNat = Rm.length := by omega
  have hcL : copyLoop S l Lm.length 0 (List.replicate Lm.length 0) = some Lm := by
    have := copyLoop_segments Lm A (Rm ++ C) [] (List.replicate Lm.length 0) l 0
      (by simp) (by simp [hA]) (by simp)
    rw [hS]
    simpa using this
  have hcR : copyLoop S (m + 1) Rm.length 0 (List.replicate Rm.length 0) = some Rm := by
    have := copyLoop_segments Rm (A ++ Lm) C [] (List.replicate Rm.length 0) (m + 1) 0
      (by simp) (by simp; omega) (by simp)
    rw [hS]
    simpa using this
  obtain ⟨Out, Li1, Lr1, Rj1, Rr1, J1, hloop, hLs, hRs, hJ1, hor, hmerge⟩ :=
    mergeLoop_segments (Lm.length + Rm.length) [] Lm [] Rm A (Lm ++ Rm) C
      (m - l + 1) (r - m) 0 0 l (le_refl _) (by simp) (by simp) (by simp) hA.symm
      (by simp; omega) (by simp; omega)
  simp only [List.nil_append, List.append_assoc] at hloop hLs hRs
  have hLlen : Lm.length = Li1.length + Lr1.length := by rw [hLs]; simp
  have hRlen : Rm.length = Rj1.length + Rr1.length := by rw [hRs]; simp
  have hp : (slice S1 l r).Perm (slice S l r) := by
    rw [hsl, ← happ]; exact List.merge_perm_append _
  refine ⟨A ++ (Out ++ (J1 ++ C)), S1, (Li1.length : Int), (Rj1.length : Int),
    l + (Out.length : Int), by rw [hn1]; exact hcL, by rw [hn2]; exact hcR,
    by rw [hn1, hn2, hS]; exact hloop, ?_, hrun, ?_, hp, Quotient.sound hp⟩
  · rcases hor with h | h
    · left; subst h; simp at hLlen; omega
    · right; subst h; simp at hRlen; omega
  · rw [hsl, hmerge,
      slice_segments A Out (J1 ++ C) l (l + (Out.length : Int) - 1) hA.symm (by omega)]
    simp only [Int.toNat_ofNat]
    rw [hLs, hRs, List.drop_left, List.drop_left]

theorem merge_writes_back_witness :
    ((0 : Int) ≤ 1 ∧ (1 : Int) - 1 ≤ 2 ∧ (2 : Int) ≤ 4 ∧
      (4 : Int) < ([9, 6, 2, 8, 1, 0] : List Int).length) ∧
    ∃ (arr1 S1 : List Int) (i j k : Int),
      copyLoop [9, 6, 2, 8, 1, 0] 1 ((2 : Int) - 1 + 1).toNat 0
        (List.replicate ((2 : Int) - 1 + 1).toNat 0) = some (slice [9, 6, 2, 8, 1, 0] 1 2) ∧
      copyLoop [9, 6, 2, 8, 1, 0] (2 + 1) ((4 : Int) - 2).toNat 0
        (List.replicate ((4 : Int) - 2).toNat 0) = some (slice [9, 6, 2, 8, 1, 0] (2 + 1) 4) ∧
      mergeLoop (slice [9, 6, 2, 8, 1, 0] 1 2) (slice [9, 6, 2, 8, 1, 0] (2 + 1) 4)
        (2 - 1 + 1) (4 - 2) (((2 : Int) - 1 + 1).toNat + ((4 : Int) - 2).toNat)
        [9, 6, 2, 8, 1, 0] 0 0 1 = some (arr1, i, j, k) ∧
      (i = 2 - 1 + 1 ∨ j = 4 - 2) ∧
      merge [9, 6, 2, 8, 1, 0] 1 2 4 = some S1 ∧
      slice S1 1 4 = slice arr1 1 (k - 1)
        ++ ((slice [9, 6, 2, 8, 1, 0] 1 2).drop i.toNat
          ++ (slice [9, 6, 2, 8, 1, 0] (2 + 1) 4).drop j.toNat) ∧
      (slice S1 1 4).Perm (slice [9, 6, 2, 8, 1, 0] 1 4) ∧
      ((slice S1 1 4 : List Int) : Multiset Int) = (slice [9, 6, 2, 8, 1, 0] 1 4 : List Int) :=
  ⟨by decide,
    merge_writes_back [9, 6, 2, 8, 1, 0] 1 2 4 (by decide) (by decide) (by decide) (by decide)⟩

/-- The two inputs of the standard merge keep their internal order in its result. -/
theorem sublist_merge (L : List Int) :
    ∀ R : List Int, L.Sublist (List.merge L R (fun a b => decide (a ≤ b))) ∧
      R.Sublist (List.merge L R (fun a b => decide (a ≤ b))) := by
  induction L with
  | nil => intro R; simp
  | cons x L ihL =>
    intro R
    induction R with
    | nil => simp
    | cons y R ihR =>
      by_cases hxy : x ≤ y
      · rw [List.cons_merge_cons_pos _ _ _ (by simpa using hxy)]
        exact ⟨(ihL (y :: R)).1.cons₂ x, (ihL (y :: R)).2.cons x⟩
      · rw [List.cons_merge_cons_neg _ _ _ (by simpa using hxy)]
        exact ⟨ihR.1.cons y, ihR.2.cons₂ y⟩

/-- C13. `merge` is stable. In the main loop, when the current element of the left buffer
is `≤` the current element of the right buffer (in particular when they are equal), the
left one is written and only `i` advances. For indices with `l - 1 ≤ m ≤ r` inside the
vector, the range `[l, r]` after `merge` is the standard left-biased merge of the two
ranges, which on equal heads takes the left one first, and each of the two ranges keeps
its internal order in it. -/
theorem merge_stable (S : List Int) (l m r : Int) (h0 : 0 ≤ l) (h1 : l - 1 ≤ m)
    (h2 : m ≤ r) (h3 : r < S.length) :
    (∀ (L R arr : List Int) (n1 n2 i j k x y : Int) (fuel : Nat),
      i < n1 → j < n2 → rd L i = some x → rd R j = some y → x ≤ y →
      mergeLoop L R n1 n2 (fuel + 1) arr i j k
        = (wr arr k x).bind (fun arr1 => mergeLoop L R n1 n2 fuel arr1 (i + 1) j (k + 1))) ∧
    (∃ S1 : List Int, merge S l m r = some S1 ∧
      slice S1 l r
        = List.merge (slice S l m) (slice S (m + 1) r) (fun a b => decide (a ≤ b)) ∧
      (slice S l m).Sublist (slice S1 l r) ∧ (slice S (m + 1) r).Sublist (slice S1 l r)) ∧
    (∀ (x : Int) (L R : List Int),
      List.merge (x :: L) (x :: R) (fun a b => decide (a ≤ b))
        = x :: List.merge L (x :: R) (fun a b => decide (a ≤ b))) := by
  refine ⟨?_, ?_, ?_⟩
  · intro L R arr n1 n2 i j k x y fuel hi hj hx hy hxy
    simp [mergeLoop, hi, hj, hx, hy, hxy]
  · obtain ⟨S1, hrun, -, hsl⟩ := merge_ranges S l m r h0 (by omega) h2 h3
    refine ⟨S1, hrun, hsl, ?_, ?_⟩
    · rw [hsl]; exact (sublist_merge _ _).1
    · rw [hsl]; exact (sublist_merge _ _).2
  · intro x L R
    exact List.cons_merge_cons_pos _ _ _ (by simp)

theorem merge_stable_witness :
    ((0 : Int) ≤ 0 ∧ (0 : Int) - 1 ≤ 1 ∧ (1 : Int) ≤ 3 ∧
      (3 : Int) < ([4, 7, 4, 9] : List Int).length) ∧
    ((∀ (L R arr : List Int) (n1 n2 i j k x y : Int) (fuel : Nat),
      i < n1 → j < n2 → rd L i = some x → rd R j = some y → x ≤ y →
      mergeLoop L R n1 n2 (fuel + 1) arr i j k
        = (wr arr k x).bind (fun arr1 => mergeLoop L R n1 n2 fuel arr1 (i + 1) j (k + 1))) ∧
    (∃ S1 : List Int, merge [4, 7, 4, 9] 0 1 3 = some S1 ∧
      slice S1 0 3
        = List.merge (slice [4, 7, 4, 9] 0 1) (slice [4, 7, 4, 9] (1 + 1) 3)
            (fun a b => decide (a ≤ b)) ∧
      (slice [4, 7, 4, 9] 0 1).Sublist (slice S1 0 3) ∧
      (slice [4, 7, 4, 9] (1 + 1) 3).Sublist (slice S1 0 3)) ∧
    (∀ (x : Int) (L R : List Int),
      List.merge (x :: L) (x :: R) (fun a b => decide (a ≤ b))
        = x :: List.merge L (x :: R) (fun a b => decide (a ≤ b)))) :=
  ⟨by decide, merge_stable [4, 7, 4, 9] 0 1 3 (by decide) (by decide) (by decide) (by decide)⟩

/-- C14. Empty-range edge case of `merge`: for a range `[l, r]` inside the vector, merging
an empty left range (`m = l - 1`) with `[l, r]`, or `[l, r]` with an empty right range
(`m = r`), returns the vector exactly as it was; merging `[]` and `[2,4]` gives `[2,4]`. -/
theorem merge_empty_range (S : List Int) (l r : Int) (h0 : 0 ≤ l) (h1 : l ≤ r + 1)
    (h2 : r < S.length) :
    merge S l (l - 1) r = some S ∧ merge S l r r = some S ∧
    merge [2, 4] 0 (-1) 1 = some [2, 4] := by
  obtain ⟨A, M, C, hS, hA, hM, -⟩ := range_split S l r h0 h1 h2
  refine ⟨?_, ?_, by decide⟩
  · have := merge_segments A [] M C l (l - 1) r hA.symm (by simp; omega) (by simp; omega)
    rw [hS]
    simpa using this
  · have := merge_segments A M [] C l r r hA.symm (by omega) (by simp; omega)
    rw [hS]
    simpa using this

theorem merge_empty_range_witness :
    ((0 : Int) ≤ 1 ∧ (1 : Int) ≤ 3 + 1 ∧ (3 : Int) < ([9, 6, 2, 8, 1] : List Int).length) ∧
    (merge [9, 6, 2, 8, 1] 1 (1 - 1) 3 = some [9, 6, 2, 8, 1] ∧
      merge [9, 6, 2, 8, 1] 1 3 3 = some [9, 6, 2, 8, 1] ∧
      merge [2, 4] 0 (-1) 1 = some [2, 4]) :=
  ⟨by decide, merge_empty_range [9, 6, 2, 8, 1] 1 3 (by decide) (by decide) (by decide)⟩


/-! ## Claims on the splits of the drivers -/

/-- C15. Range-disjointness. When `quick_sort_task` delegates a range `[low, high]` inside
the vector, the two ranges it hands to its tasks are `[low, p-1]` and `[p+1, high]` for the
index `p` returned by `partition`; when `parallelMergeSort` delegates, they are `[l, m]` and
`[m+1, r]` with `m = l + (r-l)/2`. In both cases the two index sets are disjoint, lie
inside the parent range, and their union (with the pivot position for the quicksort) is
the parent range. -/
theorem split_ranges_disjoint (cutoff : Int) (S : List Int) (low high strategy : Int)
    (c : Nat) (h0 : 0 ≤ low) (hlt : low < high) (hh : high < S.length)
    (hc : ¬ high - low < cutoff) :
    (∃ (S1 : List Int) (p : Int),
      partition S low high strategy = some (S1, p) ∧
      quick_sort_task cutoff S low high strategy
        = some (S1, [(low, p - 1), (p + 1, high)]) ∧
      Disjoint (Finset.Icc low (p - 1)) (Finset.Icc (p + 1) high) ∧
      p ∉ Finset.Icc low (p - 1) ∧ p ∉ Finset.Icc (p + 1) high ∧
      Finset.Icc low (p - 1) ⊆ Finset.Icc low high ∧
      Finset.Icc (p + 1) high ⊆ Finset.Icc low high ∧
      Finset.Icc low (p - 1) ∪ {p} ∪ Finset.Icc (p + 1) high = Finset.Icc low high) ∧
    (∃ m : Int, m = low + (high - low) / 2 ∧
      stepM cutoff (.todo low high) c S
        = some (S, .wait low m high (.todo low m) (.todo (m + 1) high)) ∧
      Disjoint (Finset.Icc low m) (Finset.Icc (m + 1) high) ∧
      Finset.Icc low m ⊆ Finset.Icc low high ∧
      Finset.Icc (m + 1) high ⊆ Finset.Icc low high ∧
      Finset.Icc low m ∪ Finset.Icc (m + 1) high = Finset.Icc low high) := by
  constructor
  · obtain ⟨S1, p, hpart, -, hp1, hp2, -⟩ :=
      partition_then_sortRange S low high strategy hlt h0 hh
    refine ⟨S1, p, hpart, by simp [quick_sort_task, hlt, hc, hpart], ?_, ?_, ?_, ?_, ?_, ?_⟩
    · rw [Finset.disjoint_left]
      intro i hi hi2
      simp only [Finset.mem_Icc] at hi hi2
      omega
    · simp only [Finset.mem_Icc]; omega
    · simp only [Finset.mem_Icc]; omega
    · intro i hi
      simp only [Finset.mem_Icc] at hi ⊢
      omega
    · intro i hi
      simp only [Finset.mem_Icc] at hi ⊢
      omega
    · ext i
      simp only [Finset.mem_union, Finset.mem_Icc, Finset.mem_singleton]
      omega
  · have hd : (high - low).tdiv 2 = (high - low) / 2 :=
      Int.tdiv_eq_ediv (by omega) (by omega)
    have hge : ¬ low ≥ high := by omega
    refine ⟨low + (high - low) / 2, rfl, by simp only [stepM, hge, hc, if_false, hd],
      ?_, ?_, ?_, ?_⟩
    · rw [Finset.disjoint_left]
      intro i hi hi2
      simp only [Finset.mem_Icc] at hi hi2
      omega
    · intro i hi
      simp only [Finset.mem_Icc] at hi ⊢
      omega
    · intro i hi
      simp only [Finset.mem_Icc] at hi ⊢
      omega
    · ext i
      simp only [Finset.mem_union, Finset.mem_Icc]
      omega

theorem split_ranges_disjoint_witness :
    ((0 : Int) ≤ 1 ∧ (1 : Int) < 4 ∧ (4 : Int) < ([9, 6, 2, 8, 1, 0] : List Int).length ∧
      ¬ (4 : Int) - 1 < 2) ∧
    ((∃ (S1 : List Int) (p : Int),
      partition [9, 6, 2, 8, 1, 0] 1 4 0 = some (S1, p) ∧
      quick_sort_task 2 [9, 6, 2, 8, 1, 0] 1 4 0 = some (S1, [(1, p - 1), (p + 1, 4)]) ∧
      Disjoint (Finset.Icc 1 (p - 1)) (Finset.Icc (p + 1) 4) ∧
      p ∉ Finset.Icc 1 (p - 1) ∧ p ∉ Finset.Icc (p + 1) 4 ∧
      Finset.Icc 1 (p - 1) ⊆ Finset.Icc 1 4 ∧
      Finset.Icc (p + 1) 4 ⊆ Finset.Icc 1 4 ∧
      Finset.Icc 1 (p - 1) ∪ {p} ∪ Finset.Icc (p + 1) 4 = Finset.Icc 1 4) ∧
    (∃ m : Int, m = 1 + (4 - 1) / 2 ∧
      stepM 2 (.todo 1 4) 0 [9, 6, 2, 8, 1, 0]
        = some ([9, 6, 2, 8, 1, 0], .wait 1 m 4 (.todo 1 m) (.todo (m + 1) 4)) ∧
      Disjoint (Finset.Icc 1 m) (Finset.Icc (m + 1) 4) ∧
      Finset.Icc 1 m ⊆ Finset.Icc 1 4 ∧
      Finset.Icc (m + 1) 4 ⊆ Finset.Icc 1 4 ∧
      Finset.Icc 1 m ∪ Finset.Icc (m + 1) 4 = Finset.Icc 1 4)) :=
  ⟨by decide,
    split_ranges_disjoint 2 [9, 6, 2, 8, 1, 0] 1 4 0 0 (by decide) (by decide) (by decide)
      (by decide)⟩

/-! ## Claims on whole-vector sorts -/

theorem sorted_of_nonDecreasing (S : List Int) (h : NonDecreasing S) : sorted S = S :=
  List.Sorted.insertionSort_eq h

/-- The parallel quicksort wrapper on a whole vector, for any scheduling of its tasks. -/
theorem quick_sort_parallel_eq_sorted (cutoff strategy : Int) (sched : Nat → Nat)
    (S : List Int) :
    quick_sort_parallel cutoff sched S S.length strategy = some (sorted S) := by
  have hrun := runTasks_finish cutoff strategy sched (2 * ((S.length : Int)).toNat + 1) 0 S
    [(0, (S.length : Int) - 1)]
    (by intro t ht
        simp only [List.mem_singleton] at ht
        subst ht
        intro _
        simp only
        omega)
    (List.pairwise_singleton _ _)
    (by simp only [poolWeight]; omega)
  have hfin : finish S [(0, (S.length : Int) - 1)] = sorted S := by
    have := sortRange_segments [] S [] 0 ((S.length : Int) - 1) (by simp) (by simp)
    simpa [finish] using this
  rw [quick_sort_parallel, hrun, hfin]

/-- The sequential sorts on a whole vector. -/
theorem whole_vector_sorts (S : List Int) (strategy : Int) :
    quick_sort_serial S 0 ((S.length : Int) - 1) strategy = some (sorted S) ∧
    serialMergeSort S 0 ((S.length : Int) - 1) = some (sorted S) := by
  constructor
  · have := quick_sort_serial_segments [] S [] 0 ((S.length : Int) - 1) strategy
      (by simp) (by simp)
    simpa using this
  · have := serialMergeSort_segments [] S [] 0 ((S.length : Int) - 1) (by simp) (by simp)
    simpa using this

/-- C16. Idempotence: on a vector already in non-decreasing order the quicksort (with any
pivot strategy, sequential or through the parallel wrapper) and the merge sort return the
vector itself; hence for any vector, sorting the result of a sort again returns it
unchanged. -/
theorem sort_idempotent (S : List Int) (strategy cutoff : Int) (sched : Nat → Nat)
    (hS : NonDecreasing S) :
    quick_sort_serial S 0 ((S.length : Int) - 1) strategy = some S ∧
    serialMergeSort S 0 ((S.length : Int) - 1) = some S ∧
    quick_sort_parallel cutoff sched S S.length strategy = some S ∧
    (∀ (T : List Int) (s1 s2 : Int), ∃ T1 : List Int,
      quick_sort_serial T 0 ((T.length : Int) - 1) s1 = some T1 ∧
      quick_sort_serial T1 0 ((T1.length : Int) - 1) s2 = some T1 ∧
      serialMergeSort T 0 ((T.length : Int) - 1) = some T1 ∧
      serialMergeSort T1 0 ((T1.length : Int) - 1) = some T1) := by
  have hid := sorted_of_nonDecreasing S hS
  have hw := whole_vector_sorts S strategy
  refine ⟨by rw [hw.1, hid], by rw [hw.2, hid],
    by rw [quick_sort_parallel_eq_sorted, hid], ?_⟩
  intro T s1 s2
  have hT := sorted_of_nonDecreasing (sorted T) (sorted_nonDecreasing T)
  refine ⟨sorted T, (whole_vector_sorts T s1).1, ?_, (whole_vector_sorts T s1).2, ?_⟩
  · rw [(whole_vector_sorts (sorted T) s2).1, hT]
  · rw [(whole_vector_sorts (sorted T) s2).2, hT]

theorem sort_idempotent_witness :
    NonDecreasing [1, 2, 2, 5, 9] ∧
    (quick_sort_serial [1, 2, 2, 5, 9] 0 ((([1, 2, 2, 5, 9] : List Int).length : Int) - 1) 1
      = some [1, 2, 2, 5, 9] ∧
    serialMergeSort [1, 2, 2, 5, 9] 0 ((([1, 2, 2, 5, 9] : List Int).length : Int) - 1)
      = some [1, 2, 2, 5, 9] ∧
    quick_sort_parallel 0 (fun k => k + 2) [1, 2, 2, 5, 9]
      ([1, 2, 2, 5, 9] : List Int).length 1 = some [1, 2, 2, 5, 9] ∧
    (∀ (T : List Int) (s1 s2 : Int), ∃ T1 : List Int,
      quick_sort_serial T 0 ((T.length : Int) - 1) s1 = some T1 ∧
      quick_sort_serial T1 0 ((T1.length : Int) - 1) s2 = some T1 ∧
      serialMergeSort T 0 ((T.length : Int) - 1) = some T1 ∧
      serialMergeSort T1 0 ((T1.length : Int) - 1) = some T1)) :=
  ⟨by unfold NonDecreasing; decide,
    sort_idempotent [1, 2, 2, 5, 9] 1 0 (fun k => k + 2) (by unfold NonDecreasing; decide)⟩


/-! ## Termination: the bounds on the recursion are never the reason for a fault -/

theorem partitionLoop_index (pv : Int) :
    ∀ (n : Nat) (arr : List Int) (i j : Int) (arr1 : List Int) (i1 : Int),
      partitionLoop pv n arr i j = some (arr1, i1) → i ≤ i1 ∧ i1 ≤ i + n := by
  intro n
  induction n with
  | zero =>
    intro arr i j arr1 i1 h
    simp only [partitionLoop, Option.some.injEq, Prod.mk.injEq] at h
    omega
  | succ n ih =>
    intro arr i j arr1 i1 h
    simp only [partitionLoop, Option.bind_eq_bind, Option.bind_eq_some] at h
    obtain ⟨x, -, h⟩ := h
    by_cases hx : x ≤ pv
    · simp only [hx, if_true, Option.bind_eq_some] at h
      obtain ⟨arr2, -, h⟩ := h
      have := ih arr2 (i + 1) (j + 1) arr1 i1 h
      push_cast
      omega
    · simp only [hx, if_false] at h
      have := ih arr i (j + 1) arr1 i1 h
      push_cast
      omega

/-- Whenever `partition` returns on a range `low ≤ high`, the index it returns is inside
the range (whatever the vector holds). -/
theorem partition_index_of_some (arr : List Int) (low high s : Int) (arr1 : List Int)
    (p : Int) (h : partition arr low high s = some (arr1, p)) (hlh : low ≤ high) :
    low ≤ p ∧ p ≤ high := by
  simp only [partition, Option.bind_eq_bind, Option.bind_eq_some, Option.some.injEq,
    Prod.mk.injEq, Prod.exists] at h
  obtain ⟨a1, -, pv, -, a2, i, hloop, a3, -, -, hp⟩ := h
  have := partitionLoop_index pv _ _ _ _ _ _ hloop
  omega

theorem quickSortSerialFuel_succ (s : Int) :
    ∀ (fuel : Nat) (arr : List Int) (low high : Int), (high - low).toNat + 1 ≤ fuel →
      quickSortSerialFuel (fuel + 1) arr low high s = quickSortSerialFuel fuel arr low high s := by
  intro fuel
  induction fuel with
  | zero => intro arr low high h; omega
  | succ fuel ih =>
    intro arr low high h
    by_cases hlt : low < high
    · rw [quickSortSerialFuel]
      conv_rhs => rw [quickSortSerialFuel]
      simp only [hlt, if_true]
      cases hp : partition arr low high s with
      | none => rfl
      | some res =>
        obtain ⟨arr1, p⟩ := res
        obtain ⟨hp1, hp2⟩ := partition_index_of_some arr low high s arr1 p hp (by omega)
        simp only [Option.bind_eq_bind, Option.some_bind]
        rw [ih arr1 low (p - 1) (by omega)]
        cases quickSortSerialFuel fuel arr1 low (p - 1) s with
        | none => rfl
        | some arr2 =>
          simp only [Option.some_bind]
          rw [ih arr2 (p + 1) high (by omega)]
    · simp [quickSortSerialFuel, hlt]

/-- More fuel than the size of the range never changes the result of the quicksort:
the recursion is never cut short. -/
theorem quickSortSerialFuel_enough (s : Int) (arr : List Int) (low high : Int) :
    ∀ extra : Nat, quickSortSerialFuel ((high - low).toNat + 1 + extra) arr low high s
      = quick_sort_serial arr low high s := by
  intro extra
  induction extra with
  | zero => rfl
  | succ e ih =>
    rw [← ih]
    exact quickSortSerialFuel_succ s ((high - low).toNat + 1 + e) arr low high (by omega)

theorem serialMergeSortFuel_succ :
    ∀ (fuel : Nat) (arr : List Int) (l r : Int), (r - l).toNat + 1 ≤ fuel →
      serialMergeSortFuel (fuel + 1) arr l r = serialMergeSortFuel fuel arr l r := by
  intro fuel
  induction fuel with
  | zero => intro arr l r h; omega
  | succ fuel ih =>
    intro arr l r h
    by_cases hge : l ≥ r
    · simp [serialMergeSortFuel, hge]
    · have hd : (r - l).tdiv 2 = (r - l) / 2 := Int.tdiv_eq_ediv (by omega) (by omega)
      rw [serialMergeSortFuel]
      conv_rhs => rw [serialMergeSortFuel]
      simp only [hge, if_false, Option.bind_eq_bind, hd]
      rw [ih arr l (l + (r - l) / 2) (by omega)]
      cases serialMergeSortFuel fuel arr l (l + (r - l) / 2) with
      | none => rfl
      | some arr1 =>
        simp only [Option.some_bind]
        rw [ih arr1 (l + (r - l) / 2 + 1) r (by omega)]

/-- More fuel than the size of the range never changes the result of the merge sort. -/
theorem serialMergeSortFuel_enough (arr : List Int) (l r : Int) :
    ∀ extra : Nat, serialMergeSortFuel ((r - l).toNat + 1 + extra) arr l r
      = serialMergeSort arr l r := by
  intro extra
  induction extra with
  | zero => rfl
  | succ e ih =>
    rw [← ih]
    exact serialMergeSortFuel_succ ((r - l).toNat + 1 + e) arr l r (by omega)


/-- The tasks created by one execution of `quick_sort_task` need fewer task executions
than the task itself (whatever the vector holds). -/
theorem quick_sort_task_weight (cutoff : Int) (arr : List Int) (low high s : Int)
    (arr1 : List Int) (spawned : List (Int × Int))
    (h : quick_sort_task cutoff arr low high s = some (arr1, spawned)) :
    poolWeight spawned < 2 * (high + 1 - low).toNat + 1 := by
  by_cases hlt : low < high
  · by_cases hc : high - low < cutoff
    · simp only [quick_sort_task, hlt, hc, if_true, Option.bind_eq_bind, Option.bind_eq_some,
        Option.some.injEq, Prod.mk.injEq] at h
      obtain ⟨a, -, -, hsp⟩ := h
      subst hsp
      simp [poolWeight]
    · simp only [quick_sort_task, hlt, hc, if_true, if_false, Option.bind_eq_bind,
        Option.bind_eq_some, Option.some.injEq, Prod.mk.injEq, Prod.exists] at h
      obtain ⟨a, p, hp, -, hsp⟩ := h
      obtain ⟨hp1, hp2⟩ := partition_index_of_some arr low high s a p hp (by omega)
      subst hsp
      simp only [poolWeight]
      omega
  · simp only [quick_sort_task, hlt, if_false, Option.some.injEq, Prod.mk.injEq] at h
    obtain ⟨-, hsp⟩ := h
    subst hsp
    simp [poolWeight]

theorem runTasks_succ (cutoff s : Int) (sched : Nat → Nat) :
    ∀ (fuel step : Nat) (arr : List Int) (pool : List (Int × Int)),
      poolWeight pool ≤ fuel →
      runTasks cutoff s sched (fuel + 1) step arr pool
        = runTasks cutoff s sched fuel step arr pool := by
  intro fuel
  induction fuel with
  | zero =>
    intro step arr pool hw
    cases pool with
    | nil => rfl
    | cons t ts => simp [poolWeight] at hw
  | succ fuel ih =>
    intro step arr pool hw
    cases pool with
    | nil => rfl
    | cons t ts =>
      have hk : sched step % (t :: ts).length < (t :: ts).length :=
        Nat.mod_lt _ (by simp)
      obtain ⟨P1, P2, hpool, herase⟩ := pool_pick (t :: ts) _ t hk
      rw [runTasks]
      conv_rhs => rw [runTasks]
      simp only [herase]
      generalize (t :: ts).getD (sched step % (t :: ts).length) t = task at hpool
      rw [hpool] at hw
      simp only [poolWeight_append, poolWeight] at hw
      cases hq : quick_sort_task cutoff arr task.1 task.2 s with
      | none => rfl
      | some res =>
        obtain ⟨arr1, spawned⟩ := res
        have hsp := quick_sort_task_weight cutoff arr task.1 task.2 s arr1 spawned hq
        simp only
        exact ih (step + 1) arr1 (P1 ++ P2 ++ spawned)
          (by simp only [poolWeight_append]; omega)

/-- More task executions than `poolWeight` allows never change the result of draining a
pool, for any schedule: the bound is never the reason for a fault. -/
theorem runTasks_enough (cutoff s : Int) (sched : Nat → Nat) (step : Nat) (arr : List Int)
    (pool : List (Int × Int)) :
    ∀ extra : Nat, runTasks cutoff s sched (poolWeight pool + extra) step arr pool
      = runTasks cutoff s sched (poolWeight pool) step arr pool := by
  intro extra
  induction extra with
  | zero => rfl
  | succ e ih =>
    rw [← ih]
    exact runTasks_succ cutoff s sched (poolWeight pool + e) step arr pool (by omega)

/-- Every scheduling step of a task tree that has not finished uses up one unit of the
step bound (whatever the vector holds). -/
theorem stepM_weight (cutoff : Int) :
    ∀ (t : MTask) (c : Nat) (arr arr1 : List Int) (t1 : MTask), t ≠ .done →
      stepM cutoff t c arr = some (arr1, t1) → mweight t1 < mweight t := by
  intro t
  induction t with
  | done => intro c arr arr1 t1 h; exact absurd rfl h
  | todo l r =>
    intro c arr arr1 t1 _ h
    by_cases hge : l ≥ r
    · simp only [stepM, hge, if_true, Option.some.injEq, Prod.mk.injEq] at h
      obtain ⟨-, ht⟩ := h
      subst ht
      simp only [mweight]; split_ifs <;> omega
    · by_cases hc : r - l < cutoff
      · simp only [stepM, hge, hc, if_true, if_false, Option.bind_eq_bind,
          Option.bind_eq_some, Option.some.injEq, Prod.mk.injEq] at h
        obtain ⟨a, -, -, ht⟩ := h
        subst ht
        simp only [mweight]; split_ifs <;> omega
      · have hd : (r - l).tdiv 2 = (r - l) / 2 := Int.tdiv_eq_ediv (by omega) (by omega)
        simp only [stepM, hge, hc, if_false, Option.some.injEq, Prod.mk.injEq, hd] at h
        obtain ⟨-, ht⟩ := h
        subst ht
        simp only [mweight]
        split_ifs <;> omega
  | wait l m r a b iha ihb =>
    intro c arr arr1 t1 _ h
    by_cases hdd : (a.isDone && b.isDone) = true
    · simp only [stepM, hdd, if_true, Option.bind_eq_bind, Option.bind_eq_some,
        Option.some.injEq, Prod.mk.injEq] at h
      obtain ⟨a1, -, -, ht⟩ := h
      subst ht
      simp only [mweight]; omega
    · by_cases hleft : (b.isDone || (!a.isDone && c % 2 == 0)) = true
      · have hna : a ≠ .done := by
          intro h; subst h
          simp [MTask.isDone] at hdd hleft
          simp [hleft] at hdd
        cases hstep : stepM cutoff a (c / 2) arr with
        | none => simp [stepM, hdd, hleft, hstep] at h
        | some res =>
          obtain ⟨a1, ta⟩ := res
          have := iha (c / 2) arr a1 ta hna hstep
          simp only [stepM, hdd, hleft, if_true, hstep, Option.bind_eq_bind, Option.some_bind,
            Option.some.injEq, Prod.mk.injEq, Bool.false_eq_true, if_false] at h
          obtain ⟨-, ht1⟩ := h
          subst ht1
          simp only [mweight]; omega
      · have hnb : b ≠ .done := by
          intro h; subst h
          simp [MTask.isDone] at hleft
        cases hstep : stepM cutoff b (c / 2) arr with
        | none => simp [stepM, hdd, hleft, hstep] at h
        | some res =>
          obtain ⟨a1, tb⟩ := res
          have := ihb (c / 2) arr a1 tb hnb hstep
          simp only [stepM, hdd, hleft, if_false, hstep, Option.bind_eq_bind, Option.some_bind,
            Option.some.injEq, Prod.mk.injEq, Bool.false_eq_true] at h
          obtain ⟨-, ht1⟩ := h
          subst ht1
          simp only [mweight]; omega

theorem mweight_pos (t : MTask) (h : t ≠ .done) : 1 ≤ mweight t := by
  cases t with
  | done => exact absurd rfl h
  | todo l r => simp only [mweight]; split_ifs <;> omega
  | wait l m r a b => simp only [mweight]; omega

theorem runM_fault (cutoff : Int) (sched : Nat → Nat) (fuel step : Nat) (arr : List Int)
    (t : MTask) (ht : t ≠ .done) (hs : stepM cutoff t (sched step) arr = none) :
    runM cutoff sched (fuel + 1) step arr t = none := by
  cases t with
  | done => exact absurd rfl ht
  | todo l r => simp only [runM, hs]
  | wait l m r a b => simp only [runM, hs]

theorem runM_succ (cutoff : Int) (sched : Nat → Nat) :
    ∀ (fuel step : Nat) (arr : List Int) (t : MTask), mweight t ≤ fuel →
      runM cutoff sched (fuel + 1) step arr t = runM cutoff sched fuel step arr t := by
  intro fuel
  induction fuel with
  | zero =>
    intro step arr t hw
    by_cases ht : t = .done
    · subst ht; rw [runM_done, runM_done]
    · have := mweight_pos t ht; omega
  | succ fuel ih =>
    intro step arr t hw
    by_cases ht : t = .done
    · subst ht; rw [runM_done, runM_done]
    · cases hs : stepM cutoff t (sched step) arr with
      | none => rw [runM_fault _ _ _ _ _ _ ht hs, runM_fault _ _ _ _ _ _ ht hs]
      | some res =>
        obtain ⟨arr1, t1⟩ := res
        have := stepM_weight cutoff t (sched step) arr arr1 t1 ht hs
        rw [runM_step _ _ _ _ _ _ _ _ ht hs, runM_step _ _ _ _ _ _ _ _ ht hs]
        exact ih (step + 1) arr1 t1 (by omega)

/-- More steps than `mweight` allows never change the result of running a task tree. -/
theorem runM_enough (cutoff : Int) (sched : Nat → Nat) (step : Nat) (arr : List Int)
    (t : MTask) :
    ∀ extra : Nat, runM cutoff sched (mweight t + extra) step arr t
      = runM cutoff sched (mweight t) step arr t := by
  intro extra
  induction extra with
  | zero => rfl
  | succ e ih =>
    rw [← ih]
    exact runM_succ cutoff sched (mweight t + e) step arr t (by omega)


/-! ## Claims on termination, trivial ranges and the cutoff -/

theorem runTasks_nil (cutoff s : Int) (sched : Nat → Nat) (fuel step : Nat) (arr : List Int) :
    runTasks cutoff s sched fuel step arr [] = some arr := by
  cases fuel <;> rfl

/-- Draining a pool that holds a single task: its body runs, then the tasks it created. -/
theorem runTasks_single (cutoff s : Int) (sched : Nat → Nat) (fuel step : Nat)
    (arr : List Int) (t : Int × Int) :
    runTasks cutoff s sched (fuel + 1) step arr [t]
      = (quick_sort_task cutoff arr t.1 t.2 s).bind
          (fun res => runTasks cutoff s sched fuel (step + 1) res.1 res.2) := by
  rw [runTasks]
  simp only [List.length_singleton, Nat.mod_one, List.getD_cons_zero, List.eraseIdx_cons_zero,
    List.nil_append]
  cases quick_sort_task cutoff arr t.1 t.2 s with
  | none => rfl
  | some res => rfl

/-- C17. Both sorts terminate. For every vector, every range that lies inside it (or has
at most one element), every pivot strategy, every cutoff and every scheduling of the
tasks, `quick_sort_serial`, the task tree of `quick_sort_task`, `serialMergeSort` and
`parallelMergeSort` return a result. On every input whatsoever the bounds on the nesting
depth and on the number of task steps are never what stops them: a larger bound gives
the same result. The reason is that each recursive call is on a strictly shorter range.
The already-sorted input `[1..6]` with strategy first is sorted all the same. -/
theorem sorts_terminate (cutoff strategy : Int) (sched : Nat → Nat) (S : List Int)
    (low high : Int) (hrange : low < high → 0 ≤ low ∧ high < S.length) :
    (∃ S1 : List Int, quick_sort_serial S low high strategy = some S1) ∧
    (∃ S1 : List Int,
      runTasks cutoff strategy sched (2 * (high + 1 - low).toNat + 1) 0 S [(low, high)]
        = some S1) ∧
    (∃ S1 : List Int, serialMergeSort S low high = some S1) ∧
    (∃ S1 : List Int, parallelMergeSort cutoff sched S low high = some S1) ∧
    (∀ (arr : List Int) (lo hi s : Int) (extra : Nat),
      quickSortSerialFuel ((hi - lo).toNat + 1 + extra) arr lo hi s
        = quick_sort_serial arr lo hi s) ∧
    (∀ (arr : List Int) (l r : Int) (extra : Nat),
      serialMergeSortFuel ((r - l).toNat + 1 + extra) arr l r = serialMergeSort arr l r) ∧
    (∀ (arr : List Int) (pool : List (Int × Int)) (step extra : Nat),
      runTasks cutoff strategy sched (poolWeight pool + extra) step arr pool
        = runTasks cutoff strategy sched (poolWeight pool) step arr pool) ∧
    (∀ (arr : List Int) (t : MTask) (step extra : Nat),
      runM cutoff sched (mweight t + extra) step arr t
        = runM cutoff sched (mweight t) step arr t) ∧
    (∀ (arr : List Int) (lo hi s : Int) (arr1 : List Int) (p : Int), lo < hi →
      partition arr lo hi s = some (arr1, p) →
      (p - 1) - lo < hi - lo ∧ hi - (p + 1) < hi - lo) ∧
    (∀ l r : Int, l < r →
      (l + (r - l).tdiv 2) - l < r - l ∧ r - (l + (r - l).tdiv 2 + 1) < r - l) ∧
    quick_sort_serial [1, 2, 3, 4, 5, 6] 0 5 1 = some [1, 2, 3, 4, 5, 6] := by
  have hq := quick_sort_serial_eq_sortRange S low high strategy hrange
  have hm := serialMergeSort_eq_sortRange S low high hrange
  refine ⟨⟨_, hq⟩, ⟨finish S [(low, high)], ?_⟩, ⟨_, hm⟩, ⟨sortRange S (low, high), ?_⟩,
    ?_, ?_, ?_, ?_, ?_, ?_, by decide⟩
  · exact runTasks_finish cutoff strategy sched _ 0 S [(low, high)]
      (by intro t ht
          simp only [List.mem_singleton] at ht
          subst ht
          exact hrange)
      (List.pairwise_singleton _ _)
      (by simp only [poolWeight]; omega)
  · exact parallelMergeSort_eq_sortRange cutoff sched S low high hrange
  · intro arr lo hi s extra
    exact quickSortSerialFuel_enough s arr lo hi extra
  · intro arr l r extra
    exact serialMergeSortFuel_enough arr l r extra
  · intro arr pool step extra
    exact runTasks_enough cutoff strategy sched step arr pool extra
  · intro arr t step extra
    exact runM_enough cutoff sched step arr t extra
  · intro arr lo hi s arr1 p hlt hp
    have := partition_index_of_some arr lo hi s arr1 p hp (by omega)
    omega
  · intro l r hlt
    have hd : (r - l).tdiv 2 = (r - l) / 2 := Int.tdiv_eq_ediv (by omega) (by omega)
    rw [hd]
    omega

theorem sorts_terminate_witness :
    ((0 : Int) < 4 → (0 : Int) ≤ 0 ∧ (4 : Int) < ([1, 2, 3, 4, 5] : List Int).length) ∧
    ((∃ S1 : List Int, quick_sort_serial [1, 2, 3, 4, 5] 0 4 1 = some S1) ∧
    (∃ S1 : List Int,
      runTasks 0 1 (fun k => k) (2 * ((4 : Int) + 1 - 0).toNat + 1) 0 [1, 2, 3, 4, 5]
        [(0, 4)] = some S1) ∧
    (∃ S1 : List Int, serialMergeSort [1, 2, 3, 4, 5] 0 4 = some S1) ∧
    (∃ S1 : List Int, parallelMergeSort 0 (fun k => k) [1, 2, 3, 4, 5] 0 4 = some S1) ∧
    (∀ (arr : List Int) (lo hi s : Int) (extra : Nat),
      quickSortSerialFuel ((hi - lo).toNat + 1 + extra) arr lo hi s
        = quick_sort_serial arr lo hi s) ∧
    (∀ (arr : List Int) (l r : Int) (extra : Nat),
      serialMergeSortFuel ((r - l).toNat + 1 + extra) arr l r = serialMergeSort arr l r) ∧
    (∀ (arr : List Int) (pool : List (Int × Int)) (step extra : Nat),
      runTasks 0 1 (fun k => k) (poolWeight pool + extra) step arr pool
        = runTasks 0 1 (fun k => k) (poolWeight pool) step arr pool) ∧
    (∀ (arr : List Int) (t : MTask) (step extra : Nat),
      runM 0 (fun k => k) (mweight t + extra) step arr t
        = runM 0 (fun k => k) (mweight t) step arr t) ∧
    (∀ (arr : List Int) (lo hi s : Int) (arr1 : List Int) (p : Int), lo < hi →
      partition arr lo hi s = some (arr1, p) →
      (p - 1) - lo < hi - lo ∧ hi - (p + 1) < hi - lo) ∧
    (∀ l r : Int, l < r →
      (l + (r - l).tdiv 2) - l < r - l ∧ r - (l + (r - l).tdiv 2 + 1) < r - l) ∧
    quick_sort_serial [1, 2, 3, 4, 5, 6] 0 5 1 = some [1, 2, 3, 4, 5, 6]) :=
  ⟨by decide, sorts_terminate 0 1 (fun k => k) [1, 2, 3, 4, 5] 0 4 (by decide)⟩

/-- C18. A range with `low ≥ high` is a no-op, not a fault: for every vector (the empty one
included), every strategy, cutoff and schedule, and every `low ≥ high` (inside the vector
or not), the four sorts return the vector unchanged, `quick_sort_task` creates no task and
the task of `parallelMergeSort` finishes at once; so does the wrapper for `n ≤ 1`, in
particular for `n = 0`. No element is accessed: an access outside the vector would be a
fault, as it is for `partition` on the empty vector. -/
theorem trivial_range_no_op (cutoff strategy : Int) (sched : Nat → Nat) (S : List Int)
    (low high : Int) (fuel step c : Nat) (h : low ≥ high) :
    quick_sort_serial S low high strategy = some S ∧
    quick_sort_task cutoff S low high strategy = some (S, []) ∧
    runTasks cutoff strategy sched (fuel + 1) step S [(low, high)] = some S ∧
    serialMergeSort S low high = some S ∧
    stepM cutoff (.todo low high) c S = some (S, .done) ∧
    parallelMergeSort cutoff sched S low high = some S ∧
    (∀ n : Int, n ≤ 1 → quick_sort_parallel cutoff sched S n strategy = some S) ∧
    quick_sort_parallel cutoff sched [] 0 strategy = some [] ∧
    partition [] low high strategy = none := by
  have hlt : ¬ low < high := by omega
  have hq : quick_sort_task cutoff S low high strategy = some (S, []) := by
    simp [quick_sort_task, hlt]
  have hs : ∀ k : Nat, stepM cutoff (.todo low high) k S = some (S, .done) := by
    intro k; simp [stepM, h]
  have hw : ∀ n : Int, n ≤ 1 → quick_sort_parallel cutoff sched S n strategy = some S := by
    intro n hn
    have hq0 : quick_sort_task cutoff S 0 (n - 1) strategy = some (S, []) := by
      have : ¬ (0 : Int) < n - 1 := by omega
      simp [quick_sort_task, this]
    rw [quick_sort_parallel, runTasks_single]
    simp [hq0, runTasks_nil]
  refine ⟨?_, hq, ?_, ?_, hs c, ?_, hw, ?_, ?_⟩
  · simp [quick_sort_serial, quickSortSerialFuel, hlt]
  · rw [runTasks_single]
    simp [hq, runTasks_nil]
  · simp [serialMergeSort, serialMergeSortFuel, h]
  · rw [parallelMergeSort, runM_step cutoff sched _ 0 S S (.todo low high) .done (by simp)
      (hs _), runM_done]
  · rw [quick_sort_parallel, runTasks_single]
    simp [quick_sort_task, runTasks_nil]
  · simp [partition, swap, rd]

theorem trivial_range_no_op_witness :
    ((7 : Int) ≥ 2) ∧
    (quick_sort_serial [3, 1, 2] 7 2 0 = some [3, 1, 2] ∧
    quick_sort_task 0 [3, 1, 2] 7 2 0 = some ([3, 1, 2], []) ∧
    runTasks 0 0 (fun k => k) (0 + 1) 0 [3, 1, 2] [(7, 2)] = some [3, 1, 2] ∧
    serialMergeSort [3, 1, 2] 7 2 = some [3, 1, 2] ∧
    stepM 0 (.todo 7 2) 0 [3, 1, 2] = some ([3, 1, 2], .done) ∧
    parallelMergeSort 0 (fun k => k) [3, 1, 2] 7 2 = some [3, 1, 2] ∧
    (∀ n : Int, n ≤ 1 → quick_sort_parallel 0 (fun k => k) [3, 1, 2] n 0 = some [3, 1, 2]) ∧
    quick_sort_parallel 0 (fun k => k) [] 0 0 = some [] ∧
    partition [] 7 2 0 = none) :=
  ⟨by decide, trivial_range_no_op 0 0 (fun k => k) [3, 1, 2] 7 2 0 0 0 (by decide)⟩

/-- C19. Cutoff: on a range with `low < high` and `high - low < cutoff` the body of
`quick_sort_task` creates no task and its whole effect is the one call
`quick_sort_serial(arr, low, high, strategy)`; likewise the task of `parallelMergeSort`
finishes with the one call `serialMergeSort(arr, l, r)`. This holds on every vector and
for the cutoff `1000` of the code in particular. -/
theorem cutoff_direct (cutoff strategy : Int) (sched : Nat → Nat) (S : List Int)
    (low high : Int) (fuel step c : Nat) (hlt : low < high) (hc : high - low < cutoff) :
    quick_sort_task cutoff S low high strategy
      = (quick_sort_serial S low high strategy).map (fun a => (a, [])) ∧
    runTasks cutoff strategy sched (fuel + 1) step S [(low, high)]
      = quick_sort_serial S low high strategy ∧
    stepM cutoff (.todo low high) c S
      = (serialMergeSort S low high).map (fun a => (a, MTask.done)) ∧
    parallelMergeSort cutoff sched S low high = serialMergeSort S low high ∧
    (high - low < 1000 →
      quick_sort_task CUTOFF S low high strategy
        = (quick_sort_serial S low high strategy).map (fun a => (a, []))) := by
  have hge : ¬ low ≥ high := by omega
  have hq : ∀ cut : Int, high - low < cut → quick_sort_task cut S low high strategy
      = (quick_sort_serial S low high strategy).map (fun a => (a, [])) := by
    intro cut hcut
    cases hs : quick_sort_serial S low high strategy <;>
      simp [quick_sort_task, hlt, hcut, hs]
  have hs : ∀ k : Nat, stepM cutoff (.todo low high) k S
      = (serialMergeSort S low high).map (fun a => (a, MTask.done)) := by
    intro k
    cases hs : serialMergeSort S low high <;> simp [stepM, hge, hc, hs]
  refine ⟨hq cutoff hc, ?_, hs c, ?_, fun h => hq CUTOFF (by simpa [CUTOFF] using h)⟩
  · rw [runTasks_single, hq cutoff hc]
    cases hser : quick_sort_serial S low high strategy with
    | none => rfl
    | some a => simp [runTasks_nil]
  · cases hser : serialMergeSort S low high with
    | none =>
      have := hs (sched 0)
      rw [hser] at this
      rw [parallelMergeSort, runM_fault cutoff sched _ 0 S (.todo low high) (by simp) this]
    | some a =>
      have := hs (sched 0)
      rw [hser] at this
      rw [parallelMergeSort, runM_step cutoff sched _ 0 S a (.todo low high) .done (by simp)
        this, runM_done]

theorem cutoff_direct_witness :
    ((1 : Int) < 4 ∧ (4 : Int) - 1 < 5) ∧
    (quick_sort_task 5 [9, 6, 2, 8, 1, 0] 1 4 0
      = (quick_sort_serial [9, 6, 2, 8, 1, 0] 1 4 0).map (fun a => (a, [])) ∧
    runTasks 5 0 (fun k => k) (0 + 1) 0 [9, 6, 2, 8, 1, 0] [(1, 4)]
      = quick_sort_serial [9, 6, 2, 8, 1, 0] 1 4 0 ∧
    stepM 5 (.todo 1 4) 0 [9, 6, 2, 8, 1, 0]
      = (serialMergeSort [9, 6, 2, 8, 1, 0] 1 4).map (fun a => (a, MTask.done)) ∧
    parallelMergeSort 5 (fun k => k) [9, 6, 2, 8, 1, 0] 1 4
      = serialMergeSort [9, 6, 2, 8, 1, 0] 1 4 ∧
    ((4 : Int) - 1 < 1000 →
      quick_sort_task CUTOFF [9, 6, 2, 8, 1, 0] 1 4 0
        = (quick_sort_serial [9, 6, 2, 8, 1, 0] 1 4 0).map (fun a => (a, [])))) :=
  ⟨by decide, cutoff_direct 5 0 (fun k => k) [9, 6, 2, 8, 1, 0] 1 4 0 0 0 (by decide)
    (by decide)⟩

/-- C20. Concrete scenario 1: on the input `[19,2,72,3,18,57,603,490,45,101]` and for any
cutoff `≥ 10` (so the root call takes the direct path; the cutoff `1000` of the code is
one), the quicksort driver returns `[2,3,18,19,45,57,72,101,490,603]` for every value of
the strategy selector, hence for first, last and middle, and for every schedule. -/
theorem scenario_one (cutoff strategy : Int) (sched : Nat → Nat) (hc : 10 ≤ cutoff) :
    quick_sort_task cutoff [19, 2, 72, 3, 18, 57, 603, 490, 45, 101] 0 9 strategy
      = some ([2, 3, 18, 19, 45, 57, 72, 101, 490, 603], []) ∧
    quick_sort_parallel cutoff sched [19, 2, 72, 3, 18, 57, 603, 490, 45, 101] 10 strategy
      = some [2, 3, 18, 19, 45, 57, 72, 101, 490, 603] ∧
    quick_sort_parallel CUTOFF sched [19, 2, 72, 3, 18, 57, 603, 490, 45, 101] 10 strategy
      = some [2, 3, 18, 19, 45, 57, 72, 101, 490, 603] ∧
    quick_sort_serial [19, 2, 72, 3, 18, 57, 603, 490, 45, 101] 0 9 strategy
      = some [2, 3, 18, 19, 45, 57, 72, 101, 490, 603] := by
  have hsorted : sorted [19, 2, 72, 3, 18, 57, 603, 490, 45, 101]
      = [2, 3, 18, 19, 45, 57, 72, 101, 490, 603] := by decide
  have hser : quick_sort_serial [19, 2, 72, 3, 18, 57, 603, 490, 45, 101] 0 9 strategy
      = some [2, 3, 18, 19, 45, 57, 72, 101, 490, 603] := by
    have := (whole_vector_sorts [19, 2, 72, 3, 18, 57, 603, 490, 45, 101] strategy).1
    rw [hsorted] at this
    exact this
  have hpar : ∀ cut : Int,
      quick_sort_parallel cut sched [19, 2, 72, 3, 18, 57, 603, 490, 45, 101] 10 strategy
        = some [2, 3, 18, 19, 45, 57, 72, 101, 490, 603] := by
    intro cut
    have := quick_sort_parallel_eq_sorted cut strategy sched
      [19, 2, 72, 3, 18, 57, 603, 490, 45, 101]
    rw [hsorted] at this
    exact this
  refine ⟨?_, hpar cutoff, hpar CUTOFF, hser⟩
  have hlt : (0 : Int) < 9 := by decide
  have hcut : (9 : Int) - 0 < cutoff := by omega
  rw [quick_sort_task, if_pos hlt, if_pos hcut, hser]
  rfl

theorem scenario_one_witness :
    ((10 : Int) ≤ 10) ∧
    (quick_sort_task 10 [19, 2, 72, 3, 18, 57, 603, 490, 45, 101] 0 9 1
      = some ([2, 3, 18, 19, 45, 57, 72, 101, 490, 603], []) ∧
    quick_sort_parallel 10 (fun k => k) [19, 2, 72, 3, 18, 57, 603, 490, 45, 101] 10 1
      = some [2, 3, 18, 19, 45, 57, 72, 101, 490, 603] ∧
    quick_sort_parallel CUTOFF (fun k => k) [19, 2, 72, 3, 18, 57, 603, 490, 45, 101] 10 1
      = some [2, 3, 18, 19, 45, 57, 72, 101, 490, 603] ∧
    quick_sort_serial [19, 2, 72, 3, 18, 57, 603, 490, 45, 101] 0 9 1
      = some [2, 3, 18, 19, 45, 57, 72, 101, 490, 603]) :=
  ⟨by decide, scenario_one 10 1 (fun k => k) (by decide)⟩


/-! ## Frame and purity -/

/-- Replacing a segment by one of the same length changes no read outside it. -/
theorem rd_frame (A M M1 C : List Int) (k : Int) (hlen : M1.length = M.length)
    (hk : k < A.length ∨ (A.length : Int) + M.length ≤ k) :
    rd (A ++ (M1 ++ C)) k = rd (A ++ (M ++ C)) k := by
  unfold rd
  by_cases h0 : 0 ≤ k
  · simp only [h0, if_true]
    rcases hk with hk | hk
    · rw [List.getElem?_append_left (by omega), List.getElem?_append_left (by omega)]
    · rw [List.getElem?_append_right (by omega), List.getElem?_append_right (by omega),
        List.getElem?_append_right (by omega), List.getElem?_append_right (by omega), hlen]
  · simp [h0]

/-- A read inside a segment is a read of the segment. -/
theorem rd_segment (A M C : List Int) (k : Int) (h1 : (A.length : Int) ≤ k)
    (h2 : k < (A.length : Int) + M.length) :
    rd (A ++ (M ++ C)) k = M[(k - A.length).toNat]? := by
  unfold rd
  have h0 : 0 ≤ k := by omega
  simp only [h0, if_true]
  rw [List.getElem?_append_right (by omega), List.getElem?_append_left (by omega)]
  congr 1
  omega

/-- Two vectors that agree on every index of a range have the same elements there. -/
theorem slice_eq_of_agree (S1 S2 : List Int) (low high : Int) (h0 : 0 ≤ low)
    (hagree : ∀ k : Int, low ≤ k → k ≤ high → rd S1 k = rd S2 k) :
    slice S1 low high = slice S2 low high := by
  apply List.ext_getElem?
  intro n
  unfold slice
  rw [List.getElem?_take, List.getElem?_take]
  split_ifs with hn
  · rw [List.getElem?_drop, List.getElem?_drop]
    have := hagree (low + n) (by omega) (by omega)
    unfold rd at this
    have hpos : (0 : Int) ≤ low + n := by omega
    simp only [hpos, if_true] at this
    have he : (low + (n : Int)).toNat = low.toNat + n := by omega
    rw [he] at this
    exact this
  · rfl


/-- C27. Frame: on a range `0 ≤ low ≤ high < |S|` (split at any `m` with
`low - 1 ≤ m ≤ high` for `merge`), `partition`, `quick_sort_serial`, `merge` and
`serialMergeSort` return a vector of the same length in which every element at an index
outside `[low, high]` is the one that was there before. -/
theorem range_frame (S : List Int) (low high m strategy : Int) (h0 : 0 ≤ low)
    (hlh : low ≤ high) (hh : high < S.length) (hm1 : low - 1 ≤ m) (hm2 : m ≤ high) :
    (∃ (S1 : List Int) (p : Int), partition S low high strategy = some (S1, p) ∧
      S1.length = S.length ∧ ∀ k : Int, k < low ∨ high < k → rd S1 k = rd S k) ∧
    (∃ S1 : List Int, quick_sort_serial S low high strategy = some S1 ∧
      S1.length = S.length ∧ ∀ k : Int, k < low ∨ high < k → rd S1 k = rd S k) ∧
    (∃ S1 : List Int, merge S low m high = some S1 ∧
      S1.length = S.length ∧ ∀ k : Int, k < low ∨ high < k → rd S1 k = rd S k) ∧
    (∃ S1 : List Int, serialMergeSort S low high = some S1 ∧
      S1.length = S.length ∧ ∀ k : Int, k < low ∨ high < k → rd S1 k = rd S k) := by
  obtain ⟨A, M, C, hS, hA, hM, -⟩ := range_split S low high h0 (by omega) hh
  have hne : M ≠ [] := by intro h; subst h; simp at hM; omega
  have key : ∀ M1 : List Int, M1.length = M.length →
      (A ++ (M1 ++ C)).length = S.length ∧
      ∀ k : Int, k < low ∨ high < k → rd (A ++ (M1 ++ C)) k = rd S k := by
    intro M1 hlen
    constructor
    · rw [hS]; simp only [List.length_append]; omega
    · intro k hk
      rw [hS]
      exact rd_frame A M M1 C k hlen (by omega)
  refine ⟨?_, ?_, ?_, ?_⟩
  · obtain ⟨Ls, Gs, pv, hpart, hperm, -, -, -⟩ :=
      partition_segments A M C low high strategy hne hA.symm (by omega)
    have e : A ++ (Ls ++ pv :: (Gs ++ C)) = A ++ ((Ls ++ pv :: Gs) ++ C) := by simp
    refine ⟨_, _, by rw [hS]; exact hpart, ?_⟩
    rw [e]
    exact key _ hperm.length_eq
  · have hrun := quick_sort_serial_segments A M C low high strategy hA.symm (by omega)
    exact ⟨_, by rw [hS]; exact hrun, key _ (sorted_length M)⟩
  · obtain ⟨A2, Lm, Rm, C2, hS2, hA2, hL, hR, -, -, -⟩ :=
      range_split2 S low m high h0 (by omega) hm2 hh
    have hrun := merge_segments A2 Lm Rm C2 low m high hA2.symm (by omega) (by omega)
    refine ⟨_, by rw [hS2]; exact hrun, ?_, ?_⟩
    · rw [hS2]; simp only [List.length_append, List.length_merge]; omega
    · intro k hk
      rw [hS2]
      have := rd_frame A2 (Lm ++ Rm) (List.merge Lm Rm (fun a b => decide (a ≤ b))) C2 k
        (by rw [List.length_merge, List.length_append])
        (by simp only [List.length_append]; omega)
      simpa using this
  · have hrun := serialMergeSort_segments A M C low high hA.symm (by omega)
    exact ⟨_, by rw [hS]; exact hrun, key _ (sorted_length M)⟩

theorem range_frame_witness :
    ((0 : Int) ≤ 1 ∧ (1 : Int) ≤ 3 ∧ (3 : Int) < ([9, 6, 2, 8, 1] : List Int).length ∧
      (1 : Int) - 1 ≤ 2 ∧ (2 : Int) ≤ 3) ∧
    ((∃ (S1 : List Int) (p : Int), partition [9, 6, 2, 8, 1] 1 3 0 = some (S1, p) ∧
      S1.length = ([9, 6, 2, 8, 1] : List Int).length ∧
      ∀ k : Int, k < 1 ∨ 3 < k → rd S1 k = rd [9, 6, 2, 8, 1] k) ∧
    (∃ S1 : List Int, quick_sort_serial [9, 6, 2, 8, 1] 1 3 0 = some S1 ∧
      S1.length = ([9, 6, 2, 8, 1] : List Int).length ∧
      ∀ k : Int, k < 1 ∨ 3 < k → rd S1 k = rd [9, 6, 2, 8, 1] k) ∧
    (∃ S1 : List Int, merge [9, 6, 2, 8, 1] 1 2 3 = some S1 ∧
      S1.length = ([9, 6, 2, 8, 1] : List Int).length ∧
      ∀ k : Int, k < 1 ∨ 3 < k → rd S1 k = rd [9, 6, 2, 8, 1] k) ∧
    (∃ S1 : List Int, serialMergeSort [9, 6, 2, 8, 1] 1 3 = some S1 ∧
      S1.length = ([9, 6, 2, 8, 1] : List Int).length ∧
      ∀ k : Int, k < 1 ∨ 3 < k → rd S1 k = rd [9, 6, 2, 8, 1] k)) :=
  ⟨by decide,
    range_frame [9, 6, 2, 8, 1] 1 3 2 0 (by decide) (by decide) (by decide) (by decide)
      (by decide)⟩

/-- C28. The sequential sorts are pure functions of their range: if two vectors agree on
every index of `[low, high]` (they may differ elsewhere, also in length), then
`quick_sort_serial` with the same strategy, `serialMergeSort`, and `merge` with the same
split return vectors that agree on every index of `[low, high]`. -/
theorem sorts_pure (S1 S2 : List Int) (low high m strategy : Int) (h0 : 0 ≤ low)
    (hlh : low ≤ high) (h1 : high < S1.length) (h2 : high < S2.length)
    (hm1 : low - 1 ≤ m) (hm2 : m ≤ high)
    (hagree : ∀ k : Int, low ≤ k → k ≤ high → rd S1 k = rd S2 k) :
    (∃ T1 T2 : List Int, quick_sort_serial S1 low high strategy = some T1 ∧
      quick_sort_serial S2 low high strategy = some T2 ∧
      slice T1 low high = slice T2 low high ∧
      ∀ k : Int, low ≤ k → k ≤ high → rd T1 k = rd T2 k) ∧
    (∃ T1 T2 : List Int, serialMergeSort S1 low high = some T1 ∧
      serialMergeSort S2 low high = some T2 ∧
      slice T1 low high = slice T2 low high ∧
      ∀ k : Int, low ≤ k → k ≤ high → rd T1 k = rd T2 k) ∧
    (∃ T1 T2 : List Int, merge S1 low m high = some T1 ∧
      merge S2 low m high = some T2 ∧
      slice T1 low high = slice T2 low high ∧
      ∀ k : Int, low ≤ k → k ≤ high → rd T1 k = rd T2 k) := by
  obtain ⟨A1, M1, C1, hS1, hA1, hM1, hsl1⟩ := range_split S1 low high h0 (by omega) h1
  obtain ⟨A2, M2, C2, hS2, hA2, hM2, hsl2⟩ := range_split S2 low high h0 (by omega) h2
  have hMM : M1 = M2 := by
    rw [hsl1, hsl2]; exact slice_eq_of_agree S1 S2 low high h0 hagree
  subst hMM
  have key : ∀ N : List Int, N.length = M1.length →
      slice (A1 ++ (N ++ C1)) low high = slice (A2 ++ (N ++ C2)) low high ∧
      ∀ k : Int, low ≤ k → k ≤ high → rd (A1 ++ (N ++ C1)) k = rd (A2 ++ (N ++ C2)) k := by
    intro N hN
    constructor
    · rw [slice_segments A1 N C1 low high hA1.symm (by omega),
        slice_segments A2 N C2 low high hA2.symm (by omega)]
    · intro k hk1 hk2
      rw [rd_segment A1 N C1 k (by omega) (by omega),
        rd_segment A2 N C2 k (by omega) (by omega), hA1, hA2]
  refine ⟨?_, ?_, ?_⟩
  · have r1 := quick_sort_serial_segments A1 M1 C1 low high strategy hA1.symm (by omega)
    have r2 := quick_sort_serial_segments A2 M1 C2 low high strategy hA2.symm (by omega)
    exact ⟨_, _, by rw [hS1]; exact r1, by rw [hS2]; exact r2, key _ (sorted_length M1)⟩
  · have r1 := serialMergeSort_segments A1 M1 C1 low high hA1.symm (by omega)
    have r2 := serialMergeSort_segments A2 M1 C2 low high hA2.symm (by omega)
    exact ⟨_, _, by rw [hS1]; exact r1, by rw [hS2]; exact r2, key _ (sorted_length M1)⟩
  · have hsplit : M1 = M1.take (m + 1 - low).toNat ++ M1.drop (m + 1 - low).toNat :=
      (List.take_append_drop _ _).symm
    generalize hLm : M1.take (m + 1 - low).toNat = Lm at hsplit
    generalize hRm : M1.drop (m + 1 - low).toNat = Rm at hsplit
    have hLlen : (Lm.length : Int) = m + 1 - low := by
      rw [← hLm, List.length_take]; omega
    have hRlen : (Rm.length : Int) = high - m := by
      rw [← hRm, List.length_drop]; omega
    have hlenM : M1.length = Lm.length + Rm.length := by rw [hsplit, List.length_append]
    have r1 := merge_segments A1 Lm Rm C1 low m high hA1.symm (by omega) (by omega)
    have r2 := merge_segments A2 Lm Rm C2 low m high hA2.symm (by omega) (by omega)
    have hk := key (List.merge Lm Rm (fun a b => decide (a ≤ b)))
      (by rw [List.length_merge]; omega)
    exact ⟨A1 ++ (List.merge Lm Rm (fun a b => decide (a ≤ b)) ++ C1),
      A2 ++ (List.merge Lm Rm (fun a b => decide (a ≤ b)) ++ C2),
      by rw [hS1, hsplit, List.append_assoc]; exact r1,
      by rw [hS2, hsplit, List.append_assoc]; exact r2, hk⟩

theorem sorts_pure_witness :
    ((0 : Int) ≤ 1 ∧ (1 : Int) ≤ 3 ∧ (3 : Int) < ([9, 6, 2, 8, 1] : List Int).length ∧
      (3 : Int) < ([0, 6, 2, 8] : List Int).length ∧ (1 : Int) - 1 ≤ 2 ∧ (2 : Int) ≤ 3 ∧
      ∀ k : Int, 1 ≤ k → k ≤ 3 → rd [9, 6, 2, 8, 1] k = rd [0, 6, 2, 8] k) ∧
    ((∃ T1 T2 : List Int, quick_sort_serial [9, 6, 2, 8, 1] 1 3 0 = some T1 ∧
      quick_sort_serial [0, 6, 2, 8] 1 3 0 = some T2 ∧
      slice T1 1 3 = slice T2 1 3 ∧
      ∀ k : Int, 1 ≤ k → k ≤ 3 → rd T1 k = rd T2 k) ∧
    (∃ T1 T2 : List Int, serialMergeSort [9, 6, 2, 8, 1] 1 3 = some T1 ∧
      serialMergeSort [0, 6, 2, 8] 1 3 = some T2 ∧
      slice T1 1 3 = slice T2 1 3 ∧
      ∀ k : Int, 1 ≤ k → k ≤ 3 → rd T1 k = rd T2 k) ∧
    (∃ T1 T2 : List Int, merge [9, 6, 2, 8, 1] 1 2 3 = some T1 ∧
      merge [0, 6, 2, 8] 1 2 3 = some T2 ∧
      slice T1 1 3 = slice T2 1 3 ∧
      ∀ k : Int, 1 ≤ k → k ≤ 3 → rd T1 k = rd T2 k)) :=
  have hag : ∀ k : Int, 1 ≤ k → k ≤ 3 → rd [9, 6, 2, 8, 1] k = rd [0, 6, 2, 8] k := by
    intro k hk1 hk2
    have : k = 1 ∨ k = 2 ∨ k = 3 := by omega
    rcases this with h | h | h <;> subst h <;> decide
  ⟨⟨by decide, by decide, by decide, by decide, by decide, by decide, hag⟩,
    sorts_pure [9, 6, 2, 8, 1] [0, 6, 2, 8] 1 3 2 0 (by decide) (by decide) (by decide)
      (by decide) (by decide) (by decide) hag⟩


/-! ## Commuting sibling sorts -/

/-- Two sequential sorts of ranges inside the vector, one after the other. -/
theorem two_sorts_eq_sortRange (sortOn : List Int → Int → Int → Option (List Int))
    (hsort : ∀ (arr : List Int) (lo hi : Int), InRange arr.length (lo, hi) →
      sortOn arr lo hi = some (sortRange arr (lo, hi)))
    (S : List Int) (t u : Int × Int) (ht : InRange S.length t) (hu : InRange S.length u) :
    (sortOn S t.1 t.2).bind (fun T => sortOn T u.1 u.2)
      = some (sortRange (sortRange S t) u) := by
  rw [hsort S t.1 t.2 ht]
  simp only [Option.some_bind]
  rw [hsort (sortRange S (t.1, t.2)) u.1 u.2 (by rw [sortRange_length]; exact hu)]

/-- C29. Sibling sub-sorts commute: for a range `[low, high]` inside the vector and any split
point `p` in it, sorting `[low, p-1]` and then `[p+1, high]` with `quick_sort_serial`
returns exactly the vector that sorting them in the opposite order returns, and likewise
`serialMergeSort` on `[low, p]` and `[p+1, high]`; a pool holding the two child tasks gives
the same result whichever is listed first, and the results of the parallel drivers are
the same for any two schedules. -/
theorem sibling_sorts_commute (cutoff strategy : Int) (sched1 sched2 : Nat → Nat)
    (S : List Int) (low high p : Int) (h0 : 0 ≤ low) (hp1 : low ≤ p) (hp2 : p ≤ high)
    (hh : high < S.length) :
    ((quick_sort_serial S low (p - 1) strategy).bind
        (fun T => quick_sort_serial T (p + 1) high strategy)
      = (quick_sort_serial S (p + 1) high strategy).bind
        (fun T => quick_sort_serial T low (p - 1) strategy)) ∧
    (∃ T1 : List Int, (quick_sort_serial S low (p - 1) strategy).bind
        (fun T => quick_sort_serial T (p + 1) high strategy) = some T1) ∧
    ((serialMergeSort S low p).bind (fun T => serialMergeSort T (p + 1) high)
      = (serialMergeSort S (p + 1) high).bind (fun T => serialMergeSort T low p)) ∧
    (∃ T1 : List Int, (serialMergeSort S low p).bind
        (fun T => serialMergeSort T (p + 1) high) = some T1) ∧
    (runTasks cutoff strategy sched1 (2 * (high + 1 - low).toNat + 2) 0 S
        [(low, p - 1), (p + 1, high)]
      = runTasks cutoff strategy sched2 (2 * (high + 1 - low).toNat + 2) 0 S
        [(p + 1, high), (low, p - 1)]) ∧
    (runTasks cutoff strategy sched1 (2 * (high + 1 - low).toNat + 1) 0 S [(low, high)]
      = runTasks cutoff strategy sched2 (2 * (high + 1 - low).toNat + 1) 0 S
        [(low, high)]) ∧
    (parallelMergeSort cutoff sched1 S low high
      = parallelMergeSort cutoff sched2 S low high) := by
  have hq : ∀ (arr : List Int) (lo hi : Int), InRange arr.length (lo, hi) →
      quick_sort_serial arr lo hi strategy = some (sortRange arr (lo, hi)) :=
    fun arr lo hi h => quick_sort_serial_eq_sortRange arr lo hi strategy h
  have hm : ∀ (arr : List Int) (lo hi : Int), InRange arr.length (lo, hi) →
      serialMergeSort arr lo hi = some (sortRange arr (lo, hi)) :=
    fun arr lo hi h => serialMergeSort_eq_sortRange arr lo hi h
  have iL : InRange S.length (low, p - 1) := by intro _; simp only; omega
  have iR : InRange S.length (p + 1, high) := by intro _; simp only; omega
  have iL2 : InRange S.length (low, p) := by intro _; simp only; omega
  have iW : InRange S.length (low, high) := by intro _; simp only; omega
  have cq : sortRange (sortRange S (low, p - 1)) (p + 1, high)
      = sortRange (sortRange S (p + 1, high)) (low, p - 1) :=
    sortRange_comm S (low, p - 1) (p + 1, high) (Or.inl (by simp only; omega))
  have cm : sortRange (sortRange S (low, p)) (p + 1, high)
      = sortRange (sortRange S (p + 1, high)) (low, p) :=
    sortRange_comm S (low, p) (p + 1, high) (Or.inl (by simp only; omega))
  have q1 := two_sorts_eq_sortRange (fun a lo hi => quick_sort_serial a lo hi strategy) hq S
    (low, p - 1) (p + 1, high) iL iR
  have q2 := two_sorts_eq_sortRange (fun a lo hi => quick_sort_serial a lo hi strategy) hq S
    (p + 1, high) (low, p - 1) iR iL
  have m1 := two_sorts_eq_sortRange serialMergeSort hm S (low, p) (p + 1, high) iL2 iR
  have m2 := two_sorts_eq_sortRange serialMergeSort hm S (p + 1, high) (low, p) iR iL2
  simp only at q1 q2 m1 m2
  have pool : ∀ (sched : Nat → Nat) (t u : Int × Int), InRange S.length t →
      InRange S.length u → Sep t u →
      poolWeight [t, u] ≤ 2 * (high + 1 - low).toNat + 2 →
      runTasks cutoff strategy sched (2 * (high + 1 - low).toNat + 2) 0 S [t, u]
        = some (sortRange (sortRange S t) u) := by
    intro sched t u ht hu hsep hw
    rw [runTasks_finish cutoff strategy sched _ 0 S [t, u]
      (by intro x hx
          simp only [List.mem_cons, List.mem_singleton, List.not_mem_nil, or_false] at hx
          rcases hx with hx | hx
          · rw [hx]; exact ht
          · rw [hx]; exact hu)
      (by simp only [List.pairwise_cons, List.mem_singleton, forall_eq, List.not_mem_nil,
            false_imp_iff, implies_true, List.Pairwise.nil, and_true]
          exact hsep)
      hw]
    rfl
  have one : ∀ sched : Nat → Nat,
      runTasks cutoff strategy sched (2 * (high + 1 - low).toNat + 1) 0 S [(low, high)]
        = some (finish S [(low, high)]) := by
    intro sched
    exact runTasks_finish cutoff strategy sched _ 0 S [(low, high)]
      (by intro x hx
          simp only [List.mem_singleton] at hx
          rw [hx]; exact iW)
      (List.pairwise_singleton _ _)
      (by simp only [poolWeight]; omega)
  refine ⟨by rw [q1, q2, cq], ⟨_, q1⟩, by rw [m1, m2, cm], ⟨_, m1⟩, ?_, ?_, ?_⟩
  · rw [pool sched1 (low, p - 1) (p + 1, high) iL iR (Or.inl (by simp only; omega))
        (by simp only [poolWeight]; omega),
      pool sched2 (p + 1, high) (low, p - 1) iR iL (Or.inr (by simp only; omega))
        (by simp only [poolWeight]; omega), cq]
  · rw [one sched1, one sched2]
  · rw [parallelMergeSort_eq_sortRange cutoff sched1 S low high iW,
      parallelMergeSort_eq_sortRange cutoff sched2 S low high iW]

theorem sibling_sorts_commute_witness :
    ((0 : Int) ≤ 1 ∧ (1 : Int) ≤ 2 ∧ (2 : Int) ≤ 4 ∧
      (4 : Int) < ([9, 6, 2, 8, 1, 0] : List Int).length) ∧
    (((quick_sort_serial [9, 6, 2, 8, 1, 0] 1 (2 - 1) 0).bind
        (fun T => quick_sort_serial T (2 + 1) 4 0)
      = (quick_sort_serial [9, 6, 2, 8, 1, 0] (2 + 1) 4 0).bind
        (fun T => quick_sort_serial T 1 (2 - 1) 0)) ∧
    (∃ T1 : List Int, (quick_sort_serial [9, 6, 2, 8, 1, 0] 1 (2 - 1) 0).bind
        (fun T => quick_sort_serial T (2 + 1) 4 0) = some T1) ∧
    ((serialMergeSort [9, 6, 2, 8, 1, 0] 1 2).bind (fun T => serialMergeSort T (2 + 1) 4)
      = (serialMergeSort [9, 6, 2, 8, 1, 0] (2 + 1) 4).bind
        (fun T => serialMergeSort T 1 2)) ∧
    (∃ T1 : List Int, (serialMergeSort [9, 6, 2, 8, 1, 0] 1 2).bind
        (fun T => serialMergeSort T (2 + 1) 4) = some T1) ∧
    (runTasks 0 0 (fun k => k) (2 * ((4 : Int) + 1 - 1).toNat + 2) 0 [9, 6, 2, 8, 1, 0]
        [(1, 2 - 1), (2 + 1, 4)]
      = runTasks 0 0 (fun k => k + 1) (2 * ((4 : Int) + 1 - 1).toNat + 2) 0
        [9, 6, 2, 8, 1, 0] [(2 + 1, 4), (1, 2 - 1)]) ∧
    (runTasks 0 0 (fun k => k) (2 * ((4 : Int) + 1 - 1).toNat + 1) 0 [9, 6, 2, 8, 1, 0]
        [(1, 4)]
      = runTasks 0 0 (fun k => k + 1) (2 * ((4 : Int) + 1 - 1).toNat + 1) 0
        [9, 6, 2, 8, 1, 0] [(1, 4)]) ∧
    (parallelMergeSort 0 (fun k => k) [9, 6, 2, 8, 1, 0] 1 4
      = parallelMergeSort 0 (fun k => k + 1) [9, 6, 2, 8, 1, 0] 1 4)) :=
  ⟨by decide,
    sibling_sorts_commute 0 0 (fun k => k) (fun k => k + 1) [9, 6, 2, 8, 1, 0] 1 4 2
      (by decide) (by decide) (by decide) (by decide)⟩


/-! ## The scan invariant of `partition` -/

/-- Running the scan for `k + n` iterations is running it for `k` and then for `n` more. -/
theorem partitionLoop_add (pv : Int) :
    ∀ (k n : Nat) (arr : List Int) (i j : Int),
      partitionLoop pv (k + n) arr i j
        = (partitionLoop pv k arr i j).bind
            (fun st => partitionLoop pv n st.1 st.2 (j + k)) := by
  intro k
  induction k with
  | zero =>
    intro n arr i j
    simp [partitionLoop]
  | succ k ih =>
    intro n arr i j
    have e : k + 1 + n = (k + n) + 1 := by omega
    rw [e]
    simp only [partitionLoop, Option.bind_eq_bind]
    cases rd arr j with
    | none => rfl
    | some x =>
      simp only [Option.some_bind]
      have hj : j + ((k + 1 : Nat) : Int) = j + 1 + (k : Int) := by push_cast; omega
      by_cases hx : x ≤ pv
      · simp only [hx, if_true]
        cases swap arr (i + 1) j with
        | none => rfl
        | some arr1 =>
          simp only [Option.some_bind]
          rw [ih n arr1 (i + 1) (j + 1), hj]
      · simp only [hx, if_false]
        rw [ih n arr i (j + 1), hj]

/-- The first swap of `partition` moves the chosen pivot to position `high`. -/
theorem first_swap_segments (A M C : List Int) (low high s : Int) (hM : M ≠ [])
    (hlow : low = A.length) (hhigh : high = (A.length : Int) + M.length - 1) :
    ∃ (N : List Int) (pv : Int),
      swap (A ++ (M ++ C)) (pivotIndex low high s) high = some (A ++ (N ++ pv :: C)) ∧
      (N ++ [pv]).Perm M ∧ rd (A ++ (M ++ C)) (pivotIndex low high s) = some pv ∧
      (N.length : Int) = high - low := by
  have hMlen : 0 < M.length := List.length_pos.mpr hM
  have hlh : low ≤ high := by omega
  obtain ⟨hp1, hp2⟩ := pivotIndex_bounds low high s hlh
  obtain ⟨M0, last, hM0⟩ : ∃ M0 last, M = M0 ++ [last] :=
    ⟨M.dropLast, M.getLast hM, (List.dropLast_append_getLast hM).symm⟩
  subst hM0
  simp only [List.length_append, List.length_singleton, Nat.cast_add, Nat.cast_one] at hhigh
  by_cases hph : pivotIndex low high s = high
  · refine ⟨M0, last, ?_, List.Perm.refl _, ?_, by omega⟩
    · rw [hph]
      have := swap_same (A ++ M0) C last high (by simp; omega)
      simpa using this
    · rw [hph]
      have := rd_at (A ++ M0) C last high (by simp; omega)
      simpa using this
  · have hk : (pivotIndex low high s - low).toNat < M0.length := by omega
    obtain ⟨M1, p, M2, hsplit, hlen⟩ := split_at_index M0 _ hk
    subst hsplit
    simp only [List.length_append, List.length_cons, Nat.cast_add, Nat.cast_one] at hhigh
    refine ⟨M1 ++ last :: M2, p, ?_, ?_, ?_, by simp; omega⟩
    · have := swap_far (A ++ M1) M2 C p last (pivotIndex low high s) high
        (by simp; omega) (by simp; omega)
      simpa using this
    · simp only [List.append_assoc, List.cons_append]
      refine List.Perm.append_left M1 ?_
      exact perm_swap_ends last p M2
    · have := rd_at (A ++ M1) (M2 ++ last :: C) p (pivotIndex low high s) (by simp; omega)
      simpa using this

/-- C30. Scan invariant of `partition` on a range `0 ≤ low ≤ high < |S|`. The chosen pivot
is first moved to position `high`, and the counter `i` starts at `low - 1`. After the scan
has processed the indices `low .. low + k - 1` (its first `k` iterations, for any
`k ≤ high - low`), the counter satisfies `low - 1 ≤ i ≤ low - 1 + k`, every element at an
index in `[low, i]` is `≤` the pivot value, every element at an index in `[i+1, low+k-1]`
is greater, and position `high` still holds the pivot value. These `k` iterations are the
first `k` iterations of the whole scan. -/
theorem partition_scan_invariant (S : List Int) (low high strategy : Int) (h0 : 0 ≤ low)
    (hlh : low ≤ high) (hh : high < S.length) :
    ∃ (arr1 : List Int) (pv : Int),
      swap S (pivotIndex low high strategy) high = some arr1 ∧
      rd arr1 high = some pv ∧
      partitionLoop pv 0 arr1 (low - 1) low = some (arr1, low - 1) ∧
      ∀ k : Nat, (k : Int) ≤ high - low →
        (∃ (arrk : List Int) (ik : Int),
          partitionLoop pv k arr1 (low - 1) low = some (arrk, ik) ∧
          low - 1 ≤ ik ∧ ik ≤ low - 1 + k ∧
          (∀ idx : Int, low ≤ idx → idx ≤ ik → ∃ x, rd arrk idx = some x ∧ x ≤ pv) ∧
          (∀ idx : Int, ik < idx → idx < low + k → ∃ x, rd arrk idx = some x ∧ pv < x) ∧
          rd arrk high = some pv) ∧
        partitionLoop pv (high - low).toNat arr1 (low - 1) low
          = (partitionLoop pv k arr1 (low - 1) low).bind
              (fun st => partitionLoop pv ((high - low).toNat - k) st.1 st.2 (low + k)) := by
  obtain ⟨A, M, C, hS, hA, hM, -⟩ := range_split S low high h0 (by omega) hh
  have hne : M ≠ [] := by intro h; subst h; simp at hM; omega
  obtain ⟨N, pv, hsw, -, -, hN⟩ :=
    first_swap_segments A M C low high strategy hne hA.symm (by omega)
  have hrd : rd (A ++ (N ++ pv :: C)) high = some pv := by
    have := rd_at (A ++ N) C pv high (by simp; omega)
    simpa using this
  refine ⟨A ++ (N ++ pv :: C), pv, by rw [hS]; exact hsw, hrd, rfl, ?_⟩
  intro k hk
  constructor
  · have hsplit : N = N.take k ++ N.drop k := (List.take_append_drop _ _).symm
    have htake : (N.take k).length = k := by rw [List.length_take]; omega
    obtain ⟨Ls1, Gs1, hrun, hperm, hL1, hG1⟩ :=
      partitionLoop_segments pv (N.take k) A [] [] (N.drop k ++ pv :: C) (low - 1) low
        (by simp) (by simp) (by simp; omega) (by simp; omega)
    simp only [List.nil_append] at hrun hperm
    rw [htake, ← List.append_assoc (N.take k), ← hsplit] at hrun
    have hlen := hperm.length_eq
    simp only [List.length_append, htake] at hlen
    have hdrop : (N.drop k).length = N.length - k := List.length_drop k N
    refine ⟨_, _, hrun, by omega, by omega, ?_, ?_, ?_⟩
    · intro idx h1 h2
      obtain ⟨x, hx, hr⟩ := rd_mid A Ls1 (Gs1 ++ (N.drop k ++ pv :: C)) idx (by omega)
        (by omega)
      exact ⟨x, hr, hL1 x hx⟩
    · intro idx h1 h2
      obtain ⟨x, hx, hr⟩ := rd_mid (A ++ Ls1) Gs1 (N.drop k ++ pv :: C) idx
        (by simp only [List.length_append, Nat.cast_add]; omega)
        (by simp only [List.length_append, Nat.cast_add]; omega)
      exact ⟨x, by simpa using hr, hG1 x hx⟩
    · have := rd_at (A ++ (Ls1 ++ (Gs1 ++ N.drop k))) C pv high
        (by simp only [List.length_append, Nat.cast_add]; omega)
      simpa using this
  · have e : (high - low).toNat = k + ((high - low).toNat - k) := by omega
    conv_lhs => rw [e]
    exact partitionLoop_add pv k _ _ _ _

theorem partition_scan_invariant_witness :
    ((0 : Int) ≤ 1 ∧ (1 : Int) ≤ 4 ∧ (4 : Int) < ([9, 6, 2, 8, 1, 0] : List Int).length) ∧
    ∃ (arr1 : List Int) (pv : Int),
      swap [9, 6, 2, 8, 1, 0] (pivotIndex 1 4 0) 4 = some arr1 ∧
      rd arr1 4 = some pv ∧
      partitionLoop pv 0 arr1 (1 - 1) 1 = some (arr1, 1 - 1) ∧
      ∀ k : Nat, (k : Int) ≤ 4 - 1 →
        (∃ (arrk : List Int) (ik : Int),
          partitionLoop pv k arr1 (1 - 1) 1 = some (arrk, ik) ∧
          1 - 1 ≤ ik ∧ ik ≤ 1 - 1 + k ∧
          (∀ idx : Int, 1 ≤ idx → idx ≤ ik → ∃ x, rd arrk idx = some x ∧ x ≤ pv) ∧
          (∀ idx : Int, ik < idx → idx < 1 + k → ∃ x, rd arrk idx = some x ∧ pv < x) ∧
          rd arrk 4 = some pv) ∧
        partitionLoop pv ((4 : Int) - 1).toNat arr1 (1 - 1) 1
          = (partitionLoop pv k arr1 (1 - 1) 1).bind
              (fun st => partitionLoop pv (((4 : Int) - 1).toNat - k) st.1 st.2 (1 + k)) :=
  ⟨by decide,
    partition_scan_invariant [9, 6, 2, 8, 1, 0] 1 4 0 (by decide) (by decide) (by decide)⟩



/-! ## `isPrime` and 32-bit arithmetic -/

theorem wrap32_le (x : Int) : wrap32 x ≤ 2147483647 := by
  unfold wrap32; omega

theorem wrap32_id (x : Int) (h1 : -2147483648 ≤ x) (h2 : x ≤ 2147483647) : wrap32 x = x := by
  unfold wrap32; omega

theorem prime_int_max : Nat.Prime 2147483647 := by
  have h : (mersenne 31).Prime := lucas_lehmer_sufficiency 31 (by norm_num) (by norm_num)
  have e : mersenne 31 = 2147483647 := by norm_num [mersenne]
  rw [e] at h
  exact h

/-- On `n = 2147483647` the loop condition can never fail, so the loop never answers
"prime". -/
theorem isPrimeLoop_int_max_ne_true :
    ∀ (fuel : Nat) (i : Int), isPrimeLoop 2147483647 fuel i ≠ some true := by
  intro fuel
  induction fuel with
  | zero => intro i; simp [isPrimeLoop]
  | succ fuel ih =>
    intro i
    have hc : wrap32 (i * i) ≤ 2147483647 := wrap32_le _
    simp only [isPrimeLoop, hc, if_true]
    split_ifs
    · simp
    · exact ih _

/-- On `n = 2147483647` the loop runs through every odd `i` up to `n` itself, where it
finds the divisor `n` and answers "not prime". -/
theorem isPrimeLoop_int_max (k : Nat) :
    ∀ (fuel : Nat) (i : Int), 3 ≤ i → i + 2 * (k : Int) = 2147483647 → k < fuel →
      isPrimeLoop 2147483647 fuel i = some false := by
  induction k with
  | zero =>
    intro fuel i _ hi hf
    have hin : i = 2147483647 := by omega
    subst hin
    obtain ⟨f, rfl⟩ : ∃ f, fuel = f + 1 := ⟨fuel - 1, by omega⟩
    have hc : wrap32 ((2147483647 : Int) * 2147483647) ≤ 2147483647 := wrap32_le _
    have hz : (2147483647 : Int).tmod 2147483647 = 0 := by decide
    simp only [isPrimeLoop, hc, if_true, hz]
  | succ k ih =>
    intro fuel i h3 hi hf
    obtain ⟨f, rfl⟩ : ∃ f, fuel = f + 1 := ⟨fuel - 1, by omega⟩
    have hc : wrap32 (i * i) ≤ 2147483647 := wrap32_le _
    have hw : wrap32 (i + 2) = i + 2 := wrap32_id _ (by omega) (by omega)
    have hnd : (2147483647 : Int).tmod i ≠ 0 := by
      intro h
      rw [Int.tmod_eq_emod (by omega) (by omega)] at h
      have hdvd : i ∣ 2147483647 := Int.dvd_of_emod_eq_zero h
      have hnat : i.toNat ∣ 2147483647 := by
        have : ((i.toNat : Int)) ∣ ((2147483647 : Nat) : Int) := by
          rw [Int.toNat_of_nonneg (by omega)]; exact_mod_cast hdvd
        exact Int.natCast_dvd_natCast.mp this
      rcases (Nat.dvd_prime prime_int_max).mp hnat with h1 | h1 <;> omega
    simp only [isPrimeLoop, hc, if_true, hnd, if_false, hw]
    exact ih f (i + 2) (by omega) (by push_cast at hi ⊢; omega) (by omega)

/-- C26. The evaluation of `isPrime` at the prime `2147483647 = 2^31 - 1`: the product
`i * i` of the loop condition no longer fits in a 32-bit `int` at `i = 46341`, and with
wrap-around the condition `i * i <= n` holds for every `i`, so the function answers `false`
for this prime; whatever bound is put on the loop, it never answers `true`. On small
inputs, where no product overflows, the function answers as documented. -/
theorem isPrime_int_max :
    Nat.Prime 2147483647 ∧
    (46341 : Int) * 46341 > 2147483647 ∧
    wrap32 ((46341 : Int) * 46341) = -2147479015 ∧
    isPrime 2147483647 = some false ∧
    (∀ (fuel : Nat) (i : Int), isPrimeLoop 2147483647 fuel i ≠ some true) ∧
    isPrime 199 = some true ∧ isPrime 9 = some false ∧ isPrime 2 = some true := by
  refine ⟨prime_int_max, by decide, by decide, ?_, isPrimeLoop_int_max_ne_true, by decide,
    by decide, by decide⟩
  have h := isPrimeLoop_int_max 1073741822 2147483648 3 (by decide) (by decide) (by decide)
  have h1 : ¬ ((2147483647 : Int) ≤ 1) := by decide
  have h2 : ¬ ((2147483647 : Int) = 2) := by decide
  have h3 : ¬ ((2147483647 : Int).tmod 2 = 0) := by decide
  simp only [isPrime, h1, h2, h3, if_false, h]


/-! ## `partition` on ranges that are already split around the pivot -/

/-- The scan over elements that are all greater than the pivot moves nothing. -/
theorem partitionLoop_greater (pv : Int) (R2 : List Int) :
    ∀ (P C : List Int) (i j : Int), (∀ x ∈ R2, pv < x) → j = P.length →
      partitionLoop pv R2.length (P ++ (R2 ++ C)) i j = some (P ++ (R2 ++ C), i) := by
  induction R2 with
  | nil => intro P C i j _ _; simp [partitionLoop]
  | cons x R2 ih =>
    intro P C i j h hj
    have hrd : rd (P ++ (x :: R2 ++ C)) j = some x := by
      have := rd_at P (R2 ++ C) x j hj
      simpa using this
    have hx : ¬ x ≤ pv := by have := h x (by simp); omega
    have hrec := ih (P ++ [x]) C i (j + 1) (fun y hy => h y (by simp [hy])) (by simp [hj])
    simp only [List.length_cons, partitionLoop, hrd, hx, if_false, Option.bind_eq_bind,
      Option.some_bind]
    simpa using hrec

/-- The scan over a range whose elements `≤` the pivot all come before those greater than
it: every swap is of an element with itself, the vector is unchanged, and the counter ends
on the last element `≤` the pivot. -/
theorem partitionLoop_presorted (pv : Int) (R1 : List Int) :
    ∀ (R2 A C : List Int) (i j : Int), (∀ x ∈ R1, x ≤ pv) → (∀ x ∈ R2, pv < x) →
      i = (A.length : Int) - 1 → j = A.length →
      partitionLoop pv (R1.length + R2.length) (A ++ (R1 ++ (R2 ++ C))) i j
        = some (A ++ (R1 ++ (R2 ++ C)), (A.length : Int) + R1.length - 1) := by
  induction R1 with
  | nil =>
    intro R2 A C i j _ h2 hi hj
    have := partitionLoop_greater pv R2 A C i j h2 hj
    simpa [hi] using this
  | cons x R1 ih =>
    intro R2 A C i j h1 h2 hi hj
    have hrd : rd (A ++ (x :: R1 ++ (R2 ++ C))) j = some x := by
      have := rd_at A (R1 ++ (R2 ++ C)) x j hj
      simpa using this
    have hx : x ≤ pv := h1 x (by simp)
    have hsw : swap (A ++ (x :: R1 ++ (R2 ++ C))) (i + 1) j
        = some (A ++ (x :: R1 ++ (R2 ++ C))) := by
      have hij : i + 1 = j := by omega
      rw [hij]
      have := swap_same A (R1 ++ (R2 ++ C)) x j hj
      simpa using this
    have hrec := ih R2 (A ++ [x]) C (i + 1) (j + 1) (fun y hy => h1 y (by simp [hy])) h2
      (by simp [hi]) (by simp [hj])
    have e : (x :: R1).length + R2.length = (R1.length + R2.length) + 1 := by
      simp only [List.length_cons]; omega
    rw [e]
    simp only [partitionLoop, hrd, hx, hsw, if_true, Option.bind_eq_bind, Option.some_bind]
    have e2 : ((A ++ [x]).length : Int) + R1.length - 1
        = (A.length : Int) + (x :: R1).length - 1 := by
      simp only [List.length_append, List.length_cons, List.length_nil, Nat.cast_add,
        Nat.cast_one]; omega
    rw [← e2]
    simpa using hrec

/-- Result of `partition` when, after the first swap, the range reads `R1 ++ R2 ++ [pv]`
with the elements of `R1` at most `pv` and those of `R2` greater: the scan moves nothing,
and the last swap exchanges `pv` with the first element of `R2`. -/
theorem partition_presorted (arr A R1 R2 C : List Int) (pv low high s : Int)
    (hlow : low = A.length) (hhigh : high = (A.length : Int) + R1.length + R2.length)
    (hsw : swap arr (pivotIndex low high s) high = some (A ++ (R1 ++ (R2 ++ pv :: C))))
    (h1 : ∀ x ∈ R1, x ≤ pv) (h2 : ∀ x ∈ R2, pv < x) :
    partition arr low high s
      = some (A ++ (R1 ++ pv :: (rotl R2 ++ C)), (A.length : Int) + R1.length) := by
  have hrd : rd (A ++ (R1 ++ (R2 ++ pv :: C))) high = some pv := by
    have := rd_at (A ++ (R1 ++ R2)) C pv high (by simp [hhigh]; omega)
    simpa using this
  have hn : (high - low).toNat = R1.length + R2.length := by omega
  have hrun := partitionLoop_presorted pv R1 R2 A (pv :: C) (low - 1) low h1 h2
    (by omega) hlow
  cases R2 with
  | nil =>
    have hsw3 : swap (A ++ (R1 ++ ([] ++ pv :: C))) ((A.length : Int) + R1.length - 1 + 1) high
        = some (A ++ (R1 ++ ([] ++ pv :: C))) := by
      have hih : (A.length : Int) + R1.length - 1 + 1 = high := by
        simp at hhigh; omega
      rw [hih]
      have := swap_same (A ++ R1) C pv high (by simp at hhigh ⊢; omega)
      simpa using this
    simp only [partition, hsw, hrd, hn, hrun, hsw3, Option.bind_eq_bind, Option.some_bind]
    simp [rotl]
  | cons g G =>
    have hsw3 : swap (A ++ (R1 ++ (g :: G ++ pv :: C))) ((A.length : Int) + R1.length - 1 + 1)
        high = some (A ++ (R1 ++ pv :: (G ++ [g] ++ C))) := by
      have := swap_far (A ++ R1) G C g pv ((A.length : Int) + R1.length - 1 + 1) high
        (by simp) (by simp at hhigh ⊢; omega)
      simpa using this
    simp only [partition, hsw, hrd, hn, hrun, hsw3, Option.bind_eq_bind, Option.some_bind]
    simp [rotl]


/-! ## The instrumented runs compute what the sorts compute -/

theorem quickSortTraceFuel_arr (s : Int) :
    ∀ (fuel : Nat) (arr : List Int) (low high : Int),
      (quickSortTraceFuel fuel arr low high s).map QRun.arr
        = quickSortSerialFuel fuel arr low high s := by
  intro fuel
  induction fuel with
  | zero => intro arr low high; rfl
  | succ fuel ih =>
    intro arr low high
    by_cases hlt : low < high
    · simp only [quickSortTraceFuel, quickSortSerialFuel, hlt, if_true, Option.bind_eq_bind]
      cases partition arr low high s with
      | none => rfl
      | some r =>
        obtain ⟨arr1, p⟩ := r
        simp only [Option.some_bind]
        rw [← ih arr1 low (p - 1)]
        cases quickSortTraceFuel fuel arr1 low (p - 1) s with
        | none => rfl
        | some r1 =>
          simp only [Option.some_bind, Option.map_some']
          rw [← ih r1.arr (p + 1) high]
          cases quickSortTraceFuel fuel r1.arr (p + 1) high s with
          | none => rfl
          | some r2 => rfl
    · simp [quickSortTraceFuel, quickSortSerialFuel, hlt]

theorem quick_sort_serial_trace_arr (arr : List Int) (low high s : Int) :
    (quick_sort_serial_trace arr low high s).map QRun.arr = quick_sort_serial arr low high s :=
  quickSortTraceFuel_arr s _ arr low high

theorem quick_sort_task_trace_erase (cutoff : Int) (arr : List Int) (low high s : Int) :
    (quick_sort_task_trace cutoff arr low high s).map (fun r => (r.1, r.2.1))
      = quick_sort_task cutoff arr low high s := by
  by_cases hlt : low < high
  · by_cases hc : high - low < cutoff
    · simp only [quick_sort_task_trace, quick_sort_task, hlt, hc, if_true,
        Option.bind_eq_bind]
      rw [← quick_sort_serial_trace_arr]
      cases quick_sort_serial_trace arr low high s with
      | none => rfl
      | some r => rfl
    · simp only [quick_sort_task_trace, quick_sort_task, hlt, hc, if_true, if_false,
        Option.bind_eq_bind]
      cases partition arr low high s with
      | none => rfl
      | some r => rfl
  · simp [quick_sort_task_trace, quick_sort_task, hlt]

theorem runTasksTrace_arr (cutoff s : Int) (sched : Nat → Nat) :
    ∀ (fuel step : Nat) (arr : List Int) (pool : List (Int × Int)),
      (runTasksTrace cutoff s sched fuel step arr pool).map Prod.fst
        = runTasks cutoff s sched fuel step arr pool := by
  intro fuel
  induction fuel with
  | zero =>
    intro step arr pool
    cases pool with
    | nil => rfl
    | cons t ts => rfl
  | succ fuel ih =>
    intro step arr pool
    cases pool with
    | nil => rfl
    | cons t ts =>
      rw [runTasksTrace, runTasks]
      rw [← quick_sort_task_trace_erase]
      cases quick_sort_task_trace cutoff arr
          ((t :: ts).getD (sched step % (t :: ts).length) t).1
          ((t :: ts).getD (sched step % (t :: ts).length) t).2 s with
      | none => rfl
      | some r =>
        obtain ⟨arr1, spawned, calls⟩ := r
        simp only [Option.map_some']
        rw [← ih]
        cases runTasksTrace cutoff s sched fuel (step + 1) arr1
            ((t :: ts).eraseIdx (sched step % (t :: ts).length) ++ spawned) with
        | none => rfl
        | some r2 => rfl

/-! ## Properties of every call of `partition` made by the sequential quicksort -/

/-- A property `Q` of the calls of `partition` holds for every call the quicksort makes
on a range whose content has the shape `Shape`, when every call on such a range satisfies
`Q` and leaves both sides of the pivot in that shape. -/
theorem quickSortTraceFuel_calls (s : Int) (Shape : List Int → Prop) (Q : PCall → Prop)
    (hstep : ∀ (A M C : List Int), Shape M → 2 ≤ M.length →
      ∃ (L R : List Int) (pv : Int),
        partition (A ++ (M ++ C)) A.length ((A.length : Int) + M.length - 1) s
          = some (A ++ (L ++ pv :: (R ++ C)), (A.length : Int) + L.length) ∧
        L.length + 1 + R.length = M.length ∧ Shape L ∧ Shape R ∧
        Q ⟨A.length, (A.length : Int) + M.length - 1, (A.length : Int) + L.length,
            A ++ (M ++ C), A ++ (L ++ pv :: (R ++ C))⟩) :
    ∀ (fuel : Nat) (M A C : List Int) (low high : Int),
      Shape M → M.length ≤ fuel → 1 ≤ fuel → low = A.length →
      high = (A.length : Int) + M.length - 1 →
      ∃ r, quickSortTraceFuel fuel (A ++ (M ++ C)) low high s = some r ∧
        r.arr = A ++ (sorted M ++ C) ∧ ∀ c ∈ r.calls, Q c := by
  intro fuel
  induction fuel with
  | zero => intro M A C low high _ _ h1; omega
  | succ fuel ih =>
    intro M A C low high hS hlen _ hlow hhigh
    have harr : ∀ r, quickSortTraceFuel (fuel + 1) (A ++ (M ++ C)) low high s = some r →
        r.arr = A ++ (sorted M ++ C) := by
      intro r hr
      have h1 := quickSortTraceFuel_arr s (fuel + 1) (A ++ (M ++ C)) low high
      rw [hr, quickSortSerialFuel_segments s (fuel + 1) M A C low high hlen (by omega) hlow
        hhigh] at h1
      simpa using h1
    by_cases hlt : low < high
    · obtain ⟨L, R, pv, hpart, hLR, hSL, hSR, hQ⟩ := hstep A M C hS (by omega)
      obtain ⟨r1, hr1, ha1, hQ1⟩ :=
        ih L A (pv :: (R ++ C)) low ((A.length : Int) + L.length - 1) hSL (by omega)
          (by omega) hlow rfl
      obtain ⟨r2, hr2, -, hQ2⟩ :=
        ih R (A ++ (sorted L ++ [pv])) C ((A.length : Int) + L.length + 1) high hSR
          (by omega) (by omega) (by simp [sorted_length]; omega)
          (by simp [sorted_length]; omega)
      have e : A ++ (sorted L ++ [pv]) ++ (R ++ C) = r1.arr := by rw [ha1]; simp
      rw [e] at hr2
      subst hlow hhigh
      have hrun : quickSortTraceFuel (fuel + 1) (A ++ (M ++ C)) A.length
            ((A.length : Int) + M.length - 1) s
          = some ⟨r2.arr, ⟨A.length, (A.length : Int) + M.length - 1,
              (A.length : Int) + L.length, A ++ (M ++ C),
              A ++ (L ++ pv :: (R ++ C))⟩ :: (r1.calls ++ r2.calls),
              1 + max r1.depth r2.depth⟩ := by
        simp only [quickSortTraceFuel, hlt, if_true, hpart, Option.bind_eq_bind,
          Option.some_bind, hr1, hr2]
      refine ⟨_, hrun, harr _ hrun, ?_⟩
      intro c hc
      simp only [List.mem_cons, List.mem_append] at hc
      rcases hc with hc | hc | hc
      · rw [hc]; exact hQ
      · exact hQ1 c hc
      · exact hQ2 c hc
    · have hrun : quickSortTraceFuel (fuel + 1) (A ++ (M ++ C)) low high s
          = some ⟨A ++ (M ++ C), [], 1⟩ := by
        simp [quickSortTraceFuel, hlt]
      exact ⟨_, hrun, harr _ hrun, by simp⟩


/-! ## Properties of every call of `partition` made by the tasks of the parallel quicksort -/

/-- Replacing a segment of a vector leaves every range that does not meet it as it was. -/
theorem slice_frame (A M M1 C : List Int) (u : Int × Int) (hlen : M1.length = M.length)
    (h0 : 0 ≤ u.1) (hsep : u.2 < (A.length : Int) ∨ (A.length : Int) + M.length ≤ u.1) :
    slice (A ++ (M1 ++ C)) u.1 u.2 = slice (A ++ (M ++ C)) u.1 u.2 := by
  apply slice_eq_of_agree _ _ _ _ h0
  intro k h1 h2
  exact rd_frame A M M1 C k hlen (by omega)

/-- The two outcomes of one execution of the body of `quick_sort_task` on a range whose
content has the shape `Shape`, with the calls of `partition` it makes. -/
theorem quick_sort_task_trace_cases (cutoff s : Int) (Shape : List Int → Prop)
    (Q : PCall → Prop)
    (hstep : ∀ (A M C : List Int), Shape M → 2 ≤ M.length →
      ∃ (L R : List Int) (pv : Int),
        partition (A ++ (M ++ C)) A.length ((A.length : Int) + M.length - 1) s
          = some (A ++ (L ++ pv :: (R ++ C)), (A.length : Int) + L.length) ∧
        L.length + 1 + R.length = M.length ∧ Shape L ∧ Shape R ∧
        Q ⟨A.length, (A.length : Int) + M.length - 1, (A.length : Int) + L.length,
            A ++ (M ++ C), A ++ (L ++ pv :: (R ++ C))⟩)
    (A M C : List Int) (low high : Int) (hS : Shape M) (hlow : low = A.length)
    (hhigh : high = (A.length : Int) + M.length - 1) :
    (∃ calls, quick_sort_task_trace cutoff (A ++ (M ++ C)) low high s
        = some (A ++ (sorted M ++ C), [], calls) ∧ ∀ c ∈ calls, Q c) ∨
    (low < high ∧ ∃ (L R : List Int) (pv : Int) (c : PCall),
      quick_sort_task_trace cutoff (A ++ (M ++ C)) low high s
        = some (A ++ (L ++ pv :: (R ++ C)),
            [(low, (A.length : Int) + L.length - 1), ((A.length : Int) + L.length + 1, high)],
            [c]) ∧
      Q c ∧ Shape L ∧ Shape R ∧ L.length + 1 + R.length = M.length) := by
  by_cases hlt : low < high
  · by_cases hc : high - low < cutoff
    · left
      obtain ⟨r, hr, ha, hQ⟩ := quickSortTraceFuel_calls s Shape Q hstep
        ((high - low).toNat + 1) M A C low high hS (by omega) (by omega) hlow hhigh
      refine ⟨r.calls, ?_, hQ⟩
      simp only [quick_sort_task_trace, hlt, hc, if_true, quick_sort_serial_trace, hr,
        Option.bind_eq_bind, Option.some_bind, ha]
    · right
      obtain ⟨L, R, pv, hpart, hLR, hSL, hSR, hQ⟩ := hstep A M C hS (by omega)
      subst hlow hhigh
      refine ⟨hlt, L, R, pv, _, ?_, hQ, hSL, hSR, hLR⟩
      simp only [quick_sort_task_trace, hlt, hc, if_true, if_false, hpart,
        Option.bind_eq_bind, Option.some_bind]
  · left
    refine ⟨[], ?_, by simp⟩
    have hshort : M.length ≤ 1 := by omega
    simp [quick_sort_task_trace, hlt, sorted_short M hshort]

/-- Whatever the scheduler chooses, a property `Q` of the calls of `partition` holds for
every call made by the tasks of the pool, when every pending range holds a segment of the
shape `Shape`, every call on such a range satisfies `Q` and leaves both sides of the pivot
in that shape. -/
theorem runTasksTrace_calls (cutoff s : Int) (sched : Nat → Nat) (Shape : List Int → Prop)
    (Q : PCall → Prop)
    (hstep : ∀ (A M C : List Int), Shape M → 2 ≤ M.length →
      ∃ (L R : List Int) (pv : Int),
        partition (A ++ (M ++ C)) A.length ((A.length : Int) + M.length - 1) s
          = some (A ++ (L ++ pv :: (R ++ C)), (A.length : Int) + L.length) ∧
        L.length + 1 + R.length = M.length ∧ Shape L ∧ Shape R ∧
        Q ⟨A.length, (A.length : Int) + M.length - 1, (A.length : Int) + L.length,
            A ++ (M ++ C), A ++ (L ++ pv :: (R ++ C))⟩) :
    ∀ (fuel step : Nat) (arr : List Int) (pool : List (Int × Int)),
      (∀ t ∈ pool, 0 ≤ t.1 ∧ t.1 ≤ t.2 + 1 ∧ t.2 < arr.length ∧ Shape (slice arr t.1 t.2)) →
      pool.Pairwise Sep → poolWeight pool ≤ fuel →
      ∃ arr1 tr, runTasksTrace cutoff s sched fuel step arr pool = some (arr1, tr) ∧
        ∀ c ∈ tr, Q c := by
  intro fuel
  induction fuel with
  | zero =>
    intro step arr pool _ _ hw
    cases pool with
    | nil => exact ⟨arr, [], rfl, by simp⟩
    | cons t ts => simp [poolWeight] at hw
  | succ fuel ih =>
    intro step arr pool hin hsep hw
    cases pool with
    | nil => exact ⟨arr, [], rfl, by simp⟩
    | cons t ts =>
      have hk : sched step % (t :: ts).length < (t :: ts).length :=
        Nat.mod_lt _ (by simp)
      obtain ⟨P1, P2, hpool, herase⟩ := pool_pick (t :: ts) _ t hk
      rw [runTasksTrace]
      simp only [herase]
      generalize (t :: ts).getD (sched step % (t :: ts).length) t = task at hpool
      rw [hpool] at hin hsep hw
      obtain ⟨ht0, ht1, ht2, htS⟩ := hin task (by simp)
      rw [List.pairwise_append, List.pairwise_cons] at hsep
      obtain ⟨hsP1, ⟨hsT2, hsP2⟩, hs12⟩ := hsep
      have hsT1 : ∀ u ∈ P1, Sep task u := by
        intro u hu
        rcases hs12 u hu task (by simp) with h | h
        · exact Or.inr h
        · exact Or.inl h
      have hsQ : (P1 ++ P2).Pairwise Sep := by
        rw [List.pairwise_append]
        exact ⟨hsP1, hsP2, fun a ha b hb => hs12 a ha b (by simp [hb])⟩
      have hsTQ : ∀ u ∈ P1 ++ P2, Sep task u := by
        intro u hu
        rcases List.mem_append.mp hu with hu | hu
        · exact hsT1 u hu
        · exact hsT2 u hu
      obtain ⟨A, M, C, harr, hA, hM, hMs⟩ := range_split arr task.1 task.2 ht0 ht1 ht2
      rw [← hMs] at htS
      have hothers : ∀ M1 : List Int, M1.length = M.length → ∀ u ∈ P1 ++ P2,
          0 ≤ u.1 ∧ u.1 ≤ u.2 + 1 ∧ u.2 < ((A ++ (M1 ++ C)).length : Int) ∧
            Shape (slice (A ++ (M1 ++ C)) u.1 u.2) := by
        intro M1 hlen u hu
        have hmem : u ∈ P1 ++ task :: P2 := by
          rcases List.mem_append.mp hu with hu | hu
          · simp [hu]
          · simp [hu]
        obtain ⟨hu0, hu1, hu2, huS⟩ := hin u hmem
        refine ⟨hu0, hu1, ?_, ?_⟩
        · rw [harr] at hu2
          simp only [List.length_append, Nat.cast_add] at hu2 ⊢
          omega
        · rw [slice_frame A M M1 C u hlen hu0
            (by rcases hsTQ u hu with h | h
                · right; omega
                · left; omega)]
          rw [← harr]; exact huS
      simp only [poolWeight_append, poolWeight] at hw
      rw [harr]
      rcases quick_sort_task_trace_cases cutoff s Shape Q hstep A M C task.1 task.2 htS
          hA.symm (by omega) with
        ⟨calls, hq, hQc⟩ | ⟨hlt, L, R, pv, c, hq, hQc, hSL, hSR, hLR⟩
      · simp only [hq, List.append_nil]
        obtain ⟨arr1, tr, hrun, hQ⟩ := ih (step + 1) (A ++ (sorted M ++ C)) (P1 ++ P2)
          (hothers (sorted M) (sorted_length M)) hsQ (by rw [poolWeight_append]; omega)
        refine ⟨arr1, calls ++ tr, by rw [hrun], ?_⟩
        intro c hc
        rcases List.mem_append.mp hc with hc | hc
        · exact hQc c hc
        · exact hQ c hc
      · simp only [hq]
        have e1 : A ++ (L ++ pv :: (R ++ C)) = A ++ ((L ++ pv :: R) ++ C) := by simp
        have hlenM : (L ++ pv :: R).length = M.length := by simp; omega
        have hc1 : ∀ u ∈ P1 ++ P2, Sep (task.1, (A.length : Int) + L.length - 1) u := by
          intro u hu
          rcases hsTQ u hu with h | h
          · exact Or.inl (by simp only; omega)
          · exact Or.inr (by simp only; omega)
        have hc2 : ∀ u ∈ P1 ++ P2, Sep ((A.length : Int) + L.length + 1, task.2) u := by
          intro u hu
          rcases hsTQ u hu with h | h
          · exact Or.inl (by simp only; omega)
          · exact Or.inr (by simp only; omega)
        obtain ⟨arr1, tr, hrun, hQ⟩ := ih (step + 1) (A ++ (L ++ pv :: (R ++ C)))
          (P1 ++ P2 ++ [(task.1, (A.length : Int) + L.length - 1),
            ((A.length : Int) + L.length + 1, task.2)])
          (by
            intro u hu
            rcases List.mem_append.mp hu with hu | hu
            · rw [e1]; exact hothers _ hlenM u hu
            · simp only [List.mem_cons, List.mem_singleton, List.not_mem_nil, or_false] at hu
              rcases hu with hu | hu
              · subst hu
                refine ⟨ht0, by simp only; omega, by simp; omega, ?_⟩
                rw [slice_segments A L (pv :: (R ++ C)) _ _ hA.symm rfl]
                exact hSL
              · subst hu
                refine ⟨by simp only; omega, by simp only; omega, by simp; omega, ?_⟩
                have := slice_segments (A ++ (L ++ [pv])) R C
                  ((A.length : Int) + L.length + 1) task.2 (by simp; omega) (by simp; omega)
                simp only [List.append_assoc, List.singleton_append] at this
                rw [this]
                exact hSR)
          (by
            rw [List.pairwise_append]
            refine ⟨hsQ, ?_, ?_⟩
            · simp only [List.pairwise_cons, List.mem_singleton, List.not_mem_nil,
                forall_eq, List.Pairwise.nil, and_true, false_imp_iff, implies_true]
              exact Or.inl (by simp only; omega)
            · intro a ha b hb
              simp only [List.mem_cons, List.mem_singleton, List.not_mem_nil, or_false] at hb
              rcases hb with hb | hb
              · subst hb
                rcases hc1 a ha with h | h
                · exact Or.inr h
                · exact Or.inl h
              · subst hb
                rcases hc2 a ha with h | h
                · exact Or.inr h
                · exact Or.inl h)
          (by simp only [poolWeight_append, poolWeight]; omega)
        refine ⟨arr1, [c] ++ tr, by rw [hrun], ?_⟩
        intro c1 hc
        rcases List.mem_append.mp hc with hc | hc
        · simp only [List.mem_singleton] at hc; rw [hc]; exact hQc
        · exact hQ c1 hc


/-! ## `partition` with each pivot strategy on a range already split around the pivot -/

/-- A list of at least two elements has a first and a last element. -/
theorem ends_split (M : List Int) (h : 2 ≤ M.length) : ∃ a Mid z, M = a :: (Mid ++ [z]) := by
  cases M with
  | nil => simp at h
  | cons a T =>
    have hT : T ≠ [] := by intro e; subst e; simp at h
    exact ⟨a, T.dropLast, T.getLast hT, by rw [List.dropLast_append_getLast hT]⟩

/-- Strategy `first` on the range `a :: Mid ++ [z]`, when the rest `z :: Mid` of the range
after the first swap reads `R1 ++ R2` with `R1` at most the pivot `a` and `R2` greater. -/
theorem partition_first (A Mid C R1 R2 : List Int) (a z low high : Int)
    (hlow : low = A.length) (hhigh : high = (A.length : Int) + Mid.length + 1)
    (hsplit : z :: Mid = R1 ++ R2) (h1 : ∀ x ∈ R1, x ≤ a) (h2 : ∀ x ∈ R2, a < x) :
    partition (A ++ (a :: (Mid ++ [z]) ++ C)) low high 1
      = some (A ++ (R1 ++ a :: (rotl R2 ++ C)), (A.length : Int) + R1.length) := by
  have hlen : R1.length + R2.length = Mid.length + 1 := by
    have := congrArg List.length hsplit
    simp only [List.length_cons, List.length_append] at this
    omega
  refine partition_presorted _ A R1 R2 C a low high 1 hlow (by omega) ?_ h1 h2
  have hp : pivotIndex low high 1 = low := by simp [pivotIndex]
  rw [hp]
  have hsw := swap_far A Mid C a z low high hlow (by omega)
  have e : A ++ z :: (Mid ++ a :: C) = A ++ (R1 ++ (R2 ++ a :: C)) := by
    rw [← List.append_assoc R1, ← hsplit]; simp
  rw [← e]
  simpa using hsw

/-- Strategy `last` (any strategy number other than `0` and `1`) on the range
`R1 ++ R2 ++ [pv]` with `R1` at most the pivot `pv` and `R2` greater. -/
theorem partition_last (A C R1 R2 : List Int) (pv low high s : Int) (hs0 : s ≠ 0)
    (hs1 : s ≠ 1) (hlow : low = A.length)
    (hhigh : high = (A.length : Int) + R1.length + R2.length)
    (h1 : ∀ x ∈ R1, x ≤ pv) (h2 : ∀ x ∈ R2, pv < x) :
    partition (A ++ (R1 ++ (R2 ++ [pv]) ++ C)) low high s
      = some (A ++ (R1 ++ pv :: (rotl R2 ++ C)), (A.length : Int) + R1.length) := by
  refine partition_presorted _ A R1 R2 C pv low high s hlow hhigh ?_ h1 h2
  have hp : pivotIndex low high s = high := by simp [pivotIndex, hs0, hs1]
  rw [hp]
  have hsw := swap_same (A ++ (R1 ++ R2)) C pv high
    (by simp only [List.length_append, Nat.cast_add]; omega)
  simpa using hsw

/-- Strategy `middle` on the range `M1 ++ pv :: M2 ++ [z]` whose middle element is `pv`,
with `M1` at most `pv` and `M2 ++ [z]` greater: the range is left as it is. -/
theorem partition_middle (A M1 M2 C : List Int) (pv z low high : Int)
    (hlow : low = A.length) (hhigh : high = (A.length : Int) + M1.length + M2.length + 1)
    (hmid : (M1.length : Int) = ((M1.length : Int) + M2.length + 1) / 2)
    (h1 : ∀ x ∈ M1, x ≤ pv) (h2 : ∀ x ∈ z :: M2, pv < x) :
    partition (A ++ (M1 ++ pv :: (M2 ++ [z]) ++ C)) low high 0
      = some (A ++ (M1 ++ pv :: (M2 ++ [z]) ++ C), (A.length : Int) + M1.length) := by
  have hres := partition_presorted (A ++ (M1 ++ pv :: (M2 ++ [z]) ++ C)) A M1 (z :: M2) C pv
    low high 0 hlow (by simp only [List.length_cons, Nat.cast_add, Nat.cast_one]; omega)
    (by
      have hp : pivotIndex low high 0 = low + M1.length := by
        have hd : (high - low).tdiv 2 = (high - low) / 2 :=
          Int.tdiv_eq_ediv (by omega) (by omega)
        have e : high - low = (M1.length : Int) + M2.length + 1 := by omega
        unfold pivotIndex
        rw [if_pos rfl, hd, e]
        omega
      rw [hp]
      have hsw := swap_far (A ++ M1) M2 C pv z (low + M1.length) high
        (by simp only [List.length_append, Nat.cast_add]; omega)
        (by simp only [List.length_append, Nat.cast_add]; omega)
      simpa using hsw)
    h1 h2
  rw [hres]
  simp [rotl]


/-! ## The ascending sequence -/

theorem ascending_length (N : Nat) : (ascending N).length = N := by
  simp [ascending]

theorem ascending_strict (N : Nat) : StrictAsc (ascending N) := by
  unfold StrictAsc ascending
  rw [List.pairwise_map]
  exact (List.pairwise_lt_range N).imp (by intro a b h; exact_mod_cast Nat.succ_lt_succ h)

theorem strictAsc_nonDecreasing (M : List Int) (h : StrictAsc M) : NonDecreasing M :=
  List.Pairwise.imp (fun hab => le_of_lt hab) h

theorem strictAsc_slice (S : List Int) (low high : Int) (h : StrictAsc S) :
    StrictAsc (slice S low high) :=
  List.Pairwise.sublist ((List.take_sublist _ _).trans (List.drop_sublist _ _)) h

/-- Strategy `first` on a strictly increasing range of at least two elements: the index
returned is `low` and the vector is left as it is. -/
theorem step_first_asc (A M C : List Int) (hS : StrictAsc M) (h2 : 2 ≤ M.length) :
    ∃ (a : Int) (R : List Int), M = a :: R ∧ StrictAsc R ∧
      partition (A ++ (M ++ C)) A.length ((A.length : Int) + M.length - 1) 1
        = some (A ++ (M ++ C), (A.length : Int)) := by
  obtain ⟨a, Mid, z, rfl⟩ := ends_split M h2
  unfold StrictAsc at hS
  rw [List.pairwise_cons] at hS
  obtain ⟨ha, hR⟩ := hS
  refine ⟨a, Mid ++ [z], rfl, hR, ?_⟩
  have hp := partition_first A Mid C [] (z :: Mid) a z A.length
    ((A.length : Int) + (a :: (Mid ++ [z])).length - 1) rfl
    (by simp only [List.length_cons, List.length_append, List.length_nil, Nat.cast_add,
          Nat.cast_one]; omega)
    rfl (by simp)
    (by intro x hx; apply ha; simp only [List.mem_cons] at hx; simp only [List.mem_append,
          List.mem_singleton]; tauto)
  rw [hp]
  simp [rotl]

/-- Strategy `middle` on a strictly increasing range of at least two elements: the index
returned is the middle of the range and the vector is left as it is. -/
theorem step_middle_asc (A M C : List Int) (hS : StrictAsc M) (h2 : 2 ≤ M.length) :
    ∃ (M1 R : List Int) (pv : Int), M = M1 ++ pv :: R ∧ StrictAsc M1 ∧ StrictAsc R ∧
      (M1.length : Int) = ((M.length : Int) - 1) / 2 ∧
      partition (A ++ (M ++ C)) A.length ((A.length : Int) + M.length - 1) 0
        = some (A ++ (M ++ C), (A.length : Int) + M1.length) := by
  have hk : (M.length - 1) / 2 < M.length := by omega
  obtain ⟨M1, pv, T, hsplit, hlen⟩ := split_at_index M _ hk
  subst hsplit
  have hT : T ≠ [] := by
    intro e; subst e
    simp only [List.length_append, List.length_cons, List.length_nil] at hlen h2
    omega
  obtain ⟨M2, z, hTz⟩ : ∃ M2 z, T = M2 ++ [z] :=
    ⟨T.dropLast, T.getLast hT, (List.dropLast_append_getLast hT).symm⟩
  subst hTz
  unfold StrictAsc at hS
  rw [List.pairwise_append, List.pairwise_cons] at hS
  obtain ⟨hM1, ⟨hpv, hR⟩, hcross⟩ := hS
  simp only [List.length_append, List.length_cons, List.length_nil] at hlen
  refine ⟨M1, M2 ++ [z], pv, rfl, hM1, hR, ?_, ?_⟩
  · simp only [List.length_append, List.length_cons, List.length_nil, Nat.cast_add,
      Nat.cast_one]
    omega
  · exact partition_middle A M1 M2 C pv z A.length _ rfl
      (by simp only [List.length_append, List.length_cons, List.length_nil, Nat.cast_add,
            Nat.cast_one]; omega)
      (by omega)
      (fun x hx => le_of_lt (hcross x hx pv (by simp)))
      (by intro x hx; apply hpv; simp only [List.mem_cons] at hx; simp only [List.mem_append,
            List.mem_singleton]; tauto)

/-! ## Runs of the quicksort in which no call of `partition` changes the vector -/

/-- When `partition` leaves the vector `arr` as it is on every range inside it, so does the
sequential quicksort, and each of its calls of `partition` is a call on `arr`. -/
theorem quickSortTraceFuel_fixed (s : Int) (arr : List Int) (Q : PCall → Prop)
    (hstep : ∀ low high : Int, 0 ≤ low → low < high → high < arr.length →
      ∃ p, partition arr low high s = some (arr, p) ∧ Q ⟨low, high, p, arr, arr⟩) :
    ∀ (fuel : Nat) (low high : Int), 0 ≤ low → high < arr.length →
      (high + 1 - low).toNat ≤ fuel → 1 ≤ fuel →
      ∃ r, quickSortTraceFuel fuel arr low high s = some r ∧ r.arr = arr ∧
        ∀ c ∈ r.calls, Q c := by
  intro fuel
  induction fuel with
  | zero => intro low high _ _ _ h1; omega
  | succ fuel ih =>
    intro low high h0 hh hf _
    by_cases hlt : low < high
    · obtain ⟨p, hpart, hQ⟩ := hstep low high h0 hlt hh
      obtain ⟨hp1, hp2⟩ := partition_index_of_some arr low high s arr p hpart (by omega)
      obtain ⟨r1, hr1, ha1, hQ1⟩ := ih low (p - 1) h0 (by omega) (by omega) (by omega)
      obtain ⟨r2, hr2, ha2, hQ2⟩ := ih (p + 1) high (by omega) hh (by omega) (by omega)
      rw [← ha1] at hr2
      refine ⟨⟨r2.arr, ⟨low, high, p, arr, arr⟩ :: (r1.calls ++ r2.calls),
        1 + max r1.depth r2.depth⟩, ?_, ha2, ?_⟩
      · simp only [quickSortTraceFuel, hlt, if_true, hpart, Option.bind_eq_bind,
          Option.some_bind, hr1, hr2]
      · intro c hc
        simp only [List.mem_cons, List.mem_append] at hc
        rcases hc with hc | hc | hc
        · rw [hc]; exact hQ
        · exact hQ1 c hc
        · exact hQ2 c hc
    · exact ⟨⟨arr, [], 1⟩, by simp [quickSortTraceFuel, hlt], rfl, by simp⟩

/-- When `partition` leaves the vector `arr` as it is on every range inside it, so do the
tasks of the parallel quicksort, whatever the cutoff and the scheduler, and each of their
calls of `partition` is a call on `arr`. -/
theorem runTasksTrace_fixed (cutoff s : Int) (sched : Nat → Nat) (arr : List Int)
    (Q : PCall → Prop)
    (hstep : ∀ low high : Int, 0 ≤ low → low < high → high < arr.length →
      ∃ p, partition arr low high s = some (arr, p) ∧ Q ⟨low, high, p, arr, arr⟩) :
    ∀ (fuel step : Nat) (pool : List (Int × Int)),
      (∀ t ∈ pool, 0 ≤ t.1 ∧ t.2 < arr.length) → poolWeight pool ≤ fuel →
      ∃ tr, runTasksTrace cutoff s sched fuel step arr pool = some (arr, tr) ∧
        ∀ c ∈ tr, Q c := by
  intro fuel
  induction fuel with
  | zero =>
    intro step pool _ hw
    cases pool with
    | nil => exact ⟨[], rfl, by simp⟩
    | cons t ts => simp [poolWeight] at hw
  | succ fuel ih =>
    intro step pool hin hw
    cases pool with
    | nil => exact ⟨[], rfl, by simp⟩
    | cons t ts =>
      have hk : sched step % (t :: ts).length < (t :: ts).length :=
        Nat.mod_lt _ (by simp)
      obtain ⟨P1, P2, hpool, herase⟩ := pool_pick (t :: ts) _ t hk
      rw [runTasksTrace]
      simp only [herase]
      generalize (t :: ts).getD (sched step % (t :: ts).length) t = task at hpool
      rw [hpool] at hin hw
      obtain ⟨ht0, ht2⟩ := hin task (by simp)
      have hinQ : ∀ u ∈ P1 ++ P2, 0 ≤ u.1 ∧ u.2 < (arr.length : Int) := by
        intro u hu
        apply hin
        rcases List.mem_append.mp hu with hu | hu
        · simp [hu]
        · simp [hu]
      simp only [poolWeight_append, poolWeight] at hw
      by_cases hlt : task.1 < task.2
      · by_cases hc : task.2 - task.1 < cutoff
        · obtain ⟨r, hr, ha, hQ⟩ := quickSortTraceFuel_fixed s arr Q hstep
            ((task.2 - task.1).toNat + 1) task.1 task.2 ht0 ht2 (by omega) (by omega)
          obtain ⟨tr, hrun, hQt⟩ := ih (step + 1) (P1 ++ P2) hinQ
            (by rw [poolWeight_append]; omega)
          refine ⟨r.calls ++ tr, ?_, ?_⟩
          · simp only [quick_sort_task_trace, hlt, hc, if_true, quick_sort_serial_trace, hr,
              Option.bind_eq_bind, Option.some_bind, ha, List.append_nil, hrun]
          · intro c hc
            rcases List.mem_append.mp hc with hc | hc
            · exact hQ c hc
            · exact hQt c hc
        · obtain ⟨p, hpart, hQ⟩ := hstep task.1 task.2 ht0 hlt ht2
          obtain ⟨hp1, hp2⟩ :=
            partition_index_of_some arr task.1 task.2 s arr p hpart (by omega)
          obtain ⟨tr, hrun, hQt⟩ := ih (step + 1)
            (P1 ++ P2 ++ [(task.1, p - 1), (p + 1, task.2)])
            (by
              intro u hu
              rcases List.mem_append.mp hu with hu | hu
              · exact hinQ u hu
              · simp only [List.mem_cons, List.mem_singleton, List.not_mem_nil,
                  or_false] at hu
                rcases hu with hu | hu
                · subst hu; exact ⟨ht0, by simp only; omega⟩
                · subst hu; exact ⟨by simp only; omega, ht2⟩)
            (by simp only [poolWeight_append, poolWeight]; omega)
          refine ⟨[⟨task.1, task.2, p, arr, arr⟩] ++ tr, ?_, ?_⟩
          · simp only [quick_sort_task_trace, hlt, hc, if_true, if_false, hpart,
              Option.bind_eq_bind, Option.some_bind, hrun]
          · intro c hc
            rcases List.mem_append.mp hc with hc | hc
            · simp only [List.mem_singleton] at hc; rw [hc]; exact hQ
            · exact hQt c hc
      · obtain ⟨tr, hrun, hQt⟩ := ih (step + 1) (P1 ++ P2) hinQ
          (by rw [poolWeight_append]; omega)
        refine ⟨tr, ?_, hQt⟩
        simp only [quick_sort_task_trace, hlt, if_false, List.append_nil, hrun]
        simp


/-! ## Claims on the ascending sequence (scenarios 2 and 3) -/

/-- Strategy `first` on any range of at least two elements of the ascending sequence. -/
theorem partition_first_ascending (N : Nat) (low high : Int) (h0 : 0 ≤ low)
    (hlt : low < high) (hh : high < N) :
    partition (ascending N) low high 1 = some (ascending N, low) := by
  obtain ⟨A, M, C, hS, hA, hM, hMs⟩ := range_split (ascending N) low high h0 (by omega)
    (by rw [ascending_length]; exact hh)
  have hSM : StrictAsc M := by rw [hMs]; exact strictAsc_slice _ _ _ (ascending_strict N)
  obtain ⟨a, R, -, -, hpart⟩ := step_first_asc A M C hSM (by omega)
  have e : (A.length : Int) + M.length - 1 = high := by omega
  rw [e, hA, ← hS] at hpart
  exact hpart

/-- Strategy `middle` on any range of at least two elements of the ascending sequence. -/
theorem partition_middle_ascending (N : Nat) (low high : Int) (h0 : 0 ≤ low)
    (hlt : low < high) (hh : high < N) :
    partition (ascending N) low high 0 = some (ascending N, low + (high - low) / 2) := by
  obtain ⟨A, M, C, hS, hA, hM, hMs⟩ := range_split (ascending N) low high h0 (by omega)
    (by rw [ascending_length]; exact hh)
  have hSM : StrictAsc M := by rw [hMs]; exact strictAsc_slice _ _ _ (ascending_strict N)
  obtain ⟨M1, R, pv, -, -, -, hlen, hpart⟩ := step_middle_asc A M C hSM (by omega)
  have e : (A.length : Int) + M.length - 1 = high := by omega
  have e2 : (A.length : Int) + M1.length = low + (high - low) / 2 := by
    rw [hlen, hA]
    have : (M.length : Int) - 1 = high - low := by omega
    rw [this]
  rw [e2, e, hA, ← hS] at hpart
  exact hpart

/-- C21. Scenario 2: for every `N ≥ 1`, the quicksort with pivot strategy `first` (number
`1`) on the ascending sequence `1..N`. With cutoff `0` every task of the parallel driver
partitions its range, and for every scheduling of the tasks each call of `partition` is a
call on the sequence `1..N` itself, returns `p = low` and leaves the sequence unchanged;
the driver returns the sequence unchanged. The same holds for the calls of `partition`
made by `quick_sort_serial`, and indeed `partition` returns `low` and changes nothing on
every range `0 ≤ low < high < N` of the sequence. -/
theorem scenario_two (N : Nat) (hN : 1 ≤ N) (sched : Nat → Nat) :
    ((0 : Int) ≤ (N : Int) - 1 ∧ (N : Int) - 1 < (ascending N).length) ∧
    (∃ tr, runTasksTrace 0 1 sched (2 * N + 1) 0 (ascending N) [(0, (N : Int) - 1)]
        = some (ascending N, tr) ∧
      ∀ c ∈ tr, c.p = c.low ∧ c.before = ascending N ∧ c.after = ascending N) ∧
    quick_sort_parallel 0 sched (ascending N) N 1 = some (ascending N) ∧
    (∃ r, quick_sort_serial_trace (ascending N) 0 ((N : Int) - 1) 1 = some r ∧
      r.arr = ascending N ∧
      ∀ c ∈ r.calls, c.p = c.low ∧ c.before = ascending N ∧ c.after = ascending N) ∧
    quick_sort_serial (ascending N) 0 ((N : Int) - 1) 1 = some (ascending N) ∧
    (∀ low high : Int, 0 ≤ low → low < high → high < N →
      partition (ascending N) low high 1 = some (ascending N, low)) := by
  have hlen := ascending_length N
  have hstep : ∀ low high : Int, 0 ≤ low → low < high → high < (ascending N).length →
      ∃ p, partition (ascending N) low high 1 = some (ascending N, p) ∧
        (fun c : PCall => c.p = c.low ∧ c.before = ascending N ∧ c.after = ascending N)
          ⟨low, high, p, ascending N, ascending N⟩ := by
    intro low high h0 hlt hh
    rw [hlen] at hh
    exact ⟨low, partition_first_ascending N low high h0 hlt hh, rfl, rfl, rfl⟩
  obtain ⟨tr, htr, hQ⟩ := runTasksTrace_fixed 0 1 sched (ascending N)
    (fun c : PCall => c.p = c.low ∧ c.before = ascending N ∧ c.after = ascending N) hstep (2 * N + 1) 0
    [(0, (N : Int) - 1)]
    (by intro t ht; simp only [List.mem_singleton] at ht; subst ht; simp only [hlen]; omega)
    (by simp only [poolWeight]; omega)
  obtain ⟨r, hr, ha, hQr⟩ := quickSortTraceFuel_fixed 1 (ascending N)
    (fun c : PCall => c.p = c.low ∧ c.before = ascending N ∧ c.after = ascending N) hstep
    (((N : Int) - 1 - 0).toNat + 1) 0 ((N : Int) - 1) (by omega) (by rw [hlen]; omega)
    (by omega) (by omega)
  refine ⟨⟨by omega, by rw [hlen]; omega⟩, ⟨tr, htr, hQ⟩, ?_, ⟨r, hr, ha, hQr⟩, ?_, ?_⟩
  · have h := runTasksTrace_arr 0 1 sched (2 * N + 1) 0 (ascending N) [(0, (N : Int) - 1)]
    rw [htr] at h
    simp only [quick_sort_parallel, Int.toNat_ofNat]
    exact h.symm
  · have h := quick_sort_serial_trace_arr (ascending N) 0 ((N : Int) - 1) 1
    rw [show quick_sort_serial_trace (ascending N) 0 ((N : Int) - 1) 1 = some r from hr] at h
    rw [← h, ← ha]
    rfl
  · intro low high h0 hlt hh
    exact partition_first_ascending N low high h0 hlt hh

theorem scenario_two_witness :
    1 ≤ 5 ∧
    (((0 : Int) ≤ ((5 : Nat) : Int) - 1 ∧ ((5 : Nat) : Int) - 1 < (ascending 5).length) ∧
    (∃ tr, runTasksTrace 0 1 (fun k => k) (2 * 5 + 1) 0 (ascending 5)
          [(0, ((5 : Nat) : Int) - 1)]
        = some (ascending 5, tr) ∧
      ∀ c ∈ tr, c.p = c.low ∧ c.before = ascending 5 ∧ c.after = ascending 5) ∧
    quick_sort_parallel 0 (fun k => k) (ascending 5) (5 : Nat) 1 = some (ascending 5) ∧
    (∃ r, quick_sort_serial_trace (ascending 5) 0 (((5 : Nat) : Int) - 1) 1 = some r ∧
      r.arr = ascending 5 ∧
      ∀ c ∈ r.calls, c.p = c.low ∧ c.before = ascending 5 ∧ c.after = ascending 5) ∧
    quick_sort_serial (ascending 5) 0 (((5 : Nat) : Int) - 1) 1 = some (ascending 5) ∧
    (∀ low high : Int, 0 ≤ low → low < high → high < (5 : Nat) →
      partition (ascending 5) low high 1 = some (ascending 5, low))) :=
  ⟨by decide, scenario_two 5 (by decide) (fun k => k)⟩

/-- C22. Scenario 3: for every `N ≥ 1`, the quicksort with pivot strategy `middle` (number
`0`) on the ascending sequence `1..N`. With cutoff `0` every task of the parallel driver
partitions its range, and for every scheduling of the tasks each call of `partition` on a
range `[low, high]` is a call on the sequence `1..N` itself, returns
`p = low + (high - low) / 2`, so that the sizes `p - low` of `[low, p-1]` and `high - p` of
`[p+1, high]` differ by at most one, and leaves the sequence unchanged; the driver returns
the sequence unchanged. The same holds for the calls made by `quick_sort_serial`, and
indeed for `partition` on every range `0 ≤ low < high < N` of the sequence. -/
theorem scenario_three (N : Nat) (hN : 1 ≤ N) (sched : Nat → Nat) :
    ((0 : Int) ≤ (N : Int) - 1 ∧ (N : Int) - 1 < (ascending N).length) ∧
    (∃ tr, runTasksTrace 0 0 sched (2 * N + 1) 0 (ascending N) [(0, (N : Int) - 1)]
        = some (ascending N, tr) ∧
      ∀ c ∈ tr, c.p = c.low + (c.high - c.low) / 2 ∧
        c.p - c.low ≤ c.high - c.p ∧ c.high - c.p ≤ c.p - c.low + 1 ∧
        c.before = ascending N ∧ c.after = ascending N) ∧
    quick_sort_parallel 0 sched (ascending N) N 0 = some (ascending N) ∧
    (∃ r, quick_sort_serial_trace (ascending N) 0 ((N : Int) - 1) 0 = some r ∧
      r.arr = ascending N ∧
      ∀ c ∈ r.calls, c.p = c.low + (c.high - c.low) / 2 ∧
        c.p - c.low ≤ c.high - c.p ∧ c.high - c.p ≤ c.p - c.low + 1 ∧
        c.before = ascending N ∧ c.after = ascending N) ∧
    quick_sort_serial (ascending N) 0 ((N : Int) - 1) 0 = some (ascending N) ∧
    (∀ low high : Int, 0 ≤ low → low < high → high < N →
      partition (ascending N) low high 0
        = some (ascending N, low + (high - low) / 2)) := by
  have hlen := ascending_length N
  have hstep : ∀ low high : Int, 0 ≤ low → low < high → high < (ascending N).length →
      ∃ p, partition (ascending N) low high 0 = some (ascending N, p) ∧
        (fun c : PCall => c.p = c.low + (c.high - c.low) / 2 ∧
          c.p - c.low ≤ c.high - c.p ∧ c.high - c.p ≤ c.p - c.low + 1 ∧
          c.before = ascending N ∧ c.after = ascending N)
          ⟨low, high, p, ascending N, ascending N⟩ := by
    intro low high h0 hlt hh
    rw [hlen] at hh
    exact ⟨_, partition_middle_ascending N low high h0 hlt hh, rfl, by simp only; omega,
      by simp only; omega, rfl, rfl⟩
  obtain ⟨tr, htr, hQ⟩ := runTasksTrace_fixed 0 0 sched (ascending N)
    (fun c : PCall => c.p = c.low + (c.high - c.low) / 2 ∧
      c.p - c.low ≤ c.high - c.p ∧ c.high - c.p ≤ c.p - c.low + 1 ∧
      c.before = ascending N ∧ c.after = ascending N) hstep (2 * N + 1) 0
    [(0, (N : Int) - 1)]
    (by intro t ht; simp only [List.mem_singleton] at ht; subst ht; simp only [hlen]; omega)
    (by simp only [poolWeight]; omega)
  obtain ⟨r, hr, ha, hQr⟩ := quickSortTraceFuel_fixed 0 (ascending N)
    (fun c : PCall => c.p = c.low + (c.high - c.low) / 2 ∧
      c.p - c.low ≤ c.high - c.p ∧ c.high - c.p ≤ c.p - c.low + 1 ∧
      c.before = ascending N ∧ c.after = ascending N) hstep
    (((N : Int) - 1 - 0).toNat + 1) 0 ((N : Int) - 1) (by omega) (by rw [hlen]; omega)
    (by omega) (by omega)
  refine ⟨⟨by omega, by rw [hlen]; omega⟩, ⟨tr, htr, hQ⟩, ?_, ⟨r, hr, ha, hQr⟩, ?_, ?_⟩
  · have h := runTasksTrace_arr 0 0 sched (2 * N + 1) 0 (ascending N) [(0, (N : Int) - 1)]
    rw [htr] at h
    simp only [quick_sort_parallel, Int.toNat_ofNat]
    exact h.symm
  · have h := quick_sort_serial_trace_arr (ascending N) 0 ((N : Int) - 1) 0
    rw [show quick_sort_serial_trace (ascending N) 0 ((N : Int) - 1) 0 = some r from hr] at h
    rw [← h, ← ha]
    rfl
  · intro low high h0 hlt hh
    exact partition_middle_ascending N low high h0 hlt hh

theorem scenario_three_witness :
    1 ≤ 7 ∧
    (((0 : Int) ≤ ((7 : Nat) : Int) - 1 ∧ ((7 : Nat) : Int) - 1 < (ascending 7).length) ∧
    (∃ tr, runTasksTrace 0 0 (fun k => k) (2 * 7 + 1) 0 (ascending 7)
          [(0, ((7 : Nat) : Int) - 1)]
        = some (ascending 7, tr) ∧
      ∀ c ∈ tr, c.p = c.low + (c.high - c.low) / 2 ∧
        c.p - c.low ≤ c.high - c.p ∧ c.high - c.p ≤ c.p - c.low + 1 ∧
        c.before = ascending 7 ∧ c.after = ascending 7) ∧
    quick_sort_parallel 0 (fun k => k) (ascending 7) (7 : Nat) 0 = some (ascending 7) ∧
    (∃ r, quick_sort_serial_trace (ascending 7) 0 (((7 : Nat) : Int) - 1) 0 = some r ∧
      r.arr = ascending 7 ∧
      ∀ c ∈ r.calls, c.p = c.low + (c.high - c.low) / 2 ∧
        c.p - c.low ≤ c.high - c.p ∧ c.high - c.p ≤ c.p - c.low + 1 ∧
        c.before = ascending 7 ∧ c.after = ascending 7) ∧
    quick_sort_serial (ascending 7) 0 (((7 : Nat) : Int) - 1) 0 = some (ascending 7) ∧
    (∀ low high : Int, 0 ≤ low → low < high → high < (7 : Nat) →
      partition (ascending 7) low high 0
        = some (ascending 7, low + (high - low) / 2))) :=
  ⟨by decide, scenario_three 7 (by decide) (fun k => k)⟩


/-! ## Degenerate splits -/

/-- An odd divisor `i ≥ 3` with `i * i ≤ n` shows that `n` is not prime. -/
theorem not_prime_of_divisor (n i : Int) (h3 : 3 ≤ i) (hsq : i * i ≤ n)
    (hdiv : n.tmod i = 0) : ¬ Nat.Prime n.toNat := by
  intro hp
  have hn : 0 ≤ n := by nlinarith
  rw [Int.tmod_eq_emod hn (by omega)] at hdiv
  have hdvd : i ∣ n := Int.dvd_of_emod_eq_zero hdiv
  have hnat : i.toNat ∣ n.toNat := by
    have : ((i.toNat : Int)) ∣ ((n.toNat : Int)) := by
      rw [Int.toNat_of_nonneg (by omega), Int.toNat_of_nonneg hn]; exact hdvd
    exact Int.natCast_dvd_natCast.mp this
  rcases (Nat.dvd_prime hp).mp hnat with h1 | h1
  · omega
  · have : i = n := by omega
    subst this
    nlinarith

/-- An odd `n ≥ 3` with no odd divisor `d ≥ 3` below some `i` with `n < i * i` is prime. -/
theorem prime_of_no_divisor (n i : Int) (hn3 : 3 ≤ n) (hodd : n % 2 = 1) (hi : 3 ≤ i)
    (hsq : n < i * i)
    (hinv : ∀ d : Int, 3 ≤ d → d < i → d % 2 = 1 → ¬ d ∣ n) : Nat.Prime n.toNat := by
  by_contra hnp
  have hm : n = (n.toNat : Int) := (Int.toNat_of_nonneg (by omega)).symm
  have hp := Nat.minFac_prime (show n.toNat ≠ 1 by omega)
  have hd := Nat.minFac_dvd n.toNat
  have hle := Nat.minFac_sq_le_self (show 0 < n.toNat by omega) hnp
  have hpodd : n.toNat.minFac % 2 = 1 := by
    rcases hp.eq_two_or_odd with h2 | h2
    · rw [h2] at hd
      omega
    · exact h2
  have hp2 := hp.two_le
  have hdI : (n.toNat.minFac : Int) ∣ n := by
    rw [hm]; exact Int.natCast_dvd_natCast.mpr hd
  have hleI : (n.toNat.minFac : Int) * n.toNat.minFac ≤ n := by
    rw [hm]; rw [pow_two] at hle; exact_mod_cast hle
  refine hinv (n.toNat.minFac : Int) (by omega) ?_ (by omega) hdI
  by_contra hge
  have : i ≤ (n.toNat.minFac : Int) := by omega
  nlinarith

/-- The loop of `isPrime` on an odd `n` below `46339 * 46339`, started at an odd `i` below
which `n` has no odd divisor: no product overflows and the answer is right. -/
theorem isPrimeLoop_correct (n : Int) (hn3 : 3 ≤ n) (hodd : n % 2 = 1)
    (hsmall : n < 2147302921) :
    ∀ (k fuel : Nat) (i : Int), 3 ≤ i → i % 2 = 1 → i ≤ 46339 → 46341 - i ≤ 2 * k →
      k < fuel → (∀ d : Int, 3 ≤ d → d < i → d % 2 = 1 → ¬ d ∣ n) →
      isPrimeLoop n fuel i = some (decide (Nat.Prime n.toNat)) := by
  intro k
  induction k with
  | zero => intro fuel i _ _ h1 h2; omega
  | succ k ih =>
    intro fuel i h3 hio hi hk hf hinv
    obtain ⟨f, rfl⟩ : ∃ f, fuel = f + 1 := ⟨fuel - 1, by omega⟩
    have hsq0 : 0 ≤ i * i := by nlinarith
    have hsq1 : i * i ≤ 2147302921 := by nlinarith
    have hw : wrap32 (i * i) = i * i := wrap32_id _ (by omega) (by omega)
    have hw2 : wrap32 (i + 2) = i + 2 := wrap32_id _ (by omega) (by omega)
    by_cases hc : i * i ≤ n
    · by_cases hd : n.tmod i = 0
      · have hnp := not_prime_of_divisor n i h3 hc hd
        simp only [isPrimeLoop, hw, hc, if_true, hd, hnp, decide_False]
      · have hlt : i < 46339 := by
          by_contra hge
          have : (46339 : Int) ≤ i := by omega
          nlinarith
        have hrec := ih f (i + 2) (by omega) (by omega) (by omega) (by omega) (by omega)
          (by
            intro d hd3 hdlt hdodd hdvd
            by_cases hdi : d < i
            · exact hinv d hd3 hdi hdodd hdvd
            · have hdeq : d = i := by omega
              subst hdeq
              apply hd
              rw [Int.tmod_eq_emod (by omega) (by omega)]
              exact Int.emod_eq_zero_of_dvd hdvd)
        simp only [isPrimeLoop, hw, hc, if_true, hd, if_false, hw2, hrec]
    · have hp := prime_of_no_divisor n i hn3 hodd h3 (by omega) hinv
      simp only [isPrimeLoop, hw, hc, if_false, hp, decide_True]

/-- Below `46339 * 46339 = 2147302921` the function `isPrime` answers as documented: it
returns, and returns `true` exactly for the primes. -/
theorem isPrime_correct_below (n : Int) (hsmall : n < 2147302921) :
    isPrime n = some (decide (Nat.Prime n.toNat)) := by
  by_cases h1 : n ≤ 1
  · have hnp : ¬ Nat.Prime n.toNat := by
      intro hp
      have := hp.two_le
      omega
    simp only [isPrime, h1, if_true, hnp, decide_False]
  · by_cases h2 : n = 2
    · subst h2
      decide
    · by_cases h3 : n.tmod 2 = 0
      · have hnp : ¬ Nat.Prime n.toNat := by
          intro hp
          rw [Int.tmod_eq_emod (by omega) (by omega)] at h3
          rcases hp.eq_two_or_odd with h | h
          · omega
          · omega
        simp only [isPrime, h1, h2, h3, if_true, if_false, hnp, decide_False]
      · have hodd : n % 2 = 1 := by
          rw [Int.tmod_eq_emod (by omega) (by omega)] at h3
          omega
        have hloop := isPrimeLoop_correct n (by omega) hodd hsmall 23170 2147483648 3
          (by omega) (by omega) (by omega) (by omega) (by omega)
          (by intro d hd3 hdlt; omega)
        simp only [isPrime, h1, h2, h3, if_false, hloop]


/-! ## The strategy selector and the midpoint -/

/-- C40. The strategy selector is total: `0` selects the middle index
`low + (high - low) / 2`, `1` the first index `low`, and every other value `s` the last
index `high`; for every vector, every range and every `s` other than `0` and `1`, the call
`partition(S, low, high, s)` returns the same index and leaves the same vector as
`partition(S, low, high, 2)` (and faults exactly when that call does). -/
theorem strategy_selector_total (S : List Int) (low high s : Int) (hs0 : s ≠ 0)
    (hs1 : s ≠ 1) :
    pivotIndex low high 0 = low + (high - low).tdiv 2 ∧
    pivotIndex low high 1 = low ∧
    pivotIndex low high 2 = high ∧
    pivotIndex low high s = high ∧
    partition S low high s = partition S low high 2 := by
  have h2 : pivotIndex low high 2 = high := by simp [pivotIndex]
  have hs : pivotIndex low high s = high := by simp [pivotIndex, hs0, hs1]
  refine ⟨by simp [pivotIndex], by simp [pivotIndex], h2, hs, ?_⟩
  simp only [partition, h2, hs]

theorem strategy_selector_total_witness :
    ((-7 : Int) ≠ 0 ∧ (-7 : Int) ≠ 1) ∧
    (pivotIndex 1 4 0 = 1 + ((4 : Int) - 1).tdiv 2 ∧
    pivotIndex 1 4 1 = 1 ∧
    pivotIndex 1 4 2 = 4 ∧
    pivotIndex 1 4 (-7) = 4 ∧
    partition [9, 6, 2, 8, 1, 0] 1 4 (-7) = partition [9, 6, 2, 8, 1, 0] 1 4 2) :=
  ⟨⟨by decide, by decide⟩,
    strategy_selector_total [9, 6, 2, 8, 1, 0] 1 4 (-7) (by decide) (by decide)⟩

/-- C38. Midpoint arithmetic. For 32-bit signed `int`s with `0 ≤ low ≤ high`, the
expression `low + (high - low) / 2` evaluates without overflow: the difference, the
quotient and the sum all fit in an `int`, so the value computed with wrap-around is the
exact one. It is the middle pivot index of `partition` and the split point of the merge
sorts, equals `floor((low + high) / 2)`, lies in `[low, high]`, and is below `high`
whenever `low < high`, so that both halves `[low, m]` and `[m+1, high]` are non-empty. -/
theorem midpoint_arithmetic (low high : Int) (h0 : 0 ≤ low) (hlh : low ≤ high)
    (hmax : high ≤ 2147483647) :
    fits32 (high - low) ∧ fits32 ((high - low).tdiv 2) ∧
    fits32 (low + (high - low).tdiv 2) ∧
    midpoint32 low high = low + (high - low).tdiv 2 ∧
    pivotIndex low high 0 = midpoint32 low high ∧
    midpoint32 low high = (low + high) / 2 ∧
    low ≤ midpoint32 low high ∧ midpoint32 low high ≤ high ∧
    (low < high → midpoint32 low high < high ∧
      stepM 0 (.todo low high) 0 [] = some ([], .wait low (midpoint32 low high) high
        (.todo low (midpoint32 low high)) (.todo (midpoint32 low high + 1) high))) := by
  have hd : (high - low).tdiv 2 = (high - low) / 2 := Int.tdiv_eq_ediv (by omega) (by omega)
  have hmid : midpoint32 low high = low + (high - low).tdiv 2 := by
    unfold midpoint32 wrap32
    have e1 : (high - low + 2147483648) % 4294967296 - 2147483648 = high - low := by omega
    rw [e1, hd]
    omega
  refine ⟨⟨by omega, by omega⟩, ⟨by omega, by omega⟩, ⟨by omega, by omega⟩, hmid, ?_, ?_,
    ?_, ?_, ?_⟩
  · rw [hmid]; simp [pivotIndex]
  · rw [hmid, hd]; omega
  · rw [hmid, hd]; omega
  · rw [hmid, hd]; omega
  · intro hlt
    refine ⟨by rw [hmid, hd]; omega, ?_⟩
    have hge : ¬ low ≥ high := by omega
    have hc : ¬ high - low < 0 := by omega
    rw [hmid]
    simp only [stepM, hge, hc, if_false]

theorem midpoint_arithmetic_witness :
    ((0 : Int) ≤ 2147483646 ∧ (2147483646 : Int) ≤ 2147483647 ∧
      (2147483647 : Int) ≤ 2147483647) ∧
    (fits32 (2147483647 - 2147483646) ∧ fits32 (((2147483647 : Int) - 2147483646).tdiv 2) ∧
    fits32 (2147483646 + ((2147483647 : Int) - 2147483646).tdiv 2) ∧
    midpoint32 2147483646 2147483647 = 2147483646 + ((2147483647 : Int) - 2147483646).tdiv 2 ∧
    pivotIndex 2147483646 2147483647 0 = midpoint32 2147483646 2147483647 ∧
    midpoint32 2147483646 2147483647 = ((2147483646 : Int) + 2147483647) / 2 ∧
    2147483646 ≤ midpoint32 2147483646 2147483647 ∧
    midpoint32 2147483646 2147483647 ≤ 2147483647 ∧
    ((2147483646 : Int) < 2147483647 → midpoint32 2147483646 2147483647 < 2147483647 ∧
      stepM 0 (.todo 2147483646 2147483647) 0 [] = some ([], .wait 2147483646
        (midpoint32 2147483646 2147483647) 2147483647
        (.todo 2147483646 (midpoint32 2147483646 2147483647))
        (.todo (midpoint32 2147483646 2147483647 + 1) 2147483647)))) :=
  ⟨⟨by decide, by decide, by decide⟩,
    midpoint_arithmetic 2147483646 2147483647 (by decide) (by decide) (by decide)⟩


/-! ## The cutoff test of the parallel drivers -/

/-- The reversed ascending sequence sorts to the ascending sequence. -/
theorem sorted_reverse_ascending (N : Nat) : sorted (ascending N).reverse = ascending N :=
  (eq_sorted_of_perm (ascending N).reverse (ascending N) (List.reverse_perm _).symm
    (strictAsc_nonDecreasing _ (ascending_strict N))).symm

/-- C32, as stated, fails for a range of exactly `cutoff` elements. With the cutoff
`CUTOFF = 1000` of quick.cpp, the call of `quick_sort_task` on the range `[0, 999]` of the
1000-element vector `1000, 999, ..., 1` has range size `1000 ≥ cutoff`, yet it takes the
direct path: it creates no task and returns the vector sorted by `quick_sort_serial`; so
does the task of `parallelMergeSort` with its cutoff `1000`. The same happens on the
10-element vector of scenario 1 with cutoff `10`, where a delegating call would have
returned the vector as `partition` leaves it and created two tasks. -/
theorem cutoff_state_machine_counterexample :
    ((999 : Int) - 0 + 1 ≥ CUTOFF ∧ (0 : Int) < 999 ∧
      quick_sort_task CUTOFF (ascending 1000).reverse 0 999 2 = some (ascending 1000, []) ∧
      stepM 1000 (.todo 0 999) 0 (ascending 1000).reverse = some (ascending 1000, .done)) ∧
    ((9 : Int) - 0 + 1 ≥ 10 ∧
      quick_sort_task 10 [19, 2, 72, 3, 18, 57, 603, 490, 45, 101] 0 9 0
        = some ([2, 3, 18, 19, 45, 57, 72, 101, 490, 603], []) ∧
      partition [19, 2, 72, 3, 18, 57, 603, 490, 45, 101] 0 9 0
        = some ([2, 3, 18, 19, 101, 57, 603, 490, 45, 72], 2) ∧
      stepM 10 (.todo 0 9) 0 [19, 2, 72, 3, 18, 57, 603, 490, 45, 101]
        = some ([2, 3, 18, 19, 45, 57, 72, 101, 490, 603], .done)) := by
  have hlen : ((ascending 1000).reverse.length : Int) - 1 = 999 := by
    rw [List.length_reverse, ascending_length]; rfl
  have hq := (whole_vector_sorts (ascending 1000).reverse 2).1
  have hm := (whole_vector_sorts (ascending 1000).reverse 2).2
  rw [hlen, sorted_reverse_ascending] at hq hm
  refine ⟨⟨by decide, by decide, ?_, ?_⟩, ⟨by decide, ?_, by decide, ?_⟩⟩
  · have h1 : (0 : Int) < 999 := by decide
    have h2 : (999 : Int) - 0 < CUTOFF := by decide
    rw [quick_sort_task, if_pos h1, if_pos h2, hq]
    rfl
  · have h1 : ¬ ((0 : Int) ≥ 999) := by decide
    have h2 : (999 : Int) - 0 < 1000 := by decide
    rw [stepM, if_neg h1, if_pos h2, hm]
    rfl
  · have h1 : (0 : Int) < 9 := by decide
    have h2 : (9 : Int) - 0 < 10 := by decide
    have hs : quick_sort_serial [19, 2, 72, 3, 18, 57, 603, 490, 45, 101] 0 9 0
        = some [2, 3, 18, 19, 45, 57, 72, 101, 490, 603] := by decide
    rw [quick_sort_task, if_pos h1, if_pos h2, hs]
    rfl
  · have h1 : ¬ ((0 : Int) ≥ 9) := by decide
    have h2 : (9 : Int) - 0 < 10 := by decide
    have hs : serialMergeSort [19, 2, 72, 3, 18, 57, 603, 490, 45, 101] 0 9
        = some [2, 3, 18, 19, 45, 57, 72, 101, 490, 603] := by decide
    rw [stepM, if_neg h1, if_pos h2, hs]
    rfl

/-- C32, amended. State machine of the parallel drivers, on a range `[low, high]` with
`low < high` inside the vector. The test is on `high - low`, one less than the number of
elements. When `high - low < cutoff`, that is when the range has at most `cutoff`
elements, the call is in state Direct: `quick_sort_task` returns what `quick_sort_serial`
returns and creates no task, and the task of `parallelMergeSort` finishes with what
`serialMergeSort` returns. When `high - low ≥ cutoff`, that is when the range has more than
`cutoff` elements, the call is in state Delegate: `quick_sort_task` partitions the range and
creates the two tasks for `[low, p-1]` and `[p+1, high]`, and the task of
`parallelMergeSort` creates the two tasks for `[low, m]` and `[m+1, high]` and waits. -/
theorem cutoff_state_machine (cutoff strategy : Int) (S : List Int) (low high : Int)
    (c : Nat) (h0 : 0 ≤ low) (hlt : low < high) (hh : high < S.length) :
    (high - low < cutoff →
      (∃ S1, quick_sort_serial S low high strategy = some S1 ∧
        quick_sort_task cutoff S low high strategy = some (S1, [])) ∧
      (∃ S2, serialMergeSort S low high = some S2 ∧
        stepM cutoff (.todo low high) c S = some (S2, .done))) ∧
    (cutoff ≤ high - low →
      (∃ (S1 : List Int) (p : Int), partition S low high strategy = some (S1, p) ∧
        quick_sort_task cutoff S low high strategy
          = some (S1, [(low, p - 1), (p + 1, high)])) ∧
      stepM cutoff (.todo low high) c S
        = some (S, .wait low (low + (high - low) / 2) high
            (.todo low (low + (high - low) / 2))
            (.todo (low + (high - low) / 2 + 1) high))) ∧
    ((high - low < cutoff ↔ high - low + 1 ≤ cutoff) ∧
      (cutoff ≤ high - low ↔ cutoff < high - low + 1)) := by
  have hin : InRange S.length (low, high) := fun _ => ⟨h0, hh⟩
  have hge : ¬ low ≥ high := by omega
  refine ⟨?_, ?_, ⟨by omega, by omega⟩⟩
  · intro hc
    have hq := quick_sort_serial_eq_sortRange S low high strategy hin
    have hm := serialMergeSort_eq_sortRange S low high hin
    refine ⟨⟨_, hq, ?_⟩, ⟨_, hm, ?_⟩⟩
    · rw [quick_sort_task, if_pos hlt, if_pos hc, hq]; rfl
    · rw [stepM, if_neg hge, if_pos hc, hm]; rfl
  · intro hc
    have hnc : ¬ high - low < cutoff := by omega
    obtain ⟨S1, p, hpart, -⟩ := partition_then_sortRange S low high strategy hlt h0 hh
    refine ⟨⟨S1, p, hpart, ?_⟩, ?_⟩
    · rw [quick_sort_task, if_pos hlt, if_neg hnc, hpart]; rfl
    · have hd : (high - low).tdiv 2 = (high - low) / 2 :=
        Int.tdiv_eq_ediv (by omega) (by omega)
      simp only [stepM, hge, hnc, if_false, hd]

theorem cutoff_state_machine_witness :
    ((0 : Int) ≤ 0 ∧ (0 : Int) < 9 ∧
      (9 : Int) < ([19, 2, 72, 3, 18, 57, 603, 490, 45, 101] : List Int).length) ∧
    (((9 : Int) - 0 < 9 →
      (∃ S1, quick_sort_serial [19, 2, 72, 3, 18, 57, 603, 490, 45, 101] 0 9 0 = some S1 ∧
        quick_sort_task 9 [19, 2, 72, 3, 18, 57, 603, 490, 45, 101] 0 9 0 = some (S1, [])) ∧
      (∃ S2, serialMergeSort [19, 2, 72, 3, 18, 57, 603, 490, 45, 101] 0 9 = some S2 ∧
        stepM 9 (.todo 0 9) 0 [19, 2, 72, 3, 18, 57, 603, 490, 45, 101]
          = some (S2, .done))) ∧
    ((9 : Int) ≤ 9 - 0 →
      (∃ (S1 : List Int) (p : Int),
        partition [19, 2, 72, 3, 18, 57, 603, 490, 45, 101] 0 9 0 = some (S1, p) ∧
        quick_sort_task 9 [19, 2, 72, 3, 18, 57, 603, 490, 45, 101] 0 9 0
          = some (S1, [(0, p - 1), (p + 1, 9)])) ∧
      stepM 9 (.todo 0 9) 0 [19, 2, 72, 3, 18, 57, 603, 490, 45, 101]
        = some ([19, 2, 72, 3, 18, 57, 603, 490, 45, 101],
            .wait 0 (0 + (9 - 0) / 2) 9 (.todo 0 (0 + (9 - 0) / 2))
              (.todo (0 + (9 - 0) / 2 + 1) 9))) ∧
    (((9 : Int) - 0 < 9 ↔ (9 : Int) - 0 + 1 ≤ 9) ∧
      ((9 : Int) ≤ 9 - 0 ↔ (9 : Int) < 9 - 0 + 1))) :=
  ⟨⟨by decide, by decide, by decide⟩,
    cutoff_state_machine 9 0 [19, 2, 72, 3, 18, 57, 603, 490, 45, 101] 0 9 0 (by decide)
      (by decide) (by decide)⟩


/-! ## Ranges whose elements are all equal -/

/-- Two lists of the same length whose elements all equal `v` are the same list. -/
theorem all_equal_eq (N M : List Int) (v : Int) (hN : ∀ x ∈ N, x = v) (hM : ∀ x ∈ M, x = v)
    (hlen : N.length = M.length) : N = M := by
  induction N generalizing M with
  | nil =>
    cases M with
    | nil => rfl
    | cons y M => simp at hlen
  | cons x N ih =>
    cases M with
    | nil => simp at hlen
    | cons y M =>
      have hx : x = v := hN x (by simp)
      have hy : y = v := hM y (by simp)
      have hrec := ih M (fun z hz => hN z (by simp [hz])) (fun z hz => hM z (by simp [hz]))
        (by simpa using hlen)
      rw [hx, hy, hrec]

/-- On a non-empty range whose elements all equal `v`, `partition` returns `high` and
leaves the vector as it is, whatever the pivot strategy. -/
theorem partition_all_equal (A M C : List Int) (s v : Int) (hM : ∀ x ∈ M, x = v)
    (hne : M ≠ []) :
    partition (A ++ (M ++ C)) A.length ((A.length : Int) + M.length - 1) s
      = some (A ++ (M ++ C), (A.length : Int) + M.length - 1) := by
  obtain ⟨N, pv, hsw, hperm, -, hNlen⟩ :=
    first_swap_segments A M C A.length ((A.length : Int) + M.length - 1) s hne rfl rfl
  have hNv : ∀ x ∈ N ++ [pv], x = v := fun x hx => hM x (hperm.mem_iff.mp hx)
  have hMN : N ++ [pv] = M := all_equal_eq _ _ v hNv hM hperm.length_eq
  have hpv : pv = v := hNv pv (by simp)
  have hp := partition_presorted (A ++ (M ++ C)) A N [] C pv A.length
    ((A.length : Int) + M.length - 1) s rfl
    (by simp only [List.length_nil, Nat.cast_zero]; omega)
    (by simpa using hsw)
    (fun x hx => by rw [hNv x (by simp [hx]), hpv])
    (by simp)
  rw [hp, ← hMN]
  have e : (A.length : Int) + N.length = (A.length : Int) + (N ++ [pv]).length - 1 := by
    simp only [List.length_append, List.length_cons, List.length_nil, Nat.cast_add,
      Nat.cast_one]
    omega
  rw [e]
  simp [rotl]

/-- The step of the quicksort on a range of equal elements, in the form used for the
instrumented runs. -/
theorem step_all_equal (s v : Int) (A M C : List Int) (hS : ∀ x ∈ M, x = v)
    (h2 : 2 ≤ M.length) :
    ∃ (L R : List Int) (pv : Int),
      partition (A ++ (M ++ C)) A.length ((A.length : Int) + M.length - 1) s
        = some (A ++ (L ++ pv :: (R ++ C)), (A.length : Int) + L.length) ∧
      L.length + 1 + R.length = M.length ∧ (∀ x ∈ L, x = v) ∧ (∀ x ∈ R, x = v) ∧
      (fun c : PCall => c.low < c.high ∧ c.p = c.high ∧ c.after = c.before)
        ⟨A.length, (A.length : Int) + M.length - 1, (A.length : Int) + L.length,
          A ++ (M ++ C), A ++ (L ++ pv :: (R ++ C))⟩ := by
  have hne : M ≠ [] := by intro e; subst e; simp at h2
  have hp := partition_all_equal A M C s v hS hne
  have hM : M = M.dropLast ++ [M.getLast hne] := (List.dropLast_append_getLast hne).symm
  have hlen : M.dropLast.length + 1 = M.length := by
    rw [List.length_dropLast]; omega
  have harr : A ++ (M.dropLast ++ M.getLast hne :: ([] ++ C)) = A ++ (M ++ C) := by
    conv_rhs => rw [hM]
    simp
  refine ⟨M.dropLast, [], M.getLast hne, ?_, by simp only [List.length_nil]; omega,
    fun x hx => hS x (List.dropLast_subset M hx), by simp, ?_⟩
  · rw [harr, hp]
    congr 2
    omega
  · refine ⟨by simp only; omega, by simp only; omega, ?_⟩
    simp only
    exact harr

/-- C39. All-equal keys. On every range `0 ≤ low ≤ high < |S|` whose elements are all
equal, `partition` returns `p = high` and leaves the vector unchanged, whichever pivot
strategy is used (`0` = middle included). Hence every call of `partition` that the
quicksort makes on such a range, sequentially or through the task pool with any cutoff and
any scheduling, is on a range of at least two elements inside `[low, high]`, returns
`p = high`, so that `[low, p-1]` has `n - 1` elements and `[p+1, high]` none, and leaves
the vector unchanged; the sort returns the vector unchanged. -/
theorem all_equal_degenerate (S : List Int) (low high strategy cutoff : Int)
    (sched : Nat → Nat) (h0 : 0 ≤ low) (hlh : low ≤ high) (hh : high < S.length)
    (heq : ∀ x ∈ slice S low high, ∀ y ∈ slice S low high, x = y) :
    partition S low high strategy = some (S, high) ∧
    (∃ r, quick_sort_serial_trace S low high strategy = some r ∧ r.arr = S ∧
      ∀ c ∈ r.calls, c.low < c.high ∧ c.p = c.high ∧ c.after = c.before ∧
        c.p - c.low = c.high - c.low + 1 - 1 ∧ c.high - c.p = 0) ∧
    (∃ tr, runTasksTrace cutoff strategy sched (2 * (high + 1 - low).toNat + 1) 0 S
        [(low, high)] = some (S, tr) ∧
      ∀ c ∈ tr, c.low < c.high ∧ c.p = c.high ∧ c.after = c.before ∧
        c.p - c.low = c.high - c.low + 1 - 1 ∧ c.high - c.p = 0) ∧
    quick_sort_serial S low high strategy = some S := by
  obtain ⟨A, M, C, hS, hA, hM, hMs⟩ := range_split S low high h0 (by omega) hh
  have hne : M ≠ [] := by intro e; subst e; simp at hM; omega
  obtain ⟨v, hv⟩ : ∃ v, v ∈ M := List.exists_mem_of_ne_nil M hne
  have hall : ∀ x ∈ M, x = v := fun x hx => heq x (hMs ▸ hx) v (hMs ▸ hv)
  have hhigh : high = (A.length : Int) + M.length - 1 := by omega
  have hsorted : sorted M = M := by
    apply sorted_of_nonDecreasing
    unfold NonDecreasing
    rw [List.pairwise_iff_forall_sublist]
    intro a b hab
    have ha := hall a (hab.subset (by simp))
    have hb := hall b (hab.subset (by simp))
    omega
  have hsize : ∀ c : PCall, (c.low < c.high ∧ c.p = c.high ∧ c.after = c.before) →
      c.low < c.high ∧ c.p = c.high ∧ c.after = c.before ∧
        c.p - c.low = c.high - c.low + 1 - 1 ∧ c.high - c.p = 0 := by
    intro c hc
    obtain ⟨h1, h2, h3⟩ := hc
    exact ⟨h1, h2, h3, by omega, by omega⟩
  have hser := quick_sort_serial_segments A M C low high strategy hA.symm hhigh
  rw [hsorted, ← hS] at hser
  refine ⟨?_, ?_, ?_, hser⟩
  · have hp := partition_all_equal A M C strategy v hall hne
    have e : low + (M.length : Int) - 1 = high := by omega
    rw [hA, e, ← hS] at hp
    exact hp
  · obtain ⟨r, hr, ha, hQ⟩ := quickSortTraceFuel_calls strategy (fun M => ∀ x ∈ M, x = v)
      (fun c : PCall => c.low < c.high ∧ c.p = c.high ∧ c.after = c.before)
      (step_all_equal strategy v) ((high - low).toNat + 1) M A C low high hall (by omega)
      (by omega) hA.symm hhigh
    rw [hsorted, ← hS] at ha
    rw [← hS] at hr
    exact ⟨r, hr, ha, fun c hc => hsize c (hQ c hc)⟩
  · obtain ⟨arr, tr, hrun, hQ⟩ := runTasksTrace_calls cutoff strategy sched
      (fun M => ∀ x ∈ M, x = v)
      (fun c : PCall => c.low < c.high ∧ c.p = c.high ∧ c.after = c.before)
      (step_all_equal strategy v) (2 * (high + 1 - low).toNat + 1) 0 S [(low, high)]
      (by intro t ht
          simp only [List.mem_singleton] at ht
          subst ht
          refine ⟨h0, by simp only; omega, hh, ?_⟩
          simp only
          rw [← hMs]
          exact hall)
      (List.pairwise_singleton _ _)
      (by simp only [poolWeight]; omega)
    have h := runTasksTrace_arr cutoff strategy sched (2 * (high + 1 - low).toNat + 1) 0 S
      [(low, high)]
    have hfin := runTasks_finish cutoff strategy sched (2 * (high + 1 - low).toNat + 1) 0 S
      [(low, high)]
      (by intro t ht
          simp only [List.mem_singleton] at ht
          subst ht
          intro _
          exact ⟨h0, hh⟩)
      (List.pairwise_singleton _ _)
      (by simp only [poolWeight]; omega)
    have hsr : sortRange S (low, high) = S := by
      have := quick_sort_serial_eq_sortRange S low high strategy (fun _ => ⟨h0, hh⟩)
      rw [hser] at this
      exact (Option.some.inj this).symm
    rw [hrun, hfin] at h
    simp only [Option.map_some', Option.some.injEq, finish, List.foldl_cons, List.foldl_nil,
      hsr] at h
    subst h
    exact ⟨tr, hrun, fun c hc => hsize c (hQ c hc)⟩

theorem all_equal_degenerate_witness :
    ((0 : Int) ≤ 1 ∧ (1 : Int) ≤ 4 ∧ (4 : Int) < ([9, 5, 5, 5, 5, 0] : List Int).length ∧
      ∀ x ∈ slice [9, 5, 5, 5, 5, 0] 1 4, ∀ y ∈ slice [9, 5, 5, 5, 5, 0] 1 4, x = y) ∧
    (partition [9, 5, 5, 5, 5, 0] 1 4 0 = some ([9, 5, 5, 5, 5, 0], 4) ∧
    (∃ r, quick_sort_serial_trace [9, 5, 5, 5, 5, 0] 1 4 0 = some r ∧
      r.arr = [9, 5, 5, 5, 5, 0] ∧
      ∀ c ∈ r.calls, c.low < c.high ∧ c.p = c.high ∧ c.after = c.before ∧
        c.p - c.low = c.high - c.low + 1 - 1 ∧ c.high - c.p = 0) ∧
    (∃ tr, runTasksTrace 0 0 (fun k => k) (2 * ((4 : Int) + 1 - 1).toNat + 1) 0
        [9, 5, 5, 5, 5, 0] [(1, 4)] = some ([9, 5, 5, 5, 5, 0], tr) ∧
      ∀ c ∈ tr, c.low < c.high ∧ c.p = c.high ∧ c.after = c.before ∧
        c.p - c.low = c.high - c.low + 1 - 1 ∧ c.high - c.p = 0) ∧
    quick_sort_serial [9, 5, 5, 5, 5, 0] 1 4 0 = some [9, 5, 5, 5, 5, 0]) :=
  ⟨⟨by decide, by decide, by decide, by decide⟩,
    all_equal_degenerate [9, 5, 5, 5, 5, 0] 1 4 0 0 (fun k => k) (by decide) (by decide)
      (by decide) (by decide)⟩


/-! ## The ranges of the calls of `partition` -/

/-- Every call of `partition` made by the sequential quicksort on `[low, high]` is on a
range of at least two elements inside `[low, high]`; the record of the call is the call. -/
theorem quickSortTraceFuel_ranges (s : Int) :
    ∀ (fuel : Nat) (arr : List Int) (low high : Int) (r : QRun),
      quickSortTraceFuel fuel arr low high s = some r →
      ∀ c ∈ r.calls, low ≤ c.low ∧ c.low < c.high ∧ c.high ≤ high ∧
        partition c.before c.low c.high s = some (c.after, c.p) := by
  intro fuel
  induction fuel with
  | zero => intro arr low high r h; simp [quickSortTraceFuel] at h
  | succ fuel ih =>
    intro arr low high r h
    by_cases hlt : low < high
    · simp only [quickSortTraceFuel, hlt, if_true, Option.bind_eq_bind] at h
      cases hp : partition arr low high s with
      | none => simp [hp] at h
      | some res =>
        obtain ⟨arr1, p⟩ := res
        obtain ⟨hp1, hp2⟩ := partition_index_of_some arr low high s arr1 p hp (by omega)
        simp only [hp, Option.some_bind] at h
        cases h1 : quickSortTraceFuel fuel arr1 low (p - 1) s with
        | none => simp [h1] at h
        | some r1 =>
          simp only [h1, Option.some_bind] at h
          cases h2 : quickSortTraceFuel fuel r1.arr (p + 1) high s with
          | none => simp [h2] at h
          | some r2 =>
            simp only [h2, Option.some_bind, Option.some.injEq] at h
            subst h
            intro c hc
            simp only [List.mem_cons, List.mem_append] at hc
            rcases hc with hc | hc | hc
            · subst hc
              exact ⟨le_refl _, hlt, le_refl _, hp⟩
            · obtain ⟨a1, a2, a3, a4⟩ := ih arr1 low (p - 1) r1 h1 c hc
              exact ⟨a1, a2, by omega, a4⟩
            · obtain ⟨a1, a2, a3, a4⟩ := ih r1.arr (p + 1) high r2 h2 c hc
              exact ⟨by omega, a2, a3, a4⟩
    · simp only [quickSortTraceFuel, hlt, if_false, Option.some.injEq] at h
      subst h
      intro c hc
      simp at hc

/-- The calls of `partition` and the tasks created by one execution of the body of
`quick_sort_task` are on ranges inside the range of the task. -/
theorem quick_sort_task_trace_ranges (cutoff s : Int) (arr : List Int) (low high : Int)
    (arr1 : List Int) (spawned : List (Int × Int)) (calls : List PCall)
    (h : quick_sort_task_trace cutoff arr low high s = some (arr1, spawned, calls)) :
    (∀ c ∈ calls, low ≤ c.low ∧ c.low < c.high ∧ c.high ≤ high ∧
      partition c.before c.low c.high s = some (c.after, c.p)) ∧
    (∀ u ∈ spawned, low ≤ u.1 ∧ u.2 ≤ high) := by
  by_cases hlt : low < high
  · by_cases hc : high - low < cutoff
    · simp only [quick_sort_task_trace, hlt, hc, if_true, Option.bind_eq_bind] at h
      cases hr : quick_sort_serial_trace arr low high s with
      | none => simp [hr] at h
      | some r =>
        simp only [hr, Option.some_bind, Option.some.injEq, Prod.mk.injEq] at h
        obtain ⟨-, hsp, hcalls⟩ := h
        subst hsp hcalls
        exact ⟨quickSortTraceFuel_ranges s _ arr low high r hr, by simp⟩
    · simp only [quick_sort_task_trace, hlt, hc, if_true, if_false,
        Option.bind_eq_bind] at h
      cases hp : partition arr low high s with
      | none => simp [hp] at h
      | some res =>
        obtain ⟨a1, p⟩ := res
        obtain ⟨hp1, hp2⟩ := partition_index_of_some arr low high s a1 p hp (by omega)
        simp only [hp, Option.some_bind, Option.some.injEq, Prod.mk.injEq] at h
        obtain ⟨-, hsp, hcalls⟩ := h
        subst hsp hcalls
        constructor
        · intro c hc
          simp only [List.mem_singleton] at hc
          subst hc
          exact ⟨le_refl _, hlt, le_refl _, hp⟩
        · intro u hu
          simp only [List.mem_cons, List.mem_singleton, List.not_mem_nil, or_false] at hu
          rcases hu with hu | hu
          · subst hu; exact ⟨le_refl _, by simp only; omega⟩
          · subst hu; exact ⟨by simp only; omega, le_refl _⟩
  · simp only [quick_sort_task_trace, hlt, if_false, Option.some.injEq,
      Prod.mk.injEq] at h
    obtain ⟨-, hsp, hcalls⟩ := h
    subst hsp hcalls
    exact ⟨by simp, by simp⟩

/-- Every call of `partition` made by the tasks of the pool is on a range of at least two
elements inside the range of one of the tasks the pool started with. -/
theorem runTasksTrace_ranges (cutoff s : Int) (sched : Nat → Nat) :
    ∀ (fuel step : Nat) (arr : List Int) (pool : List (Int × Int)) (arr1 : List Int)
      (tr : List PCall),
      runTasksTrace cutoff s sched fuel step arr pool = some (arr1, tr) →
      ∀ c ∈ tr, ∃ t ∈ pool, t.1 ≤ c.low ∧ c.low < c.high ∧ c.high ≤ t.2 ∧
        partition c.before c.low c.high s = some (c.after, c.p) := by
  intro fuel
  induction fuel with
  | zero =>
    intro step arr pool arr1 tr h
    cases pool with
    | nil =>
      simp only [runTasksTrace, Option.some.injEq, Prod.mk.injEq] at h
      obtain ⟨-, htr⟩ := h
      subst htr
      intro c hc; simp at hc
    | cons t ts => simp [runTasksTrace] at h
  | succ fuel ih =>
    intro step arr pool arr1 tr h
    cases pool with
    | nil =>
      simp only [runTasksTrace, Option.some.injEq, Prod.mk.injEq] at h
      obtain ⟨-, htr⟩ := h
      subst htr
      intro c hc; simp at hc
    | cons t ts =>
      have hk : sched step % (t :: ts).length < (t :: ts).length :=
        Nat.mod_lt _ (by simp)
      obtain ⟨P1, P2, hpool, herase⟩ := pool_pick (t :: ts) _ t hk
      rw [runTasksTrace] at h
      simp only [herase] at h
      generalize (t :: ts).getD (sched step % (t :: ts).length) t = task at hpool h
      rw [hpool]
      cases hq : quick_sort_task_trace cutoff arr task.1 task.2 s with
      | none => simp [hq] at h
      | some res =>
        obtain ⟨a1, spawned, calls⟩ := res
        simp only [hq] at h
        cases hrest : runTasksTrace cutoff s sched fuel (step + 1) a1
            (P1 ++ P2 ++ spawned) with
        | none => rw [hrest] at h; simp at h
        | some res2 =>
          obtain ⟨a2, rest⟩ := res2
          rw [hrest] at h
          simp only [Option.some.injEq, Prod.mk.injEq] at h
          obtain ⟨-, htr⟩ := h
          subst htr
          obtain ⟨hcalls, hspawn⟩ :=
            quick_sort_task_trace_ranges cutoff s arr task.1 task.2 a1 spawned calls hq
          intro c hc
          rcases List.mem_append.mp hc with hc | hc
          · exact ⟨task, by simp, hcalls c hc⟩
          · obtain ⟨u, hu, b1, b2, b3, b4⟩ := ih (step + 1) a1 _ a2 rest hrest c hc
            simp only [List.mem_append] at hu
            rcases hu with (hu | hu) | hu
            · exact ⟨u, by simp [hu], b1, b2, b3, b4⟩
            · exact ⟨u, by simp [hu], b1, b2, b3, b4⟩
            · obtain ⟨s1, s2⟩ := hspawn u hu
              exact ⟨task, by simp, by omega, b2, by omega, b4⟩

/-! ## The element accesses of `partition` -/

/-- The instrumented scan computes what the scan computes. -/
theorem partitionLoopLog_erase (pv : Int) :
    ∀ (n : Nat) (arr : List Int) (i j : Int),
      (partitionLoopLog pv n arr i j).map (fun r => (r.1, r.2.1))
        = partitionLoop pv n arr i j := by
  intro n
  induction n with
  | zero => intro arr i j; rfl
  | succ n ih =>
    intro arr i j
    simp only [partitionLoopLog, partitionLoop, Option.bind_eq_bind]
    cases rd arr j with
    | none => rfl
    | some x =>
      simp only [Option.some_bind]
      by_cases hx : x ≤ pv
      · simp only [hx, if_true]
        cases swap arr (i + 1) j with
        | none => rfl
        | some arr1 =>
          simp only [Option.some_bind]
          rw [← ih arr1 (i + 1) (j + 1)]
          cases partitionLoopLog pv n arr1 (i + 1) (j + 1) with
          | none => rfl
          | some r => rfl
      · simp only [hx, if_false]
        rw [← ih arr i (j + 1)]
        cases partitionLoopLog pv n arr i (j + 1) with
        | none => rfl
        | some r => rfl

/-- The instrumented `partition` computes what `partition` computes. -/
theorem partitionLog_erase (arr : List Int) (low high s : Int) :
    (partitionLog arr low high s).map (fun r => (r.1, r.2.1)) = partition arr low high s := by
  simp only [partitionLog, partition, Option.bind_eq_bind]
  cases swap arr (pivotIndex low high s) high with
  | none => rfl
  | some arr1 =>
    simp only [Option.some_bind]
    cases rd arr1 high with
    | none => rfl
    | some pv =>
      simp only [Option.some_bind]
      rw [← partitionLoopLog_erase pv]
      cases partitionLoopLog pv (high - low).toNat arr1 (low - 1) low with
      | none => rfl
      | some r =>
        obtain ⟨arr2, i, log⟩ := r
        simp only [Option.map_some', Option.some_bind]
        cases swap arr2 (i + 1) high with
        | none => rfl
        | some arr3 => rfl

/-- The accesses of the scan started with `i < j` and running `n` iterations are at
indices in `(i, j + n)`, and the counter stays below `j + n`. -/
theorem partitionLoopLog_indices (pv : Int) :
    ∀ (n : Nat) (arr : List Int) (i j : Int) (arr1 : List Int) (i1 : Int) (log : List Int),
      partitionLoopLog pv n arr i j = some (arr1, i1, log) → i < j →
      i ≤ i1 ∧ i1 < j + n ∧ ∀ k ∈ log, i < k ∧ k < j + n := by
  intro n
  induction n with
  | zero =>
    intro arr i j arr1 i1 log h hij
    simp only [partitionLoopLog, Option.some.injEq, Prod.mk.injEq] at h
    obtain ⟨-, hi, hlog⟩ := h
    subst hi hlog
    exact ⟨le_refl _, by simpa using hij, by simp⟩
  | succ n ih =>
    intro arr i j arr1 i1 log h hij
    simp only [partitionLoopLog, Option.bind_eq_bind] at h
    cases hrd : rd arr j with
    | none => simp [hrd] at h
    | some x =>
      simp only [hrd, Option.some_bind] at h
      by_cases hx : x ≤ pv
      · simp only [hx, if_true] at h
        cases hsw : swap arr (i + 1) j with
        | none => simp [hsw] at h
        | some a1 =>
          simp only [hsw, Option.some_bind] at h
          cases hrec : partitionLoopLog pv n a1 (i + 1) (j + 1) with
          | none => simp [hrec] at h
          | some r =>
            obtain ⟨a2, i2, lg⟩ := r
            simp only [hrec, Option.some_bind, Option.some.injEq, Prod.mk.injEq] at h
            obtain ⟨-, hi, hlog⟩ := h
            subst hi hlog
            obtain ⟨c1, c2, c3⟩ := ih a1 (i + 1) (j + 1) a2 i2 lg hrec (by omega)
            refine ⟨by omega, by push_cast; omega, ?_⟩
            intro k hk
            simp only [List.mem_cons] at hk
            push_cast
            rcases hk with hk | hk | hk | hk
            · omega
            · omega
            · omega
            · have := c3 k hk; omega
      · simp only [hx, if_false] at h
        cases hrec : partitionLoopLog pv n arr i (j + 1) with
        | none => simp [hrec] at h
        | some r =>
          obtain ⟨a2, i2, lg⟩ := r
          simp only [hrec, Option.some_bind, Option.some.injEq, Prod.mk.injEq] at h
          obtain ⟨-, hi, hlog⟩ := h
          subst hi hlog
          obtain ⟨c1, c2, c3⟩ := ih arr i (j + 1) a2 i2 lg hrec (by omega)
          refine ⟨c1, by push_cast; omega, ?_⟩
          intro k hk
          simp only [List.mem_cons] at hk
          push_cast
          rcases hk with hk | hk
          · omega
          · have := c3 k hk; omega

/-- Every element access of `partition` on a range `low ≤ high` is at an index inside
`[low, high]`. -/
theorem partitionLog_indices (arr : List Int) (low high s : Int) (arr1 : List Int)
    (p : Int) (log : List Int) (h : partitionLog arr low high s = some (arr1, p, log))
    (hlh : low ≤ high) : ∀ k ∈ log, low ≤ k ∧ k ≤ high := by
  obtain ⟨hp1, hp2⟩ := pivotIndex_bounds low high s hlh
  simp only [partitionLog, Option.bind_eq_bind] at h
  cases hsw : swap arr (pivotIndex low high s) high with
  | none => simp [hsw] at h
  | some a1 =>
    simp only [hsw, Option.some_bind] at h
    cases hrd : rd a1 high with
    | none => simp [hrd] at h
    | some pv =>
      simp only [hrd, Option.some_bind] at h
      cases hloop : partitionLoopLog pv (high - low).toNat a1 (low - 1) low with
      | none => simp [hloop] at h
      | some r =>
        obtain ⟨a2, i, lg⟩ := r
        simp only [hloop, Option.some_bind] at h
        cases hsw2 : swap a2 (i + 1) high with
        | none => simp [hsw2] at h
        | some a3 =>
          simp only [hsw2, Option.some_bind, Option.some.injEq, Prod.mk.injEq] at h
          obtain ⟨-, -, hlog⟩ := h
          subst hlog
          obtain ⟨c1, c2, c3⟩ :=
            partitionLoopLog_indices pv _ a1 (low - 1) low a2 i lg hloop (by omega)
          have hn : (((high - low).toNat : Nat) : Int) = high - low := by omega
          intro k hk
          simp only [List.mem_cons, List.mem_append, List.not_mem_nil, or_false] at hk
          rcases hk with hk | hk | hk | hk | hk | hk
          · omega
          · omega
          · omega
          · have := c3 k hk; omega
          · omega
          · omega

/-- A call of `partition` that returns has a record of its accesses, all of them inside
the range. -/
theorem partition_accesses (arr : List Int) (low high s : Int) (arr1 : List Int) (p : Int)
    (h : partition arr low high s = some (arr1, p)) (hlh : low ≤ high) :
    ∃ log, partitionLog arr low high s = some (arr1, p, log) ∧
      ∀ k ∈ log, low ≤ k ∧ k ≤ high := by
  have he := partitionLog_erase arr low high s
  rw [h] at he
  cases hl : partitionLog arr low high s with
  | none => simp [hl] at he
  | some r =>
    obtain ⟨a, q, log⟩ := r
    simp only [hl, Option.map_some', Option.some.injEq, Prod.mk.injEq] at he
    obtain ⟨ha, hq⟩ := he
    subst ha hq
    exact ⟨log, rfl, partitionLog_indices arr low high s a q log hl hlh⟩


/-! ## The calls of `merge` made by the merge sorts -/

/-- The instrumented sequential merge sort computes what `serialMergeSort` computes. -/
theorem serialMergeSortTraceFuel_erase :
    ∀ (fuel : Nat) (arr : List Int) (l r : Int),
      (serialMergeSortTraceFuel fuel arr l r).map Prod.fst = serialMergeSortFuel fuel arr l r := by
  intro fuel
  induction fuel with
  | zero => intro arr l r; rfl
  | succ fuel ih =>
    intro arr l r
    by_cases hge : l ≥ r
    · simp [serialMergeSortTraceFuel, serialMergeSortFuel, hge]
    · simp only [serialMergeSortTraceFuel, serialMergeSortFuel, hge, if_false,
        Option.bind_eq_bind]
      rw [← ih arr l (l + (r - l).tdiv 2)]
      cases serialMergeSortTraceFuel fuel arr l (l + (r - l).tdiv 2) with
      | none => rfl
      | some r1 =>
        obtain ⟨arr1, c1⟩ := r1
        simp only [Option.map_some', Option.some_bind]
        rw [← ih arr1 (l + (r - l).tdiv 2 + 1) r]
        cases serialMergeSortTraceFuel fuel arr1 (l + (r - l).tdiv 2 + 1) r with
        | none => rfl
        | some r2 =>
          obtain ⟨arr2, c2⟩ := r2
          simp only [Option.map_some', Option.some_bind]
          cases merge arr2 l (l + (r - l).tdiv 2) r with
          | none => rfl
          | some arr3 => rfl

theorem serialMergeSortTrace_erase (arr : List Int) (l r : Int) :
    (serialMergeSortTrace arr l r).map Prod.fst = serialMergeSort arr l r :=
  serialMergeSortTraceFuel_erase _ arr l r

/-- Every call of `merge` made by the sequential merge sort on `[l, r]` has `l ≤ m < r`
on a range inside `[l, r]`; the record of the call is the call. -/
theorem serialMergeSortTraceFuel_ranges :
    ∀ (fuel : Nat) (arr : List Int) (l r : Int) (arr1 : List Int) (calls : List MCall),
      serialMergeSortTraceFuel fuel arr l r = some (arr1, calls) →
      ∀ c ∈ calls, l ≤ c.l ∧ c.l ≤ c.m ∧ c.m < c.r ∧ c.r ≤ r ∧
        c.m = c.l + (c.r - c.l) / 2 ∧ merge c.before c.l c.m c.r = some c.after := by
  intro fuel
  induction fuel with
  | zero => intro arr l r arr1 calls h; simp [serialMergeSortTraceFuel] at h
  | succ fuel ih =>
    intro arr l r arr1 calls h
    by_cases hge : l ≥ r
    · simp only [serialMergeSortTraceFuel, hge, if_true, Option.some.injEq,
        Prod.mk.injEq] at h
      obtain ⟨-, hc⟩ := h
      subst hc
      intro c hc; simp at hc
    · have hd : (r - l).tdiv 2 = (r - l) / 2 := Int.tdiv_eq_ediv (by omega) (by omega)
      simp only [serialMergeSortTraceFuel, hge, if_false, Option.bind_eq_bind, hd] at h
      cases h1 : serialMergeSortTraceFuel fuel arr l (l + (r - l) / 2) with
      | none => simp [h1] at h
      | some r1 =>
        obtain ⟨a1, c1⟩ := r1
        simp only [h1, Option.some_bind] at h
        cases h2 : serialMergeSortTraceFuel fuel a1 (l + (r - l) / 2 + 1) r with
        | none => simp [h2] at h
        | some r2 =>
          obtain ⟨a2, c2⟩ := r2
          simp only [h2, Option.some_bind] at h
          cases hm : merge a2 l (l + (r - l) / 2) r with
          | none => simp [hm] at h
          | some a3 =>
            simp only [hm, Option.some_bind, Option.some.injEq, Prod.mk.injEq] at h
            obtain ⟨-, hc⟩ := h
            subst hc
            intro c hc
            simp only [List.mem_append, List.mem_singleton] at hc
            rcases hc with hc | hc | hc
            · obtain ⟨b1, b2, b3, b4, b5, b6⟩ := ih arr l _ a1 c1 h1 c hc
              exact ⟨b1, b2, b3, by omega, b5, b6⟩
            · obtain ⟨b1, b2, b3, b4, b5, b6⟩ := ih a1 _ r a2 c2 h2 c hc
              exact ⟨by omega, b2, b3, b4, b5, b6⟩
            · subst hc
              exact ⟨le_refl _, by simp only; omega, by simp only; omega, le_refl _, rfl, hm⟩

/-- The instrumented step of the task tree computes what `stepM` computes. -/
theorem stepMTrace_erase (cutoff : Int) :
    ∀ (t : MTask) (c : Nat) (arr : List Int),
      (stepMTrace cutoff t c arr).map (fun r => (r.1, r.2.1)) = stepM cutoff t c arr := by
  intro t
  induction t with
  | done => intro c arr; rfl
  | todo l r =>
    intro c arr
    by_cases hge : l ≥ r
    · simp [stepMTrace, stepM, hge]
    · by_cases hc : r - l < cutoff
      · simp only [stepMTrace, stepM, hge, hc, if_true, if_false, Option.bind_eq_bind]
        rw [← serialMergeSortTrace_erase]
        cases serialMergeSortTrace arr l r with
        | none => rfl
        | some res => rfl
      · simp [stepMTrace, stepM, hge, hc]
  | wait l m r a b iha ihb =>
    intro c arr
    by_cases hdd : (a.isDone && b.isDone) = true
    · simp only [stepMTrace, stepM, hdd, if_true, Option.bind_eq_bind]
      cases merge arr l m r with
      | none => rfl
      | some a1 => rfl
    · by_cases hleft : (b.isDone || (!a.isDone && c % 2 == 0)) = true
      · simp only [stepMTrace, stepM, hdd, hleft, if_true, Bool.false_eq_true, if_false,
          Option.bind_eq_bind]
        rw [← iha (c / 2) arr]
        cases stepMTrace cutoff a (c / 2) arr with
        | none => rfl
        | some res => rfl
      · simp only [stepMTrace, stepM, hdd, hleft, Bool.false_eq_true, if_false,
          Option.bind_eq_bind]
        rw [← ihb (c / 2) arr]
        cases stepMTrace cutoff b (c / 2) arr with
        | none => rfl
        | some res => rfl

/-- The instrumented run of the task tree computes what `runM` computes. -/
theorem runMTrace_erase (cutoff : Int) (sched : Nat → Nat) :
    ∀ (fuel step : Nat) (arr : List Int) (t : MTask),
      (runMTrace cutoff sched fuel step arr t).map Prod.fst
        = runM cutoff sched fuel step arr t := by
  intro fuel
  induction fuel with
  | zero =>
    intro step arr t
    cases t <;> rfl
  | succ fuel ih =>
    intro step arr t
    have key : ∀ t : MTask, t ≠ .done →
        (runMTrace cutoff sched (fuel + 1) step arr t).map Prod.fst
          = runM cutoff sched (fuel + 1) step arr t := by
      intro t ht
      have hs := stepMTrace_erase cutoff t (sched step) arr
      cases hst : stepMTrace cutoff t (sched step) arr with
      | none =>
        rw [hst] at hs
        have hso : stepM cutoff t (sched step) arr = none := hs.symm
        cases t with
        | done => exact absurd rfl ht
        | todo l r => simp only [runMTrace, runM, hst, hso]; rfl
        | wait l m r a b => simp only [runMTrace, runM, hst, hso]; rfl
      | some res =>
        obtain ⟨a1, t1, calls⟩ := res
        rw [hst] at hs
        have hso : stepM cutoff t (sched step) arr = some (a1, t1) := hs.symm
        have hrec := ih (step + 1) a1 t1
        cases t with
        | done => exact absurd rfl ht
        | todo l r =>
          simp only [runMTrace, runM, hst, hso]
          rw [← hrec]
          cases runMTrace cutoff sched fuel (step + 1) a1 t1 with
          | none => rfl
          | some res2 => rfl
        | wait l m r a b =>
          simp only [runMTrace, runM, hst, hso]
          rw [← hrec]
          cases runMTrace cutoff sched fuel (step + 1) a1 t1 with
          | none => rfl
          | some res2 => rfl
    cases t with
    | done => rfl
    | todo l r => exact key _ (by simp)
    | wait l m r a b => exact key _ (by simp)

/-- One step of a task tree whose suspended tasks are split with `l ≤ m < r` leaves such
a tree, and every call of `merge` made during the step has `l ≤ m < r`. -/
theorem stepMTrace_calls (cutoff : Int) :
    ∀ (t : MTask) (c : Nat) (arr arr1 : List Int) (t1 : MTask) (calls : List MCall),
      SplitOK t → stepMTrace cutoff t c arr = some (arr1, t1, calls) →
      SplitOK t1 ∧ ∀ k ∈ calls, k.l ≤ k.m ∧ k.m < k.r ∧
        merge k.before k.l k.m k.r = some k.after := by
  intro t
  induction t with
  | done =>
    intro c arr arr1 t1 calls _ h
    simp only [stepMTrace, Option.some.injEq, Prod.mk.injEq] at h
    obtain ⟨-, ht, hc⟩ := h
    subst ht hc
    exact ⟨trivial, by simp⟩
  | todo l r =>
    intro c arr arr1 t1 calls _ h
    by_cases hge : l ≥ r
    · simp only [stepMTrace, hge, if_true, Option.some.injEq, Prod.mk.injEq] at h
      obtain ⟨-, ht, hc⟩ := h
      subst ht hc
      exact ⟨trivial, by simp⟩
    · by_cases hc : r - l < cutoff
      · simp only [stepMTrace, hge, hc, if_true, if_false, Option.bind_eq_bind] at h
        cases hs : serialMergeSortTrace arr l r with
        | none => simp [hs] at h
        | some res =>
          obtain ⟨a1, cs⟩ := res
          simp only [hs, Option.some_bind, Option.some.injEq, Prod.mk.injEq] at h
          obtain ⟨-, ht, hcs⟩ := h
          subst ht hcs
          refine ⟨trivial, ?_⟩
          intro k hk
          obtain ⟨-, b2, b3, -, -, b6⟩ :=
            serialMergeSortTraceFuel_ranges _ arr l r a1 cs hs k hk
          exact ⟨b2, b3, b6⟩
      · have hd : (r - l).tdiv 2 = (r - l) / 2 := Int.tdiv_eq_ediv (by omega) (by omega)
        simp only [stepMTrace, hge, hc, if_false, Option.some.injEq, Prod.mk.injEq, hd] at h
        obtain ⟨-, ht, hcs⟩ := h
        subst ht hcs
        refine ⟨⟨by omega, by omega, trivial, trivial⟩, by simp⟩
  | wait l m r a b iha ihb =>
    intro c arr arr1 t1 calls hok h
    obtain ⟨h1, h2, hoka, hokb⟩ := hok
    by_cases hdd : (a.isDone && b.isDone) = true
    · simp only [stepMTrace, hdd, if_true, Option.bind_eq_bind] at h
      cases hm : merge arr l m r with
      | none => simp [hm] at h
      | some a1 =>
        simp only [hm, Option.some_bind, Option.some.injEq, Prod.mk.injEq] at h
        obtain ⟨ha, ht, hcs⟩ := h
        subst ha ht hcs
        refine ⟨trivial, ?_⟩
        intro k hk
        simp only [List.mem_singleton] at hk
        subst hk
        exact ⟨h1, h2, hm⟩
    · by_cases hleft : (b.isDone || (!a.isDone && c % 2 == 0)) = true
      · simp only [stepMTrace, hdd, hleft, if_true, Bool.false_eq_true, if_false,
          Option.bind_eq_bind] at h
        cases hst : stepMTrace cutoff a (c / 2) arr with
        | none => simp [hst] at h
        | some res =>
          obtain ⟨a1, ta, cs⟩ := res
          simp only [hst, Option.some_bind, Option.some.injEq, Prod.mk.injEq] at h
          obtain ⟨-, ht, hcs⟩ := h
          subst ht hcs
          obtain ⟨hok1, hcalls⟩ := iha (c / 2) arr a1 ta cs hoka hst
          exact ⟨⟨h1, h2, hok1, hokb⟩, hcalls⟩
      · simp only [stepMTrace, hdd, hleft, Bool.false_eq_true, if_false,
          Option.bind_eq_bind] at h
        cases hst : stepMTrace cutoff b (c / 2) arr with
        | none => simp [hst] at h
        | some res =>
          obtain ⟨a1, tb, cs⟩ := res
          simp only [hst, Option.some_bind, Option.some.injEq, Prod.mk.injEq] at h
          obtain ⟨-, ht, hcs⟩ := h
          subst ht hcs
          obtain ⟨hok1, hcalls⟩ := ihb (c / 2) arr a1 tb cs hokb hst
          exact ⟨⟨h1, h2, hoka, hok1⟩, hcalls⟩

/-- Every call of `merge` made in a run of a task tree whose suspended tasks are split
with `l ≤ m < r` has `l ≤ m < r`. -/
theorem runMTrace_calls (cutoff : Int) (sched : Nat → Nat) :
    ∀ (fuel step : Nat) (arr : List Int) (t : MTask) (arr1 : List Int)
      (calls : List MCall), SplitOK t →
      runMTrace cutoff sched fuel step arr t = some (arr1, calls) →
      ∀ k ∈ calls, k.l ≤ k.m ∧ k.m < k.r ∧ merge k.before k.l k.m k.r = some k.after := by
  intro fuel
  induction fuel with
  | zero =>
    intro step arr t arr1 calls _ h
    cases t with
    | done =>
      simp only [runMTrace, Option.some.injEq, Prod.mk.injEq] at h
      obtain ⟨-, hc⟩ := h
      subst hc
      intro k hk; simp at hk
    | todo l r => simp [runMTrace] at h
    | wait l m r a b => simp [runMTrace] at h
  | succ fuel ih =>
    intro step arr t arr1 calls hok h
    have key : ∀ t : MTask, t ≠ .done → SplitOK t →
        (match stepMTrace cutoff t (sched step) arr with
          | none => none
          | some (a1, t1, cs) =>
            match runMTrace cutoff sched fuel (step + 1) a1 t1 with
            | none => none
            | some (a2, rest) => some (a2, cs ++ rest)) = some (arr1, calls) →
        ∀ k ∈ calls, k.l ≤ k.m ∧ k.m < k.r ∧
          merge k.before k.l k.m k.r = some k.after := by
      intro t _ hok h
      cases hst : stepMTrace cutoff t (sched step) arr with
      | none => rw [hst] at h; simp at h
      | some res =>
        obtain ⟨a1, t1, cs⟩ := res
        rw [hst] at h
        simp only at h
        obtain ⟨hok1, hcs⟩ := stepMTrace_calls cutoff t (sched step) arr a1 t1 cs hok hst
        cases hrun : runMTrace cutoff sched fuel (step + 1) a1 t1 with
        | none => rw [hrun] at h; simp at h
        | some res2 =>
          obtain ⟨a2, rest⟩ := res2
          rw [hrun] at h
          simp only [Option.some.injEq, Prod.mk.injEq] at h
          obtain ⟨-, hc⟩ := h
          subst hc
          intro k hk
          rcases List.mem_append.mp hk with hk | hk
          · exact hcs k hk
          · exact ih (step + 1) a1 t1 a2 rest hok1 hrun k hk
    cases t with
    | done =>
      simp only [runMTrace, Option.some.injEq, Prod.mk.injEq] at h
      obtain ⟨-, hc⟩ := h
      subst hc
      intro k hk; simp at hk
    | todo l r => exact key _ (by simp) hok (by simpa only [runMTrace] using h)
    | wait l m r a b => exact key _ (by simp) hok (by simpa only [runMTrace] using h)


/-! ## Claim on the ranges handed to `partition` and `merge` -/

/-- A computation whose erasure returns has itself returned. -/
theorem returns_of_erase {α β : Type} (o : Option α) (f : α → β) (y : β)
    (h : o.map f = some y) : ∃ x, o = some x := by
  cases o with
  | none => simp at h
  | some x => exact ⟨x, rfl⟩

/-- C31. The sort drivers never invoke `partition` on a single-element or empty range.
For every vector, range, strategy, cutoff and scheduling: every call
`partition(S, low, high, _)` recorded in a run of `quick_sort_serial`, of the body of
`quick_sort_task`, or of the task pool started with one task, has `low < high` (and is the
call recorded); every call `merge(S, l, m, r)` recorded in a run of `serialMergeSort` or of
the task tree of `parallelMergeSort` has `l ≤ m < r`. On a range inside the vector all
these runs return, so the statement is about calls that are made. -/
theorem drivers_guard_calls (cutoff strategy : Int) (sched : Nat → Nat) (S : List Int)
    (low high : Int) :
    (∀ r, quick_sort_serial_trace S low high strategy = some r →
      ∀ c ∈ r.calls, c.low < c.high ∧
        partition c.before c.low c.high strategy = some (c.after, c.p)) ∧
    (∀ S1 spawned calls,
      quick_sort_task_trace cutoff S low high strategy = some (S1, spawned, calls) →
      ∀ c ∈ calls, c.low < c.high ∧
        partition c.before c.low c.high strategy = some (c.after, c.p)) ∧
    (∀ fuel S1 tr,
      runTasksTrace cutoff strategy sched fuel 0 S [(low, high)] = some (S1, tr) →
      ∀ c ∈ tr, c.low < c.high ∧
        partition c.before c.low c.high strategy = some (c.after, c.p)) ∧
    (∀ S1 calls, serialMergeSortTrace S low high = some (S1, calls) →
      ∀ k ∈ calls, k.l ≤ k.m ∧ k.m < k.r ∧ merge k.before k.l k.m k.r = some k.after) ∧
    (∀ S1 calls, parallelMergeSortTrace cutoff sched S low high = some (S1, calls) →
      ∀ k ∈ calls, k.l ≤ k.m ∧ k.m < k.r ∧ merge k.before k.l k.m k.r = some k.after) ∧
    (0 ≤ low → high < S.length →
      (∃ r, quick_sort_serial_trace S low high strategy = some r) ∧
      (∃ res, quick_sort_task_trace cutoff S low high strategy = some res) ∧
      (∃ res, runTasksTrace cutoff strategy sched (2 * (high + 1 - low).toNat + 1) 0 S
        [(low, high)] = some res) ∧
      (∃ res, serialMergeSortTrace S low high = some res) ∧
      (∃ res, parallelMergeSortTrace cutoff sched S low high = some res)) := by
  refine ⟨?_, ?_, ?_, ?_, ?_, ?_⟩
  · intro r hr c hc
    obtain ⟨-, b2, -, b4⟩ := quickSortTraceFuel_ranges strategy _ S low high r hr c hc
    exact ⟨b2, b4⟩
  · intro S1 spawned calls h c hc
    obtain ⟨-, b2, -, b4⟩ :=
      (quick_sort_task_trace_ranges cutoff strategy S low high S1 spawned calls h).1 c hc
    exact ⟨b2, b4⟩
  · intro fuel S1 tr h c hc
    obtain ⟨t, -, -, b2, -, b4⟩ :=
      runTasksTrace_ranges cutoff strategy sched fuel 0 S [(low, high)] S1 tr h c hc
    exact ⟨b2, b4⟩
  · intro S1 calls h k hk
    obtain ⟨-, b2, b3, -, -, b6⟩ :=
      serialMergeSortTraceFuel_ranges _ S low high S1 calls h k hk
    exact ⟨b2, b3, b6⟩
  · intro S1 calls h k hk
    exact runMTrace_calls cutoff sched _ 0 S (.todo low high) S1 calls trivial h k hk
  · intro h0 hh
    have hin : InRange S.length (low, high) := fun _ => ⟨h0, hh⟩
    refine ⟨?_, ?_, ?_, ?_, ?_⟩
    · have h := quick_sort_serial_trace_arr S low high strategy
      rw [quick_sort_serial_eq_sortRange S low high strategy hin] at h
      exact returns_of_erase _ _ _ h
    · have h := quick_sort_task_trace_erase cutoff S low high strategy
      rcases quick_sort_task_cases cutoff S low high strategy hin with hq |
        ⟨-, a1, p, hq, -⟩
      · rw [hq] at h; exact returns_of_erase _ _ _ h
      · rw [hq] at h; exact returns_of_erase _ _ _ h
    · have h := runTasksTrace_arr cutoff strategy sched (2 * (high + 1 - low).toNat + 1) 0 S
        [(low, high)]
      rw [runTasks_finish cutoff strategy sched _ 0 S [(low, high)]
        (by intro t ht; simp only [List.mem_singleton] at ht; subst ht; exact hin)
        (List.pairwise_singleton _ _) (by simp only [poolWeight]; omega)] at h
      exact returns_of_erase _ _ _ h
    · have h := serialMergeSortTrace_erase S low high
      rw [serialMergeSort_eq_sortRange S low high hin] at h
      exact returns_of_erase _ _ _ h
    · have h := runMTrace_erase cutoff sched (3 * (high + 1 - low).toNat + 1) 0 S
        (.todo low high)
      have hp := parallelMergeSort_eq_sortRange cutoff sched S low high hin
      rw [parallelMergeSort] at hp
      rw [hp] at h
      exact returns_of_erase _ _ _ h


/-! ## Claim on the index safety of the quicksort -/

/-- A recorded call of `partition` on a range inside `[low, high]`, itself inside the
vector, accesses the vector inside its own range only. -/
theorem call_accesses (s : Int) (n : Nat) (low high : Int) (c : PCall) (h0 : 0 ≤ low)
    (hh : high < n)
    (hc : low ≤ c.low ∧ c.low < c.high ∧ c.high ≤ high ∧
      partition c.before c.low c.high s = some (c.after, c.p)) :
    ∃ log, partitionLog c.before c.low c.high s = some (c.after, c.p, log) ∧
      ∀ k ∈ log, c.low ≤ k ∧ k ≤ c.high ∧ low ≤ k ∧ k ≤ high ∧ 0 ≤ k ∧ k < (n : Int) := by
  obtain ⟨b1, b2, b3, b4⟩ := hc
  obtain ⟨log, hlog, hk⟩ := partition_accesses c.before c.low c.high s c.after c.p b4
    (by omega)
  refine ⟨log, hlog, ?_⟩
  intro k hkm
  obtain ⟨k1, k2⟩ := hk k hkm
  exact ⟨k1, k2, by omega, by omega, by omega, by omega⟩

/-- C36. Index safety of the quicksort. On a range `0 ≤ low ≤ high < |S|` and for every
strategy, `partition` returns, and every element access it makes (the two indices of each
swap, the read of the pivot value, every `arr[j]` of the scan) is at an index inside
`[low, high]`; the index `p = i + 1` of the final swap satisfies `low ≤ p ≤ high`. Every
call of `partition` made by `quick_sort_serial`, by the body of `quick_sort_task` and by
the task pool started on the range is on a sub-range and accesses the vector inside that
sub-range only, hence inside `[low, high]` and inside the vector; these runs return, which
in the embedding means that no access was out of bounds. -/
theorem quicksort_index_safety (cutoff strategy : Int) (sched : Nat → Nat) (S : List Int)
    (low high : Int) (h0 : 0 ≤ low) (hlh : low ≤ high) (hh : high < S.length) :
    (∃ (S1 : List Int) (p : Int) (log : List Int),
      partition S low high strategy = some (S1, p) ∧
      partitionLog S low high strategy = some (S1, p, log) ∧ low ≤ p ∧ p ≤ high ∧
      ∀ k ∈ log, low ≤ k ∧ k ≤ high ∧ 0 ≤ k ∧ k < (S.length : Int)) ∧
    (∃ r, quick_sort_serial_trace S low high strategy = some r ∧
      quick_sort_serial S low high strategy = some r.arr ∧
      ∀ c ∈ r.calls, ∃ log,
        partitionLog c.before c.low c.high strategy = some (c.after, c.p, log) ∧
        ∀ k ∈ log, c.low ≤ k ∧ k ≤ c.high ∧ low ≤ k ∧ k ≤ high ∧ 0 ≤ k ∧
          k < (S.length : Int)) ∧
    (∃ (S1 : List Int) (spawned : List (Int × Int)) (calls : List PCall),
      quick_sort_task_trace cutoff S low high strategy = some (S1, spawned, calls) ∧
      quick_sort_task cutoff S low high strategy = some (S1, spawned) ∧
      ∀ c ∈ calls, ∃ log,
        partitionLog c.before c.low c.high strategy = some (c.after, c.p, log) ∧
        ∀ k ∈ log, c.low ≤ k ∧ k ≤ c.high ∧ low ≤ k ∧ k ≤ high ∧ 0 ≤ k ∧
          k < (S.length : Int)) ∧
    (∃ (S1 : List Int) (tr : List PCall),
      runTasksTrace cutoff strategy sched (2 * (high + 1 - low).toNat + 1) 0 S [(low, high)]
        = some (S1, tr) ∧
      runTasks cutoff strategy sched (2 * (high + 1 - low).toNat + 1) 0 S [(low, high)]
        = some S1 ∧
      ∀ c ∈ tr, ∃ log,
        partitionLog c.before c.low c.high strategy = some (c.after, c.p, log) ∧
        ∀ k ∈ log, c.low ≤ k ∧ k ≤ c.high ∧ low ≤ k ∧ k ≤ high ∧ 0 ≤ k ∧
          k < (S.length : Int)) := by
  have hin : InRange S.length (low, high) := fun _ => ⟨h0, hh⟩
  refine ⟨?_, ?_, ?_, ?_⟩
  · obtain ⟨A, M, C, hS, hA, hM, -⟩ := range_split S low high h0 (by omega) hh
    have hne : M ≠ [] := by intro e; subst e; simp at hM; omega
    obtain ⟨Ls, Gs, pv, hpart, -⟩ :=
      partition_segments A M C low high strategy hne hA.symm (by omega)
    rw [← hS] at hpart
    obtain ⟨hp1, hp2⟩ := partition_index_of_some S low high strategy _ _ hpart hlh
    obtain ⟨log, hlog, hk⟩ := partition_accesses S low high strategy _ _ hpart hlh
    refine ⟨_, _, log, hpart, hlog, hp1, hp2, ?_⟩
    intro k hkm
    obtain ⟨k1, k2⟩ := hk k hkm
    exact ⟨k1, k2, by omega, by omega⟩
  · have h := quick_sort_serial_trace_arr S low high strategy
    obtain ⟨r, hr⟩ : ∃ r, quick_sort_serial_trace S low high strategy = some r := by
      have h2 := h
      rw [quick_sort_serial_eq_sortRange S low high strategy hin] at h2
      exact returns_of_erase _ _ _ h2
    refine ⟨r, hr, ?_, ?_⟩
    · rw [← h, hr]; rfl
    · intro c hc
      exact call_accesses strategy S.length low high c h0 hh
        (quickSortTraceFuel_ranges strategy _ S low high r hr c hc)
  · have h := quick_sort_task_trace_erase cutoff S low high strategy
    obtain ⟨res, hres⟩ : ∃ res, quick_sort_task_trace cutoff S low high strategy
        = some res := by
      have h2 := h
      rcases quick_sort_task_cases cutoff S low high strategy hin with hq |
        ⟨-, a1, p, hq, -⟩
      · rw [hq] at h2; exact returns_of_erase _ _ _ h2
      · rw [hq] at h2; exact returns_of_erase _ _ _ h2
    obtain ⟨S1, spawned, calls⟩ := res
    refine ⟨S1, spawned, calls, hres, ?_, ?_⟩
    · rw [← h, hres]; rfl
    · intro c hc
      exact call_accesses strategy S.length low high c h0 hh
        ((quick_sort_task_trace_ranges cutoff strategy S low high S1 spawned calls hres).1
          c hc)
  · have h := runTasksTrace_arr cutoff strategy sched (2 * (high + 1 - low).toNat + 1) 0 S
      [(low, high)]
    obtain ⟨res, hres⟩ : ∃ res, runTasksTrace cutoff strategy sched
        (2 * (high + 1 - low).toNat + 1) 0 S [(low, high)] = some res := by
      have h2 := h
      rw [runTasks_finish cutoff strategy sched _ 0 S [(low, high)]
        (by intro t ht; simp only [List.mem_singleton] at ht; subst ht; exact hin)
        (List.pairwise_singleton _ _) (by simp only [poolWeight]; omega)] at h2
      exact returns_of_erase _ _ _ h2
    obtain ⟨S1, tr⟩ := res
    refine ⟨S1, tr, hres, ?_, ?_⟩
    · rw [← h, hres]; rfl
    · intro c hc
      obtain ⟨t, ht, b1, b2, b3, b4⟩ :=
        runTasksTrace_ranges cutoff strategy sched _ 0 S [(low, high)] S1 tr hres c hc
      simp only [List.mem_singleton] at ht
      subst ht
      exact call_accesses strategy S.length low high c h0 hh ⟨b1, b2, b3, b4⟩

theorem quicksort_index_safety_witness :
    ((0 : Int) ≤ 1 ∧ (1 : Int) ≤ 4 ∧ (4 : Int) < ([9, 6, 2, 8, 1, 0] : List Int).length) ∧
    ((∃ (S1 : List Int) (p : Int) (log : List Int),
      partition [9, 6, 2, 8, 1, 0] 1 4 0 = some (S1, p) ∧
      partitionLog [9, 6, 2, 8, 1, 0] 1 4 0 = some (S1, p, log) ∧ 1 ≤ p ∧ p ≤ 4 ∧
      ∀ k ∈ log, 1 ≤ k ∧ k ≤ 4 ∧ 0 ≤ k ∧
        k < (([9, 6, 2, 8, 1, 0] : List Int).length : Int)) ∧
    (∃ r, quick_sort_serial_trace [9, 6, 2, 8, 1, 0] 1 4 0 = some r ∧
      quick_sort_serial [9, 6, 2, 8, 1, 0] 1 4 0 = some r.arr ∧
      ∀ c ∈ r.calls, ∃ log,
        partitionLog c.before c.low c.high 0 = some (c.after, c.p, log) ∧
        ∀ k ∈ log, c.low ≤ k ∧ k ≤ c.high ∧ 1 ≤ k ∧ k ≤ 4 ∧ 0 ≤ k ∧
          k < (([9, 6, 2, 8, 1, 0] : List Int).length : Int)) ∧
    (∃ (S1 : List Int) (spawned : List (Int × Int)) (calls : List PCall),
      quick_sort_task_trace 0 [9, 6, 2, 8, 1, 0] 1 4 0 = some (S1, spawned, calls) ∧
      quick_sort_task 0 [9, 6, 2, 8, 1, 0] 1 4 0 = some (S1, spawned) ∧
      ∀ c ∈ calls, ∃ log,
        partitionLog c.before c.low c.high 0 = some (c.after, c.p, log) ∧
        ∀ k ∈ log, c.low ≤ k ∧ k ≤ c.high ∧ 1 ≤ k ∧ k ≤ 4 ∧ 0 ≤ k ∧
          k < (([9, 6, 2, 8, 1, 0] : List Int).length : Int)) ∧
    (∃ (S1 : List Int) (tr : List PCall),
      runTasksTrace 0 0 (fun k => k) (2 * ((4 : Int) + 1 - 1).toNat + 1) 0
        [9, 6, 2, 8, 1, 0] [(1, 4)] = some (S1, tr) ∧
      runTasks 0 0 (fun k => k) (2 * ((4 : Int) + 1 - 1).toNat + 1) 0 [9, 6, 2, 8, 1, 0]
        [(1, 4)] = some S1 ∧
      ∀ c ∈ tr, ∃ log,
        partitionLog c.before c.low c.high 0 = some (c.after, c.p, log) ∧
        ∀ k ∈ log, c.low ≤ k ∧ k ≤ c.high ∧ 1 ≤ k ∧ k ≤ 4 ∧ 0 ≤ k ∧
          k < (([9, 6, 2, 8, 1, 0] : List Int).length : Int))) :=
  ⟨⟨by decide, by decide, by decide⟩,
    quicksort_index_safety 0 0 (fun k => k) [9, 6, 2, 8, 1, 0] 1 4 (by decide) (by decide)
      (by decide)⟩


/-! ## The element accesses of `merge` -/

theorem consecutive_zero (k : Int) : consecutive k 0 = [] := rfl

theorem consecutive_succ (k : Int) (n : Nat) :
    consecutive k (n + 1) = k :: consecutive (k + 1) n := by
  unfold consecutive
  rw [List.range_succ_eq_map, List.map_cons, List.map_map]
  congr 1
  · simp
  · apply List.map_congr_left
    intro d _
    simp only [Function.comp, Nat.succ_eq_add_one, Nat.cast_add, Nat.cast_one]
    omega

theorem consecutive_append (a : Nat) :
    ∀ (k : Int) (b : Nat), consecutive k a ++ consecutive (k + a) b = consecutive k (a + b) := by
  induction a with
  | zero => intro k b; simp [consecutive_zero]
  | succ a ih =>
    intro k b
    have e : a + 1 + b = (a + b) + 1 := by omega
    rw [e, consecutive_succ, consecutive_succ, List.cons_append, ← ih (k + 1) b]
    congr 3
    push_cast
    omega

theorem mem_consecutive (n : Nat) :
    ∀ (k x : Int), x ∈ consecutive k n ↔ k ≤ x ∧ x < k + n := by
  induction n with
  | zero => intro k x; simp [consecutive_zero]
  | succ n ih =>
    intro k x
    rw [consecutive_succ, List.mem_cons, ih]
    push_cast
    omega

theorem consecutive_nodup (n : Nat) : ∀ k : Int, (consecutive k n).Nodup := by
  induction n with
  | zero => intro k; simp [consecutive_zero]
  | succ n ih =>
    intro k
    rw [consecutive_succ, List.nodup_cons]
    refine ⟨?_, ih (k + 1)⟩
    rw [mem_consecutive]
    omega

/-- The instrumented merging loop computes what the loop computes. -/
theorem mergeLoopLog_erase (L R : List Int) (n1 n2 : Int) :
    ∀ (fuel : Nat) (arr : List Int) (i j k : Int),
      (mergeLoopLog L R n1 n2 fuel arr i j k).map
          (fun r => (r.1, r.2.1, r.2.2.1, r.2.2.2.1))
        = mergeLoop L R n1 n2 fuel arr i j k := by
  intro fuel
  induction fuel with
  | zero =>
    intro arr i j k
    by_cases hc : i < n1 ∧ j < n2
    · simp [mergeLoopLog, mergeLoop, hc]
    · simp [mergeLoopLog, mergeLoop, hc]
  | succ fuel ih =>
    intro arr i j k
    by_cases hc : i < n1 ∧ j < n2
    · simp only [mergeLoopLog, mergeLoop, hc, and_self, if_true, Option.bind_eq_bind]
      cases rd L i with
      | none => rfl
      | some x =>
        simp only [Option.some_bind]
        cases rd R j with
        | none => rfl
        | some y =>
          simp only [Option.some_bind]
          by_cases hxy : x ≤ y
          · simp only [hxy, if_true]
            cases wr arr k x with
            | none => rfl
            | some arr1 =>
              simp only [Option.some_bind]
              rw [← ih arr1 (i + 1) j (k + 1)]
              cases mergeLoopLog L R n1 n2 fuel arr1 (i + 1) j (k + 1) with
              | none => rfl
              | some r => rfl
          · simp only [hxy, if_false]
            cases wr arr k y with
            | none => rfl
            | some arr1 =>
              simp only [Option.some_bind]
              rw [← ih arr1 i (j + 1) (k + 1)]
              cases mergeLoopLog L R n1 n2 fuel arr1 i (j + 1) (k + 1) with
              | none => rfl
              | some r => rfl
    · simp [mergeLoopLog, mergeLoop, hc]

/-- The instrumented draining loop computes what the loop computes. -/
theorem drainLoopLog_erase (buf : List Int) :
    ∀ (n : Nat) (arr : List Int) (i k : Int),
      (drainLoopLog buf n arr i k).map (fun r => (r.1, r.2.1)) = drainLoop buf n arr i k := by
  intro n
  induction n with
  | zero => intro arr i k; rfl
  | succ n ih =>
    intro arr i k
    simp only [drainLoopLog, drainLoop, Option.bind_eq_bind]
    cases rd buf i with
    | none => rfl
    | some x =>
      simp only [Option.some_bind]
      cases wr arr k x with
      | none => rfl
      | some arr1 =>
        simp only [Option.some_bind]
        rw [← ih arr1 (i + 1) (k + 1)]
        cases drainLoopLog buf n arr1 (i + 1) (k + 1) with
        | none => rfl
        | some r => rfl

/-- The instrumented `merge` computes what `merge` computes. -/
theorem mergeLog_erase (arr : List Int) (l m r : Int) :
    (mergeLog arr l m r).map (fun x => x.1) = merge arr l m r := by
  by_cases hneg : m - l + 1 < 0 ∨ r - m < 0
  · simp only [mergeLog, merge, if_pos hneg]
    rfl
  · simp only [mergeLog, merge, hneg, if_false, Option.bind_eq_bind]
    cases copyLoop arr l (m - l + 1).toNat 0 (List.replicate (m - l + 1).toNat 0) with
    | none => rfl
    | some L =>
      simp only [Option.some_bind]
      cases copyLoop arr (m + 1) (r - m).toNat 0 (List.replicate (r - m).toNat 0) with
      | none => rfl
      | some R =>
        simp only [Option.some_bind]
        rw [← mergeLoopLog_erase]
        cases mergeLoopLog L R (m - l + 1) (r - m) ((m - l + 1).toNat + (r - m).toNat)
            arr 0 0 l with
        | none => rfl
        | some res =>
          obtain ⟨arr1, i, j, k, lg⟩ := res
          simp only [Option.map_some', Option.some_bind]
          rw [← drainLoopLog_erase]
          cases drainLoopLog L (m - l + 1 - i).toNat arr1 i k with
          | none => rfl
          | some res2 =>
            obtain ⟨arr2, k2, rl, w2⟩ := res2
            simp only [Option.map_some', Option.some_bind]
            rw [← drainLoopLog_erase]
            cases drainLoopLog R (r - m - j).toNat arr2 j k2 with
            | none => rfl
            | some res3 => rfl

/-- The accesses of the draining loop: `n` consecutive reads from `i` and `n` consecutive
writes from `k`. -/
theorem drainLoopLog_spec (buf : List Int) :
    ∀ (n : Nat) (arr : List Int) (i k : Int) (arr1 : List Int) (k1 : Int)
      (rs ws : List Int), drainLoopLog buf n arr i k = some (arr1, k1, rs, ws) →
      k1 = k + n ∧ rs = consecutive i n ∧ ws = consecutive k n := by
  intro n
  induction n with
  | zero =>
    intro arr i k arr1 k1 rs ws h
    simp only [drainLoopLog, Option.some.injEq, Prod.mk.injEq] at h
    obtain ⟨-, hk, hr, hw⟩ := h
    subst hk hr hw
    exact ⟨by simp, rfl, rfl⟩
  | succ n ih =>
    intro arr i k arr1 k1 rs ws h
    simp only [drainLoopLog, Option.bind_eq_bind] at h
    cases hrd : rd buf i with
    | none => simp [hrd] at h
    | some x =>
      simp only [hrd, Option.some_bind] at h
      cases hwr : wr arr k x with
      | none => simp [hwr] at h
      | some a1 =>
        simp only [hwr, Option.some_bind] at h
        cases hrec : drainLoopLog buf n a1 (i + 1) (k + 1) with
        | none => simp [hrec] at h
        | some res =>
          obtain ⟨a2, k2, rs2, ws2⟩ := res
          simp only [hrec, Option.some_bind, Option.some.injEq, Prod.mk.injEq] at h
          obtain ⟨-, hk, hr, hw⟩ := h
          subst hk hr hw
          obtain ⟨c1, c2, c3⟩ := ih a1 (i + 1) (k + 1) a2 k2 rs2 ws2 hrec
          refine ⟨by push_cast; omega, ?_, ?_⟩
          · rw [consecutive_succ, c2]
          · rw [consecutive_succ, c3]

/-- The accesses of the merging loop: the buffers are read below their sizes, the writes
are consecutive from `k`, one for each advance of `i` or `j`, and the loop ends with one
buffer used up. -/
theorem mergeLoopLog_spec (L R : List Int) (n1 n2 : Int) :
    ∀ (fuel : Nat) (arr : List Int) (i j k : Int) (arr1 : List Int) (i1 j1 k1 : Int)
      (lg : MergeLog),
      mergeLoopLog L R n1 n2 fuel arr i j k = some (arr1, i1, j1, k1, lg) →
      0 ≤ i → 0 ≤ j → i ≤ n1 → j ≤ n2 →
      i ≤ i1 ∧ i1 ≤ n1 ∧ j ≤ j1 ∧ j1 ≤ n2 ∧ (i1 = n1 ∨ j1 = n2) ∧
      k1 = k + (i1 - i) + (j1 - j) ∧
      lg.writes = consecutive k ((i1 - i) + (j1 - j)).toNat ∧
      (∀ x ∈ lg.readsL, 0 ≤ x ∧ x < n1) ∧ (∀ x ∈ lg.readsR, 0 ≤ x ∧ x < n2) := by
  intro fuel
  induction fuel with
  | zero =>
    intro arr i j k arr1 i1 j1 k1 lg h hi hj hin hjn
    by_cases hc : i < n1 ∧ j < n2
    · simp [mergeLoopLog, hc] at h
    · simp only [mergeLoopLog, hc, if_false, Option.some.injEq, Prod.mk.injEq] at h
      obtain ⟨-, h1, h2, h3, h4⟩ := h
      subst h1 h2 h3 h4
      refine ⟨le_refl _, hin, le_refl _, hjn, by omega, by omega, ?_, by simp, by simp⟩
      simp [consecutive_zero]
  | succ fuel ih =>
    intro arr i j k arr1 i1 j1 k1 lg h hi hj hin hjn
    by_cases hc : i < n1 ∧ j < n2
    · simp only [mergeLoopLog, hc, and_self, if_true, Option.bind_eq_bind] at h
      cases hrl : rd L i with
      | none => simp [hrl] at h
      | some x =>
        simp only [hrl, Option.some_bind] at h
        cases hrr : rd R j with
        | none => simp [hrr] at h
        | some y =>
          simp only [hrr, Option.some_bind] at h
          by_cases hxy : x ≤ y
          · simp only [hxy, if_true] at h
            cases hwr : wr arr k x with
            | none => simp [hwr] at h
            | some a1 =>
              simp only [hwr, Option.some_bind] at h
              cases hrec : mergeLoopLog L R n1 n2 fuel a1 (i + 1) j (k + 1) with
              | none => simp [hrec] at h
              | some res =>
                obtain ⟨a2, i2, j2, k2, lg2⟩ := res
                simp only [hrec, Option.some_bind, Option.some.injEq, Prod.mk.injEq] at h
                obtain ⟨-, h1, h2, h3, h4⟩ := h
                subst h1 h2 h3 h4
                obtain ⟨c1, c2, c3, c4, c5, c6, c7, c8, c9⟩ :=
                  ih a1 (i + 1) j (k + 1) a2 i2 j2 k2 lg2 hrec (by omega) hj (by omega) hjn
                refine ⟨by omega, c2, c3, c4, c5, by omega, ?_, ?_, ?_⟩
                · have e : ((i2 - i) + (j2 - j)).toNat
                      = ((i2 - (i + 1)) + (j2 - j)).toNat + 1 := by omega
                  simp only
                  rw [e, consecutive_succ, c7]
                · intro z hz
                  simp only [List.mem_cons] at hz
                  rcases hz with hz | hz
                  · omega
                  · exact c8 z hz
                · intro z hz
                  simp only [List.mem_cons] at hz
                  rcases hz with hz | hz
                  · omega
                  · exact c9 z hz
          · simp only [hxy, if_false] at h
            cases hwr : wr arr k y with
            | none => simp [hwr] at h
            | some a1 =>
              simp only [hwr, Option.some_bind] at h
              cases hrec : mergeLoopLog L R n1 n2 fuel a1 i (j + 1) (k + 1) with
              | none => simp [hrec] at h
              | some res =>
                obtain ⟨a2, i2, j2, k2, lg2⟩ := res
                simp only [hrec, Option.some_bind, Option.some.injEq, Prod.mk.injEq] at h
                obtain ⟨-, h1, h2, h3, h4⟩ := h
                subst h1 h2 h3 h4
                obtain ⟨c1, c2, c3, c4, c5, c6, c7, c8, c9⟩ :=
                  ih a1 i (j + 1) (k + 1) a2 i2 j2 k2 lg2 hrec hi (by omega) hin (by omega)
                refine ⟨c1, c2, by omega, c4, c5, by omega, ?_, ?_, ?_⟩
                · have e : ((i2 - i) + (j2 - j)).toNat
                      = ((i2 - i) + (j2 - (j + 1))).toNat + 1 := by omega
                  simp only
                  rw [e, consecutive_succ, c7]
                · intro z hz
                  simp only [List.mem_cons] at hz
                  rcases hz with hz | hz
                  · omega
                  · exact c8 z hz
                · intro z hz
                  simp only [List.mem_cons] at hz
                  rcases hz with hz | hz
                  · omega
                  · exact c9 z hz
    · simp only [mergeLoopLog, hc, if_false, Option.some.injEq, Prod.mk.injEq] at h
      obtain ⟨-, h1, h2, h3, h4⟩ := h
      subst h1 h2 h3 h4
      refine ⟨le_refl _, hin, le_refl _, hjn, by omega, by omega, ?_, by simp, by simp⟩
      simp [consecutive_zero]


/-- The accesses of one call of `merge` that returns: the write index ends at `r + 1`,
the writes are at `l, l + 1, ..., r` in this order, and the buffers are read below their
sizes `n1 = m - l + 1` and `n2 = r - m`. -/
theorem mergeLog_spec (arr : List Int) (l m r : Int) (arr1 : List Int) (k : Int)
    (lg : MergeLog) (h : mergeLog arr l m r = some (arr1, k, lg)) :
    k = r + 1 ∧ lg.writes = consecutive l (r + 1 - l).toNat ∧
    (∀ x ∈ lg.readsL, 0 ≤ x ∧ x < m - l + 1) ∧ (∀ x ∈ lg.readsR, 0 ≤ x ∧ x < r - m) := by
  by_cases hneg : m - l + 1 < 0 ∨ r - m < 0
  · simp only [mergeLog, if_pos hneg] at h
    exact absurd h (by simp)
  · simp only [mergeLog, hneg, if_false, Option.bind_eq_bind] at h
    cases hL : copyLoop arr l (m - l + 1).toNat 0 (List.replicate (m - l + 1).toNat 0) with
    | none => simp [hL] at h
    | some L =>
      simp only [hL, Option.some_bind] at h
      cases hR : copyLoop arr (m + 1) (r - m).toNat 0 (List.replicate (r - m).toNat 0) with
      | none => simp [hR] at h
      | some R =>
        simp only [hR, Option.some_bind] at h
        cases hloop : mergeLoopLog L R (m - l + 1) (r - m)
            ((m - l + 1).toNat + (r - m).toNat) arr 0 0 l with
        | none => simp [hloop] at h
        | some res =>
          obtain ⟨a1, i1, j1, k1, lg1⟩ := res
          simp only [hloop, Option.some_bind] at h
          cases hd1 : drainLoopLog L (m - l + 1 - i1).toNat a1 i1 k1 with
          | none => simp [hd1] at h
          | some res2 =>
            obtain ⟨a2, k2, rl, w2⟩ := res2
            simp only [hd1, Option.some_bind] at h
            cases hd2 : drainLoopLog R (r - m - j1).toNat a2 j1 k2 with
            | none => simp [hd2] at h
            | some res3 =>
              obtain ⟨a3, k3, rr, w3⟩ := res3
              simp only [hd2, Option.some_bind, Option.some.injEq, Prod.mk.injEq] at h
              obtain ⟨-, hk, hlg⟩ := h
              subst hk hlg
              obtain ⟨c1, c2, c3, c4, -, c6, c7, c8, c9⟩ :=
                mergeLoopLog_spec L R (m - l + 1) (r - m) _ arr 0 0 l a1 i1 j1 k1 lg1 hloop
                  (le_refl _) (le_refl _) (by omega) (by omega)
              obtain ⟨d1, d2, d3⟩ := drainLoopLog_spec L _ a1 i1 k1 a2 k2 rl w2 hd1
              obtain ⟨e1, e2, e3⟩ := drainLoopLog_spec R _ a2 j1 k2 a3 k3 rr w3 hd2
              refine ⟨by omega, ?_, ?_, ?_⟩
              · simp only
                have hk1 : k1 = l + (((i1 - 0 + (j1 - 0)).toNat : Nat) : Int) := by omega
                rw [c7, d3, e3, d1]
                conv_lhs => rw [hk1]
                rw [consecutive_append, consecutive_append]
                congr 1
                omega
              · intro x hx
                simp only [List.mem_append] at hx
                rcases hx with hx | hx
                · exact c8 x hx
                · rw [d2, mem_consecutive] at hx
                  omega
              · intro x hx
                simp only [List.mem_append] at hx
                rcases hx with hx | hx
                · exact c9 x hx
                · rw [e2, mem_consecutive] at hx
                  omega

/-- A call of `merge` that returns has a record of its accesses. -/
theorem merge_accesses (arr : List Int) (l m r : Int) (arr1 : List Int)
    (h : merge arr l m r = some arr1) :
    ∃ (k : Int) (lg : MergeLog), mergeLog arr l m r = some (arr1, k, lg) ∧
      k = r + 1 ∧ lg.writes = consecutive l (r + 1 - l).toNat ∧
      (∀ x ∈ lg.readsL, 0 ≤ x ∧ x < m - l + 1) ∧ (∀ x ∈ lg.readsR, 0 ≤ x ∧ x < r - m) := by
  have he := mergeLog_erase arr l m r
  rw [h] at he
  cases hl : mergeLog arr l m r with
  | none => simp [hl] at he
  | some res =>
    obtain ⟨a, k, lg⟩ := res
    simp only [hl, Option.map_some', Option.some.injEq] at he
    subst he
    exact ⟨k, lg, rfl, mergeLog_spec arr l m r a k lg hl⟩

/-! ## Claim on the index safety of the merge sort -/

/-- C37. Index safety of the merge sort. On a range `0 ≤ l ≤ r < |S|`, `serialMergeSort`
returns, and every call `merge(S, l', m, r')` it makes is on a range inside `[l, r]` with
buffer sizes `n1 = m - l' + 1 ≥ 1` and `n2 = r' - m ≥ 1`, `n1 + n2 = r' - l' + 1`; the call
reads the buffer `L` only at indices in `[0, n1)` and `R` only at indices in `[0, n2)`,
and its writes to the vector are at `l', l' + 1, ..., r'`, each position once, all inside
the vector, the write index `k` ending at `r' + 1`. -/
theorem merge_sort_index_safety (S : List Int) (l r : Int) (h0 : 0 ≤ l) (_hlr : l ≤ r)
    (hr : r < S.length) :
    ∃ (S1 : List Int) (calls : List MCall),
      serialMergeSortTrace S l r = some (S1, calls) ∧ serialMergeSort S l r = some S1 ∧
      ∀ c ∈ calls, l ≤ c.l ∧ c.r ≤ r ∧
        1 ≤ c.m - c.l + 1 ∧ 1 ≤ c.r - c.m ∧ (c.m - c.l + 1) + (c.r - c.m) = c.r - c.l + 1 ∧
        ∃ (k : Int) (lg : MergeLog),
          mergeLog c.before c.l c.m c.r = some (c.after, k, lg) ∧ k = c.r + 1 ∧
          (∀ x ∈ lg.readsL, 0 ≤ x ∧ x < c.m - c.l + 1) ∧
          (∀ x ∈ lg.readsR, 0 ≤ x ∧ x < c.r - c.m) ∧
          lg.writes = consecutive c.l (c.r + 1 - c.l).toNat ∧ lg.writes.Nodup ∧
          (∀ x : Int, x ∈ lg.writes ↔ c.l ≤ x ∧ x ≤ c.r) ∧
          (∀ x ∈ lg.writes, 0 ≤ x ∧ x < (S.length : Int)) := by
  have hin : InRange S.length (l, r) := fun _ => ⟨h0, hr⟩
  have he := serialMergeSortTrace_erase S l r
  have hs := serialMergeSort_eq_sortRange S l r hin
  obtain ⟨res, hres⟩ : ∃ res, serialMergeSortTrace S l r = some res := by
    have h2 := he
    rw [hs] at h2
    exact returns_of_erase _ _ _ h2
  obtain ⟨S1, calls⟩ := res
  refine ⟨S1, calls, hres, ?_, ?_⟩
  · rw [← he, hres]; rfl
  · intro c hc
    obtain ⟨b1, b2, b3, b4, -, b6⟩ := serialMergeSortTraceFuel_ranges _ S l r S1 calls hres c hc
    obtain ⟨k, lg, hlog, hk, hw, hrl, hrr⟩ := merge_accesses c.before c.l c.m c.r c.after b6
    have hmem : ∀ x : Int, x ∈ lg.writes ↔ c.l ≤ x ∧ x ≤ c.r := by
      intro x
      rw [hw, mem_consecutive]
      omega
    refine ⟨b1, b4, by omega, by omega, by omega, k, lg, hlog, hk, hrl, hrr, hw, ?_, hmem, ?_⟩
    · rw [hw]; exact consecutive_nodup _ _
    · intro x hx
      have := (hmem x).mp hx
      omega

theorem merge_sort_index_safety_witness :
    ((0 : Int) ≤ 1 ∧ (1 : Int) ≤ 4 ∧ (4 : Int) < ([9, 6, 2, 8, 1, 0] : List Int).length) ∧
    (∃ (S1 : List Int) (calls : List MCall),
      serialMergeSortTrace [9, 6, 2, 8, 1, 0] 1 4 = some (S1, calls) ∧
      serialMergeSort [9, 6, 2, 8, 1, 0] 1 4 = some S1 ∧
      ∀ c ∈ calls, 1 ≤ c.l ∧ c.r ≤ 4 ∧
        1 ≤ c.m - c.l + 1 ∧ 1 ≤ c.r - c.m ∧ (c.m - c.l + 1) + (c.r - c.m) = c.r - c.l + 1 ∧
        ∃ (k : Int) (lg : MergeLog),
          mergeLog c.before c.l c.m c.r = some (c.after, k, lg) ∧ k = c.r + 1 ∧
          (∀ x ∈ lg.readsL, 0 ≤ x ∧ x < c.m - c.l + 1) ∧
          (∀ x ∈ lg.readsR, 0 ≤ x ∧ x < c.r - c.m) ∧
          lg.writes = consecutive c.l (c.r + 1 - c.l).toNat ∧ lg.writes.Nodup ∧
          (∀ x : Int, x ∈ lg.writes ↔ c.l ≤ x ∧ x ≤ c.r) ∧
          (∀ x ∈ lg.writes, 0 ≤ x ∧ x < (([9, 6, 2, 8, 1, 0] : List Int).length : Int))) :=
  ⟨⟨by decide, by decide, by decide⟩,
    merge_sort_index_safety [9, 6, 2, 8, 1, 0] 1 4 (by decide) (by decide) (by decide)⟩


/-! ## The instrumented quicksort with more fuel -/


/-- One more unit of fuel does not change a run of the instrumented quicksort that
returns. -/
theorem quickSortTraceFuel_succ (s : Int) :
    ∀ (fuel : Nat) (arr : List Int) (low high : Int) (r : QRun),
      quickSortTraceFuel fuel arr low high s = some r →
      quickSortTraceFuel (fuel + 1) arr low high s = some r := by
  intro fuel
  induction fuel with
  | zero => intro arr low high r h; simp [quickSortTraceFuel] at h
  | succ fuel ih =>
    intro arr low high r h
    by_cases hlt : low < high
    · rw [quickSortTraceFuel] at h ⊢
      simp only [hlt, if_true, Option.bind_eq_bind] at h ⊢
      cases hp : partition arr low high s with
      | none => simp [hp] at h
      | some res =>
        obtain ⟨arr1, p⟩ := res
        simp only [hp, Option.some_bind] at h ⊢
        cases h1 : quickSortTraceFuel fuel arr1 low (p - 1) s with
        | none => simp [h1] at h
        | some r1 =>
          simp only [h1, Option.some_bind] at h
          rw [ih arr1 low (p - 1) r1 h1]
          simp only [Option.some_bind]
          cases h2 : quickSortTraceFuel fuel r1.arr (p + 1) high s with
          | none => simp [h2] at h
          | some r2 =>
            simp only [h2, Option.some_bind] at h
            rw [ih r1.arr (p + 1) high r2 h2]
            exact h
    · rw [quickSortTraceFuel] at h ⊢
      simp only [hlt, if_false] at h ⊢
      exact h

theorem quickSortTraceFuel_mono (s : Int) (arr : List Int) (low high : Int) (r : QRun)
    (f : Nat) (h : quickSortTraceFuel f arr low high s = some r) :
    ∀ extra : Nat, quickSortTraceFuel (f + extra) arr low high s = some r := by
  intro extra
  induction extra with
  | zero => exact h
  | succ e ih => exact quickSortTraceFuel_succ s (f + e) arr low high r ih

/-- The run of the instrumented `quick_sort_serial` on a range of at most one element. -/
theorem quick_sort_serial_trace_base (arr : List Int) (low high s : Int)
    (h : ¬ low < high) : quick_sort_serial_trace arr low high s = some ⟨arr, [], 1⟩ := by
  simp [quick_sort_serial_trace, quickSortTraceFuel, h]

/-- The run of the instrumented `quick_sort_serial` on a range of at least two elements
of a vector that no call of `partition` changes: the call of `partition`, then the two
nested runs. -/
theorem quick_sort_serial_trace_step (s : Int) (arr : List Int)
    (hfix : ∀ low high : Int, 0 ≤ low → low < high → high < arr.length →
      ∃ p, partition arr low high s = some (arr, p))
    (low high p : Int) (h0 : 0 ≤ low) (hlt : low < high) (hh : high < arr.length)
    (hp : partition arr low high s = some (arr, p)) :
    ∃ r1 r2, quick_sort_serial_trace arr low (p - 1) s = some r1 ∧ r1.arr = arr ∧
      quick_sort_serial_trace arr (p + 1) high s = some r2 ∧ r2.arr = arr ∧
      quick_sort_serial_trace arr low high s
        = some ⟨arr, ⟨low, high, p, arr, arr⟩ :: (r1.calls ++ r2.calls),
            1 + max r1.depth r2.depth⟩ := by
  have hstep : ∀ low high : Int, 0 ≤ low → low < high → high < arr.length →
      ∃ p, partition arr low high s = some (arr, p) ∧
        (fun _ : PCall => True) ⟨low, high, p, arr, arr⟩ := by
    intro low high a b c
    obtain ⟨p, hp⟩ := hfix low high a b c
    exact ⟨p, hp, trivial⟩
  obtain ⟨hp1, hp2⟩ := partition_index_of_some arr low high s arr p hp (by omega)
  obtain ⟨r1, hr1, ha1, -⟩ := quickSortTraceFuel_fixed s arr (fun _ => True) hstep
    ((p - 1 - low).toNat + 1) low (p - 1) h0 (by omega) (by omega) (by omega)
  obtain ⟨r2, hr2, ha2, -⟩ := quickSortTraceFuel_fixed s arr (fun _ => True) hstep
    ((high - (p + 1)).toNat + 1) (p + 1) high (by omega) hh (by omega) (by omega)
  refine ⟨r1, r2, hr1, ha1, hr2, ha2, ?_⟩
  have e1 : (high - low).toNat
      = ((p - 1 - low).toNat + 1) + ((high - low).toNat - ((p - 1 - low).toNat + 1)) := by
    omega
  have e2 : (high - low).toNat
      = ((high - (p + 1)).toNat + 1) + ((high - low).toNat - ((high - (p + 1)).toNat + 1)) := by
    omega
  have m1 := quickSortTraceFuel_mono s arr low (p - 1) r1 _ hr1
    ((high - low).toNat - ((p - 1 - low).toNat + 1))
  have m2 := quickSortTraceFuel_mono s arr (p + 1) high r2 _ hr2
    ((high - low).toNat - ((high - (p + 1)).toNat + 1))
  rw [← e1] at m1
  rw [← e2] at m2
  rw [← ha1] at m2
  simp only [quick_sort_serial_trace, quickSortTraceFuel, hlt, if_true, hp,
    Option.bind_eq_bind, Option.some_bind, m1, m2]
  rw [ha2]

/-- Picking the element at position `k` of a list. -/
theorem list_pick {α : Type} (pool : List α) (k : Nat) (d : α) (hk : k < pool.length) :
    ∃ P1 P2, pool = P1 ++ pool.getD k d :: P2 ∧ pool.eraseIdx k = P1 ++ P2 := by
  refine ⟨pool.take k, pool.drop (k + 1), ?_, List.eraseIdx_eq_take_drop_succ _ _⟩
  rw [List.getD_eq_getElem _ _ hk, ← List.drop_eq_getElem_cons hk, List.take_append_drop]

theorem poolDepth_append (arr : List Int) (s : Int) (P Q : List ((Int × Int) × Nat)) :
    poolDepth arr s (P ++ Q) = max (poolDepth arr s P) (poolDepth arr s Q) := by
  induction P with
  | nil => simp [poolDepth]
  | cons t P ih => rw [List.cons_append, poolDepth, ih, poolDepth]; omega


/-! ## The task pool on a vector that no call of `partition` changes -/

theorem poolCalls_append (arr : List Int) (s : Int) (P Q : List (Int × Int)) :
    poolCalls arr s (P ++ Q) = poolCalls arr s P ++ poolCalls arr s Q := by
  induction P with
  | nil => simp [poolCalls]
  | cons t P ih => rw [List.cons_append, poolCalls, ih, poolCalls, List.append_assoc]

/-- On a vector that no call of `partition` changes, the tasks of the pool make, in some
order, exactly the calls of `partition` that `quick_sort_serial` makes on the pending
ranges, whatever the cutoff and the scheduler. -/
theorem runTasksTrace_fixed_perm (cutoff s : Int) (sched : Nat → Nat) (arr : List Int)
    (hfix : ∀ low high : Int, 0 ≤ low → low < high → high < arr.length →
      ∃ p, partition arr low high s = some (arr, p)) :
    ∀ (fuel step : Nat) (pool : List (Int × Int)),
      (∀ t ∈ pool, 0 ≤ t.1 ∧ t.2 < arr.length) → poolWeight pool ≤ fuel →
      ∃ tr, runTasksTrace cutoff s sched fuel step arr pool = some (arr, tr) ∧
        tr.Perm (poolCalls arr s pool) := by
  have hstep : ∀ low high : Int, 0 ≤ low → low < high → high < arr.length →
      ∃ p, partition arr low high s = some (arr, p) ∧
        (fun _ : PCall => True) ⟨low, high, p, arr, arr⟩ := by
    intro low high a b c
    obtain ⟨p, hp⟩ := hfix low high a b c
    exact ⟨p, hp, trivial⟩
  intro fuel
  induction fuel with
  | zero =>
    intro step pool _ hw
    cases pool with
    | nil => exact ⟨[], rfl, List.Perm.refl _⟩
    | cons t ts => simp [poolWeight] at hw
  | succ fuel ih =>
    intro step pool hin hw
    cases pool with
    | nil => exact ⟨[], rfl, List.Perm.refl _⟩
    | cons t ts =>
      have hk : sched step % (t :: ts).length < (t :: ts).length :=
        Nat.mod_lt _ (by simp)
      obtain ⟨P1, P2, hpool, herase⟩ := pool_pick (t :: ts) _ t hk
      rw [runTasksTrace]
      simp only [herase]
      generalize (t :: ts).getD (sched step % (t :: ts).length) t = task at hpool
      rw [hpool] at hin hw ⊢
      obtain ⟨ht0, ht2⟩ := hin task (by simp)
      have hinQ : ∀ u ∈ P1 ++ P2, 0 ≤ u.1 ∧ u.2 < (arr.length : Int) := by
        intro u hu
        apply hin
        rcases List.mem_append.mp hu with hu | hu
        · simp [hu]
        · simp [hu]
      simp only [poolWeight_append, poolWeight] at hw
      have hperm : ∀ (calls tr : List PCall) (Q : List (Int × Int)),
          tr.Perm (poolCalls arr s (P1 ++ P2 ++ Q)) →
          serialCalls arr s task = calls ++ poolCalls arr s Q →
          (calls ++ tr).Perm (poolCalls arr s (P1 ++ task :: P2)) := by
        intro calls tr Q h1 h2
        rw [List.perm_iff_count] at h1 ⊢
        intro a
        have := h1 a
        simp only [poolCalls_append, poolCalls, List.count_append, h2] at this ⊢
        omega
      by_cases hlt : task.1 < task.2
      · by_cases hc : task.2 - task.1 < cutoff
        · obtain ⟨r, hr, ha, -⟩ := quickSortTraceFuel_fixed s arr (fun _ => True) hstep
            ((task.2 - task.1).toNat + 1) task.1 task.2 ht0 ht2 (by omega) (by omega)
          obtain ⟨tr, hrun, hQt⟩ := ih (step + 1) (P1 ++ P2) hinQ
            (by rw [poolWeight_append]; omega)
          refine ⟨r.calls ++ tr, ?_, ?_⟩
          · simp only [quick_sort_task_trace, hlt, hc, if_true, quick_sort_serial_trace, hr,
              Option.bind_eq_bind, Option.some_bind, ha, List.append_nil, hrun]
          · apply hperm r.calls tr [] (by simpa using hQt)
            have hr2 : quick_sort_serial_trace arr task.1 task.2 s = some r := hr
            simp only [serialCalls, hr2, poolCalls, List.append_nil]
        · obtain ⟨p, hpart⟩ := hfix task.1 task.2 ht0 hlt ht2
          obtain ⟨hp1, hp2⟩ :=
            partition_index_of_some arr task.1 task.2 s arr p hpart (by omega)
          obtain ⟨r1, r2, hr1, -, hr2, -, hr⟩ :=
            quick_sort_serial_trace_step s arr hfix task.1 task.2 p ht0 hlt ht2 hpart
          obtain ⟨tr, hrun, hQt⟩ := ih (step + 1)
            (P1 ++ P2 ++ [(task.1, p - 1), (p + 1, task.2)])
            (by
              intro u hu
              rcases List.mem_append.mp hu with hu | hu
              · exact hinQ u hu
              · simp only [List.mem_cons, List.mem_singleton, List.not_mem_nil,
                  or_false] at hu
                rcases hu with hu | hu
                · subst hu; exact ⟨ht0, by simp only; omega⟩
                · subst hu; exact ⟨by simp only; omega, ht2⟩)
            (by simp only [poolWeight_append, poolWeight]; omega)
          refine ⟨[⟨task.1, task.2, p, arr, arr⟩] ++ tr, ?_, ?_⟩
          · simp only [quick_sort_task_trace, hlt, hc, if_true, if_false, hpart,
              Option.bind_eq_bind, Option.some_bind, hrun]
          · apply hperm _ tr [(task.1, p - 1), (p + 1, task.2)] hQt
            simp only [serialCalls, hr, hr1, hr2, poolCalls, List.append_nil,
              List.singleton_append]
      · obtain ⟨tr, hrun, hQt⟩ := ih (step + 1) (P1 ++ P2) hinQ
          (by rw [poolWeight_append]; omega)
        refine ⟨[] ++ tr, ?_, ?_⟩
        · simp only [quick_sort_task_trace, hlt, if_false, List.append_nil, hrun]
        · apply hperm [] tr [] (by simpa using hQt)
          simp only [serialCalls, quick_sort_serial_trace_base arr task.1 task.2 s hlt,
            poolCalls, List.append_nil]

/-- On a vector that no call of `partition` changes and with a cutoff that sends every
range of at least two elements to the delegating path, the nesting depth reached by the
task pool is the one `quick_sort_serial` reaches on the pending ranges, whatever the
scheduler. -/
theorem runTasksDepth_fixed (cutoff s : Int) (sched : Nat → Nat) (arr : List Int)
    (hcut : cutoff ≤ 1)
    (hfix : ∀ low high : Int, 0 ≤ low → low < high → high < arr.length →
      ∃ p, partition arr low high s = some (arr, p)) :
    ∀ (fuel step : Nat) (pool : List ((Int × Int) × Nat)) (best : Nat),
      (∀ t ∈ pool, 0 ≤ t.1.1 ∧ t.1.2 < arr.length) →
      poolWeight (pool.map Prod.fst) ≤ fuel →
      runTasksDepth cutoff s sched fuel step arr pool best
        = some (arr, max best (poolDepth arr s pool)) := by
  intro fuel
  induction fuel with
  | zero =>
    intro step pool best _ hw
    cases pool with
    | nil => simp [runTasksDepth, poolDepth]
    | cons t ts => simp [poolWeight] at hw
  | succ fuel ih =>
    intro step pool best hin hw
    cases pool with
    | nil => simp [runTasksDepth, poolDepth]
    | cons t ts =>
      have hk : sched step % (t :: ts).length < (t :: ts).length :=
        Nat.mod_lt _ (by simp)
      obtain ⟨P1, P2, hpool, herase⟩ := list_pick (t :: ts) _ t hk
      rw [runTasksDepth]
      simp only [herase]
      generalize (t :: ts).getD (sched step % (t :: ts).length) t = task at hpool
      rw [hpool] at hin hw ⊢
      obtain ⟨ht0, ht2⟩ := hin task (by simp)
      have hinQ : ∀ u ∈ P1 ++ P2, 0 ≤ u.1.1 ∧ u.1.2 < (arr.length : Int) := by
        intro u hu
        apply hin
        rcases List.mem_append.mp hu with hu | hu
        · simp [hu]
        · simp [hu]
      simp only [List.map_append, List.map_cons, poolWeight_append, poolWeight] at hw
      by_cases hlt : task.1.1 < task.1.2
      · have hc : ¬ task.1.2 - task.1.1 < cutoff := by omega
        obtain ⟨p, hpart⟩ := hfix task.1.1 task.1.2 ht0 hlt ht2
        obtain ⟨hp1, hp2⟩ :=
          partition_index_of_some arr task.1.1 task.1.2 s arr p hpart (by omega)
        obtain ⟨r1, r2, hr1, -, hr2, -, hr⟩ :=
          quick_sort_serial_trace_step s arr hfix task.1.1 task.1.2 p ht0 hlt ht2 hpart
        simp only [hlt, hc, if_true, if_false, hpart]
        rw [ih (step + 1) _ _
          (by
            intro u hu
            rcases List.mem_append.mp hu with hu | hu
            · exact hinQ u hu
            · simp only [List.mem_cons, List.mem_singleton, List.not_mem_nil,
                or_false] at hu
              rcases hu with hu | hu
              · subst hu; exact ⟨ht0, by simp only; omega⟩
              · subst hu; exact ⟨by simp only; omega, ht2⟩)
          (by simp only [List.map_append, List.map_cons, List.map_nil, poolWeight_append,
                poolWeight]; omega)]
        have hd : serialDepth arr s task.1 = 1 + max r1.depth r2.depth := by
          simp only [serialDepth, hr]
        have hd1 : serialDepth arr s (task.1.1, p - 1) = r1.depth := by
          simp only [serialDepth, hr1]
        have hd2 : serialDepth arr s (p + 1, task.1.2) = r2.depth := by
          simp only [serialDepth, hr2]
        simp only [poolDepth_append, poolDepth, hd, hd1, hd2]
        congr 2
        omega
      · simp only [hlt, if_false]
        rw [ih (step + 1) _ _ hinQ
          (by simp only [List.map_append, poolWeight_append]; omega)]
        have hd : serialDepth arr s task.1 = 1 := by
          simp only [serialDepth, quick_sort_serial_trace_base arr task.1.1 task.1.2 s hlt]
        simp only [poolDepth_append, poolDepth, hd]
        congr 2
        omega


/-! ## Depth and number of calls on the ascending sequence -/

theorem ascending_fix_first (N : Nat) :
    ∀ low high : Int, 0 ≤ low → low < high → high < (ascending N).length →
      ∃ p, partition (ascending N) low high 1 = some (ascending N, p) := by
  intro low high h0 hlt hh
  rw [ascending_length] at hh
  exact ⟨low, partition_first_ascending N low high h0 hlt hh⟩

theorem ascending_fix_middle (N : Nat) :
    ∀ low high : Int, 0 ≤ low → low < high → high < (ascending N).length →
      ∃ p, partition (ascending N) low high 0 = some (ascending N, p) := by
  intro low high h0 hlt hh
  rw [ascending_length] at hh
  exact ⟨_, partition_middle_ascending N low high h0 hlt hh⟩

/-- Strategy `first` on a range of `n` elements of the ascending sequence: the recursion of
`quick_sort_serial` is `max 1 n` calls deep and makes `n - 1` calls of `partition`. -/
theorem first_trace_shape (N : Nat) :
    ∀ (n : Nat) (low high : Int), 0 ≤ low → high < N → (high + 1 - low).toNat = n →
      ∃ r, quick_sort_serial_trace (ascending N) low high 1 = some r ∧
        r.arr = ascending N ∧ r.depth = max 1 n ∧ r.calls.length = n - 1 := by
  intro n
  induction n with
  | zero =>
    intro low high _ _ hn
    exact ⟨_, quick_sort_serial_trace_base _ low high 1 (by omega), rfl, rfl, rfl⟩
  | succ n ih =>
    intro low high h0 hh hn
    by_cases hlt : low < high
    · have hp := partition_first_ascending N low high h0 hlt hh
      obtain ⟨r1, r2, hr1, -, hr2, -, hr⟩ :=
        quick_sort_serial_trace_step 1 (ascending N) (ascending_fix_first N) low high low h0
          hlt (by rw [ascending_length]; exact hh) hp
      rw [quick_sort_serial_trace_base _ low (low - 1) 1 (by omega)] at hr1
      obtain ⟨r2b, hr2b, -, hd2, hc2⟩ := ih (low + 1) high (by omega) hh (by omega)
      rw [hr2b] at hr2
      have e1 := Option.some.inj hr1
      have e2 := Option.some.inj hr2
      subst e1 e2
      refine ⟨_, hr, rfl, ?_, ?_⟩
      · simp only [hd2]; omega
      · simp only [List.length_cons, List.length_append, List.length_nil, hc2]; omega
    · refine ⟨_, quick_sort_serial_trace_base _ low high 1 hlt, rfl, ?_, ?_⟩
      · simp only; omega
      · simp only [List.length_nil]; omega

/-- Strategy `middle` on a range of `n` elements of the ascending sequence: the recursion
of `quick_sort_serial` is `floor(log2 n) + 1` calls deep, and it makes at most `n - 1`
calls of `partition`, at most `n - 2` when `n ≥ 3`. -/
theorem middle_trace_shape (N : Nat) :
    ∀ (n : Nat) (low high : Int), 0 ≤ low → high < N → (high + 1 - low).toNat = n →
      ∃ r, quick_sort_serial_trace (ascending N) low high 0 = some r ∧
        r.arr = ascending N ∧ r.depth = Nat.log 2 n + 1 ∧ r.calls.length ≤ n - 1 ∧
        (3 ≤ n → r.calls.length + 2 ≤ n) := by
  intro n
  induction n using Nat.strong_induction_on with
  | _ n ih =>
    intro low high h0 hh hn
    by_cases hlt : low < high
    · have hp := partition_middle_ascending N low high h0 hlt hh
      obtain ⟨r1, r2, hr1, -, hr2, -, hr⟩ :=
        quick_sort_serial_trace_step 0 (ascending N) (ascending_fix_middle N) low high
          (low + (high - low) / 2) h0 hlt (by rw [ascending_length]; exact hh) hp
      obtain ⟨r1b, hr1b, -, hd1, hc1, -⟩ := ih ((n - 1) / 2) (by omega) low
        (low + (high - low) / 2 - 1) h0 (by omega) (by omega)
      obtain ⟨r2b, hr2b, -, hd2, hc2, -⟩ := ih (n / 2) (by omega)
        (low + (high - low) / 2 + 1) high (by omega) hh (by omega)
      rw [hr1b] at hr1
      rw [hr2b] at hr2
      have e1 := Option.some.inj hr1
      have e2 := Option.some.inj hr2
      subst e1 e2
      have hlog : Nat.log 2 n = Nat.log 2 (n / 2) + 1 :=
        Nat.log_of_one_lt_of_le (by decide) (by omega)
      have hmono : Nat.log 2 ((n - 1) / 2) ≤ Nat.log 2 (n / 2) :=
        Nat.log_mono_right (by omega)
      refine ⟨_, hr, rfl, ?_, ?_, ?_⟩
      · simp only [hd1, hd2, hlog]; omega
      · simp only [List.length_cons, List.length_append]; omega
      · intro h3
        simp only [List.length_cons, List.length_append]; omega
    · have hn1 : n ≤ 1 := by omega
      have hlog : Nat.log 2 n = 0 := Nat.log_of_lt (by omega)
      refine ⟨_, quick_sort_serial_trace_base _ low high 0 hlt, rfl, ?_, ?_, ?_⟩
      · simp only [hlog]
      · simp only [List.length_nil]; omega
      · intro h3; omega


/-! ## Claims on the depth of the recursion and the number of calls of `partition` -/

/-- The depth reached by the pool started with the root call on `[0, N-1]`. -/
theorem root_pool_depth (s : Int) (sched : Nat → Nat) (N : Nat)
    (hfix : ∀ low high : Int, 0 ≤ low → low < high → high < (ascending N).length →
      ∃ p, partition (ascending N) low high s = some (ascending N, p))
    (r : QRun) (hr : quick_sort_serial_trace (ascending N) 0 ((N : Int) - 1) s = some r) :
    runTasksDepth 0 s sched (2 * N + 1) 0 (ascending N) [((0, (N : Int) - 1), 0)] 0
      = some (ascending N, r.depth) := by
  rw [runTasksDepth_fixed 0 s sched (ascending N) (by omega) hfix (2 * N + 1) 0
    [((0, (N : Int) - 1), 0)] 0
    (by intro t ht
        simp only [List.mem_singleton] at ht
        subst ht
        simp only [ascending_length]
        omega)
    (by simp only [List.map_cons, List.map_nil, poolWeight]; omega)]
  simp only [poolDepth, serialDepth, hr]
  congr 2
  omega

/-- C33. Linear recursion depth in scenario 2. For every `N ≥ 1`, the quicksort with pivot
strategy `first` on the ascending sequence `1..N` reaches depth exactly `N`, the depth
being the largest number of nested calls of the sort routine: in `quick_sort_serial`, where
the call on `[k, N-1]` is `N - k` calls deep for every `k < N` (the chain of calls on
`[0, N-1]`, `[1, N-1]`, ..., `[N-1, N-1]`), and in the parallel driver with cutoff `0`,
where the depth is the largest number of calls of `quick_sort_task` leading from the root
call to a task, for every scheduling of the tasks. -/
theorem scenario_two_depth (N : Nat) (hN : 1 ≤ N) (sched : Nat → Nat) :
    (∃ r, quick_sort_serial_trace (ascending N) 0 ((N : Int) - 1) 1 = some r ∧
      r.depth = N) ∧
    runTasksDepth 0 1 sched (2 * N + 1) 0 (ascending N) [((0, (N : Int) - 1), 0)] 0
      = some (ascending N, N) ∧
    (∀ k : Nat, k < N →
      ∃ r, quick_sort_serial_trace (ascending N) k ((N : Int) - 1) 1 = some r ∧
        r.depth = N - k) := by
  obtain ⟨r, hr, -, hd, -⟩ := first_trace_shape N N 0 ((N : Int) - 1) (le_refl _) (by omega)
    (by omega)
  have hdN : r.depth = N := by omega
  refine ⟨⟨r, hr, hdN⟩, ?_, ?_⟩
  · rw [root_pool_depth 1 sched N (ascending_fix_first N) r hr, hdN]
  · intro k hk
    obtain ⟨rk, hrk, -, hdk, -⟩ := first_trace_shape N (N - k) k ((N : Int) - 1) (by omega)
      (by omega) (by omega)
    exact ⟨rk, hrk, by omega⟩

theorem scenario_two_depth_witness :
    1 ≤ 6 ∧
    ((∃ r, quick_sort_serial_trace (ascending 6) 0 (((6 : Nat) : Int) - 1) 1 = some r ∧
      r.depth = 6) ∧
    runTasksDepth 0 1 (fun k => k) (2 * 6 + 1) 0 (ascending 6)
      [((0, ((6 : Nat) : Int) - 1), 0)] 0 = some (ascending 6, 6) ∧
    (∀ k : Nat, k < 6 →
      ∃ r, quick_sort_serial_trace (ascending 6) k (((6 : Nat) : Int) - 1) 1 = some r ∧
        r.depth = 6 - k)) :=
  ⟨by decide, scenario_two_depth 6 (by decide) (fun k => k)⟩

/-- C34. Logarithmic recursion depth in scenario 3. For every `N ≥ 1`, the quicksort with
pivot strategy `middle` on the ascending sequence `1..N` has depth `floor(log2 N) + 1`,
hence at most that: the depth `d` of the recursion of `quick_sort_serial` satisfies
`2 ^ (d - 1) ≤ N < 2 ^ d`, and the parallel driver with cutoff `0` reaches the same depth
for every scheduling of the tasks. -/
theorem scenario_three_depth (N : Nat) (hN : 1 ≤ N) (sched : Nat → Nat) :
    (∃ r, quick_sort_serial_trace (ascending N) 0 ((N : Int) - 1) 0 = some r ∧
      r.depth ≤ Nat.log 2 N + 1 ∧ r.depth = Nat.log 2 N + 1 ∧
      2 ^ (r.depth - 1) ≤ N ∧ N < 2 ^ r.depth) ∧
    runTasksDepth 0 0 sched (2 * N + 1) 0 (ascending N) [((0, (N : Int) - 1), 0)] 0
      = some (ascending N, Nat.log 2 N + 1) := by
  obtain ⟨r, hr, -, hd, -⟩ := middle_trace_shape N N 0 ((N : Int) - 1) (le_refl _)
    (by omega) (by omega)
  refine ⟨⟨r, hr, le_of_eq hd, hd, ?_, ?_⟩, ?_⟩
  · rw [hd, Nat.add_sub_cancel]
    exact Nat.pow_log_le_self 2 (by omega)
  · rw [hd]
    exact Nat.lt_pow_succ_log_self (by decide) N
  · rw [root_pool_depth 0 sched N (ascending_fix_middle N) r hr, hd]

theorem scenario_three_depth_witness :
    1 ≤ 6 ∧
    ((∃ r, quick_sort_serial_trace (ascending 6) 0 (((6 : Nat) : Int) - 1) 0 = some r ∧
      r.depth ≤ Nat.log 2 6 + 1 ∧ r.depth = Nat.log 2 6 + 1 ∧
      2 ^ (r.depth - 1) ≤ 6 ∧ 6 < 2 ^ r.depth) ∧
    runTasksDepth 0 0 (fun k => k) (2 * 6 + 1) 0 (ascending 6)
      [((0, ((6 : Nat) : Int) - 1), 0)] 0 = some (ascending 6, Nat.log 2 6 + 1)) :=
  ⟨by decide, scenario_three_depth 6 (by decide) (fun k => k)⟩

/-- C35. Fewer calls of `partition` with the middle pivot. For every `N ≥ 3`, on the
ascending sequence `1..N` the quicksort with pivot strategy `first` makes `N - 1` calls of
`partition` and with strategy `middle` it makes fewer; this holds for `quick_sort_serial`
and for the parallel driver with every cutoff and every scheduling of the tasks. -/
theorem fewer_calls_middle (N : Nat) (hN : 3 ≤ N) (cutoff : Int) (sched : Nat → Nat) :
    (∃ rf rm, quick_sort_serial_trace (ascending N) 0 ((N : Int) - 1) 1 = some rf ∧
      quick_sort_serial_trace (ascending N) 0 ((N : Int) - 1) 0 = some rm ∧
      rf.calls.length = N - 1 ∧ rm.calls.length < rf.calls.length) ∧
    (∃ tf tm,
      runTasksTrace cutoff 1 sched (2 * N + 1) 0 (ascending N) [(0, (N : Int) - 1)]
        = some (ascending N, tf) ∧
      runTasksTrace cutoff 0 sched (2 * N + 1) 0 (ascending N) [(0, (N : Int) - 1)]
        = some (ascending N, tm) ∧
      tf.length = N - 1 ∧ tm.length < tf.length) := by
  obtain ⟨rf, hrf, -, -, hcf⟩ := first_trace_shape N N 0 ((N : Int) - 1) (le_refl _)
    (by omega) (by omega)
  obtain ⟨rm, hrm, -, -, -, hcm⟩ := middle_trace_shape N N 0 ((N : Int) - 1) (le_refl _)
    (by omega) (by omega)
  have hcm3 := hcm hN
  have hin : ∀ t ∈ [((0 : Int), (N : Int) - 1)],
      0 ≤ t.1 ∧ t.2 < ((ascending N).length : Int) := by
    intro t ht
    simp only [List.mem_singleton] at ht
    subst ht
    simp only [ascending_length]
    omega
  have hw : poolWeight [((0 : Int), (N : Int) - 1)] ≤ 2 * N + 1 := by
    simp only [poolWeight]; omega
  obtain ⟨tf, htf, hpf⟩ := runTasksTrace_fixed_perm cutoff 1 sched (ascending N)
    (ascending_fix_first N) (2 * N + 1) 0 [(0, (N : Int) - 1)] hin hw
  obtain ⟨tm, htm, hpm⟩ := runTasksTrace_fixed_perm cutoff 0 sched (ascending N)
    (ascending_fix_middle N) (2 * N + 1) 0 [(0, (N : Int) - 1)] hin hw
  have hlf : tf.length = rf.calls.length := by
    rw [hpf.length_eq]
    simp only [poolCalls, serialCalls, hrf, List.append_nil]
  have hlm : tm.length = rm.calls.length := by
    rw [hpm.length_eq]
    simp only [poolCalls, serialCalls, hrm, List.append_nil]
  exact ⟨⟨rf, rm, hrf, hrm, hcf, by omega⟩, ⟨tf, tm, htf, htm, by omega, by omega⟩⟩

theorem fewer_calls_middle_witness :
    3 ≤ 7 ∧
    ((∃ rf rm, quick_sort_serial_trace (ascending 7) 0 (((7 : Nat) : Int) - 1) 1 = some rf ∧
      quick_sort_serial_trace (ascending 7) 0 (((7 : Nat) : Int) - 1) 0 = some rm ∧
      rf.calls.length = 7 - 1 ∧ rm.calls.length < rf.calls.length) ∧
    (∃ tf tm,
      runTasksTrace 0 1 (fun k => k) (2 * 7 + 1) 0 (ascending 7)
          [(0, ((7 : Nat) : Int) - 1)] = some (ascending 7, tf) ∧
      runTasksTrace 0 0 (fun k => k) (2 * 7 + 1) 0 (ascending 7)
          [(0, ((7 : Nat) : Int) - 1)] = some (ascending 7, tm) ∧
      tf.length = 7 - 1 ∧ tm.length < tf.length)) :=
  ⟨by decide, fewer_calls_middle 7 (by decide) 0 (fun k => k)⟩


/-! ## The pool with the nesting of the calls computes what the pool computes -/

theorem map_eraseIdx_fst (pool : List ((Int × Int) × Nat)) (k : Nat) :
    (pool.map Prod.fst).eraseIdx k = (pool.eraseIdx k).map Prod.fst := by
  rw [List.eraseIdx_eq_take_drop_succ, List.eraseIdx_eq_take_drop_succ, List.map_append,
    List.map_take, List.map_drop]

/-- The run of the pool that records the nesting of the calls returns the vector that
`runTasks` returns on the same ranges. -/
theorem runTasksDepth_erase (cutoff s : Int) (sched : Nat → Nat) :
    ∀ (fuel step : Nat) (arr : List Int) (pool : List ((Int × Int) × Nat)) (best : Nat),
      (runTasksDepth cutoff s sched fuel step arr pool best).map Prod.fst
        = runTasks cutoff s sched fuel step arr (pool.map Prod.fst) := by
  intro fuel
  induction fuel with
  | zero =>
    intro step arr pool best
    cases pool with
    | nil => rfl
    | cons t ts => rfl
  | succ fuel ih =>
    intro step arr pool best
    cases pool with
    | nil => rfl
    | cons t ts =>
      rw [runTasksDepth, List.map_cons, runTasks]
      have hlen : (t.1 :: ts.map Prod.fst).length = (t :: ts).length := by simp
      have hget : (t.1 :: ts.map Prod.fst).getD (sched step % (t :: ts).length) t.1
          = ((t :: ts).getD (sched step % (t :: ts).length) t).1 := by
        have := List.getD_map (l := t :: ts) (d := t) (n := sched step % (t :: ts).length)
          Prod.fst
        simpa using this
      have her : (t.1 :: ts.map Prod.fst).eraseIdx (sched step % (t :: ts).length)
          = ((t :: ts).eraseIdx (sched step % (t :: ts).length)).map Prod.fst := by
        have := map_eraseIdx_fst (t :: ts) (sched step % (t :: ts).length)
        simpa using this
      simp only [hlen, hget, her]
      generalize (t :: ts).getD (sched step % (t :: ts).length) t = task
      generalize (t :: ts).eraseIdx (sched step % (t :: ts).length) = rest
      by_cases hlt : task.1.1 < task.1.2
      · by_cases hc : task.1.2 - task.1.1 < cutoff
        · simp only [hlt, hc, if_true, quick_sort_task, Option.bind_eq_bind]
          rw [← quick_sort_serial_trace_arr]
          cases quick_sort_serial_trace arr task.1.1 task.1.2 s with
          | none => rfl
          | some r =>
            simp only [Option.map_some', Option.some_bind, List.append_nil]
            exact ih _ _ _ _
        · simp only [hlt, hc, if_true, if_false, quick_sort_task, Option.bind_eq_bind]
          cases partition arr task.1.1 task.1.2 s with
          | none => rfl
          | some res =>
            obtain ⟨a1, p⟩ := res
            simp only [Option.some_bind]
            rw [ih]
            simp
      · simp only [hlt, if_false, quick_sort_task, List.append_nil]
        exact ih _ _ _ _


/-! ## The parallel drivers with the data-sharing of their task constructs -/

/-- One body step of `quick_sort_task` returns on every range inside the vector, on a
vector of the same length. -/
theorem quick_sort_task_returns (cutoff : Int) (arr : List Int) (low high s : Int)
    (h : InRange arr.length (low, high)) :
    ∃ x, quick_sort_task cutoff arr low high s = some x := by
  rcases quick_sort_task_cases cutoff arr low high s h with h1 | ⟨_, a, q, h1, _⟩ <;>
    exact ⟨_, h1⟩

/-- With firstprivate copies in the tasks, the call of `quick_sort_task` returns, and the
vector of the caller is the one that the body of the call alone leaves: the tasks that the
call creates run to their end, each on its own copy, and their work does not reach the
vector of the caller. -/
theorem quickSortTaskFirstprivateFuel_eq_body (cutoff s : Int) :
    ∀ (fuel : Nat) (arr : List Int) (low high : Int),
      InRange arr.length (low, high) → (high - low).toNat + 1 ≤ fuel →
      quickSortTaskFirstprivateFuel cutoff fuel arr low high s
        = (quick_sort_task cutoff arr low high s).map Prod.fst := by
  intro fuel
  induction fuel with
  | zero => intro arr low high _ hf; omega
  | succ fuel ih =>
    intro arr low high hin hf
    by_cases hlt : low < high
    · by_cases hc : high - low < cutoff
      · cases hq : quick_sort_serial arr low high s <;>
          simp [quickSortTaskFirstprivateFuel, quick_sort_task, hlt, hc, hq]
      · obtain ⟨h0, h1⟩ := hin hlt
        obtain ⟨arr1, p, hpart, hlen, hp1, hp2, -⟩ :=
          partition_then_sortRange arr low high s hlt h0 h1
        have i1 : InRange arr1.length (low, p - 1) := by
          intro h; simp only at h ⊢; omega
        have i2 : InRange arr1.length (p + 1, high) := by
          intro h; simp only at h ⊢; omega
        have c1 := ih arr1 low (p - 1) i1 (by omega)
        have c2 := ih arr1 (p + 1) high i2 (by omega)
        obtain ⟨x1, hx1⟩ := quick_sort_task_returns cutoff arr1 low (p - 1) s i1
        obtain ⟨x2, hx2⟩ := quick_sort_task_returns cutoff arr1 (p + 1) high s i2
        rw [hx1] at c1
        rw [hx2] at c2
        simp [quickSortTaskFirstprivateFuel, quick_sort_task, hlt, hc, hpart, c1, c2]
    · simp [quickSortTaskFirstprivateFuel, quick_sort_task, hlt]

/-- The call with firstprivate copies, in terms of one body step. -/
theorem quick_sort_task_firstprivate_eq_body (cutoff : Int) (arr : List Int)
    (low high s : Int) (h : InRange arr.length (low, high)) :
    quick_sort_task_firstprivate cutoff arr low high s
      = (quick_sort_task cutoff arr low high s).map Prod.fst :=
  quickSortTaskFirstprivateFuel_eq_body cutoff s _ arr low high h (le_refl _)

/-- On a range of more than `cutoff` elements, the call with firstprivate copies leaves in
the vector of the caller exactly what its one call of `partition` leaves. -/
theorem quick_sort_task_firstprivate_delegate (cutoff : Int) (arr : List Int)
    (low high s : Int) (h0 : 0 ≤ low) (hlt : low < high) (h1 : high < arr.length)
    (hc : cutoff ≤ high - low) :
    quick_sort_task_firstprivate cutoff arr low high s
      = (partition arr low high s).map Prod.fst ∧
    ∃ x, partition arr low high s = some x := by
  have hin : InRange arr.length (low, high) := fun _ => ⟨h0, h1⟩
  obtain ⟨arr1, p, hpart, -⟩ := partition_then_sortRange arr low high s hlt h0 h1
  refine ⟨?_, _, hpart⟩
  rw [quick_sort_task_firstprivate_eq_body cutoff arr low high s hin]
  simp [quick_sort_task, hlt, not_lt.mpr hc, hpart]

/-- Below the cutoff the call with firstprivate copies is the sequential sort. -/
theorem quick_sort_task_firstprivate_direct (cutoff : Int) (arr : List Int)
    (low high s : Int) (hlt : low < high) (hc : high - low < cutoff) :
    quick_sort_task_firstprivate cutoff arr low high s = quick_sort_serial arr low high s := by
  simp [quick_sort_task_firstprivate, quickSortTaskFirstprivateFuel, hlt, hc]

/-- With firstprivate copies in the tasks, the call of `parallelMergeSort` returns on every
range inside the vector, on a vector of the same length; on a range of more than `cutoff`
elements the vector of the caller is the one that `merge` makes of its two halves as they
were at the call. -/
theorem parallelMergeSortFirstprivateFuel_returns (cutoff : Int) :
    ∀ (fuel : Nat) (arr : List Int) (l r : Int),
      InRange arr.length (l, r) → (r - l).toNat + 1 ≤ fuel →
      ∃ arr1, parallelMergeSortFirstprivateFuel cutoff fuel arr l r = some arr1 ∧
        (l < r → cutoff ≤ r - l → merge arr l (l + (r - l).tdiv 2) r = some arr1) := by
  intro fuel
  induction fuel with
  | zero => intro arr l r _ hf; omega
  | succ fuel ih =>
    intro arr l r hin hf
    by_cases hlt : l < r
    · by_cases hc : r - l < cutoff
      · refine ⟨sortRange arr (l, r), ?_, fun _ h => absurd hc (not_lt.mpr h)⟩
        simp [parallelMergeSortFirstprivateFuel, not_le.mpr hlt, hc,
          serialMergeSort_eq_sortRange arr l r hin]
      · obtain ⟨h0, h1⟩ := hin hlt
        have hm : (r - l).tdiv 2 = (r - l) / 2 := Int.tdiv_eq_ediv (by omega) (by omega)
        obtain ⟨x1, hx1, -⟩ := ih arr l (l + (r - l).tdiv 2)
          (by intro h; simp only at h ⊢; omega) (by omega)
        obtain ⟨x2, hx2, -⟩ := ih arr (l + (r - l).tdiv 2 + 1) r
          (by intro h; simp only at h ⊢; omega) (by omega)
        obtain ⟨S1, hS1, -⟩ := merge_ranges arr l (l + (r - l).tdiv 2) r h0 (by omega)
          (by omega) h1
        refine ⟨S1, ?_, fun _ _ => hS1⟩
        simp [parallelMergeSortFirstprivateFuel, not_le.mpr hlt, hc, hx1, hx2, hS1]
    · exact ⟨arr, by simp [parallelMergeSortFirstprivateFuel, not_lt.mp hlt],
        fun h => absurd h hlt⟩

/-- On a range of more than `cutoff` elements, the call with firstprivate copies leaves in
the vector of the caller exactly what `merge` makes of the two halves as they were at the
call. -/
theorem parallelMergeSort_firstprivate_delegate (cutoff : Int) (arr : List Int) (l r : Int)
    (h0 : 0 ≤ l) (hlt : l < r) (h1 : r < arr.length) (hc : cutoff ≤ r - l) :
    parallelMergeSort_firstprivate cutoff arr l r = merge arr l (l + (r - l).tdiv 2) r ∧
    ∃ arr1, merge arr l (l + (r - l).tdiv 2) r = some arr1 := by
  obtain ⟨arr1, hrun, hm⟩ := parallelMergeSortFirstprivateFuel_returns cutoff
    ((r - l).toNat + 1) arr l r (fun _ => ⟨h0, h1⟩) (le_refl _)
  have := hm hlt hc
  exact ⟨by rw [parallelMergeSort_firstprivate, hrun, this], _, this⟩

/-- Below the cutoff the call with firstprivate copies is the sequential sort. -/
theorem parallelMergeSort_firstprivate_direct (cutoff : Int) (arr : List Int) (l r : Int)
    (hlt : l < r) (hc : r - l < cutoff) :
    parallelMergeSort_firstprivate cutoff arr l r = serialMergeSort arr l r := by
  simp [parallelMergeSort_firstprivate, parallelMergeSortFirstprivateFuel, not_le.mpr hlt, hc]


/-! ## The vector `N, N-1, ..., 1` -/

theorem ascending_eq_consecutive (N : Nat) : ascending N = consecutive 1 N := by
  simp [ascending, consecutive, add_comm]

theorem consecutive_length (k : Int) (n : Nat) : (consecutive k n).length = n := by
  simp [consecutive]

theorem consecutive_strict (k : Int) (n : Nat) : StrictAsc (consecutive k n) := by
  unfold StrictAsc consecutive
  rw [List.pairwise_map]
  exact (List.pairwise_lt_range n).imp (by intro a b h; omega)

theorem strictDesc_reverse (M : List Int) (h : StrictAsc M) : StrictDesc M.reverse :=
  List.pairwise_reverse.mpr h

/-- The ends of the vector `N + 2, ..., 2, 1`. -/
theorem reverse_ascending_ends (N : Nat) :
    (ascending (N + 2)).reverse = ((N : Int) + 2) :: ((consecutive 2 N).reverse ++ [1]) := by
  have e : consecutive 2 (N + 1) = consecutive 2 N ++ [(N : Int) + 2] := by
    rw [← consecutive_append N 2 1, consecutive_succ, consecutive_zero, add_comm (2 : Int)]
  rw [ascending_eq_consecutive, show N + 2 = (N + 1) + 1 from rfl, consecutive_succ]
  norm_num
  rw [e]
  simp

/-- The two halves of the vector `a + b, ..., 2, 1`. -/
theorem reverse_ascending_halves (a b : Nat) :
    (ascending (a + b)).reverse
      = (consecutive ((a : Int) + 1) b).reverse ++ (consecutive 1 a).reverse := by
  rw [ascending_eq_consecutive, ← consecutive_append a 1 b, List.reverse_append,
    add_comm (1 : Int)]

/-- A strictly decreasing run of at least two elements inside a vector: the vector is not
in non-decreasing order. -/
theorem not_nonDecreasing_of_desc (A D C : List Int) (hD : StrictDesc D)
    (h2 : 2 ≤ D.length) : ¬ NonDecreasing (A ++ (D ++ C)) := by
  intro h
  have hs : NonDecreasing D :=
    List.Pairwise.sublist ((List.sublist_append_left D C).trans
      (List.sublist_append_right A (D ++ C))) h
  match D, hD, h2, hs with
  | x :: y :: rest, hD, _, hs =>
    have h1 : x > y := (List.pairwise_cons.mp hD).1 y (by simp)
    have h3 : x ≤ y := (List.pairwise_cons.mp hs).1 y (by simp)
    omega

/-- Strategy `last` on a whole vector in strictly decreasing order: the pivot is the
smallest element, the scan moves nothing, and the last swap exchanges the two ends. -/
theorem partition_last_strictDesc (a z : Int) (Mid : List Int) (s : Int) (hs0 : s ≠ 0)
    (hs1 : s ≠ 1) (hd : StrictDesc (a :: (Mid ++ [z]))) :
    partition (a :: (Mid ++ [z])) 0 ((Mid.length : Int) + 1) s
      = some (z :: (Mid ++ [a]), 0) := by
  have hall : ∀ x ∈ a :: Mid, z < x := by
    intro x hx
    have hd2 : StrictDesc ((a :: Mid) ++ [z]) := by simpa using hd
    exact (List.pairwise_append.mp hd2).2.2 x hx z (by simp)
  have h := partition_last [] [] [] (a :: Mid) z 0 ((Mid.length : Int) + 1) s hs0 hs1
    (by simp) (by simp) (by simp) hall
  simpa [rotl] using h

/-- When every element of the right half is smaller than every element of the left half,
the merge writes the right half first and then the left half. -/
theorem merge_right_first (Lm : List Int) :
    ∀ Rm : List Int, (∀ x ∈ Lm, ∀ y ∈ Rm, y < x) →
      List.merge Lm Rm (fun a b => decide (a ≤ b)) = Rm ++ Lm := by
  intro Rm
  induction Rm with
  | nil => intro _; simp
  | cons y R ih =>
    intro h
    cases Lm with
    | nil => simp
    | cons x L =>
      have hxy : y < x := h x (by simp) y (by simp)
      rw [List.cons_merge_cons_neg _ _ _ (by simpa using hxy),
        ih (fun u hu v hv => h u hu v (by simp [hv]))]
      simp


/-! ## What the parallel drivers leave in the vector of the caller -/

/-- The call of `partition` at the root of the parallel quicksort on `1001, 1000, ..., 1`
with strategy `last`: the two ends are exchanged. -/
theorem partition_last_reverse_ascending :
    (ascending 1001).reverse = 1001 :: ((consecutive 2 999).reverse ++ [1]) ∧
    partition (ascending 1001).reverse 0 1000 2
      = some (1 :: ((consecutive 2 999).reverse ++ [1001]), 0) ∧
    ¬ NonDecreasing (1 :: ((consecutive 2 999).reverse ++ [1001])) := by
  have e : (ascending 1001).reverse = 1001 :: ((consecutive 2 999).reverse ++ [1]) := by
    exact reverse_ascending_ends 999
  have hd : StrictDesc (1001 :: ((consecutive 2 999).reverse ++ [1])) := by
    rw [← e]
    exact strictDesc_reverse _ (ascending_strict 1001)
  have hp := partition_last_strictDesc 1001 1 (consecutive 2 999).reverse 2 (by decide)
    (by decide) hd
  rw [List.length_reverse, consecutive_length] at hp
  refine ⟨e, by rw [e]; exact hp, ?_⟩
  have h := not_nonDecreasing_of_desc [1] (consecutive 2 999).reverse [1001]
    (strictDesc_reverse _ (consecutive_strict 2 999))
    (by rw [List.length_reverse, consecutive_length]; omega)
  rw [List.singleton_append] at h
  exact h

/-- C3 fails of the code: above the cutoff `quick_sort_parallel` does not leave the vector
sorted. In the two task constructs of `quick_sort_task` the vector `arr` is firstprivate,
so the tasks sort copies and the vector of the caller receives only the `partition` of the
root call. On the vector `1001, 1000, ..., 2, 1` (`n = 1001 > CUTOFF`) with strategy `last`
the wrapper returns `1, 1000, 999, ..., 2, 1001`: the two ends exchanged, the 999 elements
between them still in decreasing order. That vector is not in non-decreasing order and is
not the sorted vector `1, 2, ..., 1001`. -/
theorem quick_sort_parallel_firstprivate_unsorted :
    (ascending 1001).reverse = 1001 :: ((consecutive 2 999).reverse ++ [1]) ∧
    ((1001 : Int) - 1) - 0 ≥ CUTOFF ∧
    quick_sort_parallel_firstprivate CUTOFF (ascending 1001).reverse 1001 2
      = some (1 :: ((consecutive 2 999).reverse ++ [1001])) ∧
    (consecutive 2 999).reverse = 1000 :: 999 :: (consecutive 2 997).reverse ∧
    ¬ NonDecreasing (1 :: ((consecutive 2 999).reverse ++ [1001])) ∧
    sorted (ascending 1001).reverse = ascending 1001 ∧
    1 :: ((consecutive 2 999).reverse ++ [1001]) ≠ sorted (ascending 1001).reverse := by
  obtain ⟨e, hp, hn⟩ := partition_last_reverse_ascending
  have hlen : ((ascending 1001).reverse).length = 1001 := by
    rw [List.length_reverse, ascending_length]
  have hrun := (quick_sort_task_firstprivate_delegate CUTOFF (ascending 1001).reverse 0 1000 2
    (by decide) (by decide) (by rw [hlen]; decide) (by decide)).1
  rw [hp] at hrun
  have e2 : (consecutive 2 999).reverse = 1000 :: 999 :: (consecutive 2 997).reverse := by
    have c : consecutive (2 + (997 : Nat)) 2 = [999, 1000] := by decide
    rw [← consecutive_append 997 2 2, c]
    simp
  refine ⟨e, by decide, hrun, e2, hn, sorted_reverse_ascending 1001, ?_⟩
  intro h
  rw [h] at hn
  exact hn (sorted_nonDecreasing _)

/-- C4 fails of the code: above the cutoff the parallel driver does not produce the vector
that `quick_sort_serial` produces. In the two task constructs of `quick_sort_task` the
vector `arr` is firstprivate, so the vector of the caller receives only the `partition` of
the call. On `1001, 1000, ..., 1`, range `[0, 1000]`, strategy `last` and the cutoff
`CUTOFF = 1000` of quick.cpp, the driver leaves `1, 1000, 999, ..., 2, 1001` and
`quick_sort_serial` leaves `1, 2, ..., 1001`. With the cutoff as a parameter the same is
seen on four elements: with cutoff `0` the driver takes `4, 3, 2, 1` to `1, 3, 2, 4`. Below
the cutoff the driver is `quick_sort_serial`. -/
theorem quick_sort_task_firstprivate_ne_serial :
    quick_sort_task_firstprivate CUTOFF (ascending 1001).reverse 0 1000 2
      = some (1 :: ((consecutive 2 999).reverse ++ [1001])) ∧
    quick_sort_serial (ascending 1001).reverse 0 1000 2 = some (ascending 1001) ∧
    quick_sort_task_firstprivate CUTOFF (ascending 1001).reverse 0 1000 2
      ≠ quick_sort_serial (ascending 1001).reverse 0 1000 2 ∧
    quick_sort_task_firstprivate 0 [4, 3, 2, 1] 0 3 2 = some [1, 3, 2, 4] ∧
    quick_sort_serial [4, 3, 2, 1] 0 3 2 = some [1, 2, 3, 4] := by
  obtain ⟨e, hp, hn⟩ := partition_last_reverse_ascending
  have hlen : ((ascending 1001).reverse).length = 1001 := by
    rw [List.length_reverse, ascending_length]
  have hrun := (quick_sort_task_firstprivate_delegate CUTOFF (ascending 1001).reverse 0 1000 2
    (by decide) (by decide) (by rw [hlen]; decide) (by decide)).1
  rw [hp] at hrun
  have hrun : quick_sort_task_firstprivate CUTOFF (ascending 1001).reverse 0 1000 2
      = some (1 :: ((consecutive 2 999).reverse ++ [1001])) := hrun
  have hser : quick_sort_serial (ascending 1001).reverse 0 1000 2 = some (ascending 1001) := by
    have := (whole_vector_sorts (ascending 1001).reverse 2).1
    rw [hlen, sorted_reverse_ascending] at this
    exact this
  refine ⟨hrun, hser, ?_, by decide, by decide⟩
  rw [hrun, hser]
  intro h
  rw [Option.some.injEq] at h
  rw [h] at hn
  exact hn (strictAsc_nonDecreasing _ (ascending_strict 1001))

/-- C5 fails of the code: above the cutoff `parallelMergeSort` does not produce the vector
that `serialMergeSort` produces. In the two task constructs of `parallelMergeSort` the
vector `arr` is firstprivate, so the two halves are sorted in copies and `merge` runs on
the halves as they were at the call. On `1001, 1000, ..., 1`, range `[0, 1000]` and the
cutoff `1000` of merge.cpp, the midpoint is `500`, the halves are `1001, ..., 501` and
`500, ..., 1`, and the call leaves `500, ..., 1, 1001, ..., 501`, where `serialMergeSort`
leaves `1, 2, ..., 1001`. With the cutoff as a parameter the same is seen on four
elements: with cutoff `2` the call takes `4, 3, 2, 1` to `2, 1, 4, 3`. Below the cutoff the
driver is `serialMergeSort`. -/
theorem parallelMergeSort_firstprivate_ne_serial :
    (ascending 1001).reverse = (consecutive 501 501).reverse ++ (consecutive 1 500).reverse ∧
    (0 : Int) + ((1000 : Int) - 0).tdiv 2 = 500 ∧
    merge (ascending 1001).reverse 0 500 1000
      = some ((consecutive 1 500).reverse ++ (consecutive 501 501).reverse) ∧
    parallelMergeSort_firstprivate 1000 (ascending 1001).reverse 0 1000
      = some ((consecutive 1 500).reverse ++ (consecutive 501 501).reverse) ∧
    serialMergeSort (ascending 1001).reverse 0 1000 = some (ascending 1001) ∧
    ¬ NonDecreasing ((consecutive 1 500).reverse ++ (consecutive 501 501).reverse) ∧
    parallelMergeSort_firstprivate 1000 (ascending 1001).reverse 0 1000
      ≠ serialMergeSort (ascending 1001).reverse 0 1000 ∧
    parallelMergeSort_firstprivate 2 [4, 3, 2, 1] 0 3 = some [2, 1, 4, 3] ∧
    serialMergeSort [4, 3, 2, 1] 0 3 = some [1, 2, 3, 4] := by
  have e : (ascending 1001).reverse
      = (consecutive 501 501).reverse ++ (consecutive 1 500).reverse := by
    exact reverse_ascending_halves 500 501
  have hlen : ((ascending 1001).reverse).length = 1001 := by
    rw [List.length_reverse, ascending_length]
  have hmid : (0 : Int) + ((1000 : Int) - 0).tdiv 2 = 500 := by decide
  have hlt : ∀ x ∈ (consecutive 501 501).reverse, ∀ y ∈ (consecutive 1 500).reverse,
      y < x := by
    intro x hx y hy
    rw [List.mem_reverse, mem_consecutive] at hx hy
    omega
  have hm : merge (ascending 1001).reverse 0 500 1000
      = some ((consecutive 1 500).reverse ++ (consecutive 501 501).reverse) := by
    have := merge_segments [] (consecutive 501 501).reverse (consecutive 1 500).reverse []
      0 500 1000 (by simp)
      (by rw [List.length_reverse, consecutive_length]; simp)
      (by rw [List.length_reverse, consecutive_length, List.length_reverse,
            consecutive_length]; simp)
    rw [merge_right_first _ _ hlt] at this
    rw [e]
    simpa using this
  have hrun := (parallelMergeSort_firstprivate_delegate 1000 (ascending 1001).reverse 0 1000
    (by decide) (by decide) (by rw [hlen]; decide) (by decide)).1
  rw [hmid, hm] at hrun
  have hser : serialMergeSort (ascending 1001).reverse 0 1000 = some (ascending 1001) := by
    have := (whole_vector_sorts (ascending 1001).reverse 0).2
    rw [hlen, sorted_reverse_ascending] at this
    exact this
  have hn : ¬ NonDecreasing ((consecutive 1 500).reverse ++ (consecutive 501 501).reverse) := by
    have := not_nonDecreasing_of_desc [] (consecutive 1 500).reverse
      (consecutive 501 501).reverse (strictDesc_reverse _ (consecutive_strict 1 500))
      (by rw [List.length_reverse, consecutive_length]; omega)
    simpa using this
  refine ⟨e, hmid, hm, hrun, hser, hn, ?_, by decide, by decide⟩
  rw [hrun, hser]
  intro h
  rw [Option.some.injEq] at h
  rw [h] at hn
  exact hn (strictAsc_nonDecreasing _ (ascending_strict 1001))


/-! ## Where the two embeddings of the parallel drivers leave the same vector -/

/-- When the root call takes the direct path, or the vector has at most one element, the
wrapper leaves the sorted vector with firstprivate copies in the tasks as it does with a
shared vector: no task is created. -/
theorem quick_sort_parallel_firstprivate_direct (cutoff s : Int) (sched : Nat → Nat)
    (S : List Int) (h : (S.length : Int) - 1 < cutoff ∨ S.length ≤ 1) :
    quick_sort_parallel_firstprivate cutoff S S.length s = some (sorted S) ∧
    quick_sort_parallel cutoff sched S S.length s = some (sorted S) := by
  refine ⟨?_, quick_sort_parallel_eq_sorted cutoff s sched S⟩
  by_cases hlt : (0 : Int) < (S.length : Int) - 1
  · rcases h with h | h
    · rw [quick_sort_parallel_firstprivate,
        quick_sort_task_firstprivate_direct cutoff S 0 _ s hlt (by omega)]
      exact (whole_vector_sorts S s).1
    · omega
  · rw [sorted_short S (by omega)]
    simp [quick_sort_parallel_firstprivate, quick_sort_task_firstprivate,
      quickSortTaskFirstprivateFuel, hlt]

/-- On a vector in non-decreasing order that the call of `partition` on the whole range
leaves as it is, the wrapper leaves the vector as it is, with firstprivate copies in the
tasks as with a shared vector. -/
theorem quick_sort_parallel_firstprivate_fixed (cutoff s : Int) (sched : Nat → Nat)
    (S : List Int) (p : Int) (hS : NonDecreasing S)
    (hp : partition S 0 ((S.length : Int) - 1) s = some (S, p)) :
    quick_sort_parallel_firstprivate cutoff S S.length s = some S ∧
    quick_sort_parallel cutoff sched S S.length s = some S := by
  constructor
  · rw [quick_sort_parallel_firstprivate, quick_sort_task_firstprivate_eq_body cutoff S 0 _ s
      (by intro h; simp only at h ⊢; omega)]
    by_cases hlt : (0 : Int) < (S.length : Int) - 1
    · by_cases hc : (S.length : Int) - 1 < cutoff
      · simp [quick_sort_task, hlt, hc, (whole_vector_sorts S s).1,
          sorted_of_nonDecreasing S hS]
      · simp [quick_sort_task, hlt, hc, hp]
    · simp [quick_sort_task, hlt]
  · rw [quick_sort_parallel_eq_sorted, sorted_of_nonDecreasing S hS]

/-- The ascending sequence with the strategies `middle` and `first`: the wrapper returns the
sequence as it is, with firstprivate copies in the tasks as with a shared vector, whatever
the cutoff. -/
theorem quick_sort_parallel_firstprivate_ascending (cutoff s : Int) (sched : Nat → Nat)
    (N : Nat) (hs : s = 0 ∨ s = 1) :
    quick_sort_parallel_firstprivate cutoff (ascending N) (ascending N).length s
      = some (ascending N) ∧
    quick_sort_parallel cutoff sched (ascending N) (ascending N).length s
      = some (ascending N) := by
  have hS := strictAsc_nonDecreasing _ (ascending_strict N)
  by_cases hlt : 2 ≤ N
  · have hp : ∃ p, partition (ascending N) 0 (((ascending N).length : Int) - 1) s
        = some (ascending N, p) := by
      rcases hs with hs | hs
      · subst hs
        exact ascending_fix_middle N 0 _ (le_refl _) (by rw [ascending_length]; omega)
          (by omega)
      · subst hs
        exact ascending_fix_first N 0 _ (le_refl _) (by rw [ascending_length]; omega)
          (by omega)
    obtain ⟨p, hp⟩ := hp
    exact quick_sort_parallel_firstprivate_fixed cutoff s sched _ p hS hp
  · have h := quick_sort_parallel_firstprivate_direct cutoff s sched (ascending N)
      (Or.inr (by rw [ascending_length]; omega))
    rw [sorted_of_nonDecreasing _ hS] at h
    exact h

/-- When the call takes the direct path, or the range has at most one element,
`parallelMergeSort` leaves the same vector with firstprivate copies in the tasks as it does
with a shared vector: no task is created. -/
theorem parallelMergeSort_firstprivate_eq_shared (cutoff : Int) (sched : Nat → Nat)
    (S : List Int) (l r : Int) (hrange : InRange S.length (l, r))
    (h : r - l < cutoff ∨ r ≤ l) :
    parallelMergeSort_firstprivate cutoff S l r = parallelMergeSort cutoff sched S l r := by
  rw [parallelMergeSort_eq_sortRange cutoff sched S l r hrange]
  by_cases hlt : l < r
  · rcases h with h | h
    · rw [parallelMergeSort_firstprivate_direct cutoff S l r hlt h]
      exact serialMergeSort_eq_sortRange S l r hrange
    · omega
  · have h1 : sortRange S (l, r) = S := by
      unfold sortRange
      rw [if_neg]
      simp only; omega
    rw [h1]
    simp [parallelMergeSort_firstprivate, parallelMergeSortFirstprivateFuel, not_lt.mp hlt]

/-- When no element of the left half is greater than an element of the right half, the
merge writes the left half first and then the right half. -/
theorem merge_left_first (Lm : List Int) :
    ∀ Rm : List Int, (∀ x ∈ Lm, ∀ y ∈ Rm, x ≤ y) →
      List.merge Lm Rm (fun a b => decide (a ≤ b)) = Lm ++ Rm := by
  induction Lm with
  | nil => intro Rm _; simp
  | cons x L ih =>
    intro Rm h
    cases Rm with
    | nil => simp
    | cons y R =>
      have hxy : x ≤ y := h x (by simp) y (by simp)
      rw [List.cons_merge_cons_pos _ _ _ (by simpa using hxy),
        ih (y :: R) (fun u hu v hv => h u (by simp [hu]) v hv)]
      simp

/-- On a vector in non-decreasing order `parallelMergeSort` leaves the vector as it is, with
firstprivate copies in the tasks as with a shared vector, whatever the cutoff. -/
theorem parallelMergeSort_firstprivate_fixed (cutoff : Int) (sched : Nat → Nat)
    (S : List Int) (hS : NonDecreasing S) :
    parallelMergeSort_firstprivate cutoff S 0 ((S.length : Int) - 1) = some S ∧
    parallelMergeSort cutoff sched S 0 ((S.length : Int) - 1) = some S := by
  have hin : InRange S.length (0, (S.length : Int) - 1) := by
    intro h; simp only at h ⊢; omega
  have hsh : parallelMergeSort cutoff sched S 0 ((S.length : Int) - 1) = some S := by
    rw [parallelMergeSort_eq_sortRange cutoff sched S _ _ hin]
    have := sortRange_segments [] S [] 0 ((S.length : Int) - 1) (by simp) (by simp)
    simp only [List.nil_append, List.append_nil] at this
    rw [this, sorted_of_nonDecreasing S hS]
  refine ⟨?_, hsh⟩
  by_cases hd : (0 : Int) < (S.length : Int) - 1 ∧ cutoff ≤ (S.length : Int) - 1 - 0
  · obtain ⟨hlt, hc⟩ := hd
    rw [(parallelMergeSort_firstprivate_delegate cutoff S 0 _ (le_refl _) hlt (by omega) hc).1]
    have hd2 : ((S.length : Int) - 1 - 0).tdiv 2 = ((S.length : Int) - 1 - 0) / 2 :=
      Int.tdiv_eq_ediv (by omega) (by omega)
    obtain ⟨A, Lm, C, e1, hA, hL, -⟩ := range_split S 0
      (0 + ((S.length : Int) - 1 - 0).tdiv 2) (le_refl _) (by omega) (by omega)
    have hA0 : A = [] := List.length_eq_zero.mp (by omega)
    subst hA0
    simp only [List.nil_append] at e1
    have hC : (C.length : Int) = (S.length : Int) - Lm.length := by
      have := congrArg List.length e1
      simp only [List.length_append] at this
      omega
    subst e1
    have hall : ∀ x ∈ Lm, ∀ y ∈ C, x ≤ y := (List.pairwise_append.mp hS).2.2
    have := merge_segments [] Lm C [] 0 (0 + (((Lm ++ C).length : Int) - 1 - 0).tdiv 2)
      (((Lm ++ C).length : Int) - 1) (by simp)
      (by simp only [List.length_nil]; omega)
      (by simp only [List.length_nil, List.length_append]; push_cast; omega)
    rw [merge_left_first Lm C hall] at this
    simpa using this
  · rw [parallelMergeSort_firstprivate_eq_shared cutoff sched S _ _ hin
      (by omega), hsh]

end PDC
